import Mathlib

/-!
# Dual-grammar formatter: walkers, conversion driver, skim listener and prose-mode lexer

A shallow embedding of parts of `squalor/experimental/abc` (namespace
`patinon::pvn_parsing` in the C++ source) together with theorems about them: the stepwise
and iterating tree walkers, the alternation loop of `PerformConversion`, the salient skim
listener, the indentation resolution of the prose-mode lexer context, the customized token
factory and the list-marker classification.

Conventions of the embedding.

* A `std::vector` used as a stack (`push_back` / `back` / `pop_back`) is a `List`
  whose head is the back of the vector.
* A pointer to a parse-tree node is the subtree itself; `nullptr` is `none`.
* A listener is the log of the callbacks it has received, oldest first.
* `size_t` and `int` values that the code only counts with are `Nat` / `Int`.
-/

namespace Patinon

/-! ## Genres (`grammys/genres.h`) -/

/-- The enum `ParsingGenre`. -/
inductive ParsingGenre where
  | kNone
  | kSalient
  | kQuarrel
  deriving DecidableEq, Repr

/-- The enum `TextualSubGenre`. -/
inductive TextualSubGenre where
  | kNone
  | kMaster
  | kTextualRight
  | kTextualIndent
  | kTextualLeft
  deriving DecidableEq, Repr

/-- The enum `SvtListType`. -/
inductive SvtListType where
  | kNone
  | kBullet
  | kArabic
  | kLowerAlpha
  | kUpperAlpha
  | kLowerRoman
  | kUpperRoman
  | kListBreak
  deriving DecidableEq, Repr

/-! ## Tokens and parse trees (the part of the ANTLR interface the code reads) -/

/-- The token types of the generated `PvnLexer` that the code names.  ANTLR numbers the
token types of a lexer distinctly, so they are the constructors of one type; `other`
stands for every token type the code modelled here does not name. -/
inductive PvnTokenType where
  | LINE_JOIN
  | SINGLE_NEWLINE
  | MULTI_NEWLINE
  | WS_CHAIN
  | ITEM_START_FIRST
  | ITEM_START_SUCCEEDING
  | LIST_BREAK_ACTUAL
  | INDENT_CONTINUATION
  | SVT_INDENT
  | SVT_DEDENT
  | ENTER_TEXTUAL
  | LEAVE_TEXTUAL
  | LEAVE_CODE
  | PENDING_ENTER_CODE
  | NEWLINE_ENTER_CODE
  | EOF
  | NONE_TOKEN
  | Q_STMT_NEWLINE
  | Q_WS
  | Q_IMPUTED_WHITESPACE
  | OPEN_STMT
  | CLOSE_STMT
  | CONTRACT_UNARY
  | other (n : Nat)
  deriving DecidableEq, Repr

/-- What the code reads of an `antlr4::Token`: `getType()`, `getText()`,
`getTokenIndex()`. -/
structure Token where
  type : PvnTokenType
  text : List Char
  tokenIndex : Nat
  deriving DecidableEq, Repr

/-- An `antlr4::tree::ParseTree`.  A rule node (`ParserRuleContext`) carries its
rule index, the value `getSourceInterval().a` as the unsigned comparison in
`PreDepartureStep` sees it, and its `children`.  A terminal node and an error node
(a terminal node too, in ANTLR) carry their symbol and have no children. -/
inductive ParseTree where
  | rule (ruleIndex : Nat) (start : Nat) (children : List ParseTree)
  | terminal (symbol : Token)
  | errorNode (symbol : Token)

/-- The member `node->children`, returned by `GetChildren`. -/
def GetChildren : ParseTree → List ParseTree
  | .rule _ _ cs => cs
  | .terminal _ => []
  | .errorNode _ => []

/-- The test `antlrcpp::is<TerminalNode*>(node)`: true for terminals and error nodes. -/
def isTerminalNode : ParseTree → Bool
  | .rule _ _ _ => false
  | .terminal _ => true
  | .errorNode _ => true

/-- The test `antlrcpp::is<ErrorNode*>(node)`. -/
def isErrorNode : ParseTree → Bool
  | .errorNode _ => true
  | _ => false

/-- The value `node->getSourceInterval().a`: the start token index of a rule node,
the token index of a terminal. -/
def getSourceIntervalA : ParseTree → Nat
  | .rule _ s _ => s
  | .terminal t => t.tokenIndex
  | .errorNode t => t.tokenIndex

/-- One call on the `ParseTreeListener`, with the node it is given. -/
inductive Callback where
  | enterRule (node : ParseTree)
  | exitRule (node : ParseTree)
  | visitTerminal (node : ParseTree)
  | visitErrorNode (node : ParseTree)

/-! ## `StepwiseParseTreeWalker` (`skim/coarse_listeners.{h,cc}`) -/

/-- The members of `StepwiseParseTreeWalker`. -/
structure StepwiseParseTreeWalker where
  listener_ : List Callback
  current_node_ : Option ParseTree
  node_stack_ : List ParseTree
  index_stack_ : List Nat
  current_index_ : Nat
  in_outer_walk_ : Bool

/-- The constructor `StepwiseParseTreeWalker(listener, t)`, with a fresh listener. -/
def StepwiseParseTreeWalker.init (t : Option ParseTree) : StepwiseParseTreeWalker :=
  { listener_ := [], current_node_ := t, node_stack_ := [], index_stack_ := [],
    current_index_ := 0, in_outer_walk_ := true }

/-- The pre-order visit of `WalkStep`: `visitErrorNode`, `visitTerminal` or `enterRule`. -/
def preOrderVisit (node : ParseTree) : Callback :=
  if isErrorNode node then .visitErrorNode node
  else if isTerminalNode node then .visitTerminal node
  else .enterRule node

/-- The method `StepwiseParseTreeWalker::WalkStep`: the returned flag and the walker
after the call.  `index_stack_.back()` on an empty vector (which the code never does:
both stacks are pushed and popped together) reads as 0. -/
def StepwiseParseTreeWalker.WalkStep (w : StepwiseParseTreeWalker) :
    Bool × StepwiseParseTreeWalker :=
  match w.current_node_ with
  | none => (false, w)
  | some node =>
    if w.in_outer_walk_ then
      let w1 := { w with in_outer_walk_ := false,
                         listener_ := w.listener_ ++ [preOrderVisit node] }
      match GetChildren node with
      | [] => (true, w1)
      | c0 :: _ =>
        (true, { w1 with node_stack_ := node :: w1.node_stack_,
                         index_stack_ := w1.current_index_ :: w1.index_stack_,
                         current_index_ := 0,
                         current_node_ := some c0,
                         in_outer_walk_ := true })
    else
      let w1 := if !isTerminalNode node
                then { w with listener_ := w.listener_ ++ [Callback.exitRule node] }
                else w
      match w1.node_stack_ with
      | [] => (false, { w1 with current_node_ := none, current_index_ := 0,
                                in_outer_walk_ := true })
      | parent :: rest =>
        let w2 := { w1 with current_index_ := w1.current_index_ + 1 }
        if (GetChildren parent).length > w2.current_index_ then
          (true, { w2 with current_node_ := (GetChildren parent)[w2.current_index_]?,
                           in_outer_walk_ := true })
        else
          let w3 := { w2 with current_node_ := some parent,
                              node_stack_ := rest,
                              current_index_ := w2.index_stack_.headD 0,
                              index_stack_ := w2.index_stack_.tail }
          (w3.current_node_.isSome, w3)

/-- The method `StepwiseParseTreeWalker::Walk`, `while (WalkStep()) {}`, with a bound
on the number of `WalkStep` calls; `none` when the bound is reached first. -/
def StepwiseParseTreeWalker.Walk : Nat → StepwiseParseTreeWalker →
    Option StepwiseParseTreeWalker
  | 0, _ => none
  | fuel + 1, w =>
    if w.WalkStep.1 then StepwiseParseTreeWalker.Walk fuel w.WalkStep.2
    else some w.WalkStep.2

/-! ### The recursive walk the stepwise walker replaces -/

mutual
/-- The recursive walk in the words of the specification: for a rule node, enter it,
walk its children left to right, then exit it; a terminal is visited once. -/
def recursiveWalk : ParseTree → List Callback
  | .rule r s cs =>
    Callback.enterRule (.rule r s cs) :: (recursiveWalkList cs ++ [Callback.exitRule (.rule r s cs)])
  | .terminal t => [Callback.visitTerminal (.terminal t)]
  | .errorNode t => [Callback.visitErrorNode (.errorNode t)]
/-- The recursive walk of a list of siblings, left to right. -/
def recursiveWalkList : List ParseTree → List Callback
  | [] => []
  | c :: cs => recursiveWalk c ++ recursiveWalkList cs
end


/-! ## `WalkerTransition` and `IteratingWalker` (`skim/summarizing.h`, `skim/coarse_listeners.{h,cc}`) -/

/-- The constant `kInvalidTokenIndex`, `std::numeric_limits<size_t>::max() - 3`. -/
def kInvalidTokenIndex : Nat := 2 ^ 64 - 1 - 3

/-- The struct `WalkerTransition`, with its default member values. -/
structure WalkerTransition where
  token_index : Nat := kInvalidTokenIndex
  destination_genre : ParsingGenre := ParsingGenre.kNone
  destination_subgenre : TextualSubGenre := TextualSubGenre.kNone
  deriving DecidableEq, Repr

/-- A default-constructed `WalkerTransition()`; also what an out-of-range read of a
transition vector yields in this embedding (the code guards every read). -/
def WalkerTransition.blank : WalkerTransition := {}

/-- The members of `IteratingWalker`, a `StepwiseParseTreeWalker` with a genre state, the
transition list and the cursor into it. -/
structure IteratingWalker extends StepwiseParseTreeWalker where
  walker_genre_state_ : WalkerTransition
  walker_transitions_ : List WalkerTransition
  next_transition_index_index_ : Nat

/-- The constructor `IteratingWalker(walker_genre_state, listener, t)`. -/
def IteratingWalker.init (walker_genre_state : WalkerTransition) (t : Option ParseTree) :
    IteratingWalker :=
  { toStepwiseParseTreeWalker := StepwiseParseTreeWalker.init t,
    walker_genre_state_ := walker_genre_state,
    walker_transitions_ := [],
    next_transition_index_index_ := 0 }

/-- The method `IteratingWalker::SetTransitions`. -/
def IteratingWalker.SetTransitions (w : IteratingWalker)
    (walker_transitions : List WalkerTransition) : IteratingWalker :=
  { w with walker_transitions_ := walker_transitions }

/-- The method `IteratingWalker::SetGenreState`. -/
def IteratingWalker.SetGenreState (w : IteratingWalker)
    (walker_genre_state : WalkerTransition) : IteratingWalker :=
  { w with walker_genre_state_ := walker_genre_state }

/-- The guard of `PreDepartureStep`: an unconsumed transition exists and its
`token_index` is below `current_node->getSourceInterval().a`. -/
def IteratingWalker.departureDue (w : IteratingWalker) (current_node : ParseTree) : Bool :=
  decide (w.next_transition_index_index_ < w.walker_transitions_.length) &&
    decide ((w.walker_transitions_.getD w.next_transition_index_index_
      WalkerTransition.blank).token_index < getSourceIntervalA current_node)

/-- The method `IteratingWalker::PreDepartureStep`: the returned genre state and the
walker after the call. -/
def IteratingWalker.PreDepartureStep (w : IteratingWalker) :
    WalkerTransition × IteratingWalker :=
  match w.current_node_ with
  | none =>
    let w1 := { w with walker_genre_state_ :=
                  { w.walker_genre_state_ with destination_genre := ParsingGenre.kNone } }
    (w1.walker_genre_state_, w1)
  | some current_node =>
    if w.in_outer_walk_ then
      if w.departureDue current_node then
        let w1 := { w with next_transition_index_index_ := w.next_transition_index_index_ + 1 }
        let w2 := { w1 with walker_genre_state_ :=
                      (w1.walker_transitions_.getD (w1.next_transition_index_index_ - 1)
                        WalkerTransition.blank) }
        (w2.walker_genre_state_, w2)
      else (w.walker_genre_state_, w)
    else (w.walker_genre_state_, w)

/-- The method `IteratingWalker::WalkStep`: one `StepwiseParseTreeWalker::WalkStep`, the
destination genre forced to `kNone` when that step returns false. -/
def IteratingWalker.WalkStep (w : IteratingWalker) : WalkerTransition × IteratingWalker :=
  let walk_result := w.toStepwiseParseTreeWalker.WalkStep
  let w1 := { w with toStepwiseParseTreeWalker := walk_result.2 }
  let w2 := if !walk_result.1
            then { w1 with walker_genre_state_ :=
                     { w1.walker_genre_state_ with destination_genre := ParsingGenre.kNone } }
            else w1
  (w2.walker_genre_state_, w2)

/-! ## The alternation loop of `PerformConversion` (`format/reform_listeners.h`)

The handler statements of the loop (`inter_mode_formatting`, `entry_genre_state`,
`OutputLines`) read and write the output handlers only; the loop's control flow and the
two walkers do not depend on them, and they are left out of the state. -/

/-- The variables of the alternation loop. -/
structure ConversionState where
  current_genre_state : WalkerTransition
  quarrel_iterating_walker : IteratingWalker
  salient_iterating_walker : IteratingWalker

/-- The state at the `do`: both walkers constructed with `outer_genre_state`, given
their trees and their transition lists. -/
def ConversionState.init (outer_genre_state : WalkerTransition)
    (quarrel_tree salient_tree : ParseTree)
    (quarrel_to_salient_transitions salient_to_quarrel_transitions : List WalkerTransition) :
    ConversionState :=
  { current_genre_state := outer_genre_state,
    quarrel_iterating_walker :=
      (IteratingWalker.init outer_genre_state (some quarrel_tree)).SetTransitions
        quarrel_to_salient_transitions,
    salient_iterating_walker :=
      (IteratingWalker.init outer_genre_state (some salient_tree)).SetTransitions
        salient_to_quarrel_transitions }

/-- The body of `while (current_genre_state.destination_genre == ParsingGenre::kQuarrel)`. -/
def quarrelWhileBody (s : ConversionState) : ConversionState :=
  let w0 := s.quarrel_iterating_walker.SetGenreState s.current_genre_state
  let p := w0.PreDepartureStep
  let r := if p.1.destination_genre = ParsingGenre.kQuarrel then p.2.WalkStep else p
  { s with current_genre_state := r.1, quarrel_iterating_walker := r.2 }

/-- The body of `while (current_genre_state.destination_genre == ParsingGenre::kSalient)`. -/
def salientWhileBody (s : ConversionState) : ConversionState :=
  let w0 := s.salient_iterating_walker.SetGenreState s.current_genre_state
  let p := w0.PreDepartureStep
  let r := if p.1.destination_genre = ParsingGenre.kSalient then p.2.WalkStep else p
  { s with current_genre_state := r.1, salient_iterating_walker := r.2 }

/-- The first inner `while` loop, at most `fuel` evaluations of its condition; `none`
when the bound is reached. -/
def quarrelWhile : Nat → ConversionState → Option ConversionState
  | 0, _ => none
  | fuel + 1, s =>
    if s.current_genre_state.destination_genre = ParsingGenre.kQuarrel
    then quarrelWhile fuel (quarrelWhileBody s)
    else some s

/-- The second inner `while` loop, at most `fuel` evaluations of its condition. -/
def salientWhile : Nat → ConversionState → Option ConversionState
  | 0, _ => none
  | fuel + 1, s =>
    if s.current_genre_state.destination_genre = ParsingGenre.kSalient
    then salientWhile fuel (salientWhileBody s)
    else some s

/-- The `do { ... } while (destination_genre != kNone)` loop of `PerformConversion`, at
most `fuel` passes, each inner loop bounded by the fuel of its pass. -/
def alternationLoop : Nat → ConversionState → Option ConversionState
  | 0, _ => none
  | fuel + 1, s =>
    match quarrelWhile (fuel + 1) s with
    | none => none
    | some s1 =>
      match salientWhile (fuel + 1) s1 with
      | none => none
      | some s2 =>
        if s2.current_genre_state.destination_genre ≠ ParsingGenre.kNone
        then alternationLoop fuel s2
        else some s2

/-! ## Measures used by the proofs -/

/-- The callbacks of a node's walk up to, and without, its post-order visit. -/
def preEvents : ParseTree → List Callback
  | .rule r s cs => Callback.enterRule (.rule r s cs) :: recursiveWalkList cs
  | .terminal t => [Callback.visitTerminal (.terminal t)]
  | .errorNode t => [Callback.visitErrorNode (.errorNode t)]

/-- The post-order visit of `WalkStep`: `exitRule` for a rule node, nothing for a terminal. -/
def postEvents (node : ParseTree) : List Callback :=
  if !isTerminalNode node then [Callback.exitRule node] else []

/-- The callbacks still to come from a walker whose current node awaits its
post-order step, given the frame stacks and the sibling index. -/
def pendingInner : ParseTree → List ParseTree → List Nat → Nat → List Callback
  | node, [], _, _ => postEvents node
  | node, parent :: rest, istack, i =>
    postEvents node ++ (recursiveWalkList ((GetChildren parent).drop (i + 1)) ++
      pendingInner parent rest istack.tail (istack.headD 0))

/-- The callbacks still to come from a walker state. -/
def pendingCallbacks (w : StepwiseParseTreeWalker) : List Callback :=
  match w.current_node_ with
  | none => []
  | some node =>
    if w.in_outer_walk_ then
      preEvents node ++ pendingInner node w.node_stack_ w.index_stack_ w.current_index_
    else pendingInner node w.node_stack_ w.index_stack_ w.current_index_

mutual
/-- The number of `WalkStep` calls from the pre-order step of a node up to, and
without, its post-order step. -/
def preSteps : ParseTree → Nat
  | .rule _ _ cs => 1 + preStepsList cs
  | .terminal _ => 1
  | .errorNode _ => 1
/-- The number of `WalkStep` calls that walk a list of siblings completely. -/
def preStepsList : List ParseTree → Nat
  | [] => 0
  | c :: cs => preSteps c + 1 + preStepsList cs
end

/-- The number of `WalkStep` calls still to come, up to the one returning false, from
a walker whose current node awaits its post-order step. -/
def stepsInner : List ParseTree → List Nat → Nat → Nat
  | [], _, _ => 1
  | parent :: rest, istack, i =>
    1 + preStepsList ((GetChildren parent).drop (i + 1)) +
      stepsInner rest istack.tail (istack.headD 0)

/-- The number of `WalkStep` calls still to come, up to the one returning false. -/
def remainingSteps (w : StepwiseParseTreeWalker) : Nat :=
  match w.current_node_ with
  | none => 0
  | some node =>
    if w.in_outer_walk_ then
      preSteps node + stepsInner w.node_stack_ w.index_stack_ w.current_index_
    else stepsInner w.node_stack_ w.index_stack_ w.current_index_


/-- The walker after `n` calls of `WalkStep`. -/
def StepwiseParseTreeWalker.afterSteps : Nat → StepwiseParseTreeWalker → StepwiseParseTreeWalker
  | 0, w => w
  | n + 1, w => StepwiseParseTreeWalker.afterSteps n w.WalkStep.2

/-- One pass of a walker's `while` body: `SetGenreState`, `PreDepartureStep`, then
`WalkStep` when the destination genre is still the walker's own genre `own`. -/
def IteratingWalker.phaseBody (own : ParsingGenre) (genre : WalkerTransition)
    (w : IteratingWalker) : WalkerTransition × IteratingWalker :=
  let p := (w.SetGenreState genre).PreDepartureStep
  if p.1.destination_genre = own then p.2.WalkStep else p

/-- The walker that the alternation loop steps while the destination genre is `own`:
the quarrel walker for `kQuarrel`, the salient walker otherwise. -/
def ConversionState.walkerOf (s : ConversionState) (own : ParsingGenre) : IteratingWalker :=
  if own = ParsingGenre.kQuarrel then s.quarrel_iterating_walker
  else s.salient_iterating_walker

/-- The body of the inner `while` loop that runs while the destination genre is `own`. -/
def whileBodyOf (own : ParsingGenre) (s : ConversionState) : ConversionState :=
  if own = ParsingGenre.kQuarrel then quarrelWhileBody s else salientWhileBody s

/-- The work a walker still has: unconsumed transitions plus `WalkStep` calls to come. -/
def IteratingWalker.workLeft (w : IteratingWalker) : Nat :=
  (w.walker_transitions_.length - w.next_transition_index_index_) +
    remainingSteps w.toStepwiseParseTreeWalker

/-- The work both walkers of the alternation loop still have. -/
def ConversionState.workLeft (s : ConversionState) : Nat :=
  s.quarrel_iterating_walker.workLeft + s.salient_iterating_walker.workLeft

/-- The invariant of the alternation loop used for its final state: each walker's callbacks,
received and still to come, make up the recursive walk of its tree; no transition has
destination `kNone`; and destination genre `kNone` means one walker is exhausted. -/
def ConversionState.wellFormed (quarrel_tree salient_tree : ParseTree)
    (s : ConversionState) : Prop :=
  s.quarrel_iterating_walker.listener_ ++
      pendingCallbacks s.quarrel_iterating_walker.toStepwiseParseTreeWalker =
    recursiveWalk quarrel_tree ∧
  s.salient_iterating_walker.listener_ ++
      pendingCallbacks s.salient_iterating_walker.toStepwiseParseTreeWalker =
    recursiveWalk salient_tree ∧
  (∀ tr ∈ s.quarrel_iterating_walker.walker_transitions_,
    tr.destination_genre ≠ ParsingGenre.kNone) ∧
  (∀ tr ∈ s.salient_iterating_walker.walker_transitions_,
    tr.destination_genre ≠ ParsingGenre.kNone) ∧
  (s.current_genre_state.destination_genre = ParsingGenre.kNone →
    s.quarrel_iterating_walker.current_node_ = none ∨
    s.salient_iterating_walker.current_node_ = none)

/-! ## `CoarseSkimSalientListener` (`skim/coarse_listeners.{h,cc}`) -/

mutual
/-- Identity of two parse-tree nodes (pointer equality in the code), on subtrees. -/
def ParseTree.beq : ParseTree → ParseTree → Bool
  | .rule r s cs, .rule r' s' cs' => r == r' && s == s' && ParseTree.beqList cs cs'
  | .terminal t, .terminal t' => t == t'
  | .errorNode t, .errorNode t' => t == t'
  | _, _ => false
/-- Identity of two lists of nodes. -/
def ParseTree.beqList : List ParseTree → List ParseTree → Bool
  | [], [] => true
  | c :: cs, c' :: cs' => ParseTree.beq c c' && ParseTree.beqList cs cs'
  | _, _ => false
end

/-- The struct `CoarseProperties`; the `int` members the code leaves uninitialised read
as 0. -/
structure CoarseProperties where
  is_closure : Bool := false
  statement_nest_level : Int := 0
  cumulative_statement_level : Int := 0
  expression_nest_level : Int := 0
  nesting_stack_depth : Int := 0
  sub_genre : TextualSubGenre := TextualSubGenre.kNone
  deriving DecidableEq, Repr

/-- The class `AltParseTreeProperty<V>`: the node-keyed map `annotations_`, newest entry
first. -/
abbrev AltParseTreeProperty (V : Type) := List (ParseTree × V)

/-- The method `AltParseTreeProperty::put`, `annotations_[node] = value`. -/
def AltParseTreeProperty.put {V : Type} (m : AltParseTreeProperty V) (node : ParseTree)
    (value : V) : AltParseTreeProperty V :=
  (node, value) :: m

/-- The method `AltParseTreeProperty::get`; `none` when `PVN_CHECK_NE(count, 0)` aborts. -/
def AltParseTreeProperty.get {V : Type} (m : AltParseTreeProperty V) (node : ParseTree) :
    Option V :=
  (m.find? (fun p => ParseTree.beq p.1 node)).map (fun p => p.2)

/-- The struct `Qualifier`. -/
structure Qualifier where
  left_side : String
  separator : String
  right_side : String
  deriving DecidableEq, Repr

/-- The struct `Heading`, with its default member values; members that the code leaves
uninitialised read as 0 or as no node. -/
structure Heading where
  level : Int := 0
  terminal_node : Option Token := none
  heading_text : String := ""
  line_number : Int := -1
  file_id : String := "Not set"
  heading_number : Int := 0
  anchor_id : String := ""
  qualifiers : List Qualifier := []
  left_side_to_qualifier_index : List (String × Int) := []
  deriving DecidableEq, Repr

/-- The constant `SummarizerResults::kNoDetectedTitle`. -/
def kNoDetectedTitle : Int := -1

/-- The members of `SummarizerResults` that the skim pass writes, and `outer_genre_state`,
which the conversion sets.  The vectors are in index order; the hash map
`heading_indices` is the list of its assignments, newest first. -/
structure SummarizerResults where
  quarrel_to_salient_transitions : List WalkerTransition := []
  salient_to_quarrel_transitions : List WalkerTransition := []
  heading_indices : List ((String × Int) × Int) := []
  heading_vector : List Heading := []
  title_heading_index : Int := kNoDetectedTitle
  outer_genre_state : WalkerTransition := {}

/-- The members of `CoarseSkimSalientListener` that its `enterEveryRule`,
`exitEveryRule`, `visitTerminal` and `ReprocessHeadings` read and write; the deque
`heading_list_` is in document order. -/
structure CoarseSkimSalientListener where
  coarse_properties_ : AltParseTreeProperty CoarseProperties := []
  summarizer_results_ : SummarizerResults := {}
  tokenwise_sub_genre_ : TextualSubGenre := TextualSubGenre.kNone
  primary_nest_level_ : Int := 0
  heading_list_ : List Heading := []

/-- The method `CoarseSkimSalientListener::enterEveryRule`; `RuleListItem` is the rule index
`SvtParser::RuleListItem`. -/
def CoarseSkimSalientListener.enterEveryRule (RuleListItem : Nat)
    (L : CoarseSkimSalientListener) (ctx : ParseTree) (ruleIndex : Nat) :
    CoarseSkimSalientListener :=
  let L1 := if ruleIndex = RuleListItem
            then { L with primary_nest_level_ := L.primary_nest_level_ + 1 } else L
  let cpp_makes_moving_fragile : CoarseProperties :=
    { sub_genre := L1.tokenwise_sub_genre_, statement_nest_level := L1.primary_nest_level_ }
  { L1 with coarse_properties_ := L1.coarse_properties_.put ctx cpp_makes_moving_fragile }

/-- The method `CoarseSkimSalientListener::exitEveryRule`; `none` when the `get` aborts. -/
def CoarseSkimSalientListener.exitEveryRule (RuleListItem : Nat)
    (L : CoarseSkimSalientListener) (ctx : ParseTree) (ruleIndex : Nat) :
    Option CoarseSkimSalientListener :=
  let L1 := if ruleIndex = RuleListItem
            then { L with primary_nest_level_ := L.primary_nest_level_ - 1 } else L
  match L1.coarse_properties_.get ctx with
  | none => none
  | some got =>
    let cpp_makes_moving_fragile : CoarseProperties :=
      { got with sub_genre := L1.tokenwise_sub_genre_,
                 statement_nest_level := L1.primary_nest_level_ }
    some { L1 with coarse_properties_ := L1.coarse_properties_.put ctx cpp_makes_moving_fragile }

/-- The method `CoarseSkimSalientListener::visitTerminal`, on the node `ctx` with symbol
`symbol`. -/
def CoarseSkimSalientListener.visitTerminal (L : CoarseSkimSalientListener)
    (ctx : ParseTree) (symbol : Token) : CoarseSkimSalientListener :=
  let L1 :=
    if symbol.type = PvnTokenType.LEAVE_CODE ∨ symbol.type = PvnTokenType.ENTER_TEXTUAL then
      let sub :=
        if symbol.text = [';', ';', ';'] then TextualSubGenre.kTextualLeft
        else if symbol.text = [';', ';'] then TextualSubGenre.kTextualIndent
        else if symbol.text = [';'] then TextualSubGenre.kTextualRight
        else TextualSubGenre.kMaster
      { L with
        tokenwise_sub_genre_ := sub,
        summarizer_results_ := { L.summarizer_results_ with
          quarrel_to_salient_transitions :=
            L.summarizer_results_.quarrel_to_salient_transitions ++
              [⟨symbol.tokenIndex, ParsingGenre.kSalient, sub⟩] } }
    else L
  let cpp_makes_moving_fragile : CoarseProperties :=
    { sub_genre := L1.tokenwise_sub_genre_, statement_nest_level := L1.primary_nest_level_ }
  let L2 := { L1 with
    coarse_properties_ := L1.coarse_properties_.put ctx cpp_makes_moving_fragile }
  if symbol.type = PvnTokenType.NEWLINE_ENTER_CODE ∨ symbol.type = PvnTokenType.LEAVE_TEXTUAL
  then
    { L2 with
      tokenwise_sub_genre_ := TextualSubGenre.kMaster,
      summarizer_results_ := { L2.summarizer_results_ with
        salient_to_quarrel_transitions :=
          L2.summarizer_results_.salient_to_quarrel_transitions ++
            [⟨symbol.tokenIndex, ParsingGenre.kQuarrel, TextualSubGenre.kMaster⟩] } }
  else L2

/-- One callback of the skim walk delivered to the `CoarseSkimSalientListener`.  An error
node goes to `visitErrorNode`, which the listener does not override.  (`enterHeading`,
which the walk also calls on heading rules, writes only `heading_list_` and the anchor
bookkeeping, which are not part of the state modelled here.) -/
def CoarseSkimSalientListener.deliver (RuleListItem : Nat) (L : CoarseSkimSalientListener) :
    Callback → Option CoarseSkimSalientListener
  | .enterRule (.rule r s cs) => some (L.enterEveryRule RuleListItem (.rule r s cs) r)
  | .exitRule (.rule r s cs) => L.exitEveryRule RuleListItem (.rule r s cs) r
  | .visitTerminal (.terminal symbol) => some (L.visitTerminal (.terminal symbol) symbol)
  | _ => some L

/-- The callbacks of a walk delivered in order; `none` as soon as one aborts. -/
def CoarseSkimSalientListener.deliverAll (RuleListItem : Nat) :
    CoarseSkimSalientListener → List Callback → Option CoarseSkimSalientListener
  | L, [] => some L
  | L, e :: es =>
    match L.deliver RuleListItem e with
    | none => none
    | some L1 => CoarseSkimSalientListener.deliverAll RuleListItem L1 es

/-- The skim pass of `PerformConversion` over the salient tree:
`walker.walk(&salient_summarizer_listener, salient_tree)` with a fresh listener. -/
def salientSkim (RuleListItem : Nat) (salient_tree : ParseTree) :
    Option CoarseSkimSalientListener :=
  CoarseSkimSalientListener.deliverAll RuleListItem {} (recursiveWalk salient_tree)

mutual
/-- The symbols of the terminal nodes (error nodes included) of a tree, in walk order. -/
def terminalTokens : ParseTree → List Token
  | .rule _ _ cs => terminalTokensList cs
  | .terminal t => [t]
  | .errorNode t => [t]
/-- The symbols of the terminal nodes of a list of siblings, in walk order. -/
def terminalTokensList : List ParseTree → List Token
  | [] => []
  | c :: cs => terminalTokens c ++ terminalTokensList cs
end

/-- The listener `L'` continues `L` by a skim of terminals with symbols `toks`: no map
entry is lost, and each transition list has grown by entries whose token indices are, in
order, among the token indices of `toks`. -/
def SkimExtends (toks : List Token) (L L' : CoarseSkimSalientListener) : Prop :=
  (∀ n, (L.coarse_properties_.get n).isSome = true →
    (L'.coarse_properties_.get n).isSome = true) ∧
  (∃ sub : List Nat, sub.Sublist (toks.map (fun t => t.tokenIndex)) ∧
    L'.summarizer_results_.quarrel_to_salient_transitions.map (fun tr => tr.token_index) =
      L.summarizer_results_.quarrel_to_salient_transitions.map (fun tr => tr.token_index)
        ++ sub) ∧
  (∃ sub : List Nat, sub.Sublist (toks.map (fun t => t.tokenIndex)) ∧
    L'.summarizer_results_.salient_to_quarrel_transitions.map (fun tr => tr.token_index) =
      L.summarizer_results_.salient_to_quarrel_transitions.map (fun tr => tr.token_index)
        ++ sub)

/-! ## The prose-mode lexer context (`grammys/pvn_token.{h,cc}`) -/

/-- The function `IsLogicalWhitespace`. -/
def IsLogicalWhitespace : PvnTokenType → Bool
  | .LINE_JOIN => true
  | .SINGLE_NEWLINE => true
  | .MULTI_NEWLINE => true
  | .WS_CHAIN => true
  | _ => false

/-- The function `IsImpliedIndenter`. -/
def IsImpliedIndenter : PvnTokenType → Bool
  | .ITEM_START_FIRST => true
  | .ITEM_START_SUCCEEDING => true
  | .LIST_BREAK_ACTUAL => true
  | _ => false

/-- The function `IsListLikeToken`. -/
def IsListLikeToken : PvnTokenType → Bool
  | .ITEM_START_FIRST => true
  | .ITEM_START_SUCCEEDING => true
  | .LIST_BREAK_ACTUAL => true
  | .INDENT_CONTINUATION => true
  | .SVT_INDENT => true
  | .SVT_DEDENT => true
  | _ => false

/-- The function `IsListTokenChainWithNext`. -/
def IsListTokenChainWithNext : PvnTokenType → Bool
  | .ITEM_START_FIRST => true
  | .ITEM_START_SUCCEEDING => true
  | .INDENT_CONTINUATION => true
  | .SVT_INDENT => true
  | .SVT_DEDENT => true
  | _ => false

/-- The function `TriggersReindentationNow`. -/
def TriggersReindentationNow : PvnTokenType → Bool
  | .MULTI_NEWLINE => true
  | .INDENT_CONTINUATION => true
  | .LEAVE_TEXTUAL => true
  | .PENDING_ENTER_CODE => true
  | .EOF => true
  | _ => false

/-- The function `TriggersSubsequentReindentation`. -/
def TriggersSubsequentReindentation : PvnTokenType → Bool
  | .ENTER_TEXTUAL => true
  | .LEAVE_CODE => true
  | _ => false

/-- The function `ForcesZeroIndent`. -/
def ForcesZeroIndent : PvnTokenType → Bool
  | .LEAVE_TEXTUAL => true
  | .PENDING_ENTER_CODE => true
  | .EOF => true
  | _ => false

/-- The loop of `CalculateIndentation` on the text from `curr_pos` on: skip spaces and
tabs, count the run of `|` that follows, stop when there is none.  Each pass that goes on
shortens the text, so `fuel` = length of the text + 1 is never used up. -/
def CalculateIndentationLoop : Nat → List Char → Nat → Nat
  | 0, _, indentation => indentation
  | fuel + 1, rest, indentation =>
    if rest = [] then indentation
    else
      let fromNewPos := rest.dropWhile (fun c => c = ' ' || c = '\t')
      if fromNewPos = [] then indentation
      else
        let run := (fromNewPos.takeWhile (fun c => c = '|')).length
        if run = 0 then indentation
        else CalculateIndentationLoop fuel (fromNewPos.drop run) (indentation + run)

/-- The function `CalculateIndentation` (texts shorter than 2^31 characters, so that the
`int` positions of the code hold them). -/
def CalculateIndentation (token_text : List Char) (token_type : PvnTokenType) : Int :=
  match token_type with
  | .ITEM_START_FIRST | .ITEM_START_SUCCEEDING | .LIST_BREAK_ACTUAL | .INDENT_CONTINUATION =>
    (CalculateIndentationLoop (token_text.length + 1) token_text 0 : Nat)
  | _ => 0

/-- The members of `SalientModeContext` that `SpecializedNextToken` and `UpdateListNesting`
use.  The vector `nested_list_types` is kept in index order: `push_back` appends and
`resize(n)` keeps the first `n` entries. -/
structure SalientModeContext where
  current_indentation : Int := 0
  reindenting_required : Bool := true
  last_emitted_implied_indenter : Bool := false
  nested_list_types : List SvtListType := []
  nesting_depth_this_line : Int := 0
  deriving DecidableEq, Repr

/-- One result of the base lexer's `nextToken()`, together with the value that the lexer
member `prev_token_type` has when `SpecializedNextToken` checks it for this token. -/
structure RawItem where
  token : Token
  prev_token_type : PvnTokenType
  deriving DecidableEq, Repr

/-- The `do { ... } while (IsLogicalWhitespace(...))` loop of `SpecializedNextToken`: tokens
are pulled from the base lexer (`raw`) and pushed at the back of `pending_tokens` up to the
first one that is not logical whitespace.  `none` when `PVN_CHECK_EQ` aborts, or when the
stream ends on whitespace, which a base lexer never does (it ends on `EOF`). -/
def SalientModeContext.fetchTokens :
    List RawItem → SalientModeContext → List Token →
      Option (SalientModeContext × List Token × List RawItem)
  | [], _, _ => none
  | item :: rest, ctx, pending_tokens =>
    let ctx1 := { ctx with reindenting_required :=
                    ctx.reindenting_required || TriggersReindentationNow item.token.type }
    if ctx1.last_emitted_implied_indenter ≠ IsImpliedIndenter item.prev_token_type then none
    else
      let ctx2 := if IsImpliedIndenter item.token.type && !ctx1.last_emitted_implied_indenter
                  then { ctx1 with reindenting_required := true } else ctx1
      let ctx3 := if !IsListLikeToken item.token.type && !IsLogicalWhitespace item.token.type
                  then { ctx2 with nesting_depth_this_line := 0 } else ctx2
      let pending1 := pending_tokens ++ [item.token]
      if IsLogicalWhitespace item.token.type
      then SalientModeContext.fetchTokens rest ctx3 pending1
      else some (ctx3, pending1, rest)

/-- The synthesized token that the insertion loops build from `model_token`: the given
type, the token index of `model_token`, and an empty source interval. -/
def synthesizedToken (type : PvnTokenType) (model_token : Token) : Token :=
  { type := type, text := [], tokenIndex := model_token.tokenIndex }

/-- The loop `while (current_indentation > requested_indentation)`: one `SVT_DEDENT`,
modelled on the front token, pushed at the front per pass. -/
def dedentInsertion (requested_indentation : Int) :
    Nat → Int × List Token → Int × List Token
  | 0, s => s
  | fuel + 1, (current_indentation, pending_tokens) =>
    if current_indentation > requested_indentation then
      match pending_tokens with
      | [] => (current_indentation, pending_tokens)
      | front_token :: _ =>
        dedentInsertion requested_indentation fuel
          (current_indentation - 1,
           synthesizedToken PvnTokenType.SVT_DEDENT front_token :: pending_tokens)
    else (current_indentation, pending_tokens)

/-- The loop `while (current_indentation < requested_indentation)`: one `SVT_INDENT`,
modelled on the back token, inserted just before the back per pass. -/
def indentInsertion (requested_indentation : Int) :
    Nat → Int × List Token → Int × List Token
  | 0, s => s
  | fuel + 1, (current_indentation, pending_tokens) =>
    if current_indentation < requested_indentation then
      match pending_tokens.getLast? with
      | none => (current_indentation, pending_tokens)
      | some back_token =>
        indentInsertion requested_indentation fuel
          (current_indentation + 1,
           pending_tokens.dropLast ++
             [synthesizedToken PvnTokenType.SVT_INDENT back_token, back_token])
    else (current_indentation, pending_tokens)

/-- The value `requested_indentation` that `SpecializedNextToken` computes after its
fetch loop, from the context then and the back token of the queue. -/
def requestedIndentation (ctx : SalientModeContext) (back_token : Token) : Int :=
  if ctx.reindenting_required then
    if ForcesZeroIndent back_token.type then 0
    else CalculateIndentation back_token.text back_token.type
  else ctx.current_indentation

/-- The block `if (svt_lexer->pending_tokens.empty()) { ... }` of `SpecializedNextToken`,
one indentation resolution: the context and the pending queue after it, with the rest of
the base lexer's stream.  The comparison of `nested_list_types.size()` with the `int`
`current_indentation` is unsigned, as in the code. -/
def SalientModeContext.resolve (ctx : SalientModeContext) (raw : List RawItem) :
    Option (SalientModeContext × List Token × List RawItem) :=
  match ctx.fetchTokens raw [] with
  | none => none
  | some (ctx1, fetched, rest) =>
    match fetched.getLast? with
    | none => none
    | some back_token =>
      let requested_indentation : Int := requestedIndentation ctx1 back_token
      let d := dedentInsertion requested_indentation
        (ctx1.current_indentation - requested_indentation).toNat
        (ctx1.current_indentation, fetched)
      let i := indentInsertion requested_indentation
        (requested_indentation - d.1).toNat d
      let ctx2 := { ctx1 with
        current_indentation := i.1,
        reindenting_required := TriggersSubsequentReindentation back_token.type,
        last_emitted_implied_indenter := IsImpliedIndenter back_token.type }
      let ctx3 := if ctx2.last_emitted_implied_indenter
                  then { ctx2 with current_indentation := ctx2.current_indentation + 1 }
                  else ctx2
      let bound := (ctx3.current_indentation % (2 : Int) ^ 64).toNat
      let ctx4 := if ctx3.nested_list_types.length > bound
                  then { ctx3 with nested_list_types := ctx3.nested_list_types.take bound }
                  else ctx3
      some (ctx4, i.2, rest)

/-- The lexer members that `SpecializedNextToken` uses: the deque `pending_tokens` (front
first) and what the base lexer will still produce. -/
structure PvnLexerState where
  pending_tokens : List Token
  raw : List RawItem

/-- The method `SalientModeContext::SpecializedNextToken`: the returned token, the context
and the lexer after the call; `none` when a `PVN_CHECK` aborts. -/
def SalientModeContext.SpecializedNextToken (ctx : SalientModeContext)
    (svt_lexer : PvnLexerState) : Option (Token × SalientModeContext × PvnLexerState) :=
  if (svt_lexer.pending_tokens.getLast?.map (fun t => IsLogicalWhitespace t.type)) = some true
  then none
  else
    match svt_lexer.pending_tokens with
    | popped_token :: others =>
      some (popped_token, ctx, { svt_lexer with pending_tokens := others })
    | [] =>
      match ctx.resolve svt_lexer.raw with
      | none => none
      | some (ctx1, pending, rest) =>
        match pending with
        | [] => none
        | popped_token :: others =>
          some (popped_token, ctx1, { pending_tokens := others, raw := rest })

/-- What one indentation resolution did: the tokens it pulled from the base lexer and the
pending queue it left. -/
structure ResolutionRecord where
  fetched : List Token
  queue : List Token
  deriving DecidableEq, Repr

/-- The first `n` indentation resolutions on a stream of the base lexer (the queue is
drained by the calls in between), with the record of each. -/
def SalientModeContext.resolveMany :
    Nat → SalientModeContext → List RawItem →
      Option (SalientModeContext × List ResolutionRecord × List RawItem)
  | 0, ctx, raw => some (ctx, [], raw)
  | n + 1, ctx, raw =>
    match ctx.fetchTokens raw [], ctx.resolve raw with
    | some (_, fetched, _), some (ctx1, queue, rest) =>
      match SalientModeContext.resolveMany n ctx1 rest with
      | none => none
      | some (ctx2, records, rest2) =>
        some (ctx2, { fetched := fetched, queue := queue } :: records, rest2)
    | _, _ => none

/-- The number of tokens of the given type in a list. -/
def countType (type : PvnTokenType) (tokens : List Token) : Nat :=
  (tokens.filter (fun t => t.type = type)).length

/-- The number of tokens of the given type that a resolution synthesized: those in its
queue beyond those it pulled from the base lexer. -/
def ResolutionRecord.synthesized (type : PvnTokenType) (r : ResolutionRecord) : Int :=
  (countType type r.queue : Int) - (countType type r.fetched : Int)

/-- The triggering token of a resolution is an implied indenter. -/
def ResolutionRecord.impliedIndenter (r : ResolutionRecord) : Bool :=
  (r.fetched.getLast?.map (fun t => IsImpliedIndenter t.type)) = some true

/-- Synthesized `SVT_INDENT` tokens minus synthesized `SVT_DEDENT` tokens, over a sequence
of resolutions. -/
def netSynthesizedIndents : List ResolutionRecord → Int
  | [] => 0
  | r :: rs =>
    r.synthesized PvnTokenType.SVT_INDENT - r.synthesized PvnTokenType.SVT_DEDENT +
      netSynthesizedIndents rs

/-- The number of resolutions of a sequence whose triggering token is an implied
indenter. -/
def impliedIndenterCount : List ResolutionRecord → Int
  | [] => 0
  | r :: rs => (if r.impliedIndenter then 1 else 0) + impliedIndenterCount rs

/-! ## `CustomizedTokenFactory` (`grammys/pvn_token.h`, `grammys/customized_lexing.cc`) -/

/-- The enum `TokenAnomaly`. -/
inductive TokenAnomaly where
  | kNone
  | kNotAtLineStart
  | kAtLineStart
  deriving DecidableEq, Repr

/-- The struct `TokenSupplement`, with its default member values. -/
structure TokenSupplement where
  token_anomaly : TokenAnomaly := TokenAnomaly.kNone
  is_quarrel_statement : Bool := false
  auxiliary_token_type : Nat := kInvalidTokenIndex
  deriving DecidableEq, Repr

/-- A `CustomizedToken` as `create` builds it. -/
structure CustomizedToken where
  type : PvnTokenType
  channel : Nat
  start : Nat
  stop : Nat
  line : Nat
  charPositionInLine : Nat
  text : List Char
  supplement_ : TokenSupplement
  deriving DecidableEq, Repr

/-- The members of `CustomizedTokenFactory`. -/
structure CustomizedTokenFactory where
  once_channel_ : Nat
  custom_channel_ : Nat
  deriving DecidableEq, Repr

/-- The method `CustomizedTokenFactory::SetImmediateCustomChannel`. -/
def CustomizedTokenFactory.SetImmediateCustomChannel (f : CustomizedTokenFactory)
    (channel : Nat) : CustomizedTokenFactory :=
  { f with once_channel_ := channel, custom_channel_ := channel }

/-- The method `CustomizedTokenFactory::SetDeferredCustomChannel`. -/
def CustomizedTokenFactory.SetDeferredCustomChannel (f : CustomizedTokenFactory)
    (channel : Nat) : CustomizedTokenFactory :=
  { f with custom_channel_ := channel }

/-- The arguments of one `create` call, with what the call reads from its source:
`custom_lexer` holds the anomaly, statement-start flag and auxiliary type that the lexer
reports when the source is a `CustomizedPvnLexer` (`none` otherwise), and `source_text` the
text of the stream interval that is copied when `text` is empty. -/
structure CreateRequest where
  type : PvnTokenType
  text : List Char
  channel : Nat
  start : Nat
  stop : Nat
  line : Nat
  charPositionInLine : Nat
  custom_lexer : Option TokenSupplement
  source_text : List Char
  deriving DecidableEq, Repr

/-- The method `CustomizedTokenFactory::create`: the token built and the factory after the
call.  `HIDDEN_CHANNEL` is the ANTLR constant `Token::HIDDEN_CHANNEL`. -/
def CustomizedTokenFactory.create (HIDDEN_CHANNEL : Nat) (f : CustomizedTokenFactory)
    (r : CreateRequest) : CustomizedToken × CustomizedTokenFactory :=
  let channel := if r.channel ≠ HIDDEN_CHANNEL then f.once_channel_ else r.channel
  let f1 := { f with once_channel_ := f.custom_channel_ }
  let supplement : TokenSupplement :=
    match r.custom_lexer with
    | some reported => reported
    | none => {}
  let t : CustomizedToken :=
    { type := r.type, channel := channel, start := r.start, stop := r.stop,
      line := r.line, charPositionInLine := r.charPositionInLine,
      text := if r.text ≠ [] then r.text else r.source_text,
      supplement_ := supplement }
  (t, f1)

/-- Successive `create` calls, with no channel set in between: the tokens built, in order,
and the factory after the last call. -/
def CustomizedTokenFactory.createAll (HIDDEN_CHANNEL : Nat) :
    CustomizedTokenFactory → List CreateRequest → List CustomizedToken × CustomizedTokenFactory
  | f, [] => ([], f)
  | f, r :: rs =>
    let c := f.create HIDDEN_CHANNEL r
    let rest := CustomizedTokenFactory.createAll HIDDEN_CHANNEL c.2 rs
    (c.1 :: rest.1, rest.2)

/-! ## List markers (`grammys/pvn_token.cc`)

A text is the list of its characters.  The code works on bytes; a character outside ASCII
is made of bytes that are neither `@` nor `:` and lie in none of the ranges tested, and it
is outside those ranges as a character too, so the two readings agree. -/

/-- The method `absl::string_view::find_first_of(char)`: the first position of the
character, `none` for `npos`. -/
def find_first_of (c : Char) : List Char → Option Nat
  | [] => none
  | x :: xs => if x = c then some 0 else (find_first_of c xs).map (fun p => p + 1)

/-- The function `ExtractListType` (texts shorter than 2^31 characters, so that the `int`
positions of the code hold them); `none` when `PVN_CHECK_EQ(char_after_colon, 'a')`
aborts. -/
def ExtractListType (token_text : List Char) : Option SvtListType :=
  match find_first_of '@' token_text with
  | some _ => some SvtListType.kBullet
  | none =>
    match find_first_of ':' token_text with
    | none => some SvtListType.kNone
    | some colon_pos =>
      if colon_pos + 1 = token_text.length then some SvtListType.kNone
      else
        let char_after_colon := token_text.getD (colon_pos + 1) ' '
        if '0' ≤ char_after_colon ∧ char_after_colon ≤ '9' then some SvtListType.kArabic
        else if 'a' ≤ char_after_colon ∧ char_after_colon < 'i' then
          some SvtListType.kLowerAlpha
        else if 'i' ≤ char_after_colon ∧ char_after_colon ≤ 'x' then
          some SvtListType.kLowerRoman
        else if 'A' ≤ char_after_colon ∧ char_after_colon < 'I' then
          some SvtListType.kUpperAlpha
        else if 'I' ≤ char_after_colon ∧ char_after_colon ≤ 'X' then
          some SvtListType.kUpperRoman
        else if char_after_colon = '%' then some SvtListType.kListBreak
        else if char_after_colon = 'a' then some SvtListType.kNone
        else none

/-! ## `ReprocessHeadings` (`skim/coarse_listeners.cc`) -/

/-- The function `util::GetHeadingId(Heading)`. -/
def GetHeadingId (heading : Heading) : String × Int :=
  (heading.file_id, heading.line_number)

/-- The placeholder that `ReprocessHeadings` builds for a missing level. -/
def missingLevelHeading (level : Int) : Heading :=
  { level := level, heading_text := "Heading missing at this level" }

/-- The placeholder that `ReprocessHeadings` appends at the end. -/
def trailingHeading : Heading :=
  { level := 0, heading_text := "Convenience trailing level-0 heading." }

/-- The loop `while (current_nesting < h.level)` of `ReprocessHeadings`: one placeholder
pushed per pass; the passes are `h.level - current_nesting` at most. -/
def fillMissingLevels (level : Int) : Nat → Int × List Heading → Int × List Heading
  | 0, s => s
  | fuel + 1, (current_nesting, heading_vector) =>
    if current_nesting < level then
      fillMissingLevels level fuel
        (current_nesting + 1, heading_vector ++ [missingLevelHeading current_nesting])
    else (current_nesting, heading_vector)

/-- The state of the `for` loop of `ReprocessHeadings`: `current_nesting`, the results and
what has been written to `std::cerr`. -/
structure ReprocessState where
  current_nesting : Int
  results : SummarizerResults
  cerr : List String

/-- One pass of the `for` loop of `ReprocessHeadings`, for the heading `h`. -/
def reprocessHeading (st : ReprocessState) (h : Heading) : ReprocessState :=
  let current1 := st.current_nesting + 1
  let current2 := if current1 > h.level then h.level else current1
  let filled := fillMissingLevels h.level (h.level - current2).toNat
    (current2, st.results.heading_vector)
  let heading_vector := filled.2 ++ [h]
  let new_heading_index : Int := (heading_vector.length : Int) - 1
  let results1 := { st.results with
    heading_vector := heading_vector,
    heading_indices := (GetHeadingId h, new_heading_index) :: st.results.heading_indices }
  if h.level = 0 then
    if results1.title_heading_index = kNoDetectedTitle then
      { current_nesting := filled.1,
        results := { results1 with title_heading_index := new_heading_index },
        cerr := st.cerr }
    else
      { current_nesting := filled.1, results := results1,
        cerr := st.cerr ++ ["More than one title-level heading (module, doc title)"] }
  else { current_nesting := filled.1, results := results1, cerr := st.cerr }

/-- The method `CoarseSkimSalientListener::ReprocessHeadings`: the listener after the call and
what the call writes to `std::cerr`. -/
def CoarseSkimSalientListener.ReprocessHeadings (L : CoarseSkimSalientListener) :
    CoarseSkimSalientListener × List String :=
  let start : ReprocessState :=
    { current_nesting := 0,
      results := { L.summarizer_results_ with heading_vector := [] },
      cerr := [] }
  let st := L.heading_list_.foldl reprocessHeading start
  ({ L with summarizer_results_ := { st.results with
       heading_vector := st.results.heading_vector ++ [trailingHeading] } },
   st.cerr)

/-- The placeholders of levels `from_level`, ..., `level - 1`, in this order. -/
def placeholdersBelow (from_level level : Int) : List Heading :=
  (List.range (level - from_level).toNat).map
    (fun (k : Nat) => missingLevelHeading (from_level + (k : Int)))

/-- The entries that the specification gives for collected headings after a heading of
level `c`: before each heading of level `L` the placeholders of levels `c + 1`, ..., `L - 1`,
then the heading itself. -/
def specEntries : Int → List Heading → List Heading
  | _, [] => []
  | c, h :: hs => placeholdersBelow (c + 1) h.level ++ h :: specEntries h.level hs

/-- The heading vector of the specification: the entries for the collected headings, the
first taken as following level 0, then one trailing level-0 placeholder. -/
def specHeadingVector (headings : List Heading) : List Heading :=
  specEntries 0 headings ++ [trailingHeading]

/-! ## Output handlers (`format/base_handler.h`, `format/reform_handlers.cc`) -/

/-- The constant `kNormalMaxLineChars`. -/
def kNormalMaxLineChars : Int := 96

/-- The constant `kTextualRightCommentColumn`. -/
def kTextualRightCommentColumn : Int := 72

/-- The constant `kExtendedMaxLineChars`. -/
def kExtendedMaxLineChars : Int := 120

/-- The constant `kColumnCommentWidth`. -/
def kColumnCommentWidth : Int := kExtendedMaxLineChars - kTextualRightCommentColumn

/-- Conversion of a `size_t` value to `ssize_t` (64-bit two's complement). -/
def toSsize (n : Nat) : Int :=
  if n % 2 ^ 64 < 2 ^ 63 then ((n % 2 ^ 64 : Nat) : Int) else ((n % 2 ^ 64 : Nat) : Int) - 2 ^ 64

/-- Conversion of a signed value to `size_t`, as the usual arithmetic conversions do
when an `int` or `ssize_t` meets a `size_t` operand. -/
def toSizeT (x : Int) : Nat := (x % 2 ^ 64).toNat

/-- Conversion of an `ssize_t` value to `int` (32-bit two's complement). -/
def toInt32 (x : Int) : Int := (x + 2 ^ 31) % 2 ^ 32 - 2 ^ 31

/-- The struct `OutputPiece`, with its default member values. -/
structure OutputPiece where
  text : List Char
  token_index : Int := -1
  coarse_properties_before : CoarseProperties := {}
  coarse_properties_at : CoarseProperties := {}
  token_type : PvnTokenType := PvnTokenType.NONE_TOKEN
  deriving DecidableEq, Repr

/-- The struct `WhitespaceMaps`; each hash map is the list of its entries, `find` is
`List.lookup`. -/
structure WhitespaceMaps where
  specific_any_whitespace_map : List (PvnTokenType × Int) := []
  any_specific_whitespace_map : List (PvnTokenType × Int) := []
  specific_specific_whitespace_map : List ((PvnTokenType × PvnTokenType) × Int) := []
  deriving DecidableEq, Repr

/-- The struct `InterModeFormatting`, with its default member values. -/
structure InterModeFormatting where
  one_line_max_length : Int := 0
  multi_line_max_length : Int := 0
  append_newline : Bool := true
  residual_column_position : Int := 0
  contextual_indent_column : Int := 0
  destination_token_index : Int := -1
  deriving DecidableEq, Repr

/-- The enum `FlushReason`. -/
inductive FlushReason where
  | kNone
  | kCloseStatement
  | kOpenPattern
  deriving DecidableEq, Repr

/-- The struct `OutputHandler`, the state shared by the four handler classes, as its
constructor initialises it.  `out_stream` is the text written so far; `tokens` is the
token list of the `CommonTokenStream`, read with `get(i)`, and `numberOfOnChannelTokens`
is what its method `getNumberOfOnChannelTokens()` returns (ANTLR runtime).  The member
`content_pair_map` is not read by the methods embedded here. -/
structure OutputHandler where
  out_stream : List Char := []
  output_pieces : List OutputPiece := []
  pending_char_count : Int := 0
  coarse_properties : AltParseTreeProperty CoarseProperties := []
  prevailing_properties : CoarseProperties := {}
  whitespace_maps : WhitespaceMaps := {}
  tokens : List Token := []
  numberOfOnChannelTokens : Nat := 0
  current_section_depth : Int := 0
  inter_mode_formatting : InterModeFormatting := {}
  entry_genre_state : WalkerTransition := {}
  flush_at_next_token : FlushReason := FlushReason.kNone

/-- The function `CommonReformatter::AppendPiece(text, token_type, token_index, ctx,
output_handler)`; `none` when `coarse_properties->get(ctx)` aborts. -/
def CommonReformatter.AppendPiece (text : List Char) (token_type : PvnTokenType)
    (token_index : Int) (ctx : ParseTree) (output_handler : OutputHandler) :
    Option OutputHandler :=
  match output_handler.coarse_properties.get ctx with
  | none => none
  | some subsequent_properties =>
    let whitespace_maps := output_handler.whitespace_maps
    let h1 : OutputHandler :=
      match output_handler.output_pieces.getLast? with
      | none => output_handler
      | some back =>
        let intra_chars0 : Int := 1
        let intra_chars1 :=
          match whitespace_maps.specific_any_whitespace_map.lookup back.token_type with
          | some v => v
          | none => intra_chars0
        let intra_chars2 :=
          match whitespace_maps.any_specific_whitespace_map.lookup token_type with
          | some v => v
          | none => intra_chars1
        let intra_chars :=
          match whitespace_maps.specific_specific_whitespace_map.lookup
              (back.token_type, token_type) with
          | some v => v
          | none => intra_chars2
        if intra_chars > 0 then
          { output_handler with
            output_pieces := output_handler.output_pieces ++
              [{ text := List.replicate intra_chars.toNat ' ',
                 token_index := -1,
                 coarse_properties_before := output_handler.prevailing_properties,
                 coarse_properties_at := output_handler.prevailing_properties,
                 token_type := PvnTokenType.Q_IMPUTED_WHITESPACE }],
            pending_char_count := output_handler.pending_char_count + intra_chars }
        else output_handler
    some { h1 with
      output_pieces := h1.output_pieces ++
        [{ text := text,
           token_index := toInt32 token_index,
           coarse_properties_before := output_handler.prevailing_properties,
           coarse_properties_at := subsequent_properties,
           token_type := token_type }],
      pending_char_count := h1.pending_char_count + (text.length : Int) }

/-- The function `CommonReformatter::DropFrontN(n, output_handler)`.  The guard compares
the `int` `n` with a `size_t`, so `n` is converted to `size_t`. -/
def CommonReformatter.DropFrontN (n : Int) (output_handler : OutputHandler) :
    OutputHandler :=
  if toSizeT n ≥ output_handler.output_pieces.length then
    { output_handler with pending_char_count := 0, output_pieces := [] }
  else
    { output_handler with
      pending_char_count :=
        (output_handler.output_pieces.take n.toNat).foldl
          (fun count piece => count - (piece.text.length : Int))
          output_handler.pending_char_count,
      output_pieces := output_handler.output_pieces.drop n.toNat }

/-- The first loop of `ProcessBlankLines`: the token index of the first buffered piece
whose index is not -1, else -1. -/
def firstTokenIndex : List OutputPiece → Int
  | [] => -1
  | piece :: rest =>
    if piece.token_index ≠ -1 then piece.token_index else firstTokenIndex rest

/-- The backward scan of `QuarrelReformatHandler::ProcessBlankLines`: the loop
`for (int i = token_index - 1; i >= 0; --i)` entered with `i + 1` equal to the first
argument and `num_newlines` equal to the second; the result is the final `num_newlines`,
`none` when `tokens->get(i)` is out of range. -/
def quarrelBlankScan (tokens : List Token) : Nat → Int → Option Int
  | 0, num_newlines => some num_newlines
  | i + 1, num_newlines =>
    match tokens[i]? with
    | none => none
    | some t =>
      match t.type with
      | PvnTokenType.Q_STMT_NEWLINE => quarrelBlankScan tokens i (num_newlines + 1)
      | PvnTokenType.NEWLINE_ENTER_CODE =>
        some (if t.text = ['\n'] then num_newlines + 1 else num_newlines)
      | PvnTokenType.LEAVE_TEXTUAL =>
        some (if t.text = ['\n'] then num_newlines + 1 else num_newlines)
      | PvnTokenType.LEAVE_CODE => quarrelBlankScan tokens i num_newlines
      | PvnTokenType.ENTER_TEXTUAL => quarrelBlankScan tokens i num_newlines
      | PvnTokenType.Q_WS => quarrelBlankScan tokens i num_newlines
      | _ => some num_newlines

/-- The value of `token_index` with which `QuarrelReformatHandler::ProcessBlankLines`
enters its backward scan. -/
def QuarrelReformatHandler.scanTokenIndex (H : OutputHandler) : Int :=
  let token_index := firstTokenIndex H.output_pieces
  if token_index = -1 then toInt32 (H.inter_mode_formatting.destination_token_index + 1)
  else token_index

/-- The method `QuarrelReformatHandler::ProcessBlankLines`; `none` when a token read is
out of range. -/
def QuarrelReformatHandler.ProcessBlankLines (H : OutputHandler) : Option OutputHandler :=
  let token_index := QuarrelReformatHandler.scanTokenIndex H
  match quarrelBlankScan H.tokens token_index.toNat 0 with
  | none => none
  | some num_newlines =>
    if num_newlines > 1 then
      some { H with
        out_stream := H.out_stream ++ List.replicate (num_newlines - 1).toNat '\n' }
    else some H

/-- The library function `strcount(text, c)`: the number of occurrences of `c`. -/
def strcount (text : List Char) (c : Char) : Int := ((text.count c : Nat) : Int)

/-- The backward scan of `SalientReformatHandler::ProcessBlankLines`, arguments as for
`quarrelBlankScan`; `entry_subgenre` is `entry_genre_state.destination_subgenre`. -/
def salientBlankScan (tokens : List Token) (entry_subgenre : TextualSubGenre) :
    Nat → Int → Option Int
  | 0, num_newlines => some num_newlines
  | i + 1, num_newlines =>
    match tokens[i]? with
    | none => none
    | some t =>
      let enterCode : Option Int :=
        let n1 := num_newlines + strcount t.text '\n'
        if i > 0 then
          match tokens[i - 1]? with
          | none => none
          | some u =>
            if u.type = PvnTokenType.LEAVE_CODE ∨ u.type = PvnTokenType.ENTER_TEXTUAL then
              some (n1 + 1)
            else some n1
        else some n1
      let enterTextual : Option Int :=
        some (if entry_subgenre ≠ TextualSubGenre.kMaster then num_newlines + 1
              else num_newlines)
      match t.type with
      | PvnTokenType.Q_STMT_NEWLINE => salientBlankScan tokens entry_subgenre i num_newlines
      | PvnTokenType.SINGLE_NEWLINE =>
        salientBlankScan tokens entry_subgenre i (num_newlines + 1)
      | PvnTokenType.MULTI_NEWLINE =>
        salientBlankScan tokens entry_subgenre i (num_newlines + 2)
      | PvnTokenType.NEWLINE_ENTER_CODE => enterCode
      | PvnTokenType.LEAVE_TEXTUAL => enterCode
      | PvnTokenType.ENTER_TEXTUAL => enterTextual
      | PvnTokenType.LEAVE_CODE => enterTextual
      | PvnTokenType.Q_WS => salientBlankScan tokens entry_subgenre i num_newlines
      | _ => some num_newlines

/-- The method `QuarrelReformatHandler::CalcUnadjustedIndent`. -/
def QuarrelReformatHandler.CalcUnadjustedIndent
    (coarse_properties_choice : CoarseProperties) : Int :=
  let indent_chars := 3 * (coarse_properties_choice.cumulative_statement_level +
                           coarse_properties_choice.expression_nest_level)
  if coarse_properties_choice.expression_nest_level > 0 then indent_chars + 3
  else indent_chars

/-- The loop of `QuarrelReformatHandler::ProcessIndent` over the buffered pieces, started
on the given list with the given value of `coarse_properties_choice`. -/
def chooseCoarseProperties : List OutputPiece → CoarseProperties → CoarseProperties
  | [], coarse_properties_choice => coarse_properties_choice
  | piece :: rest, coarse_properties_choice =>
    if piece.coarse_properties_at.is_closure then
      chooseCoarseProperties rest piece.coarse_properties_at
    else if piece.token_type ≠ PvnTokenType.Q_IMPUTED_WHITESPACE then
      coarse_properties_choice
    else chooseCoarseProperties rest coarse_properties_choice

/-- The method `QuarrelReformatHandler::ProcessIndent`, with its return value.
`coarse_properties_choice` is a reference to `output_pieces[0].coarse_properties_before`,
so the assignments of the loop are stored in the first piece. -/
def QuarrelReformatHandler.ProcessIndent (H : OutputHandler) : OutputHandler × Int :=
  match H.output_pieces with
  | [] => (H, 0)
  | front :: rest =>
    let coarse_properties_choice :=
      chooseCoarseProperties (front :: rest) front.coarse_properties_before
    let statement_adjust0 : Int :=
      if front.token_type = PvnTokenType.OPEN_STMT then 1 else 0
    let statement_adjust : Int :=
      if front.token_type = PvnTokenType.CONTRACT_UNARY then 1 else statement_adjust0
    let indent_chars : Int :=
      max 0 (QuarrelReformatHandler.CalcUnadjustedIndent coarse_properties_choice -
        3 * statement_adjust)
    ({ H with
        output_pieces :=
          { front with coarse_properties_before := coarse_properties_choice } :: rest,
        out_stream := H.out_stream ++ List.replicate indent_chars.toNat ' ',
        inter_mode_formatting := { H.inter_mode_formatting with
          residual_column_position :=
            H.inter_mode_formatting.residual_column_position + indent_chars } },
      indent_chars)

/-- What `if (n > 0) out_stream << string(n, ' ')` writes. -/
def spacesIfPositive (n : Int) : List Char :=
  if n > 0 then List.replicate n.toNat ' ' else []

/-- What `SalientReformatHandler::ProcessIndent` writes to `out_stream`, and the value
`total_chars` it returns: the comment marker of the prevailing sub-genre (with its
padding, which is not counted), then the list indent. -/
def SalientReformatHandler.indentText (H : OutputHandler) : List Char × Int :=
  let marker : List Char × Int :=
    match H.prevailing_properties.sub_genre with
    | TextualSubGenre.kTextualRight =>
      (spacesIfPositive
          (kTextualRightCommentColumn - H.inter_mode_formatting.residual_column_position) ++
        [';'], 1)
    | TextualSubGenre.kTextualIndent =>
      (spacesIfPositive H.inter_mode_formatting.contextual_indent_column ++ [';', ';'], 2)
    | TextualSubGenre.kTextualLeft => ([';', ';', ';'], 3)
    | _ => ([], 0)
  let indent_chars : Int :=
    match H.output_pieces with
    | [] => 0
    | front :: _ => 3 * front.coarse_properties_before.statement_nest_level
  (marker.1 ++ spacesIfPositive indent_chars, marker.2 + indent_chars)

/-- The method `SalientReformatHandler::ProcessIndent`, with its return value. -/
def SalientReformatHandler.ProcessIndent (H : OutputHandler) : OutputHandler × Int :=
  ({ H with out_stream := H.out_stream ++ (SalientReformatHandler.indentText H).1 },
    (SalientReformatHandler.indentText H).2)

/-- The `for` loop at the end of `SalientReformatHandler::ProcessBlankLines`, run the
given number of times: indent, reset the column, end the line. -/
def salientBlankLineLoop : Nat → OutputHandler → OutputHandler
  | 0, H => H
  | k + 1, H =>
    let H1 := (SalientReformatHandler.ProcessIndent H).1
    salientBlankLineLoop k
      { H1 with
        inter_mode_formatting := { H1.inter_mode_formatting with
          residual_column_position := 0 },
        out_stream := H1.out_stream ++ ['\n'] }

/-- The value of `token_index` with which `SalientReformatHandler::ProcessBlankLines`
enters its backward scan.  The comparison of `destination_token_index` (an `ssize_t`)
with `kInvalidTokenIndex` (a `size_t`) converts the former to `size_t`. -/
def SalientReformatHandler.scanTokenIndex (H : OutputHandler) : Int :=
  let token_index := firstTokenIndex H.output_pieces
  if token_index = -1 then
    if toSizeT H.inter_mode_formatting.destination_token_index ≠ kInvalidTokenIndex then
      toInt32 (H.inter_mode_formatting.destination_token_index + 1)
    else token_index
  else token_index

/-- The method `SalientReformatHandler::ProcessBlankLines`; `none` when a token read is
out of range. -/
def SalientReformatHandler.ProcessBlankLines (H : OutputHandler) : Option OutputHandler :=
  if H.numberOfOnChannelTokens = 0 then some H
  else
    let token_index := SalientReformatHandler.scanTokenIndex H
    match salientBlankScan H.tokens H.entry_genre_state.destination_subgenre
        token_index.toNat 0 with
    | none => none
    | some num_newlines =>
      if num_newlines > 1 then
        if H.entry_genre_state.destination_subgenre = TextualSubGenre.kMaster then
          some { H with
            out_stream := H.out_stream ++ List.replicate (num_newlines - 1).toNat '\n' }
        else some (salientBlankLineLoop (num_newlines - 1).toNat H)
      else some H

/-- The texts of the pieces, concatenated: what a loop `out_stream << piece.text` over
them writes. -/
def piecesText (pieces : List OutputPiece) : List Char :=
  (pieces.map (fun piece => piece.text)).flatten

/-- The total `text.size()` of the pieces. -/
def piecesWidth (pieces : List OutputPiece) : Int :=
  (pieces.map (fun piece => (piece.text.length : Int))).sum

/-- The method `QuarrelReformatHandler::ProcessPending`; `none` when
`ProcessBlankLines` aborts.  The decrements of `pending_char_count` inside the method are
overwritten by its final `pending_char_count = 0`. -/
def QuarrelReformatHandler.ProcessPending (H : OutputHandler) : Option OutputHandler :=
  match QuarrelReformatHandler.ProcessBlankLines H with
  | none => none
  | some H1 =>
    if H1.output_pieces.isEmpty then some H1
    else
      let H2 := (QuarrelReformatHandler.ProcessIndent H1).1
      let first_piece : Nat :=
        match H2.output_pieces with
        | [] => 0
        | front :: _ =>
          if front.token_type = PvnTokenType.Q_IMPUTED_WHITESPACE then 1 else 0
      let written := H2.output_pieces.drop first_piece
      let out1 := H2.out_stream ++ piecesText written
      let residual1 :=
        H2.inter_mode_formatting.residual_column_position + piecesWidth written
      let out2 := if H2.inter_mode_formatting.append_newline then out1 ++ ['\n'] else out1
      let residual2 := if H2.inter_mode_formatting.append_newline then 0 else residual1
      some { H2 with
        out_stream := out2,
        inter_mode_formatting := { H2.inter_mode_formatting with
          residual_column_position := residual2,
          contextual_indent_column :=
            QuarrelReformatHandler.CalcUnadjustedIndent H2.prevailing_properties },
        output_pieces := [],
        pending_char_count := 0 }

/-- The `while` loop of `SalientReformatHandler::ProcessPending`, entered with the pieces
from index `end_piece` on; the result is the final `(end_piece, consumed_size)`.  The
left operand of `<=` has type `size_t`, so the `int` on the right, `limit`
(`multi_line_max_length - processed_indent`), is converted to `size_t`. -/
def salientAccumulate (limit : Int) : List OutputPiece → Nat → Int → Nat × Int
  | [], end_piece, consumed_size => (end_piece, consumed_size)
  | piece :: rest, end_piece, consumed_size =>
    if toSizeT (consumed_size + (piece.text.length : Int)) ≤ toSizeT limit then
      salientAccumulate limit rest (end_piece + 1)
        (consumed_size + (piece.text.length : Int))
    else (end_piece, consumed_size)

/-- Whether the piece at index `i` exists and is imputed whitespace. -/
def isImputedWhitespaceAt (pieces : List OutputPiece) (i : Nat) : Bool :=
  match pieces[i]? with
  | some piece => piece.token_type = PvnTokenType.Q_IMPUTED_WHITESPACE
  | none => false

/-- The line that `SalientReformatHandler::ProcessPending` cuts from the buffer, as the
final values `(end_piece, consumed_end_piece)`: the pieces from `first_piece` on are
accumulated while they fit within `limit`, a blank at the end of the line is not written,
and a blank that follows the line is consumed with it. -/
def salientLineEnds (pieces : List OutputPiece) (first_piece : Nat) (limit : Int) :
    Nat × Nat :=
  let first_width : Int :=
    match pieces[first_piece]? with
    | some piece => (piece.text.length : Int)
    | none => 0
  let end_piece0 :=
    (salientAccumulate limit (pieces.drop (first_piece + 1)) (first_piece + 1)
      first_width).1
  let end_piece :=
    if isImputedWhitespaceAt pieces (end_piece0 - 1) then end_piece0 - 1 else end_piece0
  let consumed_end_piece :=
    if pieces.length > end_piece0 ∧ isImputedWhitespaceAt pieces end_piece0 then
      end_piece0 + 1
    else end_piece0
  (end_piece, consumed_end_piece)

/-- The second half of `SalientReformatHandler::ProcessPending`, from the test
`strings_to_output <= first_piece` on: cut one line from the buffer, write it and drop
what it consumed. -/
def SalientReformatHandler.writeLine (H : OutputHandler) (first_piece : Nat)
    (processed_indent : Int) : OutputHandler :=
  if H.output_pieces.length ≤ first_piece then
    CommonReformatter.DropFrontN (first_piece : Int) H
  else
    let ends := salientLineEnds H.output_pieces first_piece
      (H.inter_mode_formatting.multi_line_max_length - processed_indent)
    let out1 := H.out_stream ++
      piecesText ((H.output_pieces.take ends.1).drop first_piece)
    let H5 : OutputHandler :=
      if H.inter_mode_formatting.append_newline then
        { H with
          out_stream := out1 ++ ['\n'],
          inter_mode_formatting := { H.inter_mode_formatting with
            residual_column_position := 0 } }
      else { H with out_stream := out1 }
    CommonReformatter.DropFrontN (ends.2 : Int) H5

/-- The method `SalientReformatHandler::ProcessPending`; `none` when
`ProcessBlankLines` aborts. -/
def SalientReformatHandler.ProcessPending (H : OutputHandler) : Option OutputHandler :=
  match SalientReformatHandler.ProcessBlankLines H with
  | none => none
  | some H1 =>
    match H1.output_pieces with
    | [] => some H1
    | front :: _ =>
      let indented := SalientReformatHandler.ProcessIndent H1
      let H3 : OutputHandler :=
        if H1.entry_genre_state.destination_subgenre ≠ TextualSubGenre.kMaster then
          { indented.1 with out_stream := indented.1.out_stream ++ [' '] }
        else indented.1
      let processed_indent : Int :=
        if H1.entry_genre_state.destination_subgenre ≠ TextualSubGenre.kMaster then
          indented.2 + 1
        else indented.2
      let first_piece : Nat :=
        if front.token_type = PvnTokenType.Q_IMPUTED_WHITESPACE then 1 else 0
      let H4 : OutputHandler :=
        if front.token_type = PvnTokenType.Q_IMPUTED_WHITESPACE then
          { H3 with
            pending_char_count := H3.pending_char_count - (front.text.length : Int) }
        else H3
      some (SalientReformatHandler.writeLine H4 first_piece processed_indent)

/-- The loop `while (!output_pieces.empty()) ProcessPending();` for a `ProcessPending`
given as `step`; `none` when `step` aborts or the fuel runs out first. -/
def drainLoop (step : OutputHandler → Option OutputHandler) :
    Nat → OutputHandler → Option OutputHandler
  | 0, H => if H.output_pieces.isEmpty then some H else none
  | fuel + 1, H =>
    if H.output_pieces.isEmpty then some H
    else
      match step H with
      | none => none
      | some H1 => drainLoop step fuel H1

/-- The common tail of the two reformatting `OutputLines`: `ProcessPending()`, the drain
loop, then the closing `ProcessBlankLines()` when the genre changes; `none` on an abort
(a failed `PVN_CHECK` included). -/
def flushPending (step blank : OutputHandler → Option OutputHandler) (fuel : Nat)
    (next_genre_state : WalkerTransition) (H : OutputHandler) : Option OutputHandler :=
  let some_output := !H.output_pieces.isEmpty
  match step H with
  | none => none
  | some H1 =>
    match drainLoop step fuel H1 with
    | none => none
    | some H2 =>
      if some_output ∧ next_genre_state.destination_genre ≠ ParsingGenre.kNone ∧
          next_genre_state.destination_genre ≠ H2.entry_genre_state.destination_genre then
        if H2.output_pieces.isEmpty then blank H2 else none
      else some H2

/-- The method `QuarrelReformatHandler::OutputLines`; `fuel` bounds the iterations of its
`while` loop. -/
def QuarrelReformatHandler.OutputLines (fuel : Nat) (full_flush : Bool)
    (next_genre_state : WalkerTransition) (H : OutputHandler) : Option OutputHandler :=
  if !full_flush then some H
  else
    let imf1 : InterModeFormatting :=
      { H.inter_mode_formatting with
        one_line_max_length := kNormalMaxLineChars,
        multi_line_max_length := kNormalMaxLineChars,
        append_newline := true,
        destination_token_index := toSsize next_genre_state.token_index }
    let imf2 : InterModeFormatting :=
      if next_genre_state.destination_genre = ParsingGenre.kSalient ∧
          next_genre_state.destination_subgenre = TextualSubGenre.kTextualRight then
        { imf1 with
          multi_line_max_length := kTextualRightCommentColumn - 1,
          append_newline := false }
      else imf1
    flushPending QuarrelReformatHandler.ProcessPending
      QuarrelReformatHandler.ProcessBlankLines fuel next_genre_state
      { H with flush_at_next_token := FlushReason.kNone, inter_mode_formatting := imf2 }

/-- The method `SalientReformatHandler::OutputLines`; `fuel` bounds the iterations of its
`while` loop. -/
def SalientReformatHandler.OutputLines (fuel : Nat) (full_flush : Bool)
    (next_genre_state : WalkerTransition) (H : OutputHandler) : Option OutputHandler :=
  if !full_flush then some H
  else
    let imf1 : InterModeFormatting :=
      { H.inter_mode_formatting with
        one_line_max_length := kNormalMaxLineChars,
        multi_line_max_length := kNormalMaxLineChars,
        append_newline := true,
        destination_token_index := toSsize next_genre_state.token_index }
    let imf2 : InterModeFormatting :=
      if H.entry_genre_state.destination_genre ≠ ParsingGenre.kNone ∧
          H.entry_genre_state.destination_subgenre = TextualSubGenre.kTextualRight then
        { imf1 with
          one_line_max_length := kColumnCommentWidth - 2,
          multi_line_max_length := kColumnCommentWidth }
      else if H.entry_genre_state.destination_genre ≠ ParsingGenre.kNone ∧
          H.entry_genre_state.destination_subgenre = TextualSubGenre.kTextualIndent then
        { imf1 with
          one_line_max_length := kNormalMaxLineChars - imf1.contextual_indent_column,
          multi_line_max_length := kNormalMaxLineChars - imf1.contextual_indent_column }
      else imf1
    flushPending SalientReformatHandler.ProcessPending
      SalientReformatHandler.ProcessBlankLines fuel next_genre_state
      { H with flush_at_next_token := FlushReason.kNone, inter_mode_formatting := imf2 }

/-- The method `QuarrelToHtmlHandler::OutputLines`. -/
def QuarrelToHtmlHandler.OutputLines (full_flush : Bool)
    (_next_genre_state : WalkerTransition) (H : OutputHandler) : OutputHandler :=
  if !full_flush then H
  else
    let end_piece : Int := (H.output_pieces.length : Int)
    CommonReformatter.DropFrontN end_piece
      { H with out_stream := H.out_stream ++ piecesText H.output_pieces }

/-- The method `SalientToHtmlHandler::OutputLines`. -/
def SalientToHtmlHandler.OutputLines (full_flush : Bool)
    (_next_genre_state : WalkerTransition) (H : OutputHandler) : OutputHandler :=
  if !full_flush then H
  else
    let end_piece : Int := (H.output_pieces.length : Int)
    CommonReformatter.DropFrontN end_piece
      { H with out_stream := H.out_stream ++ piecesText H.output_pieces }

/-- The whitespace width as the specification words it: the specific-pair entry for
`(last, new_type)` if present, else the any-to-specific entry for `new_type`, else the
specific-to-any entry for `last`, else 1. -/
def specIntraChars (maps : WhitespaceMaps) (last new_type : PvnTokenType) : Int :=
  match maps.specific_specific_whitespace_map.lookup (last, new_type) with
  | some v => v
  | none =>
    match maps.any_specific_whitespace_map.lookup new_type with
    | some v => v
    | none =>
      match maps.specific_any_whitespace_map.lookup last with
      | some v => v
      | none => 1

/-- The number of line ends in a piece of output. -/
def newlineCount (out : List Char) : Nat := out.count '\n'

/-- The indent as the specification words it: `max(0, 3 * (statement nesting +
expression nesting) - 3 * r)`, `r` being 1 when the first buffered piece is a
`CLOSE_STMT` or a `CONTRACT_UNARY` token. -/
def specIndentSpaces (statement_nesting expression_nesting : Int)
    (front_type : PvnTokenType) : Int :=
  max 0 (3 * (statement_nesting + expression_nesting) -
    3 * (if front_type = PvnTokenType.CLOSE_STMT ∨ front_type = PvnTokenType.CONTRACT_UNARY
         then 1 else 0))

/-- A Salient handler in master text, as `OutputLines` prepares it (line lengths 96), that
holds the two words `aaaa` and `bbbb` with the imputed blank between them, at list
nesting `nest`. -/
def twoWordHandler (nest : Int) : OutputHandler :=
  { output_pieces :=
      [{ text := ['a', 'a', 'a', 'a'], token_index := 0,
         coarse_properties_before := { statement_nest_level := nest },
         coarse_properties_at := { statement_nest_level := nest },
         token_type := PvnTokenType.other 0 },
       { text := [' '], token_index := -1,
         coarse_properties_before := { statement_nest_level := nest },
         coarse_properties_at := { statement_nest_level := nest },
         token_type := PvnTokenType.Q_IMPUTED_WHITESPACE },
       { text := ['b', 'b', 'b', 'b'], token_index := 1,
         coarse_properties_before := { statement_nest_level := nest },
         coarse_properties_at := { statement_nest_level := nest },
         token_type := PvnTokenType.other 0 }],
    pending_char_count := 9,
    prevailing_properties := { statement_nest_level := nest },
    tokens := [{ type := PvnTokenType.other 0, text := ['a', 'a', 'a', 'a'], tokenIndex := 0 },
               { type := PvnTokenType.other 0, text := ['b', 'b', 'b', 'b'], tokenIndex := 1 }],
    numberOfOnChannelTokens := 2,
    inter_mode_formatting :=
      { one_line_max_length := 96, multi_line_max_length := 96, append_newline := true,
        destination_token_index := -4 },
    entry_genre_state :=
      { token_index := 0, destination_genre := ParsingGenre.kSalient,
        destination_subgenre := TextualSubGenre.kMaster } }

/-- The members of a handler that a flush only reads: the token stream, the entry genre
state and the destination token index; and the flush reason, which only `OutputLines`
itself sets. `sameSetting H H1` says that `H1` has them as `H` has. -/
def sameSetting (H H1 : OutputHandler) : Prop :=
  H1.tokens = H.tokens ∧ H1.numberOfOnChannelTokens = H.numberOfOnChannelTokens ∧
  H1.entry_genre_state = H.entry_genre_state ∧
  H1.flush_at_next_token = H.flush_at_next_token ∧
  H1.inter_mode_formatting.destination_token_index =
    H.inter_mode_formatting.destination_token_index

/-- What a full flush keeps true of the handler while it drains the buffer: the token
stream is `tokens` and the destination token index is `dest`, the flush reason is reset,
every buffered piece names a token of the stream, the buffer size fits an `int`, and an
empty buffer has character count 0. -/
def flushInvariant (tokens : List Token) (dest : Int) (H : OutputHandler) : Prop :=
  H.tokens = tokens ∧ H.inter_mode_formatting.destination_token_index = dest ∧
  H.flush_at_next_token = FlushReason.kNone ∧
  (∀ p ∈ H.output_pieces, p.token_index ≤ (tokens.length : Int)) ∧
  H.output_pieces.length < 2 ^ 31 ∧
  (H.output_pieces = [] → H.pending_char_count = 0)

/-- The frames of a walker belong to the walk of `t`: the bottom frame is `t`, and with
no frame the current node, if any, is `t` itself. -/
def StepwiseParseTreeWalker.rootedAt (t : ParseTree) (w : StepwiseParseTreeWalker) : Prop :=
  (w.node_stack_ = [] → w.current_node_ = none ∨ w.current_node_ = some t) ∧
  (w.node_stack_ ≠ [] → w.node_stack_.getLast? = some t)

/-! ## File extension (`format/reform_utils.cc`) -/

/-- The call `filename.find_last_of(c)`: the index of the last `c`, `none` for `npos`. -/
def find_last_of (c : Char) : List Char → Option Nat
  | [] => none
  | x :: xs =>
    match find_last_of c xs with
    | some i => some (i + 1)
    | none => if x = c then some 0 else none

/-- The function `util::ChooseModeFromFileExtension`. -/
def ChooseModeFromFileExtension (filename : List Char) : ParsingGenre :=
  match find_last_of '.' filename with
  | none => ParsingGenre.kNone
  | some extension_index =>
    let extension := filename.drop (extension_index + 1)
    if extension = ['p', 'v', 'n'] then ParsingGenre.kQuarrel
    else if extension = ['s', 'v', 't'] then ParsingGenre.kSalient
    else ParsingGenre.kNone

/-- The indentation as the specification words it: the number of `|` characters in the
longest beginning of the text made only of `|`, space and tab characters. -/
def specLeadingBars (token_text : List Char) : Nat :=
  (token_text.takeWhile (fun c => c = '|' || c = ' ' || c = '\t')).count '|'

/-! ## `SalientModeContext::UpdateListNesting` (`grammys/pvn_token.cc`) -/

/-- The call `nested_list_types.resize(n, value)`: the first `n` entries, filled up with
`value` when there are fewer. -/
def resizeListTypes (nested_list_types : List SvtListType) (n : Nat) (value : SvtListType) :
    List SvtListType :=
  nested_list_types.take n ++ List.replicate (n - nested_list_types.length) value

/-- The method `SalientModeContext::UpdateListNesting`, given the marker text and the lexer
member `prev_token_type`: the returned token type and the context after the call; `none`
when `ExtractListType` or a `PVN_CHECK` aborts.  Comparisons of the `int`
`nesting_depth_this_line` with `nested_list_types.size()` convert the former to `size_t`.
The call `SetAuxiliaryTokenType` changes the lexer only. -/
def SalientModeContext.UpdateListNesting (ctx : SalientModeContext) (token_text : List Char)
    (prev_token_type : PvnTokenType) : Option (PvnTokenType × SalientModeContext) :=
  match ExtractListType token_text with
  | none => none
  | some new_list_type =>
    if IsListTokenChainWithNext prev_token_type then
      let ctx1 := { ctx with
        nesting_depth_this_line := ctx.nesting_depth_this_line + 1,
        nested_list_types := ctx.nested_list_types ++ [new_list_type] }
      if ctx1.nested_list_types.length ≠ toSizeT ctx1.nesting_depth_this_line then none
      else if new_list_type = SvtListType.kListBreak then
        some (PvnTokenType.LIST_BREAK_ACTUAL, ctx1)
      else some (PvnTokenType.ITEM_START_FIRST, ctx1)
    else
      let indent_increment : Int :=
        if new_list_type ≠ SvtListType.kNone then
          CalculateIndentation token_text PvnTokenType.ITEM_START_FIRST + 1
        else CalculateIndentation token_text PvnTokenType.ITEM_START_FIRST
      if ¬ (indent_increment > 0) then none
      else
        let ctx1 := { ctx with
          nesting_depth_this_line := ctx.nesting_depth_this_line + indent_increment }
        if toSizeT ctx1.nesting_depth_this_line ≤ ctx1.nested_list_types.length then
          if ctx1.nesting_depth_this_line ≠ indent_increment then none
          else
            let resized := ctx1.nested_list_types.take indent_increment.toNat
            if new_list_type = SvtListType.kNone then
              some (PvnTokenType.INDENT_CONTINUATION,
                { ctx1 with nested_list_types := resized })
            else if resized[indent_increment.toNat - 1]? = some new_list_type then
              some (PvnTokenType.ITEM_START_SUCCEEDING,
                { ctx1 with nested_list_types := resized })
            else if new_list_type = SvtListType.kListBreak then
              some (PvnTokenType.LIST_BREAK_ACTUAL,
                { ctx1 with nested_list_types :=
                    (resized.set (indent_increment.toNat - 1) new_list_type) })
            else
              some (PvnTokenType.ITEM_START_FIRST,
                { ctx1 with nested_list_types :=
                    (resized.set (indent_increment.toNat - 1) new_list_type) })
        else
          if new_list_type = SvtListType.kNone then none
          else if new_list_type = SvtListType.kListBreak then none
          else
            some (PvnTokenType.ITEM_START_FIRST,
              { ctx1 with nested_list_types :=
                  (resizeListTypes ctx1.nested_list_types indent_increment.toNat
                    new_list_type) })

/-- The indent increment as the specification words it: the counted `|` markers, plus 1
when the new list type is not `kNone`. -/
def specIndentIncrement (token_text : List Char) (new_list_type : SvtListType) : Int :=
  (specLeadingBars token_text : Int) + (if new_list_type ≠ SvtListType.kNone then 1 else 0)

/-- The shape of a buffer that `AppendPiece` builds from an empty one out of tokens (whose
types are not `Q_IMPUTED_WHITESPACE`): the first piece is not imputed whitespace, and a
piece of imputed whitespace is always followed by a piece that is not. -/
def wellSpaced (pieces : List OutputPiece) : Prop :=
  isImputedWhitespaceAt pieces 0 = false ∧
  ∀ i, i < pieces.length → isImputedWhitespaceAt pieces i = true →
    (i + 1 < pieces.length ∧ isImputedWhitespaceAt pieces (i + 1) = false)

instance wellSpacedDecidable (pieces : List OutputPiece) : Decidable (wellSpaced pieces) := by
  unfold wellSpaced
  exact inferInstance

/-- The arguments of one call `CommonReformatter::AppendPiece(text, token_type,
token_index, ctx, output_handler)`. -/
structure AppendCall where
  text : List Char
  token_type : PvnTokenType
  token_index : Int
  ctx : ParseTree

/-- Successive calls of `CommonReformatter::AppendPiece` on one handler, in the order of
the list; `none` when one of them aborts. -/
def appendPieces : List AppendCall → OutputHandler → Option OutputHandler
  | [], H => some H
  | call :: calls, H =>
    match CommonReformatter.AppendPiece call.text call.token_type call.token_index
        call.ctx H with
    | none => none
    | some H1 => appendPieces calls H1

/-- The arguments with which the overload `AppendPiece(text, ctx, output_handler)` calls
`AppendPiece` for the terminal node of the token `t`, the text being the token's. -/
def terminalCall (t : Token) : AppendCall :=
  { text := t.text, token_type := t.type, token_index := (t.tokenIndex : Int),
    ctx := ParseTree.terminal t }

/-- A Salient handler in master text over the token list `tokens`, with an empty buffer,
the line lengths that `OutputLines` sets (96) and the coarse properties of the terminal
node of every token recorded. -/
def freshHandler (tokens : List Token) : OutputHandler :=
  { coarse_properties := tokens.map (fun t => (ParseTree.terminal t, ({} : CoarseProperties))),
    tokens := tokens,
    numberOfOnChannelTokens := tokens.length,
    inter_mode_formatting :=
      { one_line_max_length := 96, multi_line_max_length := 96, append_newline := true,
        destination_token_index := -4 },
    entry_genre_state :=
      { token_index := 0, destination_genre := ParsingGenre.kSalient,
        destination_subgenre := TextualSubGenre.kMaster } }

/-- A word token of 50 characters `ch`. -/
def wordToken (ch : Char) (index : Nat) : Token :=
  { type := PvnTokenType.other 0, text := List.replicate 50 ch, tokenIndex := index }

/-- The handler after `AppendPiece` of two words of 50 characters: the buffer holds the
first word, one imputed blank and the second word, 101 characters. -/
def longWords : OutputHandler :=
  (appendPieces [terminalCall (wordToken 'a' 0), terminalCall (wordToken 'b' 1)]
    (freshHandler [wordToken 'a' 0, wordToken 'b' 1])).getD {}

/-- The handler `longWords` after one `SalientReformatHandler::ProcessPending`. -/
def longWordsAfterLine : OutputHandler :=
  (SalientReformatHandler.ProcessPending longWords).getD {}

/-- One call on a handler from outside: `AppendPiece`, `DropFrontN`, or the
`ProcessPending` or `OutputLines` of one of the handler classes. -/
inductive HandlerCall where
  | AppendPiece (call : AppendCall)
  | DropFrontN (n : Int)
  | QuarrelProcessPending
  | SalientProcessPending
  | QuarrelOutputLines (fuel : Nat) (full_flush : Bool) (next_genre_state : WalkerTransition)
  | SalientOutputLines (fuel : Nat) (full_flush : Bool) (next_genre_state : WalkerTransition)
  | QuarrelToHtmlOutputLines (full_flush : Bool) (next_genre_state : WalkerTransition)
  | SalientToHtmlOutputLines (full_flush : Bool) (next_genre_state : WalkerTransition)

/-- The handler after the call; `none` when the call aborts or its loop runs out of
fuel. -/
def HandlerCall.run : HandlerCall → OutputHandler → Option OutputHandler
  | HandlerCall.AppendPiece call, H =>
    CommonReformatter.AppendPiece call.text call.token_type call.token_index call.ctx H
  | HandlerCall.DropFrontN n, H => some (CommonReformatter.DropFrontN n H)
  | HandlerCall.QuarrelProcessPending, H => QuarrelReformatHandler.ProcessPending H
  | HandlerCall.SalientProcessPending, H => SalientReformatHandler.ProcessPending H
  | HandlerCall.QuarrelOutputLines fuel full_flush next_genre_state, H =>
    QuarrelReformatHandler.OutputLines fuel full_flush next_genre_state H
  | HandlerCall.SalientOutputLines fuel full_flush next_genre_state, H =>
    SalientReformatHandler.OutputLines fuel full_flush next_genre_state H
  | HandlerCall.QuarrelToHtmlOutputLines full_flush next_genre_state, H =>
    some (QuarrelToHtmlHandler.OutputLines full_flush next_genre_state H)
  | HandlerCall.SalientToHtmlOutputLines full_flush next_genre_state, H =>
    some (SalientToHtmlHandler.OutputLines full_flush next_genre_state H)

/-- Successive calls on one handler, in the order of the list. -/
def runCalls : List HandlerCall → OutputHandler → Option OutputHandler
  | [], H => some H
  | call :: calls, H =>
    match call.run H with
    | none => none
    | some H1 => runCalls calls H1

/-- The rule indices of `QvlParser` that the code-pass listener distinguishes. -/
structure QvlRules where
  RuleOpenStmt : Nat
  RuleCloseStmt : Nat
  RuleSpliceStmt : Nat
  RuleExpression : Nat
  deriving DecidableEq, Repr

/-- The members of `CoarseSkimQuarrelListener`, as its constructor initialises them; the
deque `nesting_stack_` has its front at the head of the list. -/
structure CoarseSkimQuarrelListener where
  coarse_properties_ : AltParseTreeProperty CoarseProperties := []
  summarizer_results_ : SummarizerResults := {}
  statement_nest_level_ : Int := 0
  cumulative_statement_level_ : Int := 0
  expression_nest_level_ : Int := 0
  nesting_stack_ : List (Int × Int) := []
  is_within_closures_ : Bool := false

/-- The method `CoarseSkimQuarrelListener::enterExpression`. -/
def CoarseSkimQuarrelListener.enterExpression (L : CoarseSkimQuarrelListener) :
    CoarseSkimQuarrelListener :=
  { L with expression_nest_level_ := L.expression_nest_level_ + 1 }

/-- The method `CoarseSkimQuarrelListener::ManagedExitExpression`. -/
def CoarseSkimQuarrelListener.ManagedExitExpression (L : CoarseSkimQuarrelListener) :
    CoarseSkimQuarrelListener :=
  { L with expression_nest_level_ := max 0 (L.expression_nest_level_ - 1) }

/-- The method `CoarseSkimQuarrelListener::enterOpenStmt`. -/
def CoarseSkimQuarrelListener.enterOpenStmt (L : CoarseSkimQuarrelListener) :
    CoarseSkimQuarrelListener :=
  let L1 :=
    if L.expression_nest_level_ ≠ 0 then
      { L with
        nesting_stack_ :=
          (L.statement_nest_level_, L.expression_nest_level_) :: L.nesting_stack_,
        statement_nest_level_ := 0,
        expression_nest_level_ := 0 }
    else { L with statement_nest_level_ := L.statement_nest_level_ + 1 }
  { L1 with cumulative_statement_level_ := L1.cumulative_statement_level_ + 1 }

/-- The method `CoarseSkimQuarrelListener::ManagedExitCloseStmt`. -/
def CoarseSkimQuarrelListener.ManagedExitCloseStmt (L : CoarseSkimQuarrelListener) :
    CoarseSkimQuarrelListener :=
  let L1 :=
    if L.statement_nest_level_ ≠ 0 then
      { L with statement_nest_level_ := L.statement_nest_level_ - 1 }
    else
      match L.nesting_stack_ with
      | pair :: rest =>
        { L with
          nesting_stack_ := rest,
          statement_nest_level_ := pair.1,
          expression_nest_level_ := pair.2 }
      | [] => L
  { L1 with cumulative_statement_level_ := L1.cumulative_statement_level_ - 1 }

/-- The method `CoarseSkimQuarrelListener::visitTerminal`. -/
def CoarseSkimQuarrelListener.visitTerminal (L : CoarseSkimQuarrelListener)
    (ctx : ParseTree) : CoarseSkimQuarrelListener :=
  let cpp_makes_moving_fragile : CoarseProperties :=
    { is_closure := false,
      statement_nest_level := L.statement_nest_level_,
      cumulative_statement_level := L.cumulative_statement_level_,
      expression_nest_level := L.expression_nest_level_,
      nesting_stack_depth := toInt32 (L.nesting_stack_.length : Int) }
  { L with
    is_within_closures_ := false,
    coarse_properties_ := L.coarse_properties_.put ctx cpp_makes_moving_fragile }

/-- The method `CoarseSkimQuarrelListener::enterEveryRule`. -/
def CoarseSkimQuarrelListener.enterEveryRule (L : CoarseSkimQuarrelListener)
    (ctx : ParseTree) : CoarseSkimQuarrelListener :=
  { L with
    coarse_properties_ := L.coarse_properties_.put ctx {},
    is_within_closures_ := false }

/-- The method `CoarseSkimQuarrelListener::exitEveryRule`; `none` when the `get`
aborts. -/
def CoarseSkimQuarrelListener.exitEveryRule (rules : QvlRules)
    (L : CoarseSkimQuarrelListener) (ctx : ParseTree) (ruleIndex : Nat) :
    Option CoarseSkimQuarrelListener :=
  let closed : CoarseSkimQuarrelListener × Bool :=
    if ruleIndex = rules.RuleCloseStmt ∨ ruleIndex = rules.RuleSpliceStmt then
      (L.ManagedExitCloseStmt, true)
    else if ruleIndex = rules.RuleExpression then (L.ManagedExitExpression, true)
    else (L, false)
  let L1 := { closed.1 with
    is_within_closures_ := closed.1.is_within_closures_ || closed.2 }
  match L1.coarse_properties_.get ctx with
  | none => none
  | some got =>
    let cpp_makes_moving_fragile : CoarseProperties :=
      { got with
        is_closure := L1.is_within_closures_,
        statement_nest_level := L1.statement_nest_level_,
        cumulative_statement_level := L1.cumulative_statement_level_,
        expression_nest_level := L1.expression_nest_level_,
        nesting_stack_depth := toInt32 (L1.nesting_stack_.length : Int) }
    some { L1 with
      coarse_properties_ := L1.coarse_properties_.put ctx cpp_makes_moving_fragile }

/-- One callback of the skim walk delivered to the `CoarseSkimQuarrelListener`.  The
walker's `enterRule` calls `enterEveryRule` and then the rule's own `enterRule`, which
reaches `enterOpenStmt` or `enterExpression`; its `exitRule` ends with `exitEveryRule`
(the listener overrides no `exit` method of a rule).  An error node goes to
`visitErrorNode`, which the listener does not override. -/
def CoarseSkimQuarrelListener.deliver (rules : QvlRules) (L : CoarseSkimQuarrelListener) :
    Callback → Option CoarseSkimQuarrelListener
  | .enterRule (.rule r s cs) =>
    let L1 := L.enterEveryRule (.rule r s cs)
    if r = rules.RuleOpenStmt then some L1.enterOpenStmt
    else if r = rules.RuleExpression then some L1.enterExpression
    else some L1
  | .exitRule (.rule r s cs) => L.exitEveryRule rules (.rule r s cs) r
  | .visitTerminal (.terminal symbol) => some (L.visitTerminal (.terminal symbol))
  | _ => some L

/-- The callbacks of a walk delivered in order; `none` as soon as one aborts. -/
def CoarseSkimQuarrelListener.deliverAll (rules : QvlRules) :
    CoarseSkimQuarrelListener → List Callback → Option CoarseSkimQuarrelListener
  | L, [] => some L
  | L, e :: es =>
    match L.deliver rules e with
    | none => none
    | some L1 => CoarseSkimQuarrelListener.deliverAll rules L1 es

/-- The skim pass of `PerformConversion` over the quarrel tree:
`walker.walk(&quarrel_summarizer_listener, quarrel_tree)` with a fresh listener. -/
def quarrelSkim (rules : QvlRules) (quarrel_tree : ParseTree) :
    Option CoarseSkimQuarrelListener :=
  CoarseSkimQuarrelListener.deliverAll rules {} (recursiveWalk quarrel_tree)

/-! ## The code-mode lexer context (`grammys/pvn_token.h`) -/

/-- What `QuarrelModeContext::HandleEntry` reads and sets of the `antlr4::Lexer`: the
mode, and the position `getCharPositionInLine()`, `getLine()`. -/
structure LexerPosition where
  mode : Int := 0
  charPositionInLine : Nat := 0
  line : Nat := 1
  deriving DecidableEq, Repr

/-- The members of `QuarrelModeContext` and of its base `AbstractModeContext`, as the
default constructor initialises them; the `forward_list` `nesting_stack_` has its front
at the head of the list. -/
structure QuarrelModeContext where
  channel_ : Nat := 0
  lexer_mode_ : Int := -1
  preceding_q_nl_marker_col_ : Int := 0
  preceding_q_nl_marker_line_ : Int := 1
  q_statement_nesting_ : Int := 0
  q_parens_nesting_ : Int := 0
  nesting_stack_ : List (Int × Int) := []
  deriving DecidableEq, Repr

/-- The method `QuarrelModeContext::NestStatements`. -/
def QuarrelModeContext.NestStatements (c : QuarrelModeContext) : QuarrelModeContext :=
  if c.q_parens_nesting_ ≠ 0 then
    { c with
      nesting_stack_ := (c.q_statement_nesting_, c.q_parens_nesting_) :: c.nesting_stack_,
      q_statement_nesting_ := 0,
      q_parens_nesting_ := 0 }
  else { c with q_statement_nesting_ := c.q_statement_nesting_ + 1 }

/-- The method `QuarrelModeContext::DeNestStatements`. -/
def QuarrelModeContext.DeNestStatements (c : QuarrelModeContext) : QuarrelModeContext :=
  if c.q_statement_nesting_ ≠ 0 then
    { c with q_statement_nesting_ := c.q_statement_nesting_ - 1 }
  else
    match c.nesting_stack_ with
    | pair :: rest =>
      { c with
        nesting_stack_ := rest,
        q_statement_nesting_ := pair.1,
        q_parens_nesting_ := pair.2 }
    | [] => c

/-- The method `QuarrelModeContext::ClampedDecr_q_parens_nesting`. -/
def QuarrelModeContext.ClampedDecr_q_parens_nesting (c : QuarrelModeContext) :
    QuarrelModeContext :=
  { c with q_parens_nesting_ := max 0 (c.q_parens_nesting_ - 1) }

/-- The method `QuarrelModeContext::Incr_q_parens_nesting`, whose body is that of
`ClampedDecr_q_parens_nesting`. -/
def QuarrelModeContext.Incr_q_parens_nesting (c : QuarrelModeContext) :
    QuarrelModeContext :=
  { c with q_parens_nesting_ := max 0 (c.q_parens_nesting_ - 1) }

/-- The method `QuarrelModeContext::MoveGNewStatementMarker`. -/
def QuarrelModeContext.MoveGNewStatementMarker (c : QuarrelModeContext)
    (lexer : LexerPosition) : QuarrelModeContext :=
  { c with
    preceding_q_nl_marker_col_ := toInt32 (lexer.charPositionInLine : Int),
    preceding_q_nl_marker_line_ := toInt32 (lexer.line : Int) }

/-- The method `QuarrelModeContext::HandleEntry`: the context, the lexer and the token
factory of the customization after the call. -/
def QuarrelModeContext.HandleEntry (c : QuarrelModeContext)
    (_sub_genre__unused : TextualSubGenre) (lexer : LexerPosition)
    (custom_token_factory : CustomizedTokenFactory) :
    QuarrelModeContext × LexerPosition × CustomizedTokenFactory :=
  let factory1 := custom_token_factory.SetDeferredCustomChannel c.channel_
  let lexer1 := { lexer with mode := c.lexer_mode_ }
  let c1 := if c.q_parens_nesting_ = 0 then c.MoveGNewStatementMarker lexer1 else c
  (c1, lexer1, factory1)

/-- One call on a `QuarrelModeContext`; `HandleEntry` comes with the lexer and the token
factory it is called with. -/
inductive QuarrelModeCall where
  | NestStatements
  | DeNestStatements
  | Incr_q_parens_nesting
  | ClampedDecr_q_parens_nesting
  | HandleEntry (sub_genre : TextualSubGenre) (lexer : LexerPosition)
      (custom_token_factory : CustomizedTokenFactory)
  deriving DecidableEq, Repr

/-- The context after the call. -/
def QuarrelModeCall.run : QuarrelModeCall → QuarrelModeContext → QuarrelModeContext
  | QuarrelModeCall.NestStatements, c => c.NestStatements
  | QuarrelModeCall.DeNestStatements, c => c.DeNestStatements
  | QuarrelModeCall.Incr_q_parens_nesting, c => c.Incr_q_parens_nesting
  | QuarrelModeCall.ClampedDecr_q_parens_nesting, c => c.ClampedDecr_q_parens_nesting
  | QuarrelModeCall.HandleEntry sub_genre lexer custom_token_factory, c =>
    (c.HandleEntry sub_genre lexer custom_token_factory).1

/-- The context after successive calls, in the order of the list. -/
def QuarrelModeContext.afterCalls (c : QuarrelModeContext) (calls : List QuarrelModeCall) :
    QuarrelModeContext :=
  calls.foldl (fun ctx call => call.run ctx) c

/-- The triple that the code-pass skim tracks: statement nesting, expression nesting and
the stack of saved pairs. -/
def CoarseSkimQuarrelListener.triple (L : CoarseSkimQuarrelListener) :
    Int × Int × List (Int × Int) :=
  (L.statement_nest_level_, L.expression_nest_level_, L.nesting_stack_)

/-- The triple that the code-mode lexer context tracks: statement nesting, parenthesis
nesting and the stack of saved pairs. -/
def QuarrelModeContext.triple (c : QuarrelModeContext) : Int × Int × List (Int × Int) :=
  (c.q_statement_nesting_, c.q_parens_nesting_, c.nesting_stack_)

/-! ## Nodes of a parse tree -/

mutual
/-- The nodes of a tree, in pre-order. -/
def treeNodes : ParseTree → List ParseTree
  | .rule r s cs => ParseTree.rule r s cs :: treeNodesList cs
  | .terminal t => [ParseTree.terminal t]
  | .errorNode t => [ParseTree.errorNode t]
/-- The nodes of a list of siblings and of their subtrees, in pre-order. -/
def treeNodesList : List ParseTree → List ParseTree
  | [] => []
  | c :: cs => treeNodes c ++ treeNodesList cs
end

/-- The number of nodes of a tree. -/
def nodeCount (t : ParseTree) : Nat := (treeNodes t).length

/-- Whether no node of the tree is an error node. -/
def hasNoErrorNode (t : ParseTree) : Bool := (treeNodes t).all (fun n => !isErrorNode n)

mutual
/-- The symbols of the terminal nodes of a tree that the walk hands to `visitTerminal`
(error nodes go to `visitErrorNode`), in walk order. -/
def visitedTokens : ParseTree → List Token
  | .rule _ _ cs => visitedTokensList cs
  | .terminal t => [t]
  | .errorNode _ => []
/-- The symbols of the visited terminal nodes of a list of siblings, in walk order. -/
def visitedTokensList : List ParseTree → List Token
  | [] => []
  | c :: cs => visitedTokens c ++ visitedTokensList cs
end

/-- The `quarrel_to_salient` transition of a terminal as the specification words it: one
for a `LEAVE_CODE` or `ENTER_TEXTUAL` terminal, to genre `kSalient` with sub-genre
`kTextualLeft` for the text `;;;`, `kTextualIndent` for `;;`, `kTextualRight` for `;` and
`kMaster` for any other text, carrying the token index; none for another terminal. -/
def specQuarrelToSalient (symbol : Token) : List WalkerTransition :=
  if symbol.type = PvnTokenType.LEAVE_CODE ∨ symbol.type = PvnTokenType.ENTER_TEXTUAL then
    [{ token_index := symbol.tokenIndex,
       destination_genre := ParsingGenre.kSalient,
       destination_subgenre :=
         if symbol.text = [';', ';', ';'] then TextualSubGenre.kTextualLeft
         else if symbol.text = [';', ';'] then TextualSubGenre.kTextualIndent
         else if symbol.text = [';'] then TextualSubGenre.kTextualRight
         else TextualSubGenre.kMaster }]
  else []

/-- The `salient_to_quarrel` transition of a terminal as the specification words it: one
for a `NEWLINE_ENTER_CODE` or `LEAVE_TEXTUAL` terminal, to genre `kQuarrel` with sub-genre
`kMaster`, carrying the token index; none for another terminal. -/
def specSalientToQuarrel (symbol : Token) : List WalkerTransition :=
  if symbol.type = PvnTokenType.NEWLINE_ENTER_CODE ∨
      symbol.type = PvnTokenType.LEAVE_TEXTUAL then
    [{ token_index := symbol.tokenIndex,
       destination_genre := ParsingGenre.kQuarrel,
       destination_subgenre := TextualSubGenre.kMaster }]
  else []

/-! ## `QuarrelReformatListener` (`format/reform_listeners.cc`) -/

/-- The method `QuarrelReformatListener::MaybeOutputLines` on a terminal with the given
symbol: the handler `handler_` after the call; `fuel` bounds the loop of `OutputLines`. -/
def QuarrelReformatListener.MaybeOutputLines (fuel : Nat) (handler_ : OutputHandler)
    (symbol : Token) : Option OutputHandler :=
  let grammar_flush : Bool :=
    match handler_.flush_at_next_token with
    | FlushReason.kCloseStatement =>
      if symbol.type ≠ PvnTokenType.CLOSE_STMT then true else false
    | FlushReason.kOpenPattern => true
    | _ => if symbol.type = PvnTokenType.CLOSE_STMT then true else false
  QuarrelReformatHandler.OutputLines fuel grammar_flush {} handler_

/-! ## The steps of a walk -/

mutual
/-- The steps of the walk of a subtree as the specification words them: each node gets
one outer (pre-order) step, marked `true`, before the steps of its children, and one
inner (post-order) step, marked `false`, after them. -/
def specWalkSteps : ParseTree → List (ParseTree × Bool)
  | .rule r s cs =>
    (ParseTree.rule r s cs, true) :: (specWalkStepsList cs ++ [(ParseTree.rule r s cs, false)])
  | .terminal t => [(ParseTree.terminal t, true), (ParseTree.terminal t, false)]
  | .errorNode t => [(ParseTree.errorNode t, true), (ParseTree.errorNode t, false)]
/-- The steps of the walks of a list of siblings, left to right. -/
def specWalkStepsList : List ParseTree → List (ParseTree × Bool)
  | [] => []
  | c :: cs => specWalkSteps c ++ specWalkStepsList cs
end

/-- What the next `n` calls of `WalkStep` work on: for each call that finds a current
node, that node and the value of `in_outer_walk_` at the call. -/
def StepwiseParseTreeWalker.stepTrace :
    Nat → StepwiseParseTreeWalker → List (ParseTree × Bool)
  | 0, _ => []
  | n + 1, w =>
    match w.current_node_ with
    | none => []
    | some node => (node, w.in_outer_walk_) :: StepwiseParseTreeWalker.stepTrace n w.WalkStep.2

/-- The steps of a node's walk up to, and without, its inner step. -/
def preWalkSteps : ParseTree → List (ParseTree × Bool)
  | .rule r s cs => (ParseTree.rule r s cs, true) :: specWalkStepsList cs
  | .terminal t => [(ParseTree.terminal t, true)]
  | .errorNode t => [(ParseTree.errorNode t, true)]

/-- The steps still to come from a walker whose current node awaits its inner step,
given the frame stacks and the sibling index. -/
def pendingInnerSteps : ParseTree → List ParseTree → List Nat → Nat → List (ParseTree × Bool)
  | node, [], _, _ => [(node, false)]
  | node, parent :: rest, istack, i =>
    (node, false) :: (specWalkStepsList ((GetChildren parent).drop (i + 1)) ++
      pendingInnerSteps parent rest istack.tail (istack.headD 0))

/-- The steps still to come from a walker state. -/
def pendingSteps (w : StepwiseParseTreeWalker) : List (ParseTree × Bool) :=
  match w.current_node_ with
  | none => []
  | some node =>
    if w.in_outer_walk_ then
      preWalkSteps node ++ pendingInnerSteps node w.node_stack_ w.index_stack_ w.current_index_
    else pendingInnerSteps node w.node_stack_ w.index_stack_ w.current_index_

/-! ## HTML output (`format/base_handler.h`, `format/styling_data.cc`,
`format/reform_handlers.h`, `format/reform_listeners.cc`) -/

/-- How a call ends that can abort: with a value, or with an index outside a vector, a
failed `PVN_CHECK`, or the loop bound of the model reached. -/
inductive Outcome (α : Type) where
  | ok (value : α)
  | outOfRange
  | checkFailed
  | outOfFuel
  deriving DecidableEq, Repr

/-- The value of an outcome, changed by `f`. -/
def Outcome.map {α β : Type} (f : α → β) : Outcome α → Outcome β
  | Outcome.ok value => Outcome.ok (f value)
  | Outcome.outOfRange => Outcome.outOfRange
  | Outcome.checkFailed => Outcome.checkFailed
  | Outcome.outOfFuel => Outcome.outOfFuel

/-- The enum `util::RuleCategory`. -/
inductive RuleCategory where
  | kNone
  | kCustom
  | kLexerToken
  | kQuarrelParser
  | kSalientParser
  | kRostrumParser
  deriving DecidableEq, Repr

/-- The enum `util::CustomCategoryId`. -/
inductive CustomCategoryId where
  | kInvalid
  | kDocumentOuter
  | kDocumentSection
  | kDocumentHeading
  | kTocEnclosure
  | kTocList
  | kTocItem
  | kItemInner
  | kListSimpleItemClass
  | kListCompactItemClass
  | kListBlockItemClass
  | kListCompactListClass
  | kListBlockListClass
  | kListAttachedClass
  | kListDetachedClass
  deriving DecidableEq, Repr

/-- The value `static_cast<const int>(custom_id)`. -/
def CustomCategoryId.toInt : CustomCategoryId → Int
  | kInvalid => 0
  | kDocumentOuter => 1
  | kDocumentSection => 2
  | kDocumentHeading => 3
  | kTocEnclosure => 4
  | kTocList => 5
  | kTocItem => 6
  | kItemInner => 7
  | kListSimpleItemClass => 8
  | kListCompactItemClass => 9
  | kListBlockItemClass => 10
  | kListCompactListClass => 11
  | kListBlockListClass => 12
  | kListAttachedClass => 13
  | kListDetachedClass => 14

/-- The overload `util::MakeContentMapKey(category, custom_id)`. -/
def MakeContentMapKey (category : RuleCategory) (custom_id : CustomCategoryId) :
    RuleCategory × Int :=
  (category, custom_id.toInt)

/-- The class `util::FormatContentMap`: the entries, each a key with its pair of
strings. -/
abbrev FormatContentMap := List ((RuleCategory × Int) × (List Char × List Char))

/-- The method `FormatContentMap::Get`. -/
def FormatContentMap.Get (m : FormatContentMap) (key : RuleCategory × Int) :
    Option (List Char × List Char) :=
  (m.find? (fun entry => entry.1 = key)).map (fun entry => entry.2)

/-- The constant `kHtmlHeadStart` of `util::CreateHtmlPairMap`. -/
def kHtmlHeadStart : List Char :=
  ("<!DOCTYPE html>\n" ++
   "<html xmlns=\"http://www.w3.org/1999/xhtml\" lang=\"\" xml:lang=\"\">\n" ++
   "<head>\n" ++
   "  <meta charset=\"utf-8\" />\n" ++
   "  <meta name=\"generator\" content=\"salient\" />\n" ++
   "  <link " ++
   "href=\"https://fonts.googleapis.com/" ++
   "css?family=Gentium+Basic:400,400i,700|IBM+Plex+Mono:400,400i,600,600i|" ++
   "IBM+Plex:400,400i,600,600i&" ++
   "display=swap&subset=latin-ext\" rel=\"stylesheet\">\n" ++
   "<link rel=\"stylesheet\" href=\"salient-basic.css\">\n" ++
   "  <title>$0</title>\n" ++
   "  <style>\n" ++
   "  </style>\n" ++
   "</head>\n" ++
   "<body>\n" ++
   "<header>\n" ++
   "<h1 class=\"title\">$0</h1>\n" ++
   "</header>\n").toList

/-- The constant `kHtmlHeadFinish` of `util::CreateHtmlPairMap`. -/
def kHtmlHeadFinish : List Char := "</body>\n</html>\n".toList

/-- The map that `util::CreateHtmlPairMap` builds, as far as its keys are custom
categories; the entries keyed by parser rules and by lexer tokens, which neither
`OutputToc` nor the heading methods look up, are left out. -/
def CreateHtmlPairMap : FormatContentMap :=
  [(MakeContentMapKey RuleCategory.kCustom CustomCategoryId.kDocumentOuter,
      (kHtmlHeadStart, kHtmlHeadFinish)),
   (MakeContentMapKey RuleCategory.kCustom CustomCategoryId.kDocumentSection,
      ("<section id=\x27$1\x27 class=\x27level$0\x27>\n".toList, [])),
   (MakeContentMapKey RuleCategory.kCustom CustomCategoryId.kDocumentHeading,
      ("<H$0>$1</H$0>\n".toList, [])),
   (MakeContentMapKey RuleCategory.kCustom CustomCategoryId.kTocEnclosure,
      (("<nav class=\x27toc\x27><div class=\x27text-narrowing\x27><span " ++
        "class=\x27sidepiece\x27>").toList,
       "\n</span></div></nav>\n".toList)),
   (MakeContentMapKey RuleCategory.kCustom CustomCategoryId.kTocList,
      ("\n$0<ul>".toList, "\n$0</ul>".toList)),
   (MakeContentMapKey RuleCategory.kCustom CustomCategoryId.kTocItem,
      ("\n$0<li><a target=\x27_self\x27 href=\x27#$1\x27>$2</a>".toList, "</li>".toList)),
   (MakeContentMapKey RuleCategory.kCustom CustomCategoryId.kItemInner,
      ("<li class=\x27$0\x27>".toList, "\n</li>".toList)),
   (MakeContentMapKey RuleCategory.kCustom CustomCategoryId.kListSimpleItemClass,
      ("item-simple".toList, [])),
   (MakeContentMapKey RuleCategory.kCustom CustomCategoryId.kListCompactItemClass,
      ("item-compact".toList, [])),
   (MakeContentMapKey RuleCategory.kCustom CustomCategoryId.kListBlockItemClass,
      ("item-spacious".toList, [])),
   (MakeContentMapKey RuleCategory.kCustom CustomCategoryId.kListCompactListClass,
      ("list-compact".toList, [])),
   (MakeContentMapKey RuleCategory.kCustom CustomCategoryId.kListBlockListClass,
      ("list-spacious".toList, [])),
   (MakeContentMapKey RuleCategory.kCustom CustomCategoryId.kListAttachedClass,
      ("attached-list".toList, [])),
   (MakeContentMapKey RuleCategory.kCustom CustomCategoryId.kListDetachedClass,
      ("detached-list".toList, []))]

/-- The library function `absl::Substitute` on a format in which every `$` is followed
by a digit or by `$`, as in all formats of this program: `$0` to `$9` stand for the
arguments and `$$` for `$`; a missing argument reads as empty. -/
def Substitute : List Char → List (List Char) → List Char
  | [], _ => []
  | [c], _ => [c]
  | c :: d :: rest, args =>
    if c = '$' then
      if d.isDigit then args.getD (d.toNat - 48) [] ++ Substitute rest args
      else d :: Substitute rest args
    else c :: Substitute (d :: rest) args

/-- The decimal text of an `int` argument of `absl::Substitute`. -/
def intText (n : Int) : List Char := (toString n).toList

/-- The text `std::string(n, ' ')` for a count that is not negative. -/
def spaces (n : Int) : List Char := List.replicate n.toNat ' '

/-- The library function `absl::SimpleAtoi` for an `int`: optional blanks around an
optional sign and at least one decimal digit, within the range of `int`; `none` when it
returns false. -/
def SimpleAtoi (text : List Char) : Option Int :=
  let trimmed := ((text.dropWhile Char.isWhitespace).reverse.dropWhile
    Char.isWhitespace).reverse
  let signed : Bool × List Char :=
    match trimmed with
    | '-' :: digits => (true, digits)
    | '+' :: digits => (false, digits)
    | digits => (false, digits)
  if signed.2 = [] ∨ signed.2.all Char.isDigit = false then none
  else
    let magnitude : Int :=
      signed.2.foldl (fun value c => 10 * value + ((c.toNat - 48 : Nat) : Int)) 0
    let value := if signed.1 then -magnitude else magnitude
    if -2 ^ 31 ≤ value ∧ value < 2 ^ 31 then some value else none

/-- The constant `Heading::kTocHeadingLevel`. -/
def kTocHeadingLevel : Int := -1

/-- The text `"</section>\n"` that `CloseSectionsTo` writes. -/
def kSectionClose : List Char := "</section>\n".toList

/-- The `while` loop of `SalientToHtmlHandler::CloseSectionsTo`, for at most the given
number of rounds. -/
def SalientToHtmlHandler.closeLoop (new_level : Int) : Nat → OutputHandler → OutputHandler
  | 0, H => H
  | rounds + 1, H =>
    if H.current_section_depth > new_level then
      SalientToHtmlHandler.closeLoop new_level rounds
        { H with
          out_stream := H.out_stream ++ kSectionClose,
          current_section_depth := H.current_section_depth - 1 }
    else H

/-- The method `SalientToHtmlHandler::CloseSectionsTo`.  Its loop lowers
`current_section_depth` by 1 in each round, so it leaves after
`current_section_depth - new_level` rounds at most. -/
def SalientToHtmlHandler.CloseSectionsTo (new_level : Int) (H : OutputHandler) :
    OutputHandler :=
  let H1 := { H with current_section_depth := H.current_section_depth + 1 }
  SalientToHtmlHandler.closeLoop new_level (H1.current_section_depth - new_level).toNat H1

/-- The read `pending_item_at_level[index]`; `none` outside the vector. -/
def vectorAt (v : List Bool) (index : Int) : Option Bool :=
  if 0 ≤ index then v[index.toNat]? else none

/-- The assignment `pending_item_at_level[index] = value`; `none` outside the vector. -/
def vectorAssign (v : List Bool) (index : Int) (value : Bool) : Option (List Bool) :=
  if 0 ≤ index ∧ index.toNat < v.length then some (v.set index.toNat value) else none

/-- The local state of the heading loop of `util::OutputToc`. -/
structure TocState where
  out_stream : List Char
  current_nesting : Int
  pending_item_at_level : List Bool
  deriving DecidableEq, Repr

/-- One round of the `do` loop of `util::OutputToc` for a heading of the given level;
`none` when an index is outside `pending_item_at_level`. -/
def tocRound (toc_list toc_item : List Char × List Char) (level : Int) (st : TocState) :
    Option TocState :=
  let closed : Option TocState :=
    if st.current_nesting ≥ level then
      match vectorAt st.pending_item_at_level st.current_nesting with
      | none => none
      | some true =>
        match vectorAssign st.pending_item_at_level level false with
        | none => none
        | some pending =>
          some { st with
            out_stream := st.out_stream ++ toc_item.2,
            pending_item_at_level := pending }
      | some false => some st
    else some st
  match closed with
  | none => none
  | some st1 =>
    let st2 :=
      if st1.current_nesting < level then
        { st1 with
          out_stream := st1.out_stream ++
            Substitute toc_list.1 [spaces (3 * st1.current_nesting)],
          current_nesting := st1.current_nesting + 1 }
      else st1
    let st3 :=
      if st2.current_nesting > level then
        { st2 with
          current_nesting := st2.current_nesting - 1,
          out_stream := st2.out_stream ++
            Substitute toc_list.2 [spaces (3 * (st2.current_nesting - 1))] }
      else st2
    some st3

/-- The `do ... while (current_nesting != h.level)` loop of `util::OutputToc`; `fuel`
bounds its rounds. -/
def tocLoop (toc_list toc_item : List Char × List Char) (level : Int) :
    Nat → TocState → Outcome TocState
  | 0, _ => Outcome.outOfFuel
  | fuel + 1, st =>
    match tocRound toc_list toc_item level st with
    | none => Outcome.outOfRange
    | some st1 =>
      if st1.current_nesting ≠ level then tocLoop toc_list toc_item level fuel st1
      else Outcome.ok st1

/-- The body of the `for` loop of `util::OutputToc` for the heading `h`. -/
def tocHeading (fuel : Nat) (toc_list toc_item : List Char × List Char) (toc_depth : Int)
    (h : Heading) (st : TocState) : Outcome TocState :=
  if h.level < 0 ∨ h.level > toc_depth then Outcome.ok st
  else
    match tocLoop toc_list toc_item h.level fuel st with
    | Outcome.ok st1 =>
      if h.level > 0 then
        match vectorAssign st1.pending_item_at_level h.level true with
        | none => Outcome.outOfRange
        | some pending =>
          Outcome.ok { st1 with
            out_stream := st1.out_stream ++
              Substitute toc_item.1
                [spaces (3 * st1.current_nesting), h.anchor_id.toList, h.heading_text.toList],
            pending_item_at_level := pending }
      else Outcome.ok st1
    | failure => failure

/-- The `for` loop of `util::OutputToc` over the heading vector. -/
def tocHeadings (fuel : Nat) (toc_list toc_item : List Char × List Char) (toc_depth : Int) :
    List Heading → TocState → Outcome TocState
  | [], st => Outcome.ok st
  | h :: hs, st =>
    match tocHeading fuel toc_list toc_item toc_depth h st with
    | Outcome.ok st1 => tocHeadings fuel toc_list toc_item toc_depth hs st1
    | failure => failure

/-- The value of `toc_depth` that `util::OutputToc` takes from the qualifiers of the
table-of-contents heading, 3 by default; `none` when the qualifier index is outside the
vector `qualifiers`. -/
def tocDepth (toc_heading : Heading) : Option Int :=
  match toc_heading.left_side_to_qualifier_index.lookup "toc_depth" with
  | none => some 3
  | some index =>
    if 0 ≤ index then
      match toc_heading.qualifiers[index.toNat]? with
      | none => none
      | some qualifier =>
        match SimpleAtoi qualifier.right_side.toList with
        | some depth => some depth
        | none => some 3
    else none

/-- The function `util::OutputToc`: the handler after the call.  `content_pair_map` is
the member of that name of the handler; `fuel` bounds the rounds of the inner loop for
each heading.  A negative `toc_depth` makes the constructor of the vector throw. -/
def OutputToc (fuel : Nat) (content_pair_map : FormatContentMap)
    (summarizer_results : SummarizerResults) (toc_heading : Heading)
    (handler : OutputHandler) : Outcome OutputHandler :=
  match content_pair_map.Get
      (MakeContentMapKey RuleCategory.kCustom CustomCategoryId.kTocEnclosure),
    content_pair_map.Get (MakeContentMapKey RuleCategory.kCustom CustomCategoryId.kTocList),
    content_pair_map.Get (MakeContentMapKey RuleCategory.kCustom CustomCategoryId.kTocItem)
  with
  | some toc_enclosure, some toc_list, some toc_item =>
    match tocDepth toc_heading with
    | none => Outcome.outOfRange
    | some toc_depth =>
      if toc_depth < 0 then Outcome.checkFailed
      else
        match tocHeadings fuel toc_list toc_item toc_depth summarizer_results.heading_vector
            { out_stream := handler.out_stream ++ toc_enclosure.1,
              current_nesting := 0,
              pending_item_at_level := List.replicate toc_depth.toNat false } with
        | Outcome.ok st =>
          Outcome.ok { handler with out_stream := st.out_stream ++ toc_enclosure.2 }
        | Outcome.outOfRange => Outcome.outOfRange
        | Outcome.checkFailed => Outcome.checkFailed
        | Outcome.outOfFuel => Outcome.outOfFuel
  | _, _, _ => Outcome.checkFailed

/-- The members of `SalientToHtmlListener` that its heading methods use;
`content_pair_map` is the member of that name of the handler `handler_`. -/
structure SalientToHtmlListener where
  summarizer_results_ : SummarizerResults := {}
  handler_ : OutputHandler := {}
  content_pair_map : FormatContentMap := CreateHtmlPairMap

/-- The method `SalientToHtmlListener::enterHeading` for a heading context whose
`util::GetHeadingId` is `heading_id`.  The read `heading_indices[heading_id]` of a
missing key inserts the index 0. -/
def SalientToHtmlListener.enterHeading (fuel : Nat) (L : SalientToHtmlListener)
    (heading_id : String × Int) : Outcome SalientToHtmlListener :=
  let looked : Int × SummarizerResults :=
    match L.summarizer_results_.heading_indices.lookup heading_id with
    | some index => (index, L.summarizer_results_)
    | none =>
      (0, { L.summarizer_results_ with
        heading_indices := (heading_id, 0) :: L.summarizer_results_.heading_indices })
  let L1 := { L with summarizer_results_ := looked.2 }
  if looked.1 < 0 then Outcome.outOfRange
  else
    match L1.summarizer_results_.heading_vector[looked.1.toNat]? with
    | none => Outcome.outOfRange
    | some heading =>
      if heading.level = kTocHeadingLevel then
        match OutputToc fuel L1.content_pair_map L1.summarizer_results_ heading L1.handler_ with
        | Outcome.ok handler => Outcome.ok { L1 with handler_ := handler }
        | Outcome.outOfRange => Outcome.outOfRange
        | Outcome.checkFailed => Outcome.checkFailed
        | Outcome.outOfFuel => Outcome.outOfFuel
      else if heading.level > 0 then
        let closed := SalientToHtmlHandler.CloseSectionsTo heading.level L1.handler_
        match L1.content_pair_map.Get
            (MakeContentMapKey RuleCategory.kCustom CustomCategoryId.kDocumentSection),
          L1.content_pair_map.Get
            (MakeContentMapKey RuleCategory.kCustom CustomCategoryId.kDocumentHeading) with
        | some section_pair, some heading_pair =>
          Outcome.ok { L1 with
            handler_ := { closed with
              out_stream := closed.out_stream ++
                Substitute section_pair.1 [intText heading.level, heading.anchor_id.toList] ++
                Substitute heading_pair.1
                  [intText heading.level, heading.heading_text.toList] } }
        | _, _ => Outcome.checkFailed
      else Outcome.ok L1

/-- The method `SalientToHtmlListener::exitSalientTop`. -/
def SalientToHtmlListener.exitSalientTop (L : SalientToHtmlListener) :
    Outcome SalientToHtmlListener :=
  if L.summarizer_results_.outer_genre_state.destination_genre ≠ ParsingGenre.kSalient then
    Outcome.ok L
  else
    let closed := SalientToHtmlHandler.CloseSectionsTo 0 L.handler_
    match L.content_pair_map.Get
        (MakeContentMapKey RuleCategory.kCustom CustomCategoryId.kDocumentOuter) with
    | some html_head =>
      Outcome.ok { L with
        handler_ := { closed with out_stream := closed.out_stream ++ html_head.2 } }
    | none => Outcome.checkFailed

/-- Successive `enterHeading` calls for the heading contexts with the given ids, in
document order. -/
def SalientToHtmlListener.enterHeadings (fuel : Nat) :
    SalientToHtmlListener → List (String × Int) → Outcome SalientToHtmlListener
  | L, [] => Outcome.ok L
  | L, heading_id :: rest =>
    match L.enterHeading fuel heading_id with
    | Outcome.ok L1 => SalientToHtmlListener.enterHeadings fuel L1 rest
    | failure => failure

/-- The heading that `enterHeading` works on for the id `heading_id`, when the id is a
key of `heading_indices` and its index lies in `heading_vector`. -/
def lookupHeading (results : SummarizerResults) (heading_id : String × Int) :
    Option Heading :=
  match results.heading_indices.lookup heading_id with
  | some index => if 0 ≤ index then results.heading_vector[index.toNat]? else none
  | none => none

/-- The text of `count` section closings. -/
def closeTags (count : Nat) : List Char := (List.replicate count kSectionClose).flatten

/-- What `enterHeading` writes for a heading of positive level after the closings: the
opening of its section, and its heading line. -/
def sectionOpenText (content_pair_map : FormatContentMap) (heading : Heading) : List Char :=
  match content_pair_map.Get
      (MakeContentMapKey RuleCategory.kCustom CustomCategoryId.kDocumentSection),
    content_pair_map.Get
      (MakeContentMapKey RuleCategory.kCustom CustomCategoryId.kDocumentHeading) with
  | some section_pair, some heading_pair =>
    Substitute section_pair.1 [intText heading.level, heading.anchor_id.toList] ++
      Substitute heading_pair.1 [intText heading.level, heading.heading_text.toList]
  | _, _ => []

/-- The text of a sequence of headings, each with its number of closings before the
opening of its section. -/
def sectionsText (content_pair_map : FormatContentMap) :
    List Nat → List Heading → List Char
  | count :: counts, heading :: headings =>
    closeTags count ++ sectionOpenText content_pair_map heading ++
      sectionsText content_pair_map counts headings
  | _, _ => []

/-- An outcome continued by a call that can abort. -/
def Outcome.bind {α β : Type} (x : Outcome α) (f : α → Outcome β) : Outcome β :=
  match x with
  | Outcome.ok value => f value
  | Outcome.outOfRange => Outcome.outOfRange
  | Outcome.checkFailed => Outcome.checkFailed
  | Outcome.outOfFuel => Outcome.outOfFuel

/-- A listener for a document in prose with one heading of level 1, text and anchor `T`,
on line 3, before any output. -/
def oneHeadingListener : SalientToHtmlListener :=
  { summarizer_results_ :=
      { heading_indices := [(("Not set", 3), 0)],
        heading_vector :=
          [{ level := 1, heading_text := "T", anchor_id := "T", line_number := 3 }],
        outer_genre_state := { destination_genre := ParsingGenre.kSalient } } }

/-- What the heading loop keeps: `current_nesting` is not negative and lies in the vector
of `toc_depth` entries, unless it is still 0. -/
def tocInvariant (toc_depth : Int) (st : TocState) : Prop :=
  0 ≤ st.current_nesting ∧ (st.current_nesting < toc_depth ∨ st.current_nesting = 0) ∧
  (st.pending_item_at_level.length : Int) = toc_depth

theorem recursiveWalk_eq (t : ParseTree) : recursiveWalk t = preEvents t ++ postEvents t := by
  cases t <;> simp [recursiveWalk, preEvents, postEvents, isTerminalNode]


theorem drop_succ_of_lt {α : Type} (l : List α) (i : Nat) (h : i < l.length) :
    l.drop i = l[i] :: l.drop (i + 1) := by
  exact List.drop_eq_getElem_cons h

theorem WalkStep_pending (w : StepwiseParseTreeWalker) :
    w.WalkStep.2.listener_ ++ pendingCallbacks w.WalkStep.2 =
      w.listener_ ++ pendingCallbacks w := by
  obtain ⟨l, cur, ns, istack, i, o⟩ := w
  cases cur with
  | none => simp [StepwiseParseTreeWalker.WalkStep, pendingCallbacks]
  | some node =>
    cases o with
    | true =>
      cases node with
      | rule r s cs =>
        cases cs with
        | nil =>
          simp [StepwiseParseTreeWalker.WalkStep, GetChildren, pendingCallbacks, preEvents,
            preOrderVisit, isErrorNode, isTerminalNode, recursiveWalkList]
        | cons c0 cs =>
          simp [StepwiseParseTreeWalker.WalkStep, GetChildren, pendingCallbacks, preEvents,
            preOrderVisit, isErrorNode, isTerminalNode, recursiveWalkList, pendingInner,
            recursiveWalk_eq c0]
      | terminal t =>
        simp [StepwiseParseTreeWalker.WalkStep, GetChildren, pendingCallbacks, preEvents,
          preOrderVisit, isErrorNode, isTerminalNode]
      | errorNode t =>
        simp [StepwiseParseTreeWalker.WalkStep, GetChildren, pendingCallbacks, preEvents,
          preOrderVisit, isErrorNode, isTerminalNode]
    | false =>
      cases ns with
      | nil =>
        by_cases ht : isTerminalNode node = true <;>
          simp [StepwiseParseTreeWalker.WalkStep, pendingCallbacks, pendingInner, postEvents, ht]
      | cons parent rest =>
        by_cases hlt : i + 1 < (GetChildren parent).length
        · have hd := drop_succ_of_lt (GetChildren parent) (i + 1) hlt
          have hg : (GetChildren parent)[i + 1]? = some ((GetChildren parent)[i + 1]) :=
            List.getElem?_eq_getElem hlt
          by_cases ht : isTerminalNode node = true <;>
          · simp only [StepwiseParseTreeWalker.WalkStep, pendingCallbacks, pendingInner,
              postEvents, ht, if_pos hlt, hg, gt_iff_lt]
            rw [hd]
            simp [recursiveWalkList, recursiveWalk_eq, hlt, pendingInner]
        · have hd : (GetChildren parent).drop (i + 1) = [] :=
            List.drop_eq_nil_of_le (by omega)
          by_cases ht : isTerminalNode node = true <;>
            simp [StepwiseParseTreeWalker.WalkStep, pendingCallbacks, pendingInner, postEvents,
              ht, hlt, hd, recursiveWalkList]

theorem WalkStep_remaining (w : StepwiseParseTreeWalker) (h : w.current_node_.isSome = true) :
    remainingSteps w.WalkStep.2 + 1 = remainingSteps w := by
  obtain ⟨l, cur, ns, istack, i, o⟩ := w
  cases cur with
  | none => simp at h
  | some node =>
    cases o with
    | true =>
      cases node with
      | rule r s cs =>
        cases cs with
        | nil =>
          simp [StepwiseParseTreeWalker.WalkStep, GetChildren, remainingSteps, preSteps,
            preStepsList]
          omega
        | cons c0 cs =>
          simp [StepwiseParseTreeWalker.WalkStep, GetChildren, remainingSteps, preSteps,
            preStepsList, stepsInner]
          omega
      | terminal t =>
        simp [StepwiseParseTreeWalker.WalkStep, GetChildren, remainingSteps, preSteps]
        omega
      | errorNode t =>
        simp [StepwiseParseTreeWalker.WalkStep, GetChildren, remainingSteps, preSteps]
        omega
    | false =>
      cases ns with
      | nil =>
        by_cases ht : isTerminalNode node = true <;>
          simp [StepwiseParseTreeWalker.WalkStep, remainingSteps, stepsInner, ht]
      | cons parent rest =>
        by_cases hlt : i + 1 < (GetChildren parent).length
        · have hd := drop_succ_of_lt (GetChildren parent) (i + 1) hlt
          have hg : (GetChildren parent)[i + 1]? = some ((GetChildren parent)[i + 1]) :=
            List.getElem?_eq_getElem hlt
          by_cases ht : isTerminalNode node = true <;>
          · simp only [StepwiseParseTreeWalker.WalkStep, remainingSteps, stepsInner,
              ht, if_pos hlt, hg, gt_iff_lt]
            rw [hd]
            simp [preStepsList, hlt, stepsInner]
            omega
        · have hd : (GetChildren parent).drop (i + 1) = [] :=
            List.drop_eq_nil_of_le (by omega)
          by_cases ht : isTerminalNode node = true <;>
          · simp [StepwiseParseTreeWalker.WalkStep, remainingSteps, stepsInner,
              ht, hlt, hd, preStepsList]
            omega

theorem WalkStep_flag (w : StepwiseParseTreeWalker) :
    w.WalkStep.1 = w.WalkStep.2.current_node_.isSome := by
  obtain ⟨l, cur, ns, istack, i, o⟩ := w
  cases cur with
  | none => simp [StepwiseParseTreeWalker.WalkStep]
  | some node =>
    cases o with
    | true =>
      cases hch : GetChildren node <;> simp [StepwiseParseTreeWalker.WalkStep, hch]
    | false =>
      cases ns with
      | nil =>
        by_cases ht : isTerminalNode node = true <;>
          simp [StepwiseParseTreeWalker.WalkStep, ht]
      | cons parent rest =>
        by_cases hlt : i + 1 < (GetChildren parent).length
        · have hg : (GetChildren parent)[i + 1]? = some ((GetChildren parent)[i + 1]) :=
            List.getElem?_eq_getElem hlt
          by_cases ht : isTerminalNode node = true <;>
            simp [StepwiseParseTreeWalker.WalkStep, hlt, hg, ht]
        · by_cases ht : isTerminalNode node = true <;>
            simp [StepwiseParseTreeWalker.WalkStep, hlt, ht]

theorem stepsInner_pos (ns : List ParseTree) (istack : List Nat) (i : Nat) :
    0 < stepsInner ns istack i := by
  cases ns <;> simp [stepsInner]

theorem remainingSteps_pos (w : StepwiseParseTreeWalker) (h : w.current_node_.isSome = true) :
    0 < remainingSteps w := by
  obtain ⟨l, cur, ns, istack, i, o⟩ := w
  cases cur with
  | none => simp at h
  | some node =>
    have := stepsInner_pos ns istack i
    cases o <;> simp [remainingSteps] <;> omega

theorem WalkStep_of_null (w : StepwiseParseTreeWalker) (h : w.current_node_ = none) :
    w.WalkStep = (false, w) := by
  simp [StepwiseParseTreeWalker.WalkStep, h]

theorem pendingCallbacks_of_null (w : StepwiseParseTreeWalker) (h : w.current_node_ = none) :
    pendingCallbacks w = [] := by
  simp [pendingCallbacks, h]

theorem Walk_complete (fuel : Nat) : ∀ w : StepwiseParseTreeWalker,
    remainingSteps w ≤ fuel → 0 < fuel →
    ∃ w', StepwiseParseTreeWalker.Walk fuel w = some w' ∧ w'.current_node_ = none ∧
      w'.listener_ = w.listener_ ++ pendingCallbacks w := by
  induction fuel with
  | zero => intro w _ h; omega
  | succ n ih =>
    intro w hrem _
    have hflag := WalkStep_flag w
    have hpend := WalkStep_pending w
    unfold StepwiseParseTreeWalker.Walk
    by_cases hr : w.WalkStep.1 = true
    · rw [if_pos hr]
      have hsome' : w.WalkStep.2.current_node_.isSome = true := by rw [← hflag]; exact hr
      have hsome : w.current_node_.isSome = true := by
        cases hc : w.current_node_ with
        | none => rw [WalkStep_of_null w hc] at hr; simp at hr
        | some x => rfl
      have hdec := WalkStep_remaining w hsome
      have hpos := remainingSteps_pos _ hsome'
      obtain ⟨w', h1, h2, h3⟩ := ih w.WalkStep.2 (by omega) (by omega)
      exact ⟨w', h1, h2, by rw [h3, hpend]⟩
    · rw [if_neg hr]
      have hnone : w.WalkStep.2.current_node_ = none := by
        have : w.WalkStep.2.current_node_.isSome = false := by
          rw [← hflag]; simpa using hr
        simpa using this
      refine ⟨_, rfl, hnone, ?_⟩
      rw [← hpend, pendingCallbacks_of_null _ hnone, List.append_nil]

theorem pendingCallbacks_init (t : ParseTree) :
    pendingCallbacks (StepwiseParseTreeWalker.init (some t)) = recursiveWalk t := by
  simp [pendingCallbacks, StepwiseParseTreeWalker.init, pendingInner, recursiveWalk_eq]

theorem remainingSteps_init (t : ParseTree) :
    remainingSteps (StepwiseParseTreeWalker.init (some t)) = preSteps t + 1 := by
  simp [remainingSteps, StepwiseParseTreeWalker.init, stepsInner]

/-- C1. Calling `WalkStep` from the initial state until it returns false (`Walk()`)
returns, for every parse tree, within `preSteps t + 1` calls, and the listener has then
received exactly the callbacks of the recursive walk, in the same order: a rule node is
entered, its children are walked left to right, then it is exited; a terminal is visited
once. -/
theorem Walk_eq_recursiveWalk (t : ParseTree) (extra : Nat) :
    ∃ w', StepwiseParseTreeWalker.Walk (preSteps t + 1 + extra)
        (StepwiseParseTreeWalker.init (some t)) = some w' ∧
      w'.current_node_ = none ∧ w'.listener_ = recursiveWalk t := by
  obtain ⟨w', h1, h2, h3⟩ := Walk_complete (preSteps t + 1 + extra)
    (StepwiseParseTreeWalker.init (some t)) (by rw [remainingSteps_init]; omega) (by omega)
  refine ⟨w', h1, h2, ?_⟩
  rw [h3, pendingCallbacks_init]
  simp [StepwiseParseTreeWalker.init]

/-- C2, refuted as stated. For the tree made of one terminal, the state after the first
`WalkStep` is reachable and has a non-null current node, yet the next `WalkStep` invokes
no callback, so it is false that every such call invokes exactly one. -/
theorem WalkStep_one_callback_fails :
    ¬ ∀ (t : ParseTree) (n : Nat),
      ((StepwiseParseTreeWalker.init (some t)).afterSteps n).current_node_.isSome = true →
      ((StepwiseParseTreeWalker.init (some t)).afterSteps n).WalkStep.2.listener_.length =
        ((StepwiseParseTreeWalker.init (some t)).afterSteps n).listener_.length + 1 := by
  intro h
  have h1 := h (ParseTree.terminal ⟨PvnTokenType.other 0, [], 0⟩) 1 (by rfl)
  revert h1
  decide

/-- C2, amended. With a non-null current node, one `WalkStep` invokes at most one
listener callback: the pre-order visit of the current node when the walker is in the
outer-walk state, `exitRule` of the current node when it is in the inner state on a rule
node, and no callback when it is in the inner state on a terminal. -/
theorem WalkStep_callbacks (w : StepwiseParseTreeWalker) (node : ParseTree)
    (h : w.current_node_ = some node) :
    w.WalkStep.2.listener_ = w.listener_ ++
      (if w.in_outer_walk_ = true then [preOrderVisit node]
       else if isTerminalNode node = true then [] else [Callback.exitRule node]) := by
  obtain ⟨l, cur, ns, istack, i, o⟩ := w
  simp only at h
  subst h
  cases o with
  | true =>
    cases hch : GetChildren node <;> simp [StepwiseParseTreeWalker.WalkStep, hch]
  | false =>
    cases ns with
    | nil =>
      by_cases ht : isTerminalNode node = true <;>
        simp [StepwiseParseTreeWalker.WalkStep, ht]
    | cons parent rest =>
      by_cases hlt : i + 1 < (GetChildren parent).length <;>
      by_cases ht : isTerminalNode node = true <;>
        simp [StepwiseParseTreeWalker.WalkStep, hlt, ht]

/-- Witness of `WalkStep_callbacks`: the post-order step of a lone terminal. -/
theorem WalkStep_callbacks_witness :
    (StepwiseParseTreeWalker.mk [] (some (ParseTree.terminal ⟨PvnTokenType.other 0, [], 0⟩)) [] [] 0 false).WalkStep.2.listener_
      = [] ++ (if false = true then [preOrderVisit (ParseTree.terminal ⟨PvnTokenType.other 0, [], 0⟩)]
       else if isTerminalNode (ParseTree.terminal ⟨PvnTokenType.other 0, [], 0⟩) = true then []
       else [Callback.exitRule (ParseTree.terminal ⟨PvnTokenType.other 0, [], 0⟩)]) :=
  WalkStep_callbacks (StepwiseParseTreeWalker.mk [] (some (ParseTree.terminal ⟨PvnTokenType.other 0, [], 0⟩)) [] [] 0 false)
    (ParseTree.terminal ⟨PvnTokenType.other 0, [], 0⟩) rfl

/-- C3, refuted as stated. A walker in the outer-walk state on a terminal whose token index
is 5, with the unconsumed transition at token index 5: the node's starting index is at
(>=) the transition's, yet `PreDepartureStep` does not depart. -/
theorem PreDepartureStep_at_equal_index_stays :
    let node := ParseTree.terminal ⟨PvnTokenType.other 0, [], 5⟩
    let tr : WalkerTransition := ⟨5, ParsingGenre.kSalient, TextualSubGenre.kMaster⟩
    let w := (IteratingWalker.init ⟨0, ParsingGenre.kQuarrel, TextualSubGenre.kNone⟩
      (some node)).SetTransitions [tr]
    w.current_node_ = some node ∧ w.in_outer_walk_ = true ∧
      w.next_transition_index_index_ < w.walker_transitions_.length ∧
      (w.walker_transitions_.getD w.next_transition_index_index_
        WalkerTransition.blank).token_index ≤ getSourceIntervalA node ∧
      w.PreDepartureStep.2.next_transition_index_index_ = w.next_transition_index_index_ ∧
      w.PreDepartureStep.1 = w.walker_genre_state_ := by
  refine ⟨rfl, rfl, ?_, ?_, rfl, rfl⟩ <;> decide

/-- C3, amended. With a non-null current node, `PreDepartureStep` departs (advances the
transition cursor by exactly one and returns that transition as the new genre state) if
and only if the walker is in the outer-walk state, an unconsumed transition exists and
that transition's `token_index` is strictly below the current node's starting token index;
in every other case it returns the genre state unchanged and leaves the walker unchanged.
In both cases the underlying stepwise walker is untouched: no walk step is performed. -/
theorem PreDepartureStep_spec (w : IteratingWalker) (node : ParseTree)
    (h : w.current_node_ = some node) :
    (if w.in_outer_walk_ = true ∧
        w.next_transition_index_index_ < w.walker_transitions_.length ∧
        (w.walker_transitions_.getD w.next_transition_index_index_
          WalkerTransition.blank).token_index < getSourceIntervalA node
     then w.PreDepartureStep =
        (w.walker_transitions_.getD w.next_transition_index_index_ WalkerTransition.blank,
         { w with next_transition_index_index_ := w.next_transition_index_index_ + 1,
                  walker_genre_state_ := w.walker_transitions_.getD
                    w.next_transition_index_index_ WalkerTransition.blank })
     else w.PreDepartureStep = (w.walker_genre_state_, w)) ∧
    w.PreDepartureStep.2.toStepwiseParseTreeWalker = w.toStepwiseParseTreeWalker := by
  unfold IteratingWalker.PreDepartureStep
  rw [h]
  by_cases ho : w.in_outer_walk_ = true
  · by_cases hd : w.departureDue node = true
    · have hd' := hd
      simp only [IteratingWalker.departureDue, Bool.and_eq_true, decide_eq_true_eq] at hd'
      rw [if_pos ⟨ho, hd'⟩]
      simp only [ho, hd, if_true, Nat.add_sub_cancel, and_self]
    · have hd' := hd
      simp only [IteratingWalker.departureDue, Bool.and_eq_true, decide_eq_true_eq] at hd'
      rw [if_neg (fun hc => hd' hc.2)]
      simp only [ho, hd, if_true, if_false, and_self]
      simp
  · rw [if_neg (fun hc => ho hc.1)]
    simp [ho]

/-- Witness of `PreDepartureStep_spec`: a walker on a terminal at token index 7 with the
unconsumed transition at token index 5. -/
theorem PreDepartureStep_spec_witness :
    let node := ParseTree.terminal ⟨PvnTokenType.other 0, [], 7⟩
    let w := (IteratingWalker.init ⟨0, ParsingGenre.kQuarrel, TextualSubGenre.kNone⟩
      (some node)).SetTransitions [⟨5, ParsingGenre.kSalient, TextualSubGenre.kMaster⟩]
    (if w.in_outer_walk_ = true ∧
        w.next_transition_index_index_ < w.walker_transitions_.length ∧
        (w.walker_transitions_.getD w.next_transition_index_index_
          WalkerTransition.blank).token_index < getSourceIntervalA node
     then w.PreDepartureStep =
        (w.walker_transitions_.getD w.next_transition_index_index_ WalkerTransition.blank,
         { w with next_transition_index_index_ := w.next_transition_index_index_ + 1,
                  walker_genre_state_ := w.walker_transitions_.getD
                    w.next_transition_index_index_ WalkerTransition.blank })
     else w.PreDepartureStep = (w.walker_genre_state_, w)) ∧
    w.PreDepartureStep.2.toStepwiseParseTreeWalker = w.toStepwiseParseTreeWalker :=
  PreDepartureStep_spec _ _ rfl

theorem IteratingWalker_WalkStep_listener (w : IteratingWalker) :
    w.WalkStep.2.listener_ = w.toStepwiseParseTreeWalker.WalkStep.2.listener_ := by
  unfold IteratingWalker.WalkStep
  by_cases hr : w.toStepwiseParseTreeWalker.WalkStep.1 = true <;> simp [hr]

theorem IteratingWalker_WalkStep_transitions (w : IteratingWalker) :
    w.WalkStep.2.walker_transitions_ = w.walker_transitions_ ∧
      w.WalkStep.2.next_transition_index_index_ = w.next_transition_index_index_ := by
  unfold IteratingWalker.WalkStep
  by_cases hr : w.toStepwiseParseTreeWalker.WalkStep.1 = true <;> simp [hr]

theorem quarrelWhileBody_eq (s : ConversionState) :
    quarrelWhileBody s =
      { s with
        current_genre_state := (s.quarrel_iterating_walker.phaseBody ParsingGenre.kQuarrel
          s.current_genre_state).1,
        quarrel_iterating_walker := (s.quarrel_iterating_walker.phaseBody ParsingGenre.kQuarrel
          s.current_genre_state).2 } := rfl

theorem salientWhileBody_eq (s : ConversionState) :
    salientWhileBody s =
      { s with
        current_genre_state := (s.salient_iterating_walker.phaseBody ParsingGenre.kSalient
          s.current_genre_state).1,
        salient_iterating_walker := (s.salient_iterating_walker.phaseBody ParsingGenre.kSalient
          s.current_genre_state).2 } := rfl

/-- A pass of a walker's `while` body on an outer-walk node whose start lies past the
next unconsumed transition consumes that transition, hands over to the transition's genre
and invokes no callback, when that genre is not the walker's own. -/
theorem phaseBody_departs (own : ParsingGenre) (genre : WalkerTransition) (w : IteratingWalker)
    (node : ParseTree) (hc : w.current_node_ = some node) (ho : w.in_outer_walk_ = true)
    (hlt : w.next_transition_index_index_ < w.walker_transitions_.length)
    (hidx : (w.walker_transitions_.getD w.next_transition_index_index_
      WalkerTransition.blank).token_index < getSourceIntervalA node)
    (hdest : (w.walker_transitions_.getD w.next_transition_index_index_
      WalkerTransition.blank).destination_genre ≠ own) :
    (w.phaseBody own genre).1 =
        w.walker_transitions_.getD w.next_transition_index_index_ WalkerTransition.blank ∧
      (w.phaseBody own genre).2.next_transition_index_index_ =
        w.next_transition_index_index_ + 1 ∧
      (w.phaseBody own genre).2.toStepwiseParseTreeWalker = w.toStepwiseParseTreeWalker := by
  have hspec := PreDepartureStep_spec (w.SetGenreState genre) node hc
  have hcond : (w.SetGenreState genre).in_outer_walk_ = true ∧
      (w.SetGenreState genre).next_transition_index_index_ <
        (w.SetGenreState genre).walker_transitions_.length ∧
      ((w.SetGenreState genre).walker_transitions_.getD
        (w.SetGenreState genre).next_transition_index_index_
          WalkerTransition.blank).token_index < getSourceIntervalA node := ⟨ho, hlt, hidx⟩
  rw [if_pos hcond] at hspec
  unfold IteratingWalker.phaseBody
  simp only [hspec.1]
  rw [if_neg]
  · exact ⟨rfl, rfl, rfl⟩
  · exact hdest

/-- A pass of a walker's `while` body that invokes the pre-order visit of its current node
leaves no unconsumed transition below that node's start, when the transition list is
sorted by increasing `token_index` and no entry's destination is the walker's own genre. -/
theorem phaseBody_visit (own : ParsingGenre) (genre : WalkerTransition) (w : IteratingWalker)
    (node : ParseTree)
    (hsorted : w.walker_transitions_.Pairwise (fun a b => a.token_index < b.token_index))
    (hdest : ∀ tr ∈ w.walker_transitions_, tr.destination_genre ≠ own)
    (hc : w.current_node_ = some node) (ho : w.in_outer_walk_ = true)
    (hvisit : (w.phaseBody own genre).2.listener_ = w.listener_ ++ [preOrderVisit node]) :
    ∀ tr ∈ (w.phaseBody own genre).2.walker_transitions_.drop
        (w.phaseBody own genre).2.next_transition_index_index_,
      getSourceIntervalA node ≤ tr.token_index := by
  by_cases hcond : w.next_transition_index_index_ < w.walker_transitions_.length ∧
      (w.walker_transitions_.getD w.next_transition_index_index_
        WalkerTransition.blank).token_index < getSourceIntervalA node
  · exfalso
    have hmem : w.walker_transitions_.getD w.next_transition_index_index_
        WalkerTransition.blank ∈ w.walker_transitions_ := by
      rw [List.getD_eq_getElem _ _ hcond.1]
      exact List.getElem_mem _
    have hdep := phaseBody_departs own genre w node hc ho hcond.1 hcond.2 (hdest _ hmem)
    have hl : (w.phaseBody own genre).2.listener_ = w.listener_ := by rw [hdep.2.2]
    rw [hl] at hvisit
    have := congrArg List.length hvisit
    simp at this
  · have hspec := PreDepartureStep_spec (w.SetGenreState genre) node hc
    have hncond : ¬ ((w.SetGenreState genre).in_outer_walk_ = true ∧
        (w.SetGenreState genre).next_transition_index_index_ <
          (w.SetGenreState genre).walker_transitions_.length ∧
        ((w.SetGenreState genre).walker_transitions_.getD
          (w.SetGenreState genre).next_transition_index_index_
            WalkerTransition.blank).token_index < getSourceIntervalA node) :=
      fun hx => hcond hx.2
    rw [if_neg hncond] at hspec
    have htr : (w.phaseBody own genre).2.walker_transitions_ = w.walker_transitions_ ∧
        (w.phaseBody own genre).2.next_transition_index_index_ =
          w.next_transition_index_index_ := by
      unfold IteratingWalker.phaseBody
      simp only [hspec.1]
      by_cases hg : genre.destination_genre = own
      · rw [if_pos (by exact hg)]
        exact IteratingWalker_WalkStep_transitions _
      · rw [if_neg (by exact hg)]
        exact ⟨rfl, rfl⟩
    rw [htr.1, htr.2]
    intro tr htrmem
    by_cases hlt : w.next_transition_index_index_ < w.walker_transitions_.length
    · have hge : getSourceIntervalA node ≤ (w.walker_transitions_.getD
          w.next_transition_index_index_ WalkerTransition.blank).token_index := by
        by_contra hx
        exact hcond ⟨hlt, by omega⟩
      rw [List.getD_eq_getElem _ _ hlt] at hge
      rw [List.drop_eq_getElem_cons hlt] at htrmem
      have hp : (w.walker_transitions_.drop w.next_transition_index_index_).Pairwise
          (fun a b => a.token_index < b.token_index) :=
        hsorted.sublist (List.drop_sublist _ _)
      rw [List.drop_eq_getElem_cons hlt, List.pairwise_cons] at hp
      rcases List.mem_cons.mp htrmem with heq | hin
      · rw [heq]; exact hge
      · have := hp.1 tr hin
        omega
    · rw [List.drop_eq_nil_of_le (by omega)] at htrmem
      simp at htrmem

theorem whileBodyOf_walker (own : ParsingGenre) (s : ConversionState) :
    ((whileBodyOf own s).walkerOf own) = ((s.walkerOf own).phaseBody
        (if own = ParsingGenre.kQuarrel then ParsingGenre.kQuarrel else ParsingGenre.kSalient)
        s.current_genre_state).2 ∧
    (whileBodyOf own s).current_genre_state = ((s.walkerOf own).phaseBody
        (if own = ParsingGenre.kQuarrel then ParsingGenre.kQuarrel else ParsingGenre.kSalient)
        s.current_genre_state).1 := by
  by_cases h : own = ParsingGenre.kQuarrel
  · simp only [whileBodyOf, ConversionState.walkerOf, if_pos h, quarrelWhileBody_eq, and_self]
  · simp only [whileBodyOf, ConversionState.walkerOf, if_neg h, salientWhileBody_eq, and_self]

/-- C4. In a pass of either `while` body of the alternation loop, with the walker's transition
list sorted by strictly increasing `token_index` and no entry's destination genre equal to
the walker's own genre: if the pass performs the pre-order visit of the current node, then
no unconsumed transition has a `token_index` below that node's starting token index; and if
the next unconsumed transition lies below the node's start, the pass consumes it, makes it
the current genre state (handing control to the other grammar) and invokes no callback. -/
theorem whileBody_never_visits_past_transition (own : ParsingGenre)
    (hown : own = ParsingGenre.kQuarrel ∨ own = ParsingGenre.kSalient)
    (s : ConversionState) (node : ParseTree)
    (hsorted : (s.walkerOf own).walker_transitions_.Pairwise
      (fun a b => a.token_index < b.token_index))
    (hdest : ∀ tr ∈ (s.walkerOf own).walker_transitions_, tr.destination_genre ≠ own)
    (hc : (s.walkerOf own).current_node_ = some node)
    (ho : (s.walkerOf own).in_outer_walk_ = true) :
    (((whileBodyOf own s).walkerOf own).listener_ =
        (s.walkerOf own).listener_ ++ [preOrderVisit node] →
      ∀ tr ∈ ((whileBodyOf own s).walkerOf own).walker_transitions_.drop
          ((whileBodyOf own s).walkerOf own).next_transition_index_index_,
        ¬ tr.token_index < getSourceIntervalA node) ∧
    ((s.walkerOf own).next_transition_index_index_ <
        (s.walkerOf own).walker_transitions_.length →
      ((s.walkerOf own).walker_transitions_.getD (s.walkerOf own).next_transition_index_index_
        WalkerTransition.blank).token_index < getSourceIntervalA node →
      (whileBodyOf own s).current_genre_state =
          (s.walkerOf own).walker_transitions_.getD
            (s.walkerOf own).next_transition_index_index_ WalkerTransition.blank ∧
        (whileBodyOf own s).current_genre_state.destination_genre ≠ own ∧
        ((whileBodyOf own s).walkerOf own).next_transition_index_index_ =
          (s.walkerOf own).next_transition_index_index_ + 1 ∧
        ((whileBodyOf own s).walkerOf own).listener_ = (s.walkerOf own).listener_) := by
  have hw := whileBodyOf_walker own s
  have hown' : (if own = ParsingGenre.kQuarrel then ParsingGenre.kQuarrel
      else ParsingGenre.kSalient) = own := by
    rcases hown with h | h <;> simp [h]
  rw [hown'] at hw
  rw [hw.1, hw.2]
  constructor
  · intro hvisit tr htr
    have := phaseBody_visit own s.current_genre_state (s.walkerOf own) node hsorted hdest hc ho
      hvisit tr htr
    omega
  · intro hlt hidx
    have hmem : (s.walkerOf own).walker_transitions_.getD
        (s.walkerOf own).next_transition_index_index_ WalkerTransition.blank ∈
        (s.walkerOf own).walker_transitions_ := by
      rw [List.getD_eq_getElem _ _ hlt]
      exact List.getElem_mem _
    have hdep := phaseBody_departs own s.current_genre_state (s.walkerOf own) node hc ho hlt hidx
      (hdest _ hmem)
    refine ⟨hdep.1, ?_, hdep.2.1, ?_⟩
    · rw [hdep.1]; exact hdest _ hmem
    · rw [hdep.2.2]

/-- Witness of `whileBody_never_visits_past_transition`: the quarrel walker, about to
visit a terminal at token index 3, with one unconsumed transition at token index 5. -/
theorem whileBody_never_visits_past_transition_witness :
    let node := ParseTree.terminal ⟨PvnTokenType.other 0, [], 3⟩
    let s := ConversionState.init ⟨0, ParsingGenre.kQuarrel, TextualSubGenre.kNone⟩
      node (ParseTree.rule 0 0 [])
      [⟨5, ParsingGenre.kSalient, TextualSubGenre.kMaster⟩] []
    ((whileBodyOf ParsingGenre.kQuarrel s).walkerOf ParsingGenre.kQuarrel).listener_ =
        (s.walkerOf ParsingGenre.kQuarrel).listener_ ++ [preOrderVisit node] ∧
      ∀ tr ∈ ((whileBodyOf ParsingGenre.kQuarrel s).walkerOf
            ParsingGenre.kQuarrel).walker_transitions_.drop
          ((whileBodyOf ParsingGenre.kQuarrel s).walkerOf
            ParsingGenre.kQuarrel).next_transition_index_index_,
        ¬ tr.token_index < getSourceIntervalA node := by
  intro node s
  have hv : ((whileBodyOf ParsingGenre.kQuarrel s).walkerOf ParsingGenre.kQuarrel).listener_ =
      (s.walkerOf ParsingGenre.kQuarrel).listener_ ++ [preOrderVisit node] := rfl
  exact ⟨hv, (whileBody_never_visits_past_transition ParsingGenre.kQuarrel (Or.inl rfl) s node
    (by simp [s, ConversionState.walkerOf, ConversionState.init, IteratingWalker.SetTransitions])
    (by simp [s, ConversionState.walkerOf, ConversionState.init, IteratingWalker.SetTransitions])
    rfl rfl).1 hv⟩

theorem IteratingWalker_WalkStep_facts (w : IteratingWalker) :
    w.WalkStep.2.toStepwiseParseTreeWalker = w.toStepwiseParseTreeWalker.WalkStep.2 ∧
    w.WalkStep.2.walker_transitions_ = w.walker_transitions_ ∧
    w.WalkStep.2.next_transition_index_index_ = w.next_transition_index_index_ ∧
    (w.toStepwiseParseTreeWalker.WalkStep.1 = true → w.WalkStep.1 = w.walker_genre_state_) ∧
    (w.toStepwiseParseTreeWalker.WalkStep.1 = false →
      w.WalkStep.1.destination_genre = ParsingGenre.kNone) := by
  unfold IteratingWalker.WalkStep
  by_cases hr : w.toStepwiseParseTreeWalker.WalkStep.1 = true <;> simp [hr]

theorem PreDepartureStep_null (w : IteratingWalker) (h : w.current_node_ = none) :
    w.PreDepartureStep.1.destination_genre = ParsingGenre.kNone ∧
    w.PreDepartureStep.2.toStepwiseParseTreeWalker = w.toStepwiseParseTreeWalker ∧
    w.PreDepartureStep.2.walker_transitions_ = w.walker_transitions_ ∧
    w.PreDepartureStep.2.next_transition_index_index_ = w.next_transition_index_index_ := by
  unfold IteratingWalker.PreDepartureStep
  rw [h]
  exact ⟨rfl, rfl, rfl, rfl⟩

/-- What one `PreDepartureStep` does, by cases: the walker is exhausted and the genre
becomes `kNone`; or a transition is consumed; or nothing changes. -/
theorem PreDepartureStep_cases (w : IteratingWalker) :
    w.PreDepartureStep.2.toStepwiseParseTreeWalker = w.toStepwiseParseTreeWalker ∧
    w.PreDepartureStep.2.walker_transitions_ = w.walker_transitions_ ∧
    w.PreDepartureStep.2.walker_genre_state_ = w.PreDepartureStep.1 ∧
    ((w.current_node_ = none ∧ w.PreDepartureStep.1.destination_genre = ParsingGenre.kNone ∧
        w.PreDepartureStep.2.next_transition_index_index_ = w.next_transition_index_index_) ∨
     (w.current_node_ ≠ none ∧
        w.next_transition_index_index_ < w.walker_transitions_.length ∧
        w.PreDepartureStep.1 ∈ w.walker_transitions_ ∧
        w.PreDepartureStep.2.next_transition_index_index_ =
          w.next_transition_index_index_ + 1) ∨
     (w.current_node_ ≠ none ∧ w.PreDepartureStep.1 = w.walker_genre_state_ ∧
        w.PreDepartureStep.2.next_transition_index_index_ =
          w.next_transition_index_index_)) := by
  cases hc : w.current_node_ with
  | none =>
    have h := PreDepartureStep_null w hc
    refine ⟨h.2.1, h.2.2.1, ?_, Or.inl ⟨rfl, h.1, h.2.2.2⟩⟩
    unfold IteratingWalker.PreDepartureStep
    rw [hc]
  | some node =>
    have h := PreDepartureStep_spec w node hc
    refine ⟨h.2, ?_⟩
    by_cases hcond : w.in_outer_walk_ = true ∧
        w.next_transition_index_index_ < w.walker_transitions_.length ∧
        (w.walker_transitions_.getD w.next_transition_index_index_
          WalkerTransition.blank).token_index < getSourceIntervalA node
    · have h1 := h.1
      rw [if_pos hcond] at h1
      rw [h1]
      refine ⟨rfl, rfl, Or.inr (Or.inl ⟨by simp, hcond.2.1, ?_, rfl⟩)⟩
      rw [List.getD_eq_getElem _ _ hcond.2.1]
      exact List.getElem_mem _
    · have h1 := h.1
      rw [if_neg hcond] at h1
      rw [h1]
      exact ⟨rfl, rfl, Or.inr (Or.inr ⟨by simp, rfl, rfl⟩)⟩

theorem IteratingWalker_WalkStep_progress (v : IteratingWalker) (hc : v.current_node_ ≠ none) :
    v.WalkStep.2.walker_transitions_ = v.walker_transitions_ ∧
    v.WalkStep.2.next_transition_index_index_ = v.next_transition_index_index_ ∧
    v.WalkStep.2.listener_ ++ pendingCallbacks v.WalkStep.2.toStepwiseParseTreeWalker =
      v.listener_ ++ pendingCallbacks v.toStepwiseParseTreeWalker ∧
    remainingSteps v.WalkStep.2.toStepwiseParseTreeWalker + 1 =
      remainingSteps v.toStepwiseParseTreeWalker ∧
    (v.WalkStep.1.destination_genre = ParsingGenre.kNone →
      v.walker_genre_state_.destination_genre ≠ ParsingGenre.kNone →
      v.WalkStep.2.current_node_ = none) := by
  have hf := IteratingWalker_WalkStep_facts v
  have hsome : v.toStepwiseParseTreeWalker.current_node_.isSome = true := by
    cases h : v.current_node_ with
    | none => exact absurd h hc
    | some x => rfl
  refine ⟨hf.2.1, hf.2.2.1, ?_, ?_, ?_⟩
  · rw [hf.1]; exact WalkStep_pending _
  · rw [hf.1]; exact WalkStep_remaining _ hsome
  · intro hnone hgen
    rw [hf.1]
    by_cases hr : v.toStepwiseParseTreeWalker.WalkStep.1 = true
    · have := hf.2.2.2.1 hr
      rw [this] at hnone
      exact absurd hnone hgen
    · have hflag := WalkStep_flag v.toStepwiseParseTreeWalker
      have : v.toStepwiseParseTreeWalker.WalkStep.2.current_node_.isSome = false := by
        rw [← hflag]; simpa using hr
      simpa using this

/-- What one pass of a walker's `while` body does to the walker, when it is entered
with the walker's own genre: the transition list is kept, the callbacks received and
still to come stay the same in total, the work left never grows and shrinks unless the
pass ends with genre `kNone`, and genre `kNone` means the walker is exhausted or a
transition with destination `kNone` was consumed. -/
theorem phaseBody_facts (own : ParsingGenre) (hown : own ≠ ParsingGenre.kNone)
    (genre : WalkerTransition) (hg : genre.destination_genre = own) (w : IteratingWalker) :
    (w.phaseBody own genre).2.walker_transitions_ = w.walker_transitions_ ∧
    (w.phaseBody own genre).2.listener_ ++
        pendingCallbacks (w.phaseBody own genre).2.toStepwiseParseTreeWalker =
      w.listener_ ++ pendingCallbacks w.toStepwiseParseTreeWalker ∧
    (w.phaseBody own genre).2.workLeft ≤ w.workLeft ∧
    ((w.phaseBody own genre).1.destination_genre ≠ ParsingGenre.kNone →
      (w.phaseBody own genre).2.workLeft < w.workLeft) ∧
    ((w.phaseBody own genre).1.destination_genre = ParsingGenre.kNone →
      (w.phaseBody own genre).2.current_node_ = none ∨
      ∃ tr ∈ w.walker_transitions_, tr.destination_genre = ParsingGenre.kNone) := by
  have hp := PreDepartureStep_cases (w.SetGenreState genre)
  obtain ⟨hbase, htrans, hgs, hcases⟩ := hp
  have hb0 : (w.SetGenreState genre).toStepwiseParseTreeWalker = w.toStepwiseParseTreeWalker := rfl
  have ht0 : (w.SetGenreState genre).walker_transitions_ = w.walker_transitions_ := rfl
  have hn0 : (w.SetGenreState genre).next_transition_index_index_ =
      w.next_transition_index_index_ := rfl
  have hg0 : (w.SetGenreState genre).walker_genre_state_ = genre := rfl
  rw [hb0] at hbase
  rw [ht0] at htrans
  rw [hn0, ht0, hg0] at hcases
  have hcur0 : (w.SetGenreState genre).current_node_ = w.current_node_ := rfl
  rw [hcur0] at hcases
  unfold IteratingWalker.phaseBody
  simp only []
  rcases hcases with ⟨hnull, hdest, hnext⟩ | ⟨hnn, hlt, hmem, hnext⟩ | ⟨hnn, hsame, hnext⟩
  · have hne : ¬ (w.SetGenreState genre).PreDepartureStep.1.destination_genre = own := by
      rw [hdest]; exact fun h => hown h.symm
    rw [if_neg hne]
    refine ⟨htrans, by rw [hbase], ?_, ?_, ?_⟩
    · simp only [IteratingWalker.workLeft, hbase, htrans, hnext]; exact Nat.le_refl _
    · intro h; exact absurd hdest h
    · intro _; left
      have : (w.SetGenreState genre).PreDepartureStep.2.current_node_ = w.current_node_ := by
        rw [hbase]
      rw [this]; exact hnull
  · by_cases hd : (w.SetGenreState genre).PreDepartureStep.1.destination_genre = own
    · rw [if_pos hd]
      have hcur : (w.SetGenreState genre).PreDepartureStep.2.current_node_ ≠ none := by
        rw [hbase]; exact hnn
      obtain ⟨s1, s2, s3, s4, s5⟩ := IteratingWalker_WalkStep_progress _ hcur
      rw [hbase] at s3 s4
      refine ⟨by rw [s1, htrans], s3, ?_, ?_, ?_⟩
      · simp only [IteratingWalker.workLeft, s1, s2, htrans, hnext]; omega
      · intro _; simp only [IteratingWalker.workLeft, s1, s2, htrans, hnext]; omega
      · intro h; left
        exact s5 h (by rw [hgs, hd]; exact hown)
    · rw [if_neg hd]
      refine ⟨htrans, by rw [hbase], ?_, ?_, ?_⟩
      · simp only [IteratingWalker.workLeft, hbase, htrans, hnext]; omega
      · intro _; simp only [IteratingWalker.workLeft, hbase, htrans, hnext]; omega
      · intro h; right; exact ⟨_, hmem, h⟩
  · have hd : (w.SetGenreState genre).PreDepartureStep.1.destination_genre = own := by
      rw [hsame]; exact hg
    rw [if_pos hd]
    have hcur : (w.SetGenreState genre).PreDepartureStep.2.current_node_ ≠ none := by
      rw [hbase]; exact hnn
    obtain ⟨s1, s2, s3, s4, s5⟩ := IteratingWalker_WalkStep_progress _ hcur
    rw [hbase] at s3 s4
    refine ⟨by rw [s1, htrans], s3, ?_, ?_, ?_⟩
    · simp only [IteratingWalker.workLeft, s1, s2, htrans, hnext]; omega
    · intro _; simp only [IteratingWalker.workLeft, s1, s2, htrans, hnext]; omega
    · intro h; left
      exact s5 h (by rw [hgs, hd]; exact hown)

theorem quarrelWhileBody_facts (s : ConversionState)
    (hg : s.current_genre_state.destination_genre = ParsingGenre.kQuarrel) :
    (quarrelWhileBody s).salient_iterating_walker = s.salient_iterating_walker ∧
    (quarrelWhileBody s).quarrel_iterating_walker.walker_transitions_ =
      s.quarrel_iterating_walker.walker_transitions_ ∧
    (quarrelWhileBody s).quarrel_iterating_walker.listener_ ++
        pendingCallbacks (quarrelWhileBody s).quarrel_iterating_walker.toStepwiseParseTreeWalker =
      s.quarrel_iterating_walker.listener_ ++
        pendingCallbacks s.quarrel_iterating_walker.toStepwiseParseTreeWalker ∧
    (quarrelWhileBody s).workLeft ≤ s.workLeft ∧
    ((quarrelWhileBody s).current_genre_state.destination_genre ≠ ParsingGenre.kNone →
      (quarrelWhileBody s).workLeft < s.workLeft) ∧
    ((quarrelWhileBody s).current_genre_state.destination_genre = ParsingGenre.kNone →
      (quarrelWhileBody s).quarrel_iterating_walker.current_node_ = none ∨
      ∃ tr ∈ s.quarrel_iterating_walker.walker_transitions_,
        tr.destination_genre = ParsingGenre.kNone) := by
  obtain ⟨f1, f2, f3, f4, f5⟩ := phaseBody_facts ParsingGenre.kQuarrel (by decide)
    s.current_genre_state hg s.quarrel_iterating_walker
  rw [quarrelWhileBody_eq]
  refine ⟨rfl, f1, f2, ?_, ?_, f5⟩
  · simp only [ConversionState.workLeft]; omega
  · intro h; have := f4 h; simp only [ConversionState.workLeft]; omega

theorem salientWhileBody_facts (s : ConversionState)
    (hg : s.current_genre_state.destination_genre = ParsingGenre.kSalient) :
    (salientWhileBody s).quarrel_iterating_walker = s.quarrel_iterating_walker ∧
    (salientWhileBody s).salient_iterating_walker.walker_transitions_ =
      s.salient_iterating_walker.walker_transitions_ ∧
    (salientWhileBody s).salient_iterating_walker.listener_ ++
        pendingCallbacks (salientWhileBody s).salient_iterating_walker.toStepwiseParseTreeWalker =
      s.salient_iterating_walker.listener_ ++
        pendingCallbacks s.salient_iterating_walker.toStepwiseParseTreeWalker ∧
    (salientWhileBody s).workLeft ≤ s.workLeft ∧
    ((salientWhileBody s).current_genre_state.destination_genre ≠ ParsingGenre.kNone →
      (salientWhileBody s).workLeft < s.workLeft) ∧
    ((salientWhileBody s).current_genre_state.destination_genre = ParsingGenre.kNone →
      (salientWhileBody s).salient_iterating_walker.current_node_ = none ∨
      ∃ tr ∈ s.salient_iterating_walker.walker_transitions_,
        tr.destination_genre = ParsingGenre.kNone) := by
  obtain ⟨f1, f2, f3, f4, f5⟩ := phaseBody_facts ParsingGenre.kSalient (by decide)
    s.current_genre_state hg s.salient_iterating_walker
  rw [salientWhileBody_eq]
  refine ⟨rfl, f1, f2, ?_, ?_, f5⟩
  · simp only [ConversionState.workLeft]; omega
  · intro h; have := f4 h; simp only [ConversionState.workLeft]; omega

theorem quarrelWhile_of_ne (fuel : Nat) (hfuel : 0 < fuel) (s : ConversionState)
    (hg : s.current_genre_state.destination_genre ≠ ParsingGenre.kQuarrel) :
    quarrelWhile fuel s = some s := by
  cases fuel with
  | zero => omega
  | succ n => unfold quarrelWhile; rw [if_neg hg]

/-- The first inner `while` loop returns, keeping any property its body keeps. -/
theorem quarrelWhile_terminates (P : ConversionState → Prop)
    (hP : ∀ s, s.current_genre_state.destination_genre = ParsingGenre.kQuarrel → P s →
      P (quarrelWhileBody s)) (fuel : Nat) :
    ∀ s, P s → s.workLeft + 2 ≤ fuel →
    ∃ s', quarrelWhile fuel s = some s' ∧ P s' ∧
      s'.current_genre_state.destination_genre ≠ ParsingGenre.kQuarrel ∧
      s'.workLeft ≤ s.workLeft ∧
      (s.current_genre_state.destination_genre ≠ ParsingGenre.kQuarrel → s' = s) ∧
      (s.current_genre_state.destination_genre = ParsingGenre.kQuarrel →
        s'.current_genre_state.destination_genre ≠ ParsingGenre.kNone →
        s'.workLeft < s.workLeft) := by
  induction fuel with
  | zero => intro s _ h; omega
  | succ n ih =>
    intro s hPs hfuel
    unfold quarrelWhile
    by_cases hg : s.current_genre_state.destination_genre = ParsingGenre.kQuarrel
    · rw [if_pos hg]
      obtain ⟨_, _, _, f4, f5, _⟩ := quarrelWhileBody_facts s hg
      by_cases hg1 : (quarrelWhileBody s).current_genre_state.destination_genre =
          ParsingGenre.kQuarrel
      · have hlt := f5 (by rw [hg1]; decide)
        obtain ⟨s', h1, h2, h3, h4, _, _⟩ := ih (quarrelWhileBody s) (hP s hg hPs) (by omega)
        exact ⟨s', h1, h2, h3, by omega, fun h => absurd hg h, fun _ _ => by omega⟩
      · have h1 : quarrelWhile n (quarrelWhileBody s) = some (quarrelWhileBody s) :=
          quarrelWhile_of_ne n (by omega) _ hg1
        exact ⟨_, h1, hP s hg hPs, hg1, f4, fun h => absurd hg h, fun _ h => f5 h⟩
    · rw [if_neg hg]
      exact ⟨s, rfl, hPs, hg, Nat.le_refl _, fun _ => rfl, fun h => absurd h hg⟩

theorem salientWhile_of_ne (fuel : Nat) (hfuel : 0 < fuel) (s : ConversionState)
    (hg : s.current_genre_state.destination_genre ≠ ParsingGenre.kSalient) :
    salientWhile fuel s = some s := by
  cases fuel with
  | zero => omega
  | succ n => unfold salientWhile; rw [if_neg hg]

/-- The second inner `while` loop returns, keeping any property its body keeps. -/
theorem salientWhile_terminates (P : ConversionState → Prop)
    (hP : ∀ s, s.current_genre_state.destination_genre = ParsingGenre.kSalient → P s →
      P (salientWhileBody s)) (fuel : Nat) :
    ∀ s, P s → s.workLeft + 2 ≤ fuel →
    ∃ s', salientWhile fuel s = some s' ∧ P s' ∧
      s'.current_genre_state.destination_genre ≠ ParsingGenre.kSalient ∧
      s'.workLeft ≤ s.workLeft ∧
      (s.current_genre_state.destination_genre ≠ ParsingGenre.kSalient → s' = s) ∧
      (s.current_genre_state.destination_genre = ParsingGenre.kSalient →
        s'.current_genre_state.destination_genre ≠ ParsingGenre.kNone →
        s'.workLeft < s.workLeft) := by
  induction fuel with
  | zero => intro s _ h; omega
  | succ n ih =>
    intro s hPs hfuel
    unfold salientWhile
    by_cases hg : s.current_genre_state.destination_genre = ParsingGenre.kSalient
    · rw [if_pos hg]
      obtain ⟨_, _, _, f4, f5, _⟩ := salientWhileBody_facts s hg
      by_cases hg1 : (salientWhileBody s).current_genre_state.destination_genre =
          ParsingGenre.kSalient
      · have hlt := f5 (by rw [hg1]; decide)
        obtain ⟨s', h1, h2, h3, h4, _, _⟩ := ih (salientWhileBody s) (hP s hg hPs) (by omega)
        exact ⟨s', h1, h2, h3, by omega, fun h => absurd hg h, fun _ _ => by omega⟩
      · have h1 : salientWhile n (salientWhileBody s) = some (salientWhileBody s) :=
          salientWhile_of_ne n (by omega) _ hg1
        exact ⟨_, h1, hP s hg hPs, hg1, f4, fun h => absurd hg h, fun _ h => f5 h⟩
    · rw [if_neg hg]
      exact ⟨s, rfl, hPs, hg, Nat.le_refl _, fun _ => rfl, fun h => absurd h hg⟩

/-- The alternation loop returns, with destination genre `kNone`, keeping any property
that both `while` bodies keep. -/
theorem alternationLoop_terminates (P : ConversionState → Prop)
    (hPq : ∀ s, s.current_genre_state.destination_genre = ParsingGenre.kQuarrel → P s →
      P (quarrelWhileBody s))
    (hPs : ∀ s, s.current_genre_state.destination_genre = ParsingGenre.kSalient → P s →
      P (salientWhileBody s)) (fuel : Nat) :
    ∀ s, P s → s.workLeft + 2 ≤ fuel →
    ∃ s', alternationLoop fuel s = some s' ∧ P s' ∧
      s'.current_genre_state.destination_genre = ParsingGenre.kNone := by
  induction fuel with
  | zero => intro s _ h; omega
  | succ n ih =>
    intro s hP hfuel
    obtain ⟨s1, a1, a2, a3, a4, a5, _⟩ := quarrelWhile_terminates P hPq (n + 1) s hP hfuel
    obtain ⟨s2, b1, b2, b3, b4, b5, b6⟩ :=
      salientWhile_terminates P hPs (n + 1) s1 a2 (by omega)
    unfold alternationLoop
    simp only [a1, b1]
    by_cases hnone : s2.current_genre_state.destination_genre = ParsingGenre.kNone
    · rw [if_neg (by simpa using hnone)]
      exact ⟨s2, rfl, b2, hnone⟩
    · rw [if_pos hnone]
      have hs1 : s1.current_genre_state.destination_genre = ParsingGenre.kSalient := by
        by_contra hne
        have := b5 hne
        subst this
        cases hh : s2.current_genre_state.destination_genre with
        | kNone => exact hnone hh
        | kSalient => exact b3 hh
        | kQuarrel => exact a3 hh
      have hlt := b6 hs1 hnone
      exact ih s2 b2 (by omega)

/-- C5, refuted as stated. Two trees of one childless rule node each, no transitions, outer
genre `kQuarrel`: the loop ends after the quarrel walker's two steps, and the salient
walker has received none of the two callbacks of its tree and still has its root as
current node. -/
theorem alternationLoop_leaves_salient_unwalked :
    (alternationLoop 6 (ConversionState.init ⟨0, ParsingGenre.kQuarrel, TextualSubGenre.kNone⟩
        (ParseTree.rule 0 0 []) (ParseTree.rule 0 0 []) [] [])).map
      (fun s => (s.current_genre_state.destination_genre,
        s.quarrel_iterating_walker.listener_.length,
        s.salient_iterating_walker.listener_.length,
        s.salient_iterating_walker.current_node_.isSome,
        (recursiveWalk (ParseTree.rule 0 0 [])).length)) =
      some (ParsingGenre.kNone, 2, 0, true, 2) := by
  decide

theorem wellFormed_quarrelWhileBody (qt st : ParseTree) (s : ConversionState)
    (hg : s.current_genre_state.destination_genre = ParsingGenre.kQuarrel)
    (h : s.wellFormed qt st) : (quarrelWhileBody s).wellFormed qt st := by
  obtain ⟨h1, h2, h3, h4, _⟩ := h
  obtain ⟨f0, f1, f2, _, _, f5⟩ := quarrelWhileBody_facts s hg
  refine ⟨by rw [f2]; exact h1, by rw [f0]; exact h2, by rw [f1]; exact h3,
    by rw [f0]; exact h4, ?_⟩
  intro hnone
  rcases f5 hnone with hx | ⟨tr, htr, hd⟩
  · exact Or.inl hx
  · exact absurd hd (h3 tr htr)

theorem wellFormed_salientWhileBody (qt st : ParseTree) (s : ConversionState)
    (hg : s.current_genre_state.destination_genre = ParsingGenre.kSalient)
    (h : s.wellFormed qt st) : (salientWhileBody s).wellFormed qt st := by
  obtain ⟨h1, h2, h3, h4, _⟩ := h
  obtain ⟨f0, f1, f2, _, _, f5⟩ := salientWhileBody_facts s hg
  refine ⟨by rw [f0]; exact h1, by rw [f2]; exact h2, by rw [f0]; exact h3,
    by rw [f1]; exact h4, ?_⟩
  intro hnone
  rcases f5 hnone with hx | ⟨tr, htr, hd⟩
  · exact Or.inr hx
  · exact absurd hd (h4 tr htr)

theorem workLeft_init (outer : WalkerTransition) (qt st : ParseTree)
    (q2s s2q : List WalkerTransition) :
    (ConversionState.init outer qt st q2s s2q).workLeft =
      q2s.length + (preSteps qt + 1) + (s2q.length + (preSteps st + 1)) := by
  simp [ConversionState.workLeft, IteratingWalker.workLeft, ConversionState.init,
    IteratingWalker.init, IteratingWalker.SetTransitions, remainingSteps,
    StepwiseParseTreeWalker.init, stepsInner]

theorem wellFormed_init (outer : WalkerTransition) (qt st : ParseTree)
    (q2s s2q : List WalkerTransition)
    (houter : outer.destination_genre ≠ ParsingGenre.kNone)
    (hq : ∀ tr ∈ q2s, tr.destination_genre ≠ ParsingGenre.kNone)
    (hs : ∀ tr ∈ s2q, tr.destination_genre ≠ ParsingGenre.kNone) :
    (ConversionState.init outer qt st q2s s2q).wellFormed qt st := by
  refine ⟨?_, ?_, hq, hs, fun h => absurd h houter⟩
  · exact (pendingCallbacks_init qt)
  · exact (pendingCallbacks_init st)

/-- C5, amended. Started with an outer genre other than `kNone` and transition lists without
destination `kNone`, the alternation loop of `PerformConversion` ends (within the stated
number of passes, for all trees and lists) with destination genre `kNone` and with at least
one of the two iterating walkers exhausted, that walker's listener having received exactly
the callbacks of the complete walk of its tree. -/
theorem alternationLoop_exhausts_a_walker (outer : WalkerTransition) (qt st : ParseTree)
    (q2s s2q : List WalkerTransition)
    (houter : outer.destination_genre ≠ ParsingGenre.kNone)
    (hq : ∀ tr ∈ q2s, tr.destination_genre ≠ ParsingGenre.kNone)
    (hs : ∀ tr ∈ s2q, tr.destination_genre ≠ ParsingGenre.kNone) (extra : Nat) :
    ∃ s', alternationLoop (q2s.length + s2q.length + preSteps qt + preSteps st + 4 + extra)
        (ConversionState.init outer qt st q2s s2q) = some s' ∧
      s'.current_genre_state.destination_genre = ParsingGenre.kNone ∧
      ((s'.quarrel_iterating_walker.current_node_ = none ∧
          s'.quarrel_iterating_walker.listener_ = recursiveWalk qt) ∨
       (s'.salient_iterating_walker.current_node_ = none ∧
          s'.salient_iterating_walker.listener_ = recursiveWalk st)) := by
  obtain ⟨s', h1, h2, h3⟩ := alternationLoop_terminates (ConversionState.wellFormed qt st)
    (wellFormed_quarrelWhileBody qt st) (wellFormed_salientWhileBody qt st)
    (q2s.length + s2q.length + preSteps qt + preSteps st + 4 + extra)
    (ConversionState.init outer qt st q2s s2q)
    (wellFormed_init outer qt st q2s s2q houter hq hs)
    (by rw [workLeft_init]; omega)
  refine ⟨s', h1, h3, ?_⟩
  obtain ⟨w1, w2, _, _, w5⟩ := h2
  rcases w5 h3 with hx | hx
  · left
    refine ⟨hx, ?_⟩
    rw [pendingCallbacks_of_null _ hx, List.append_nil] at w1
    exact w1
  · right
    refine ⟨hx, ?_⟩
    rw [pendingCallbacks_of_null _ hx, List.append_nil] at w2
    exact w2

/-- Witness of `alternationLoop_exhausts_a_walker`: two one-rule trees, one transition to
the salient grammar, outer genre `kQuarrel`. -/
theorem alternationLoop_exhausts_a_walker_witness :
    ∃ s', alternationLoop
        ([(⟨5, ParsingGenre.kSalient, TextualSubGenre.kMaster⟩ : WalkerTransition)].length +
          ([] : List WalkerTransition).length + preSteps (ParseTree.rule 0 0 []) +
          preSteps (ParseTree.rule 0 7 []) + 4 + 0)
        (ConversionState.init ⟨0, ParsingGenre.kQuarrel, TextualSubGenre.kNone⟩
          (ParseTree.rule 0 0 []) (ParseTree.rule 0 7 [])
          [⟨5, ParsingGenre.kSalient, TextualSubGenre.kMaster⟩] []) = some s' ∧
      s'.current_genre_state.destination_genre = ParsingGenre.kNone ∧
      ((s'.quarrel_iterating_walker.current_node_ = none ∧
          s'.quarrel_iterating_walker.listener_ = recursiveWalk (ParseTree.rule 0 0 [])) ∨
       (s'.salient_iterating_walker.current_node_ = none ∧
          s'.salient_iterating_walker.listener_ = recursiveWalk (ParseTree.rule 0 7 []))) :=
  alternationLoop_exhausts_a_walker ⟨0, ParsingGenre.kQuarrel, TextualSubGenre.kNone⟩
    (ParseTree.rule 0 0 []) (ParseTree.rule 0 7 [])
    [⟨5, ParsingGenre.kSalient, TextualSubGenre.kMaster⟩] []
    (by decide) (by decide) (by simp) 0

mutual
theorem ParseTree.beq_refl : (t : ParseTree) → ParseTree.beq t t = true
  | .rule r s cs => by
    simp [ParseTree.beq, ParseTree.beqList_refl cs]
  | .terminal t => by simp [ParseTree.beq]
  | .errorNode t => by simp [ParseTree.beq]
theorem ParseTree.beqList_refl : (cs : List ParseTree) → ParseTree.beqList cs cs = true
  | [] => by simp [ParseTree.beqList]
  | c :: cs => by
    simp [ParseTree.beqList, ParseTree.beq_refl c, ParseTree.beqList_refl cs]
end

theorem AltParseTreeProperty.get_put_self {V : Type} (m : AltParseTreeProperty V)
    (node : ParseTree) (value : V) : (m.put node value).get node = some value := by
  simp [AltParseTreeProperty.put, AltParseTreeProperty.get, List.find?, ParseTree.beq_refl]

theorem AltParseTreeProperty.get_put_isSome {V : Type} (m : AltParseTreeProperty V)
    (node key : ParseTree) (value : V) (h : (m.get node).isSome = true) :
    ((m.put key value).get node).isSome = true := by
  unfold AltParseTreeProperty.put AltParseTreeProperty.get
  rw [List.find?_cons]
  by_cases hk : ParseTree.beq key node = true
  · simp [hk]
  · simp only [hk]
    exact h

theorem deliverAll_append (R : Nat) (es es2 : List Callback) :
    ∀ L : CoarseSkimSalientListener,
    CoarseSkimSalientListener.deliverAll R L (es ++ es2) =
      (CoarseSkimSalientListener.deliverAll R L es).bind
        (fun L1 => CoarseSkimSalientListener.deliverAll R L1 es2) := by
  induction es with
  | nil => intro L; simp [CoarseSkimSalientListener.deliverAll]
  | cons e es ih =>
    intro L
    simp only [List.cons_append, CoarseSkimSalientListener.deliverAll]
    cases h : L.deliver R e with
    | none => simp
    | some L1 => simp [ih L1]

theorem SkimExtends.refl (L : CoarseSkimSalientListener) : SkimExtends [] L L :=
  ⟨fun _ h => h, ⟨[], by simp, by simp⟩, ⟨[], by simp, by simp⟩⟩

theorem SkimExtends.trans {toks1 toks2 : List Token} {L L1 L2 : CoarseSkimSalientListener}
    (h1 : SkimExtends toks1 L L1) (h2 : SkimExtends toks2 L1 L2) :
    SkimExtends (toks1 ++ toks2) L L2 := by
  obtain ⟨a1, ⟨q1, q1s, q1e⟩, ⟨s1, s1s, s1e⟩⟩ := h1
  obtain ⟨a2, ⟨q2, q2s, q2e⟩, ⟨s2, s2s, s2e⟩⟩ := h2
  refine ⟨fun n h => a2 n (a1 n h), ⟨q1 ++ q2, ?_, ?_⟩, ⟨s1 ++ s2, ?_, ?_⟩⟩
  · rw [List.map_append]; exact List.Sublist.append q1s q2s
  · rw [q2e, q1e, List.append_assoc]
  · rw [List.map_append]; exact List.Sublist.append s1s s2s
  · rw [s2e, s1e, List.append_assoc]

theorem enterEveryRule_extends (R : Nat) (L : CoarseSkimSalientListener) (ctx : ParseTree)
    (r : Nat) :
    SkimExtends [] L (L.enterEveryRule R ctx r) ∧
      ((L.enterEveryRule R ctx r).coarse_properties_.get ctx).isSome = true := by
  unfold CoarseSkimSalientListener.enterEveryRule
  by_cases hr : r = R
  · simp only [hr, if_true]
    refine ⟨⟨fun n h => AltParseTreeProperty.get_put_isSome _ _ _ _ h,
      ⟨[], by simp, by simp⟩, ⟨[], by simp, by simp⟩⟩, ?_⟩
    rw [AltParseTreeProperty.get_put_self]; rfl
  · simp only [hr, if_false]
    refine ⟨⟨fun n h => AltParseTreeProperty.get_put_isSome _ _ _ _ h,
      ⟨[], by simp, by simp⟩, ⟨[], by simp, by simp⟩⟩, ?_⟩
    rw [AltParseTreeProperty.get_put_self]; rfl

theorem exitEveryRule_extends (R : Nat) (L : CoarseSkimSalientListener) (ctx : ParseTree)
    (r : Nat) (h : (L.coarse_properties_.get ctx).isSome = true) :
    ∃ L', L.exitEveryRule R ctx r = some L' ∧ SkimExtends [] L L' := by
  unfold CoarseSkimSalientListener.exitEveryRule
  by_cases hr : r = R
  · simp only [hr, if_true]
    cases hg : L.coarse_properties_.get ctx with
    | none => rw [hg] at h; simp at h
    | some got =>
      exact ⟨_, rfl, fun n h => AltParseTreeProperty.get_put_isSome _ _ _ _ h,
        ⟨[], by simp, by simp⟩, ⟨[], by simp, by simp⟩⟩
  · simp only [hr, if_false]
    cases hg : L.coarse_properties_.get ctx with
    | none => rw [hg] at h; simp at h
    | some got =>
      exact ⟨_, rfl, fun n h => AltParseTreeProperty.get_put_isSome _ _ _ _ h,
        ⟨[], by simp, by simp⟩, ⟨[], by simp, by simp⟩⟩

theorem visitTerminal_extends (L : CoarseSkimSalientListener) (ctx : ParseTree)
    (symbol : Token) : SkimExtends [symbol] L (L.visitTerminal ctx symbol) := by
  unfold CoarseSkimSalientListener.visitTerminal
  by_cases h1 : symbol.type = PvnTokenType.LEAVE_CODE ∨ symbol.type = PvnTokenType.ENTER_TEXTUAL
  · by_cases h2 : symbol.type = PvnTokenType.NEWLINE_ENTER_CODE ∨
        symbol.type = PvnTokenType.LEAVE_TEXTUAL
    · simp only [h1, h2, if_true]
      exact ⟨fun n h => AltParseTreeProperty.get_put_isSome _ _ _ _ h,
        ⟨[symbol.tokenIndex], by simp, by simp⟩, ⟨[symbol.tokenIndex], by simp, by simp⟩⟩
    · simp only [h1, h2, if_true, if_false]
      exact ⟨fun n h => AltParseTreeProperty.get_put_isSome _ _ _ _ h,
        ⟨[symbol.tokenIndex], by simp, by simp⟩, ⟨[], by simp, by simp⟩⟩
  · by_cases h2 : symbol.type = PvnTokenType.NEWLINE_ENTER_CODE ∨
        symbol.type = PvnTokenType.LEAVE_TEXTUAL
    · simp only [h1, h2, if_true, if_false]
      exact ⟨fun n h => AltParseTreeProperty.get_put_isSome _ _ _ _ h,
        ⟨[], by simp, by simp⟩, ⟨[symbol.tokenIndex], by simp, by simp⟩⟩
    · simp only [h1, h2, if_false]
      exact ⟨fun n h => AltParseTreeProperty.get_put_isSome _ _ _ _ h,
        ⟨[], by simp, by simp⟩, ⟨[], by simp, by simp⟩⟩

theorem SkimExtends.weaken {toks : List Token} {L L' : CoarseSkimSalientListener}
    (tok : Token) (h : SkimExtends [] L L') (htoks : toks = [tok]) : SkimExtends toks L L' := by
  subst htoks
  obtain ⟨a, ⟨q, qs, qe⟩, ⟨s, ss, se⟩⟩ := h
  refine ⟨a, ⟨q, ?_, qe⟩, ⟨s, ?_, se⟩⟩
  · exact qs.trans (by simp)
  · exact ss.trans (by simp)

mutual
theorem skim_tree (R : Nat) : (t : ParseTree) → ∀ L : CoarseSkimSalientListener,
    ∃ L', CoarseSkimSalientListener.deliverAll R L (recursiveWalk t) = some L' ∧
      SkimExtends (terminalTokens t) L L'
  | .rule r s cs => by
    intro L
    obtain ⟨e1, e2⟩ := enterEveryRule_extends R L (.rule r s cs) r
    obtain ⟨L2, h2, x2⟩ := skim_list R cs (L.enterEveryRule R (.rule r s cs) r)
    obtain ⟨L3, h3, x3⟩ := exitEveryRule_extends R L2 (.rule r s cs) r (x2.1 _ e2)
    refine ⟨L3, ?_, ?_⟩
    · simp only [recursiveWalk, CoarseSkimSalientListener.deliverAll,
        CoarseSkimSalientListener.deliver]
      rw [deliverAll_append, h2]
      simp [CoarseSkimSalientListener.deliverAll, CoarseSkimSalientListener.deliver, h3]
    · have := (e1.trans x2).trans x3
      simpa [terminalTokens] using this
  | .terminal tok => by
    intro L
    refine ⟨L.visitTerminal (.terminal tok) tok, ?_, ?_⟩
    · simp [recursiveWalk, CoarseSkimSalientListener.deliverAll,
        CoarseSkimSalientListener.deliver]
    · simpa [terminalTokens] using visitTerminal_extends L (.terminal tok) tok
  | .errorNode tok => by
    intro L
    refine ⟨L, ?_, ?_⟩
    · simp [recursiveWalk, CoarseSkimSalientListener.deliverAll,
        CoarseSkimSalientListener.deliver]
    · exact SkimExtends.weaken tok (SkimExtends.refl L) (by simp [terminalTokens])
theorem skim_list (R : Nat) : (cs : List ParseTree) → ∀ L : CoarseSkimSalientListener,
    ∃ L', CoarseSkimSalientListener.deliverAll R L (recursiveWalkList cs) = some L' ∧
      SkimExtends (terminalTokensList cs) L L'
  | [] => by
    intro L
    exact ⟨L, by simp [recursiveWalkList, CoarseSkimSalientListener.deliverAll],
      by simpa [terminalTokensList] using SkimExtends.refl L⟩
  | c :: cs => by
    intro L
    obtain ⟨L1, h1, x1⟩ := skim_tree R c L
    obtain ⟨L2, h2, x2⟩ := skim_list R cs L1
    refine ⟨L2, ?_, ?_⟩
    · simp only [recursiveWalkList]
      rw [deliverAll_append, h1]
      simpa using h2
    · simpa [terminalTokensList] using x1.trans x2
end

/-- C6. For every salient parse tree whose terminals carry strictly increasing token
indices in walk order, the skim walk of `CoarseSkimSalientListener` completes and both
transition lists recorded by `visitTerminal` (`quarrel_to_salient_transitions` and
`salient_to_quarrel_transitions`) have strictly increasing `token_index`. -/
theorem salientSkim_transitions_increasing (RuleListItem : Nat) (salient_tree : ParseTree)
    (h : ((terminalTokens salient_tree).map (fun t => t.tokenIndex)).Pairwise (fun a b => a < b)) :
    ∃ L, salientSkim RuleListItem salient_tree = some L ∧
      L.summarizer_results_.quarrel_to_salient_transitions.Pairwise
        (fun a b => a.token_index < b.token_index) ∧
      L.summarizer_results_.salient_to_quarrel_transitions.Pairwise
        (fun a b => a.token_index < b.token_index) := by
  obtain ⟨L, hL, _, ⟨q, qs, qe⟩, ⟨s, ss, se⟩⟩ := skim_tree RuleListItem salient_tree {}
  refine ⟨L, hL, ?_, ?_⟩
  · have hq := h.sublist qs
    simp only [List.map_nil, List.nil_append] at qe
    rw [← qe, List.pairwise_map] at hq
    exact hq
  · have hs := h.sublist ss
    simp only [List.map_nil, List.nil_append] at se
    rw [← se, List.pairwise_map] at hs
    exact hs

/-- Witness of `salientSkim_transitions_increasing`: a rule node over three terminals with
token indices 1, 2, 3. -/
theorem salientSkim_transitions_increasing_witness :
    ∃ L, salientSkim 0 (ParseTree.rule 0 1
        [ParseTree.terminal ⟨PvnTokenType.LEAVE_CODE, [';'], 1⟩,
         ParseTree.terminal ⟨PvnTokenType.other 0, ['a'], 2⟩,
         ParseTree.terminal ⟨PvnTokenType.LEAVE_TEXTUAL, [], 3⟩]) = some L ∧
      L.summarizer_results_.quarrel_to_salient_transitions.Pairwise
        (fun a b => a.token_index < b.token_index) ∧
      L.summarizer_results_.salient_to_quarrel_transitions.Pairwise
        (fun a b => a.token_index < b.token_index) :=
  salientSkim_transitions_increasing 0 _ (by decide)

theorem countType_cons (ty : PvnTokenType) (t : Token) (l : List Token) :
    countType ty (t :: l) = (if t.type = ty then 1 else 0) + countType ty l := by
  unfold countType
  by_cases h : t.type = ty
  · simp [List.filter_cons, h]; omega
  · simp [List.filter_cons, h]

theorem countType_append (ty : PvnTokenType) (l1 l2 : List Token) :
    countType ty (l1 ++ l2) = countType ty l1 + countType ty l2 := by
  simp [countType]

theorem countType_dropLast_getLast (ty : PvnTokenType) (l : List Token) (b : Token)
    (h : l.getLast? = some b) :
    countType ty l = countType ty l.dropLast + (if b.type = ty then 1 else 0) := by
  have hl : l = l.dropLast ++ [b] := by
    have hne : l ≠ [] := by intro h0; rw [h0] at h; simp at h
    have := List.dropLast_append_getLast hne
    rw [List.getLast?_eq_getLast _ hne] at h
    simp only [Option.some.injEq] at h
    rw [h] at this
    exact this.symm
  conv_lhs => rw [hl]
  rw [countType_append, countType_cons]
  simp [countType]

theorem countType_synthesized_cons (ty ty2 : PvnTokenType) (m : Token) (l : List Token) :
    countType ty (synthesizedToken ty2 m :: l) = (if ty2 = ty then 1 else 0) + countType ty l := by
  rw [countType_cons]; rfl

theorem countType_insert_before_back (ty ty2 : PvnTokenType) (l : List Token) (b : Token)
    (h : l.getLast? = some b) :
    countType ty (l.dropLast ++ [synthesizedToken ty2 b, b]) =
      (if ty2 = ty then 1 else 0) + countType ty l := by
  rw [countType_dropLast_getLast ty l b h, countType_append, countType_synthesized_cons,
    countType_cons]
  simp only [countType, List.filter_nil, List.length_nil]
  omega

theorem dedentInsertion_facts (req : Int) (fuel : Nat) :
    ∀ (cur : Int) (pending : List Token),
    ((countType PvnTokenType.SVT_DEDENT (dedentInsertion req fuel (cur, pending)).2 : Int) -
        countType PvnTokenType.SVT_DEDENT pending =
      cur - (dedentInsertion req fuel (cur, pending)).1) ∧
    countType PvnTokenType.SVT_INDENT (dedentInsertion req fuel (cur, pending)).2 =
      countType PvnTokenType.SVT_INDENT pending ∧
    (dedentInsertion req fuel (cur, pending)).1 ≤ cur ∧
    min cur req ≤ (dedentInsertion req fuel (cur, pending)).1 ∧
    (dedentInsertion req fuel (cur, pending)).2.getLast? = pending.getLast? := by
  induction fuel with
  | zero => intro cur pending; simp [dedentInsertion]
  | succ n ih =>
    intro cur pending
    unfold dedentInsertion
    by_cases hgt : cur > req
    · rw [if_pos hgt]
      cases pending with
      | nil => simp
      | cons front others =>
        obtain ⟨h1, h2, h3, h4, h5⟩ := ih (cur - 1)
          (synthesizedToken PvnTokenType.SVT_DEDENT front :: front :: others)
        have hcD := countType_synthesized_cons PvnTokenType.SVT_DEDENT PvnTokenType.SVT_DEDENT
          front (front :: others)
        have hcI := countType_synthesized_cons PvnTokenType.SVT_INDENT PvnTokenType.SVT_DEDENT
          front (front :: others)
        simp only [if_true] at hcD
        rw [if_neg (by decide)] at hcI
        rw [hcD] at h1
        rw [hcI] at h2
        simp only []
        refine ⟨?_, ?_, by omega, by omega, ?_⟩
        · push_cast at h1; omega
        · omega
        · rw [h5]; simp [List.getLast?_cons_cons]
    · rw [if_neg hgt]
      refine ⟨by simp, rfl, le_refl _, ?_, rfl⟩
      simp only []
      omega

theorem indentInsertion_facts (req : Int) (fuel : Nat) :
    ∀ (cur : Int) (pending : List Token),
    ((countType PvnTokenType.SVT_INDENT (indentInsertion req fuel (cur, pending)).2 : Int) -
        countType PvnTokenType.SVT_INDENT pending =
      (indentInsertion req fuel (cur, pending)).1 - cur) ∧
    countType PvnTokenType.SVT_DEDENT (indentInsertion req fuel (cur, pending)).2 =
      countType PvnTokenType.SVT_DEDENT pending ∧
    cur ≤ (indentInsertion req fuel (cur, pending)).1 ∧
    (indentInsertion req fuel (cur, pending)).2.getLast? = pending.getLast? := by
  induction fuel with
  | zero => intro cur pending; simp [indentInsertion]
  | succ n ih =>
    intro cur pending
    unfold indentInsertion
    by_cases hlt : cur < req
    · rw [if_pos hlt]
      cases hb : pending.getLast? with
      | none => exact ⟨by simp, rfl, le_refl _, hb⟩
      | some back =>
        obtain ⟨h1, h2, h3, h4⟩ := ih (cur + 1)
          (pending.dropLast ++ [synthesizedToken PvnTokenType.SVT_INDENT back, back])
        have hcI := countType_insert_before_back PvnTokenType.SVT_INDENT PvnTokenType.SVT_INDENT
          pending back hb
        have hcD := countType_insert_before_back PvnTokenType.SVT_DEDENT PvnTokenType.SVT_INDENT
          pending back hb
        simp only [if_true] at hcI
        rw [if_neg (by decide)] at hcD
        rw [hcI] at h1
        rw [hcD] at h2
        simp only []
        refine ⟨?_, ?_, by omega, ?_⟩
        · push_cast at h1; omega
        · omega
        · rw [h4]; simp
    · rw [if_neg hlt]
      exact ⟨by simp, rfl, le_refl _, rfl⟩

theorem fetchTokens_facts : ∀ (raw : List RawItem) (ctx : SalientModeContext)
    (pending : List Token) (ctx1 : SalientModeContext) (fetched : List Token)
    (rest : List RawItem),
    ctx.fetchTokens raw pending = some (ctx1, fetched, rest) →
    ctx1.current_indentation = ctx.current_indentation ∧
      ctx1.last_emitted_implied_indenter = ctx.last_emitted_implied_indenter ∧
      ctx1.nested_list_types = ctx.nested_list_types ∧
      ∃ back, fetched.getLast? = some back ∧ IsLogicalWhitespace back.type = false := by
  intro raw
  induction raw with
  | nil => intro ctx pending ctx1 fetched rest h; simp [SalientModeContext.fetchTokens] at h
  | cons item others ih =>
    intro ctx pending ctx1 fetched rest h
    unfold SalientModeContext.fetchTokens at h
    simp only [] at h
    split at h
    · simp at h
    · by_cases hw : IsLogicalWhitespace item.token.type = true
      · rw [if_pos hw] at h
        obtain ⟨h1, h2, h3, h4⟩ := ih _ _ _ _ _ h
        refine ⟨?_, ?_, ?_, h4⟩
        · rw [h1]; split <;> split <;> rfl
        · rw [h2]; split <;> split <;> rfl
        · rw [h3]; split <;> split <;> rfl
      · rw [if_neg hw] at h
        simp only [Option.some.injEq, Prod.mk.injEq] at h
        obtain ⟨e1, e2, _⟩ := h
        subst e1 e2
        refine ⟨?_, ?_, ?_, ⟨item.token, by simp, by simpa using hw⟩⟩
        · split <;> split <;> rfl
        · split <;> split <;> rfl
        · split <;> split <;> rfl

theorem CalculateIndentation_nonneg (text : List Char) (ty : PvnTokenType) :
    0 ≤ CalculateIndentation text ty := by
  unfold CalculateIndentation
  split <;> simp

/-- One indentation resolution: the synthesized `SVT_INDENT` tokens minus the synthesized
`SVT_DEDENT` tokens make up the change of `current_indentation`, less the one level that an
implied-indenter trigger adds without a token; and `current_indentation` stays
non-negative. -/
theorem resolve_facts (ctx : SalientModeContext) (raw : List RawItem)
    (ctx' : SalientModeContext) (queue : List Token) (rest : List RawItem)
    (h : ctx.resolve raw = some (ctx', queue, rest)) :
    ∃ ctx1 fetched, ctx.fetchTokens raw [] = some (ctx1, fetched, rest) ∧
      ResolutionRecord.synthesized PvnTokenType.SVT_INDENT ⟨fetched, queue⟩ -
          ResolutionRecord.synthesized PvnTokenType.SVT_DEDENT ⟨fetched, queue⟩ =
        ctx'.current_indentation - ctx.current_indentation -
          (if ResolutionRecord.impliedIndenter ⟨fetched, queue⟩ = true then 1 else 0) ∧
      (0 ≤ ctx.current_indentation → 0 ≤ ctx'.current_indentation) := by
  unfold SalientModeContext.resolve at h
  cases hf : ctx.fetchTokens raw [] with
  | none => rw [hf] at h; simp at h
  | some r =>
    obtain ⟨ctx1, fetched, rest1⟩ := r
    rw [hf] at h
    simp only [] at h
    obtain ⟨hcur, _, _, back, hback, _⟩ := fetchTokens_facts raw ctx [] ctx1 fetched rest1 hf
    rw [hback] at h
    simp only [Option.some.injEq, Prod.mk.injEq] at h
    obtain ⟨hctx, hq, hrest⟩ := h
    subst hrest
    refine ⟨ctx1, fetched, rfl, ?_⟩
    generalize hreq : requestedIndentation ctx1 back = req at hctx hq
    have hreq0 : 0 ≤ ctx.current_indentation → 0 ≤ req := by
      intro h0
      rw [← hreq]
      unfold requestedIndentation
      split
      · split
        · exact le_refl _
        · exact CalculateIndentation_nonneg _ _
      · rw [hcur]; exact h0
    obtain ⟨d1, d2, d3, d4, d5⟩ := dedentInsertion_facts req
      (ctx1.current_indentation - req).toNat ctx1.current_indentation fetched
    generalize hd : dedentInsertion req (ctx1.current_indentation - req).toNat
      (ctx1.current_indentation, fetched) = d at hctx hq d1 d2 d3 d4 d5
    obtain ⟨i1, i2, i3, i4⟩ := indentInsertion_facts req (req - d.1).toNat d.1 d.2
    have hdeta : (d.1, d.2) = d := rfl
    rw [hdeta] at i1 i2 i3 i4
    generalize hi : indentInsertion req (req - d.1).toNat d = i at hctx hq i1 i2 i3 i4
    subst hq
    have himp : ResolutionRecord.impliedIndenter ⟨fetched, i.2⟩ = IsImpliedIndenter back.type := by
      simp [ResolutionRecord.impliedIndenter, hback]
    have hfinal : ctx'.current_indentation =
        i.1 + (if IsImpliedIndenter back.type = true then 1 else 0) := by
      by_cases hb : IsImpliedIndenter back.type = true
      · simp only [hb, if_true] at hctx
        simp only [hb, if_true]
        split at hctx <;> rw [← hctx]
      · have hb' : IsImpliedIndenter back.type = false := by simpa using hb
        rw [hb'] at hctx
        rw [hb']
        simp only [Bool.false_eq_true, if_false] at hctx
        simp only [Bool.false_eq_true, if_false, add_zero]
        split at hctx <;> rw [← hctx]
    refine ⟨?_, ?_⟩
    · simp only [ResolutionRecord.synthesized]
      rw [himp, hfinal, ← hcur]
      omega
    · intro h0
      have := hreq0 h0
      rw [hfinal]
      have : 0 ≤ i.1 := by omega
      split <;> omega

theorem resolveMany_facts (n : Nat) : ∀ (ctx : SalientModeContext) (raw : List RawItem)
    (ctx' : SalientModeContext) (records : List ResolutionRecord) (rest : List RawItem),
    ctx.resolveMany n raw = some (ctx', records, rest) →
    netSynthesizedIndents records =
        ctx'.current_indentation - ctx.current_indentation - impliedIndenterCount records ∧
      (0 ≤ ctx.current_indentation → 0 ≤ ctx'.current_indentation) ∧
      records.length = n := by
  induction n with
  | zero =>
    intro ctx raw ctx' records rest h
    simp only [SalientModeContext.resolveMany, Option.some.injEq, Prod.mk.injEq] at h
    obtain ⟨h1, h2, _⟩ := h
    subst h1 h2
    simp [netSynthesizedIndents, impliedIndenterCount]
  | succ n ih =>
    intro ctx raw ctx' records rest h
    unfold SalientModeContext.resolveMany at h
    cases hr : ctx.resolve raw with
    | none =>
      rw [hr] at h
      split at h <;> simp_all
    | some r =>
      obtain ⟨ctx1, queue, rest1⟩ := r
      obtain ⟨ctx0, fetched, hf, hnet, hpos⟩ := resolve_facts ctx raw ctx1 queue rest1 hr
      rw [hr, hf] at h
      simp only [] at h
      cases hm : SalientModeContext.resolveMany n ctx1 rest1 with
      | none => rw [hm] at h; simp at h
      | some m =>
        obtain ⟨ctx2, recs, rest2⟩ := m
        rw [hm] at h
        simp only [Option.some.injEq, Prod.mk.injEq] at h
        obtain ⟨h1, h2, _⟩ := h
        subst h1 h2
        obtain ⟨g1, g2, g3⟩ := ih ctx1 rest1 ctx2 recs rest2 hm
        refine ⟨?_, fun h0 => g2 (hpos h0), by simp [g3]⟩
        simp only [netSynthesizedIndents, impliedIndenterCount]
        rw [g1, hnet]
        omega

/-- C7, refuted as stated. One resolution from a fresh context on the single token
`ITEM_START_FIRST` with text `@`: no token is synthesized, yet `current_indentation` goes
from 0 to 1. -/
theorem resolveMany_item_start_raises_without_indent :
    ((SalientModeContext.resolveMany 1 {}
        [⟨⟨PvnTokenType.ITEM_START_FIRST, ['@'], 0⟩, PvnTokenType.other 0⟩]).map
      (fun r => (netSynthesizedIndents r.2.1, r.1.current_indentation, r.2.1.map
        (fun rec => rec.queue)))) =
      some (0, 1, [[⟨PvnTokenType.ITEM_START_FIRST, ['@'], 0⟩]]) := by
  decide

/-- C7, amended. Over every sequence of indentation resolutions performed by
`SpecializedNextToken` (any token types and texts), the number of synthesized `SVT_INDENT`
tokens minus the number of synthesized `SVT_DEDENT` tokens equals the final
`current_indentation` minus the initial one, minus the number of resolutions whose
triggering token is an implied indenter (`ITEM_START_FIRST`, `ITEM_START_SUCCEEDING`,
`LIST_BREAK_ACTUAL`): each of those raises `current_indentation` by one without a token. -/
theorem resolveMany_net_indents (n : Nat) (ctx : SalientModeContext) (raw : List RawItem)
    (ctx' : SalientModeContext) (records : List ResolutionRecord) (rest : List RawItem)
    (h : ctx.resolveMany n raw = some (ctx', records, rest)) :
    netSynthesizedIndents records =
      ctx'.current_indentation - ctx.current_indentation - impliedIndenterCount records :=
  (resolveMany_facts n ctx raw ctx' records rest h).1

/-- Witness of `resolveMany_net_indents`: from indentation 1, an `INDENT_CONTINUATION` with
two markers, for which one `SVT_INDENT` is synthesized. -/
theorem resolveMany_net_indents_witness :
    netSynthesizedIndents
        [⟨[⟨PvnTokenType.INDENT_CONTINUATION, ['|', '|'], 0⟩],
          [⟨PvnTokenType.SVT_INDENT, [], 0⟩, ⟨PvnTokenType.INDENT_CONTINUATION, ['|', '|'], 0⟩]⟩] =
      (SalientModeContext.mk 2 false false [] 0).current_indentation -
        (SalientModeContext.mk 1 true false [] 0).current_indentation -
        impliedIndenterCount
        [⟨[⟨PvnTokenType.INDENT_CONTINUATION, ['|', '|'], 0⟩],
          [⟨PvnTokenType.SVT_INDENT, [], 0⟩, ⟨PvnTokenType.INDENT_CONTINUATION, ['|', '|'], 0⟩]⟩] :=
  resolveMany_net_indents 1 (SalientModeContext.mk 1 true false [] 0)
    [⟨⟨PvnTokenType.INDENT_CONTINUATION, ['|', '|'], 0⟩, PvnTokenType.other 0⟩]
    (SalientModeContext.mk 2 false false [] 0) _ [] (by decide)

/-- C8. Starting from a `SalientModeContext` with `current_indentation >= 0`,
`current_indentation` is not negative after any number of resolutions of
`SpecializedNextToken`, for every sequence of token types and texts. -/
theorem resolveMany_indentation_nonneg (n : Nat) (ctx : SalientModeContext)
    (raw : List RawItem) (ctx' : SalientModeContext) (records : List ResolutionRecord)
    (rest : List RawItem) (h0 : 0 ≤ ctx.current_indentation)
    (h : ctx.resolveMany n raw = some (ctx', records, rest)) :
    0 ≤ ctx'.current_indentation :=
  (resolveMany_facts n ctx raw ctx' records rest h).2.1 h0

/-- Witness of `resolveMany_indentation_nonneg`: a token that forces indentation 0, from
indentation 2. -/
theorem resolveMany_indentation_nonneg_witness :
    (SalientModeContext.mk 2 true false [] 0).resolveMany 1
        [⟨⟨PvnTokenType.LEAVE_TEXTUAL, [], 0⟩, PvnTokenType.other 0⟩] =
      some (SalientModeContext.mk 0 false false [] 0,
        [⟨[⟨PvnTokenType.LEAVE_TEXTUAL, [], 0⟩],
          [⟨PvnTokenType.SVT_DEDENT, [], 0⟩, ⟨PvnTokenType.SVT_DEDENT, [], 0⟩,
           ⟨PvnTokenType.LEAVE_TEXTUAL, [], 0⟩]⟩], []) ∧
    (0 : Int) ≤ (SalientModeContext.mk 0 false false [] 0).current_indentation :=
  ⟨by decide,
   resolveMany_indentation_nonneg 1 (SalientModeContext.mk 2 true false [] 0)
    [⟨⟨PvnTokenType.LEAVE_TEXTUAL, [], 0⟩, PvnTokenType.other 0⟩]
    (SalientModeContext.mk 0 false false [] 0)
    [⟨[⟨PvnTokenType.LEAVE_TEXTUAL, [], 0⟩],
      [⟨PvnTokenType.SVT_DEDENT, [], 0⟩, ⟨PvnTokenType.SVT_DEDENT, [], 0⟩,
       ⟨PvnTokenType.LEAVE_TEXTUAL, [], 0⟩]⟩]
    [] (by decide) (by decide)⟩

theorem createAll_steady (H c : Nat) : ∀ (rs : List CreateRequest) (f : CustomizedTokenFactory),
    f.once_channel_ = c → f.custom_channel_ = c →
    (∀ p ∈ rs.zip (CustomizedTokenFactory.createAll H f rs).1,
        (p.1.channel ≠ H → p.2.channel = c) ∧ (p.1.channel = H → p.2.channel = H)) ∧
      (CustomizedTokenFactory.createAll H f rs).1.length = rs.length := by
  intro rs
  induction rs with
  | nil => intro f _ _; simp [CustomizedTokenFactory.createAll]
  | cons r rs ih =>
    intro f h1 h2
    have hi := ih (f.create H r).2 (by simp [CustomizedTokenFactory.create, h2])
      (by simp [CustomizedTokenFactory.create, h2])
    simp only [CustomizedTokenFactory.createAll, List.zip_cons_cons, List.mem_cons,
      List.length_cons]
    refine ⟨?_, by rw [hi.2]⟩
    intro p hp
    rcases hp with hp | hp
    · subst hp
      constructor
      · intro hne
        have hne' : r.channel ≠ H := hne
        simp [CustomizedTokenFactory.create, hne', h1]
      · intro he
        have he' : r.channel = H := he
        simp [CustomizedTokenFactory.create, he']
    · exact hi.1 p hp

/-- C9. `CustomizedTokenFactory::create` gives a token whose incoming channel is not
`HIDDEN_CHANNEL` the channel held in `once_channel_` at the call and leaves a hidden token on
the hidden channel; after the call `once_channel_` equals `custom_channel_`, which is
unchanged.  Hence, in the `create` calls that follow `SetDeferredCustomChannel(c)`, every
token but the first receives `c` when its incoming channel is not hidden and the hidden
channel otherwise; and in the calls that follow `SetImmediateCustomChannel(c)` every
non-hidden token receives `c`. -/
theorem create_channel_override (HIDDEN_CHANNEL c : Nat) (f : CustomizedTokenFactory)
    (r : CreateRequest) (rs : List CreateRequest) :
    ((f.create HIDDEN_CHANNEL r).1.channel =
        if r.channel ≠ HIDDEN_CHANNEL then f.once_channel_ else HIDDEN_CHANNEL) ∧
    (f.create HIDDEN_CHANNEL r).2.once_channel_ = (f.create HIDDEN_CHANNEL r).2.custom_channel_ ∧
    (f.create HIDDEN_CHANNEL r).2.custom_channel_ = f.custom_channel_ ∧
    (CustomizedTokenFactory.createAll HIDDEN_CHANNEL (f.SetDeferredCustomChannel c)
        (r :: rs)).1.head? =
      some ((f.create HIDDEN_CHANNEL r).1) ∧
    (∀ p ∈ rs.zip (CustomizedTokenFactory.createAll HIDDEN_CHANNEL
          (f.SetDeferredCustomChannel c) (r :: rs)).1.tail,
        (p.1.channel ≠ HIDDEN_CHANNEL → p.2.channel = c) ∧
        (p.1.channel = HIDDEN_CHANNEL → p.2.channel = HIDDEN_CHANNEL)) ∧
    (∀ p ∈ (r :: rs).zip (CustomizedTokenFactory.createAll HIDDEN_CHANNEL
          (f.SetImmediateCustomChannel c) (r :: rs)).1,
        (p.1.channel ≠ HIDDEN_CHANNEL → p.2.channel = c) ∧
        (p.1.channel = HIDDEN_CHANNEL → p.2.channel = HIDDEN_CHANNEL)) ∧
    (CustomizedTokenFactory.createAll HIDDEN_CHANNEL (f.SetDeferredCustomChannel c)
        (r :: rs)).1.length = (r :: rs).length ∧
    (CustomizedTokenFactory.createAll HIDDEN_CHANNEL (f.SetImmediateCustomChannel c)
        (r :: rs)).1.length = (r :: rs).length := by
  have hsteady := createAll_steady HIDDEN_CHANNEL c rs
    ((f.SetDeferredCustomChannel c).create HIDDEN_CHANNEL r).2 rfl rfl
  have himm := createAll_steady HIDDEN_CHANNEL c (r :: rs) (f.SetImmediateCustomChannel c)
    rfl rfl
  refine ⟨?_, rfl, rfl, ?_, ?_, himm.1, ?_, himm.2⟩
  · by_cases h : r.channel = HIDDEN_CHANNEL
    · simp [CustomizedTokenFactory.create, h]
    · simp [CustomizedTokenFactory.create, h]
  · simp [CustomizedTokenFactory.createAll, CustomizedTokenFactory.create,
      CustomizedTokenFactory.SetDeferredCustomChannel]
  · simpa [CustomizedTokenFactory.createAll] using hsteady.1
  · simp [CustomizedTokenFactory.createAll, hsteady.2]

theorem find_first_of_eq_none (c : Char) : ∀ l : List Char,
    find_first_of c l = none ↔ c ∉ l := by
  intro l
  induction l with
  | nil => simp [find_first_of]
  | cons x xs ih =>
    unfold find_first_of
    by_cases h : x = c
    · simp [h]
    · simp only [h, if_false, Option.map_eq_none', ih, List.mem_cons]
      constructor
      · intro hx hc
        rcases hc with hc | hc
        · exact h hc.symm
        · exact hx hc
      · intro hx hc
        exact hx (Or.inr hc)

theorem find_first_of_split (c : Char) : ∀ (pre post : List Char), c ∉ pre →
    find_first_of c (pre ++ c :: post) = some pre.length := by
  intro pre
  induction pre with
  | nil => intro post _; simp [find_first_of]
  | cons x xs ih =>
    intro post h
    have hx : x ≠ c := fun he => h (by simp [he])
    have hxs : c ∉ xs := fun he => h (by simp [he])
    simp [find_first_of, hx, ih post hxs]

/-- C10. `ExtractListType` returns `kBullet` when the text contains `@` anywhere, even if it
also contains a colon; otherwise `kNone` when the text has no `:` or its first `:` is the
last character; otherwise it classifies the character right after the first `:`, a digit
`0`..`9` giving `kArabic` and `%` giving `kListBreak`. -/
theorem ExtractListType_spec (token_text : List Char) :
    ('@' ∈ token_text → ExtractListType token_text = some SvtListType.kBullet) ∧
    ('@' ∉ token_text → ':' ∉ token_text →
      ExtractListType token_text = some SvtListType.kNone) ∧
    (∀ pre post : List Char, '@' ∉ token_text → ':' ∉ pre → token_text = pre ++ ':' :: post →
      (post = [] → ExtractListType token_text = some SvtListType.kNone) ∧
      (∀ (c : Char) (rest : List Char), post = c :: rest →
        ('0' ≤ c ∧ c ≤ '9' → ExtractListType token_text = some SvtListType.kArabic) ∧
        (c = '%' → ExtractListType token_text = some SvtListType.kListBreak))) := by
  refine ⟨?_, ?_, ?_⟩
  · intro h
    unfold ExtractListType
    cases hf : find_first_of '@' token_text with
    | none => exact absurd h ((find_first_of_eq_none _ _).mp hf)
    | some p => rfl
  · intro h1 h2
    unfold ExtractListType
    rw [(find_first_of_eq_none _ _).mpr h1, (find_first_of_eq_none _ _).mpr h2]
  · intro pre post h1 h2 ht
    have hat := (find_first_of_eq_none _ _).mpr h1
    subst ht
    have hcolon := find_first_of_split ':' pre post h2
    constructor
    · intro hp
      subst hp
      unfold ExtractListType
      rw [hat, hcolon]
      simp
    · intro c rest hp
      subst hp
      have hget : (pre ++ ':' :: c :: rest).getD (pre.length + 1) ' ' = c := by
        have h1 : (pre ++ ':' :: c :: rest)[pre.length + 1]? = some c := by
          rw [List.getElem?_append_right (by omega)]
          simp
        simp [List.getD, h1]
      have hlen : ¬ (pre.length + 1 = (pre ++ ':' :: c :: rest).length) := by
        simp
      constructor
      · intro hd
        unfold ExtractListType
        rw [hat, hcolon]
        simp only [hlen, if_false, hget, hd, and_self, if_true]
      · intro hc
        subst hc
        unfold ExtractListType
        rw [hat, hcolon]
        simp only [hlen, if_false, hget]
        decide

theorem Char.le_iff_toNat (a b : Char) : a ≤ b ↔ a.toNat ≤ b.toNat := Iff.rfl

theorem Char.lt_iff_toNat (a b : Char) : a < b ↔ a.toNat < b.toNat := Iff.rfl

/-- The result of `ExtractListType` on a text without `@` whose first `:` is followed by the
character `c`, as the chain of range tests on `c`. -/
theorem ExtractListType_after_colon (pre rest : List Char) (c : Char)
    (hat : '@' ∉ pre ++ ':' :: c :: rest) (hpre : ':' ∉ pre) :
    ExtractListType (pre ++ ':' :: c :: rest) =
      if '0' ≤ c ∧ c ≤ '9' then some SvtListType.kArabic
      else if 'a' ≤ c ∧ c < 'i' then some SvtListType.kLowerAlpha
      else if 'i' ≤ c ∧ c ≤ 'x' then some SvtListType.kLowerRoman
      else if 'A' ≤ c ∧ c < 'I' then some SvtListType.kUpperAlpha
      else if 'I' ≤ c ∧ c ≤ 'X' then some SvtListType.kUpperRoman
      else if c = '%' then some SvtListType.kListBreak
      else if c = 'a' then some SvtListType.kNone
      else none := by
  have h1 := (find_first_of_eq_none _ _).mpr hat
  have h2 := find_first_of_split ':' pre (c :: rest) hpre
  have hget : (pre ++ ':' :: c :: rest).getD (pre.length + 1) ' ' = c := by
    have h3 : (pre ++ ':' :: c :: rest)[pre.length + 1]? = some c := by
      rw [List.getElem?_append_right (by omega)]
      simp
    simp [List.getD, h3]
  have hlen : ¬ (pre.length + 1 = (pre ++ ':' :: c :: rest).length) := by simp
  unfold ExtractListType
  rw [h1, h2]
  simp only [hlen, if_false, hget]

/-- C11, refuted as stated. The marker text `:y` has no `@` and its first `:` is followed by
the lowercase letter `y`, outside `i`..`x`; `ExtractListType` does not return `kLowerAlpha`:
the call ends in its failing check. -/
theorem ExtractListType_y_not_lower_alpha :
    ExtractListType [':', 'y'] = none ∧ ExtractListType [':', 'Z'] = none ∧
      ExtractListType [':', 'y'] ≠ some SvtListType.kLowerAlpha := by
  decide

/-- C11, amended. For every marker text without `@` whose first `:` is followed by a letter
`c`, `ExtractListType` returns `kLowerRoman` if `c` is in `i`..`x` and `kLowerAlpha` if `c` is
in `a`..`h`, and returns `kUpperRoman` if `c` is in `I`..`X` and `kUpperAlpha` if `c` is in
`A`..`H`. -/
theorem ExtractListType_letters (pre rest : List Char) (c : Char)
    (hat : '@' ∉ pre ++ ':' :: c :: rest) (hpre : ':' ∉ pre) :
    ('i' ≤ c ∧ c ≤ 'x' → ExtractListType (pre ++ ':' :: c :: rest) = some SvtListType.kLowerRoman) ∧
    ('a' ≤ c ∧ c ≤ 'h' → ExtractListType (pre ++ ':' :: c :: rest) = some SvtListType.kLowerAlpha) ∧
    ('I' ≤ c ∧ c ≤ 'X' → ExtractListType (pre ++ ':' :: c :: rest) = some SvtListType.kUpperRoman) ∧
    ('A' ≤ c ∧ c ≤ 'H' → ExtractListType (pre ++ ':' :: c :: rest) = some SvtListType.kUpperAlpha) := by
  rw [ExtractListType_after_colon pre rest c hat hpre]
  simp only [Char.le_iff_toNat, Char.lt_iff_toNat]
  have e0 : '0'.toNat = 48 := rfl
  have e9 : '9'.toNat = 57 := rfl
  have ea : 'a'.toNat = 97 := rfl
  have eh : 'h'.toNat = 104 := rfl
  have ei : 'i'.toNat = 105 := rfl
  have ex : 'x'.toNat = 120 := rfl
  have eA : 'A'.toNat = 65 := rfl
  have eH : 'H'.toNat = 72 := rfl
  have eI : 'I'.toNat = 73 := rfl
  have eX : 'X'.toNat = 88 := rfl
  rw [e0, e9, ea, eh, ei, ex, eA, eH, eI, eX]
  refine ⟨?_, ?_, ?_, ?_⟩
  · intro h
    rw [if_neg (by omega), if_neg (by omega), if_pos (by omega)]
  · intro h
    rw [if_neg (by omega), if_pos (by omega)]
  · intro h
    rw [if_neg (by omega), if_neg (by omega), if_neg (by omega), if_neg (by omega),
      if_pos (by omega)]
  · intro h
    rw [if_neg (by omega), if_neg (by omega), if_neg (by omega), if_pos (by omega)]

/-- Witness of `ExtractListType_letters`: the marker text `|:v`. -/
theorem ExtractListType_letters_witness :
    ('i' ≤ 'v' ∧ 'v' ≤ 'x' →
      ExtractListType (['|'] ++ ':' :: 'v' :: []) = some SvtListType.kLowerRoman) ∧
    ('a' ≤ 'v' ∧ 'v' ≤ 'h' →
      ExtractListType (['|'] ++ ':' :: 'v' :: []) = some SvtListType.kLowerAlpha) ∧
    ('I' ≤ 'v' ∧ 'v' ≤ 'X' →
      ExtractListType (['|'] ++ ':' :: 'v' :: []) = some SvtListType.kUpperRoman) ∧
    ('A' ≤ 'v' ∧ 'v' ≤ 'H' →
      ExtractListType (['|'] ++ ':' :: 'v' :: []) = some SvtListType.kUpperAlpha) :=
  ExtractListType_letters ['|'] [] 'v' (by decide) (by decide)

theorem placeholdersBelow_of_le (from_level level : Int) (h : level ≤ from_level) :
    placeholdersBelow from_level level = [] := by
  have : (level - from_level).toNat = 0 := by omega
  simp [placeholdersBelow, this]

theorem placeholdersBelow_of_lt (from_level level : Int) (h : from_level < level) :
    placeholdersBelow from_level level =
      missingLevelHeading from_level :: placeholdersBelow (from_level + 1) level := by
  have h1 : (level - from_level).toNat = (level - (from_level + 1)).toNat + 1 := by omega
  simp only [placeholdersBelow]
  rw [h1, List.range_succ_eq_map]
  simp only [List.map_cons, List.map_map, Nat.cast_zero, add_zero, List.cons.injEq, true_and]
  apply List.map_congr_left
  intro k _
  simp only [Function.comp, Nat.cast_succ]
  congr 1
  omega

theorem fillMissingLevels_eq (level : Int) (fuel : Nat) :
    ∀ (current : Int) (v : List Heading), fuel = (level - current).toNat →
    fillMissingLevels level fuel (current, v) =
      (max current level, v ++ placeholdersBelow current level) := by
  induction fuel with
  | zero =>
    intro current v h
    have hle : level ≤ current := by omega
    simp [fillMissingLevels, placeholdersBelow_of_le _ _ hle, max_eq_left hle]
  | succ n ih =>
    intro current v h
    have hlt : current < level := by omega
    unfold fillMissingLevels
    rw [if_pos hlt, ih (current + 1) _ (by omega), placeholdersBelow_of_lt _ _ hlt]
    have h1 : max (current + 1) level = level := max_eq_right (by omega)
    have h2 : max current level = level := max_eq_right (by omega)
    simp [h1, h2]

/-- One pass of the `for` loop: the vector grows by the placeholders of the levels between
the previous level and the heading's, then the heading; `current_nesting` becomes the
heading's level. -/
theorem reprocessHeading_vector (st : ReprocessState) (h : Heading) :
    (reprocessHeading st h).results.heading_vector =
        st.results.heading_vector ++
          (placeholdersBelow (st.current_nesting + 1) h.level ++ [h]) ∧
      (reprocessHeading st h).current_nesting = h.level := by
  have hfill : fillMissingLevels h.level
      (h.level - (if st.current_nesting + 1 > h.level then h.level
        else st.current_nesting + 1)).toNat
      (if st.current_nesting + 1 > h.level then h.level else st.current_nesting + 1,
        st.results.heading_vector) =
      (h.level, st.results.heading_vector ++
        placeholdersBelow (st.current_nesting + 1) h.level) := by
    rw [fillMissingLevels_eq _ _ _ _ rfl]
    by_cases hgt : st.current_nesting + 1 > h.level
    · rw [if_pos hgt, placeholdersBelow_of_le _ _ (le_refl _),
        placeholdersBelow_of_le _ _ (by omega)]
      simp
    · rw [if_neg hgt]
      have : max (st.current_nesting + 1) h.level = h.level := max_eq_right (by omega)
      rw [this]
  unfold reprocessHeading
  simp only [hfill]
  split
  · split <;> simp
  · simp

theorem foldl_reprocessHeading_vector (hs : List Heading) : ∀ st : ReprocessState,
    (hs.foldl reprocessHeading st).results.heading_vector =
      st.results.heading_vector ++ specEntries st.current_nesting hs := by
  induction hs with
  | nil => intro st; simp [specEntries]
  | cons h hs ih =>
    intro st
    obtain ⟨h1, h2⟩ := reprocessHeading_vector st h
    rw [List.foldl_cons, ih, h1, h2]
    simp [specEntries]

theorem ReprocessHeadings_vector (L : CoarseSkimSalientListener) :
    L.ReprocessHeadings.1.summarizer_results_.heading_vector =
      specHeadingVector L.heading_list_ := by
  unfold CoarseSkimSalientListener.ReprocessHeadings
  simp only [foldl_reprocessHeading_vector, specHeadingVector]
  simp
/-- A run of consecutive levels `from_level, from_level + 1, ...` never deepens by more
than one level at a time. -/
theorem chain_placeholders (rest : List Int) (n : Nat) : ∀ (from_level : Int),
    List.Chain (fun a b : Int => b ≤ a + 1) (from_level - 1 + (n : Int)) rest →
    List.Chain (fun a b : Int => b ≤ a + 1) (from_level - 1)
      ((List.range n).map (fun (k : Nat) => from_level + (k : Int)) ++ rest) := by
  induction n with
  | zero => intro f h; simpa using h
  | succ n ih =>
    intro f h
    rw [List.range_succ_eq_map]
    simp only [List.map_cons, List.map_map, Nat.cast_zero, add_zero, List.cons_append]
    refine List.Chain.cons (by omega) ?_
    have h2 := ih (f + 1) (by
      have e : f + 1 - 1 + (n : Int) = f - 1 + ((n + 1 : Nat) : Int) := by push_cast; omega
      rw [e]; exact h)
    have e1 : f + 1 - 1 = f := by omega
    rw [e1] at h2
    have e2 : (List.range n).map ((fun (k : Nat) => f + (k : Int)) ∘ Nat.succ) =
        (List.range n).map (fun (k : Nat) => f + 1 + (k : Int)) := by
      apply List.map_congr_left
      intro k _
      simp only [Function.comp, Nat.cast_succ]
      omega
    rw [e2]
    exact h2

theorem levels_placeholdersBelow (from_level level : Int) :
    (placeholdersBelow from_level level).map (fun h => h.level) =
      (List.range (level - from_level).toNat).map (fun (k : Nat) => from_level + (k : Int)) := by
  simp [placeholdersBelow, missingLevelHeading, Function.comp_def]

theorem specEntries_levels_chain (hs : List Heading) : ∀ (c : Int),
    (∀ h, hs.getLast? = some h → -1 ≤ h.level) → (hs = [] → -1 ≤ c) →
    List.Chain (fun a b : Int => b ≤ a + 1) c
      ((specEntries c hs).map (fun h => h.level) ++ [0]) := by
  induction hs with
  | nil =>
    intro c _ hc
    simp only [specEntries, List.map_nil, List.nil_append]
    exact List.Chain.cons (by have := hc rfl; omega) List.Chain.nil
  | cons h hs ih =>
    intro c hlast _
    simp only [specEntries, List.map_append, List.map_cons, levels_placeholdersBelow,
      List.append_assoc, List.cons_append]
    have hrest := ih h.level
      (fun x hx => hlast x (by
        cases hs with
        | nil => simp at hx
        | cons y ys => simpa [List.getLast?_cons_cons] using hx))
      (fun he => hlast h (by simp [he]))
    have hc := chain_placeholders
      (h.level :: ((specEntries h.level hs).map (fun h => h.level) ++ [0]))
      (h.level - (c + 1)).toNat (c + 1)
      (List.Chain.cons (by omega) hrest)
    have e : c + 1 - 1 = c := by omega
    rw [e] at hc
    exact hc
/-- While the title is already detected, reprocessing a heading keeps it. -/
theorem reprocessHeading_title_kept (st : ReprocessState) (h : Heading)
    (hset : st.results.title_heading_index ≠ kNoDetectedTitle ∨ h.level ≠ 0) :
    (reprocessHeading st h).results.title_heading_index =
      st.results.title_heading_index := by
  unfold reprocessHeading
  simp only
  split
  · rename_i h0
    split
    · rename_i ht
      rcases hset with h1 | h1
      · exact absurd ht h1
      · exact absurd h0 h1
    · rfl
  · rfl

theorem foldl_reprocessHeading_title_set (hs : List Heading) : ∀ st : ReprocessState,
    st.results.title_heading_index ≠ kNoDetectedTitle →
    (hs.foldl reprocessHeading st).results.title_heading_index =
      st.results.title_heading_index := by
  induction hs with
  | nil => intro st _; rfl
  | cons h hs ih =>
    intro st hst
    have h1 := reprocessHeading_title_kept st h (Or.inl hst)
    rw [List.foldl_cons, ih _ (by rw [h1]; exact hst), h1]

theorem foldl_reprocessHeading_title_none (hs : List Heading) : ∀ st : ReprocessState,
    (∀ x ∈ hs, x.level ≠ 0) →
    (hs.foldl reprocessHeading st).results.title_heading_index =
      st.results.title_heading_index := by
  induction hs with
  | nil => intro st _; rfl
  | cons h hs ih =>
    intro st hall
    have h1 := reprocessHeading_title_kept st h (Or.inr (hall h (by simp)))
    rw [List.foldl_cons, ih _ (fun x hx => hall x (by simp [hx])), h1]

/-- Reprocessing a level-0 heading while no title is detected makes its own position the
title. -/
theorem reprocessHeading_title_new (st : ReprocessState) (h : Heading)
    (h0 : h.level = 0) (ht : st.results.title_heading_index = kNoDetectedTitle) :
    (reprocessHeading st h).results.title_heading_index =
      ((reprocessHeading st h).results.heading_vector.length : Int) - 1 := by
  unfold reprocessHeading
  simp only
  rw [if_pos h0, if_pos ht]

/-- The state of the `for` loop of `ReprocessHeadings` after the headings `hs`. -/
theorem ReprocessHeadings_unfold (L : CoarseSkimSalientListener) :
    L.ReprocessHeadings.1.summarizer_results_ =
      { (L.heading_list_.foldl reprocessHeading
            { current_nesting := 0,
              results := { L.summarizer_results_ with heading_vector := [] },
              cerr := [] }).results with
        heading_vector :=
          (L.heading_list_.foldl reprocessHeading
            { current_nesting := 0,
              results := { L.summarizer_results_ with heading_vector := [] },
              cerr := [] }).results.heading_vector ++ [trailingHeading] } := rfl

/-- C13. `ReprocessHeadings` keeps every collected heading, unchanged and in document
order, and inserts immediately before a heading of level `L` exactly the placeholder
headings of levels `c+1, ..., L-1` (none when `L ≤ c+1`), where `c` is 0 for the first
heading and the level of the previous collected heading otherwise; then it appends one
trailing level-0 placeholder: the produced `heading_vector` is `specHeadingVector` of the
collected headings. In particular the levels `[0, 2]` become `[0, 1, 2, 0]`, the second
and the fourth entry being the placeholders. -/
theorem ReprocessHeadings_heading_vector (L : CoarseSkimSalientListener) :
    L.ReprocessHeadings.1.summarizer_results_.heading_vector =
        specHeadingVector L.heading_list_ ∧
      (∀ a b : Heading, a.level = 0 → b.level = 2 →
        (CoarseSkimSalientListener.ReprocessHeadings
            { L with heading_list_ := [a, b] }).1.summarizer_results_.heading_vector =
          [a, missingLevelHeading 1, b, trailingHeading]) := by
  refine ⟨ReprocessHeadings_vector L, ?_⟩
  intro a b ha hb
  rw [ReprocessHeadings_vector]
  simp only [specHeadingVector, specEntries]
  rw [placeholdersBelow_of_le _ _ (by omega), placeholdersBelow_of_lt _ _ (by omega),
    placeholdersBelow_of_le _ _ (by omega)]
  simp [ha]

/-- Witness of `ReprocessHeadings_heading_vector`: collected levels `[0, 2]`. -/
theorem ReprocessHeadings_heading_vector_witness :
    (({ heading_list_ := [{ level := 0 }, { level := 2 }] } :
        CoarseSkimSalientListener).ReprocessHeadings.1.summarizer_results_.heading_vector).map
      (fun h => (h.level, h.heading_text)) =
      [(0, ""), (1, "Heading missing at this level"), (2, ""),
        (0, "Convenience trailing level-0 heading.")] :=
  ((ReprocessHeadings_heading_vector {}).2 { level := 0 } { level := 2 } rfl rfl) ▸ rfl

/-- C12, as stated, fails: a single collected heading of level -2 is followed by the
trailing heading of level 0, two levels deeper. -/
theorem ReprocessHeadings_gap_before_trailing :
    (({ heading_list_ := [{ level := -2 }] } :
        CoarseSkimSalientListener).ReprocessHeadings.1.summarizer_results_.heading_vector).map
        (fun h => h.level) = [-2, 0] ∧
      ¬ List.Chain' (fun a b : Heading => b.level ≤ a.level + 1)
        (({ heading_list_ := [{ level := -2 }] } :
          CoarseSkimSalientListener).ReprocessHeadings.1.summarizer_results_.heading_vector) := by
  have hv : (({ heading_list_ := [{ level := -2 }] } :
      CoarseSkimSalientListener).ReprocessHeadings.1.summarizer_results_.heading_vector) =
      [{ level := -2 }, trailingHeading] := by decide
  rw [hv]
  refine ⟨by decide, ?_⟩
  intro h
  have h2 := List.chain'_pair.mp h
  revert h2
  decide

/-- C12, amended. For every input, the last entry of the `heading_vector` produced by
`ReprocessHeadings` is the synthetic level-0 heading; and when the last collected heading
(if any) has level at least -1, no entry of that vector has a level more than 1 greater
than the entry immediately before it. -/
theorem ReprocessHeadings_nesting (L : CoarseSkimSalientListener) :
    L.ReprocessHeadings.1.summarizer_results_.heading_vector.getLast? =
        some trailingHeading ∧
      trailingHeading.level = 0 ∧
      ((∀ h, L.heading_list_.getLast? = some h → -1 ≤ h.level) →
        List.Chain' (fun a b : Heading => b.level ≤ a.level + 1)
          L.ReprocessHeadings.1.summarizer_results_.heading_vector) := by
  rw [ReprocessHeadings_vector]
  refine ⟨by simp [specHeadingVector], rfl, ?_⟩
  intro hlast
  have hc := specEntries_levels_chain L.heading_list_ 0 hlast (fun _ => by omega)
  have hc2 : List.Chain' (fun a b : Int => b ≤ a + 1)
      ((specHeadingVector L.heading_list_).map (fun h => h.level)) := by
    have ht := List.Chain'.tail (show List.Chain' (fun a b : Int => b ≤ a + 1)
      ((0 : Int) :: ((specEntries 0 L.heading_list_).map (fun h => h.level) ++ [0])) from hc)
    simpa [specHeadingVector, trailingHeading] using ht
  exact (List.chain'_map _).mp hc2

/-- Witness of `ReprocessHeadings_nesting`: collected levels `[0, 3, -1]`, whose last level
is at least -1, so the vector ends with the synthetic heading and rises by at most 1. -/
theorem ReprocessHeadings_nesting_witness :
    (({ heading_list_ := [{ level := 0 }, { level := 3 }, { level := -1 }] } :
          CoarseSkimSalientListener).ReprocessHeadings.1.summarizer_results_.heading_vector
        ).getLast? = some trailingHeading ∧
      trailingHeading.level = 0 ∧
      List.Chain' (fun a b : Heading => b.level ≤ a.level + 1)
        (({ heading_list_ := [{ level := 0 }, { level := 3 }, { level := -1 }] } :
          CoarseSkimSalientListener).ReprocessHeadings.1.summarizer_results_.heading_vector) :=
  have h := ReprocessHeadings_nesting
    { heading_list_ := [{ level := 0 }, { level := 3 }, { level := -1 }] }
  ⟨h.1, h.2.1, h.2.2 (by decide)⟩

/-- The loop over `pre ++ h :: post`, where `h` is the first heading of level 0 and no title
is detected yet: the title becomes the position of `h`, the last of the entries produced
for `pre ++ [h]`. -/
theorem foldl_reprocessHeading_title_first (s0 : ReprocessState)
    (hv0 : s0.results.heading_vector = [])
    (ht0 : s0.results.title_heading_index = kNoDetectedTitle)
    (pre : List Heading) (h : Heading) (post : List Heading)
    (h0 : h.level = 0) (hpre : ∀ x ∈ pre, x.level ≠ 0) :
    ∃ (before rest : List Heading),
      specEntries s0.current_nesting (pre ++ [h]) = before ++ [h] ∧
      ((pre ++ h :: post).foldl reprocessHeading s0).results.heading_vector =
        specEntries s0.current_nesting (pre ++ [h]) ++ rest ∧
      ((pre ++ h :: post).foldl reprocessHeading s0).results.title_heading_index =
        ((specEntries s0.current_nesting (pre ++ [h])).length : Int) - 1 := by
  have hA := foldl_reprocessHeading_title_none pre s0 hpre
  have hB := reprocessHeading_title_new (pre.foldl reprocessHeading s0) h h0
    (by rw [hA]; exact ht0)
  have hvB := foldl_reprocessHeading_vector (pre ++ [h]) s0
  rw [List.foldl_append, List.foldl_cons, List.foldl_nil, hv0, List.nil_append] at hvB
  obtain ⟨hv1, hn1⟩ := reprocessHeading_vector (pre.foldl reprocessHeading s0) h
  rw [hvB] at hv1 hB
  have hC := foldl_reprocessHeading_title_set post
    (reprocessHeading (pre.foldl reprocessHeading s0) h)
    (by rw [hB, hv1]; simp only [kNoDetectedTitle, List.length_append, List.length_singleton]
        push_cast; omega)
  have hvC := foldl_reprocessHeading_vector post
    (reprocessHeading (pre.foldl reprocessHeading s0) h)
  rw [hvB] at hvC
  refine ⟨(pre.foldl reprocessHeading s0).results.heading_vector ++
      placeholdersBelow ((pre.foldl reprocessHeading s0).current_nesting + 1) h.level,
    specEntries (reprocessHeading (pre.foldl reprocessHeading s0) h).current_nesting post,
    ?_, ?_, ?_⟩
  · rw [hv1, ← List.append_assoc]
  · rw [List.foldl_append, List.foldl_cons, hvC]
  · rw [List.foldl_append, List.foldl_cons, hC, hB]

/-- C14. After `ReprocessHeadings` on fresh results (`title_heading_index` still
`kNoDetectedTitle`): when no collected heading has level 0 the title index stays
`kNoDetectedTitle = -1`; otherwise, with `h` the first collected heading of level 0, the
title index is the position of `h` in `heading_vector`, namely the last position of the
entries produced for the collected headings up to and including `h`. Later level-0
headings, placeholders and the trailing heading never take its place. -/
theorem ReprocessHeadings_title (L : CoarseSkimSalientListener)
    (fresh : L.summarizer_results_.title_heading_index = kNoDetectedTitle) :
    ((∀ x ∈ L.heading_list_, x.level ≠ 0) →
        L.ReprocessHeadings.1.summarizer_results_.title_heading_index = -1) ∧
      (∀ (pre : List Heading) (h : Heading) (post : List Heading),
        L.heading_list_ = pre ++ h :: post → h.level = 0 → (∀ x ∈ pre, x.level ≠ 0) →
        L.ReprocessHeadings.1.summarizer_results_.title_heading_index =
            ((specEntries 0 (pre ++ [h])).length : Int) - 1 ∧
          L.ReprocessHeadings.1.summarizer_results_.heading_vector.take
              (specEntries 0 (pre ++ [h])).length = specEntries 0 (pre ++ [h]) ∧
          L.ReprocessHeadings.1.summarizer_results_.heading_vector[
              (specEntries 0 (pre ++ [h])).length - 1]? = some h) := by
  rw [ReprocessHeadings_unfold]
  refine ⟨fun hall => ?_, ?_⟩
  · show (L.heading_list_.foldl reprocessHeading _).results.title_heading_index = -1
    rw [foldl_reprocessHeading_title_none _ _ hall]
    exact fresh
  · intro pre h post hsplit h0 hpre
    obtain ⟨before, rest, he, hvec, htitle⟩ := foldl_reprocessHeading_title_first
      { current_nesting := 0,
        results := { L.summarizer_results_ with heading_vector := [] }, cerr := [] }
      rfl fresh pre h post h0 hpre
    have he2 : specEntries 0 (pre ++ [h]) = before ++ [h] := he
    have hvec2 : ((pre ++ h :: post).foldl reprocessHeading
        { current_nesting := 0,
          results := { L.summarizer_results_ with heading_vector := [] },
          cerr := [] }).results.heading_vector = specEntries 0 (pre ++ [h]) ++ rest := hvec
    rw [hsplit]
    refine ⟨htitle, ?_, ?_⟩
    · show List.take _ (_ ++ [trailingHeading]) = _
      rw [hvec2, List.append_assoc, List.take_left]
    · show (_ ++ [trailingHeading])[_]? = _
      rw [hvec2, he2]
      have hl : (before ++ [h]).length - 1 = before.length := by simp
      rw [hl, List.append_assoc, List.append_assoc,
        List.getElem?_append_right (le_refl _)]
      simp

/-- Witness of `ReprocessHeadings_title`: collected levels `[2, 0, 0]`; the title is the
first level-0 heading, at position 2 after the placeholder of level 1. -/
theorem ReprocessHeadings_title_witness :
    (({ heading_list_ := [{ level := 2 }, { level := 0, heading_text := "T" }, { level := 0 }] } :
        CoarseSkimSalientListener).ReprocessHeadings.1.summarizer_results_.title_heading_index
      = 2) ∧
    (({ heading_list_ := [{ level := 2 }, { level := 0, heading_text := "T" }, { level := 0 }] } :
        CoarseSkimSalientListener).ReprocessHeadings.1.summarizer_results_.heading_vector[2]?
      = some { level := 0, heading_text := "T" }) :=
  have h := (ReprocessHeadings_title
    { heading_list_ := [{ level := 2 }, { level := 0, heading_text := "T" }, { level := 0 }] }
    rfl).2 [{ level := 2 }] { level := 0, heading_text := "T" } [{ level := 0 }] rfl rfl
    (by decide)
  ⟨h.1, h.2.2⟩

/-- C15. `CommonReformatter::AppendPiece`, when the coarse properties of `ctx` are
recorded: on an empty buffer the new piece alone is appended; on a non-empty buffer whose
last piece is `back`, with `n` the whitespace width for `(back.token_type, token_type)`
(specific pair, else any-to-specific, else specific-to-any, else 1), one whitespace piece
of `n` spaces (token index -1, type `Q_IMPUTED_WHITESPACE`) is inserted before the new
piece when `n > 0`, and none when `n ≤ 0`; the new piece is last. -/
theorem AppendPiece_whitespace (text : List Char) (token_type : PvnTokenType)
    (token_index : Int) (ctx : ParseTree) (H : OutputHandler)
    (subsequent_properties : CoarseProperties)
    (hget : H.coarse_properties.get ctx = some subsequent_properties) :
    ∃ H1 : OutputHandler,
      CommonReformatter.AppendPiece text token_type token_index ctx H = some H1 ∧
      (H.output_pieces = [] →
        H1.output_pieces =
          [{ text := text, token_index := toInt32 token_index,
             coarse_properties_before := H.prevailing_properties,
             coarse_properties_at := subsequent_properties,
             token_type := token_type }]) ∧
      (∀ back, H.output_pieces.getLast? = some back →
        (specIntraChars H.whitespace_maps back.token_type token_type ≤ 0 →
          H1.output_pieces = H.output_pieces ++
            [{ text := text, token_index := toInt32 token_index,
               coarse_properties_before := H.prevailing_properties,
               coarse_properties_at := subsequent_properties,
               token_type := token_type }]) ∧
        (0 < specIntraChars H.whitespace_maps back.token_type token_type →
          H1.output_pieces = H.output_pieces ++
            [{ text := List.replicate
                 (specIntraChars H.whitespace_maps back.token_type token_type).toNat ' ',
               token_index := -1,
               coarse_properties_before := H.prevailing_properties,
               coarse_properties_at := H.prevailing_properties,
               token_type := PvnTokenType.Q_IMPUTED_WHITESPACE },
             { text := text, token_index := toInt32 token_index,
               coarse_properties_before := H.prevailing_properties,
               coarse_properties_at := subsequent_properties,
               token_type := token_type }])) := by
  unfold CommonReformatter.AppendPiece
  simp only [hget]
  refine ⟨_, rfl, ?_, ?_⟩
  · intro hempty
    simp [hempty]
  · intro back hback
    have hn : specIntraChars H.whitespace_maps back.token_type token_type =
        (match H.whitespace_maps.specific_specific_whitespace_map.lookup
            (back.token_type, token_type) with
          | some v => v
          | none =>
            match H.whitespace_maps.any_specific_whitespace_map.lookup token_type with
            | some v => v
            | none =>
              match H.whitespace_maps.specific_any_whitespace_map.lookup
                  back.token_type with
              | some v => v
              | none => 1) := rfl
    simp only [hback]
    constructor
    · intro hle
      rw [hn] at hle
      rw [if_neg (by
        cases h1 : H.whitespace_maps.specific_specific_whitespace_map.lookup
            (back.token_type, token_type) <;>
        cases h2 : H.whitespace_maps.any_specific_whitespace_map.lookup token_type <;>
        cases h3 : H.whitespace_maps.specific_any_whitespace_map.lookup back.token_type <;>
        simp only [h1, h2, h3] at hle ⊢ <;> omega)]
    · intro hpos
      rw [hn] at hpos
      rw [if_pos (by
        cases h1 : H.whitespace_maps.specific_specific_whitespace_map.lookup
            (back.token_type, token_type) <;>
        cases h2 : H.whitespace_maps.any_specific_whitespace_map.lookup token_type <;>
        cases h3 : H.whitespace_maps.specific_any_whitespace_map.lookup back.token_type <;>
        simp only [h1, h2, h3] at hpos ⊢ <;> omega)]
      simp only [List.append_assoc, List.singleton_append]
      congr 4

/-- Witness of `AppendPiece_whitespace`: a `CLOSE_STMT` appended after a `CLOSE_STMT`, with
the pair entry 2 overriding the specific-to-any entry 0. -/
theorem AppendPiece_whitespace_witness :
    ∃ H1 : OutputHandler,
      CommonReformatter.AppendPiece ['b'] PvnTokenType.CLOSE_STMT 1
          (ParseTree.terminal { type := PvnTokenType.CLOSE_STMT, text := ['b'], tokenIndex := 1 })
          { output_pieces := [{ text := ['a'], token_index := 0,
                                token_type := PvnTokenType.CLOSE_STMT }],
            pending_char_count := 1,
            coarse_properties :=
              [(ParseTree.terminal
                  { type := PvnTokenType.CLOSE_STMT, text := ['b'], tokenIndex := 1 }, {})],
            whitespace_maps :=
              { specific_any_whitespace_map := [(PvnTokenType.CLOSE_STMT, 0)],
                specific_specific_whitespace_map :=
                  [((PvnTokenType.CLOSE_STMT, PvnTokenType.CLOSE_STMT), 2)] } } = some H1 ∧
      H1.output_pieces =
        [{ text := ['a'], token_index := 0, token_type := PvnTokenType.CLOSE_STMT },
         { text := [' ', ' '], token_index := -1,
           token_type := PvnTokenType.Q_IMPUTED_WHITESPACE },
         { text := ['b'], token_index := 1, token_type := PvnTokenType.CLOSE_STMT }] := by
  obtain ⟨H1, h1, _, h3⟩ := AppendPiece_whitespace ['b'] PvnTokenType.CLOSE_STMT 1
    (ParseTree.terminal { type := PvnTokenType.CLOSE_STMT, text := ['b'], tokenIndex := 1 })
    { output_pieces := [{ text := ['a'], token_index := 0,
                          token_type := PvnTokenType.CLOSE_STMT }],
      pending_char_count := 1,
      coarse_properties :=
        [(ParseTree.terminal
            { type := PvnTokenType.CLOSE_STMT, text := ['b'], tokenIndex := 1 }, {})],
      whitespace_maps :=
        { specific_any_whitespace_map := [(PvnTokenType.CLOSE_STMT, 0)],
          specific_specific_whitespace_map :=
            [((PvnTokenType.CLOSE_STMT, PvnTokenType.CLOSE_STMT), 2)] } } {} rfl
  exact ⟨H1, h1, (h3 _ rfl).2 (by decide)⟩

theorem quarrelBlankScan_total (tokens : List Token) : ∀ (k : Nat) (n0 : Int),
    k ≤ tokens.length → ∃ n, quarrelBlankScan tokens k n0 = some n ∧ n0 ≤ n := by
  intro k
  induction k with
  | zero => intro n0 _; exact ⟨n0, rfl, le_refl _⟩
  | succ i ih =>
    intro n0 hk
    have hi : i < tokens.length := by omega
    unfold quarrelBlankScan
    rw [List.getElem?_eq_getElem hi]
    simp only
    have h1 := ih (n0 + 1) (by omega)
    have h0 := ih n0 (by omega)
    split
    · obtain ⟨n, hn, hle⟩ := h1; exact ⟨n, hn, by omega⟩
    · exact ⟨_, rfl, by split <;> omega⟩
    · exact ⟨_, rfl, by split <;> omega⟩
    · exact h0
    · exact h0
    · exact h0
    · exact ⟨n0, rfl, le_refl _⟩

theorem quarrelBlankScan_le (tokens : List Token) : ∀ (k : Nat) (n0 n : Int),
    quarrelBlankScan tokens k n0 = some n → n0 ≤ n := by
  intro k
  induction k with
  | zero => intro n0 n h; simp only [quarrelBlankScan, Option.some.injEq] at h; omega
  | succ i ih =>
    intro n0 n h
    unfold quarrelBlankScan at h
    split at h
    · exact absurd h (by simp)
    · try simp only at h
      split at h
      · have := ih _ _ h; omega
      · simp only [Option.some.injEq] at h; split at h <;> omega
      · simp only [Option.some.injEq] at h; split at h <;> omega
      · exact ih _ _ h
      · exact ih _ _ h
      · exact ih _ _ h
      · simp only [Option.some.injEq] at h; omega

theorem strcount_nonneg (text : List Char) (c : Char) : 0 ≤ strcount text c := by
  simp [strcount]

theorem salientBlankScan_le (tokens : List Token) (sub : TextualSubGenre) :
    ∀ (k : Nat) (n0 n : Int), salientBlankScan tokens sub k n0 = some n → n0 ≤ n := by
  intro k
  induction k with
  | zero => intro n0 n h; simp only [salientBlankScan, Option.some.injEq] at h; omega
  | succ i ih =>
    intro n0 n h
    have hs := strcount_nonneg
    unfold salientBlankScan at h
    split at h
    · exact absurd h (by simp)
    · rename_i t _
      have hc := hs t.text '\n'
      try simp only at h
      have henter : ∀ m, (if i > 0 then
          match tokens[i - 1]? with
          | none => none
          | some u =>
            if u.type = PvnTokenType.LEAVE_CODE ∨ u.type = PvnTokenType.ENTER_TEXTUAL then
              some (n0 + strcount t.text '\n' + 1)
            else some (n0 + strcount t.text '\n')
          else some (n0 + strcount t.text '\n')) = some m → n0 ≤ m := by
        intro m hm
        split at hm
        · split at hm
          · exact absurd hm (by simp)
          · split at hm <;> simp only [Option.some.injEq] at hm <;> omega
        · simp only [Option.some.injEq] at hm; omega
      split at h
      · exact ih _ _ h
      · have := ih _ _ h; omega
      · have := ih _ _ h; omega
      · exact henter _ h
      · exact henter _ h
      · simp only [Option.some.injEq] at h; split at h <;> omega
      · simp only [Option.some.injEq] at h; split at h <;> omega
      · exact ih _ _ h
      · simp only [Option.some.injEq] at h; omega

theorem salientBlankScan_total (tokens : List Token) (sub : TextualSubGenre) :
    ∀ (k : Nat) (n0 : Int), k ≤ tokens.length →
    ∃ n, salientBlankScan tokens sub k n0 = some n := by
  intro k
  induction k with
  | zero => intro n0 _; exact ⟨n0, rfl⟩
  | succ i ih =>
    intro n0 hk
    have hi : i < tokens.length := by omega
    unfold salientBlankScan
    rw [List.getElem?_eq_getElem hi]
    simp only
    have henter : ∃ m, (if i > 0 then
        match tokens[i - 1]? with
        | none => none
        | some u =>
          if u.type = PvnTokenType.LEAVE_CODE ∨ u.type = PvnTokenType.ENTER_TEXTUAL then
            some (n0 + strcount tokens[i].text '\n' + 1)
          else some (n0 + strcount tokens[i].text '\n')
        else some (n0 + strcount tokens[i].text '\n')) = some m := by
      split
      · rw [List.getElem?_eq_getElem (by omega)]
        simp only
        split <;> exact ⟨_, rfl⟩
      · exact ⟨_, rfl⟩
    split
    · exact ih _ (by omega)
    · exact ih _ (by omega)
    · exact ih _ (by omega)
    · exact henter
    · exact henter
    · exact ⟨_, rfl⟩
    · exact ⟨_, rfl⟩
    · exact ih _ (by omega)
    · exact ⟨_, rfl⟩
theorem newlineCount_append (a b : List Char) :
    newlineCount (a ++ b) = newlineCount a + newlineCount b := by
  simp [newlineCount]

theorem newlineCount_spacesIfPositive (n : Int) : newlineCount (spacesIfPositive n) = 0 := by
  unfold spacesIfPositive newlineCount
  split
  · rw [List.count_replicate]; simp
  · rfl

/-- `SalientReformatHandler::ProcessIndent` writes no line end. -/
theorem newlineCount_indentText (H : OutputHandler) :
    newlineCount (SalientReformatHandler.indentText H).1 = 0 := by
  unfold SalientReformatHandler.indentText
  simp only [newlineCount_append, newlineCount_spacesIfPositive, add_zero]
  split <;> simp [newlineCount_append, newlineCount_spacesIfPositive] <;> rfl

/-- The loop that writes the blank lines of commented text: only `out_stream` and the
column change, and exactly `k` line ends are written. -/
theorem salientBlankLineLoop_facts : ∀ (k : Nat) (H : OutputHandler),
    ∃ (e : List Char) (r : Int),
      salientBlankLineLoop k H =
        { H with out_stream := H.out_stream ++ e,
                 inter_mode_formatting := { H.inter_mode_formatting with
                   residual_column_position := r } } ∧
      newlineCount e = k := by
  intro k
  induction k with
  | zero =>
    intro H
    exact ⟨[], H.inter_mode_formatting.residual_column_position, by
      simp [salientBlankLineLoop], rfl⟩
  | succ k ih =>
    intro H
    obtain ⟨e, r, he, hc⟩ := ih
      { (SalientReformatHandler.ProcessIndent H).1 with
        inter_mode_formatting :=
          { (SalientReformatHandler.ProcessIndent H).1.inter_mode_formatting with
            residual_column_position := 0 },
        out_stream := (SalientReformatHandler.ProcessIndent H).1.out_stream ++ ['\n'] }
    refine ⟨(SalientReformatHandler.indentText H).1 ++ ['\n'] ++ e, r, ?_, ?_⟩
    · rw [salientBlankLineLoop, he]
      simp [SalientReformatHandler.ProcessIndent, List.append_assoc]
    · rw [newlineCount_append, newlineCount_append, newlineCount_indentText, hc]
      simp [newlineCount]
      omega
/-- C16. With `n` the newline count accumulated by the backward scan,
`QuarrelReformatHandler::ProcessBlankLines` writes exactly `max(0, n - 1)` line ends and
changes nothing else; `SalientReformatHandler::ProcessBlankLines` writes exactly
`max(0, n - 1)` line ends (bare ones in master text, each after the comment indent
otherwise), changes at most the column besides, and writes nothing when the stream has no
on-channel token.  The count `n` is never negative, and the scans return for every token
sequence and every start index within it. -/
theorem ProcessBlankLines_blank_line_count (H : OutputHandler) :
    (∀ n, quarrelBlankScan H.tokens (QuarrelReformatHandler.scanTokenIndex H).toNat 0 =
        some n →
      0 ≤ n ∧
      QuarrelReformatHandler.ProcessBlankLines H =
        some { H with
          out_stream := H.out_stream ++ List.replicate (max 0 (n - 1)).toNat '\n' }) ∧
    (∀ n, H.numberOfOnChannelTokens ≠ 0 →
      salientBlankScan H.tokens H.entry_genre_state.destination_subgenre
        (SalientReformatHandler.scanTokenIndex H).toNat 0 = some n →
      0 ≤ n ∧
      ∃ (e : List Char) (r : Int),
        SalientReformatHandler.ProcessBlankLines H =
          some { H with
            out_stream := H.out_stream ++ e,
            inter_mode_formatting := { H.inter_mode_formatting with
              residual_column_position := r } } ∧
        newlineCount e = (max 0 (n - 1)).toNat ∧
        (H.entry_genre_state.destination_subgenre = TextualSubGenre.kMaster →
          e = List.replicate (max 0 (n - 1)).toNat '\n')) ∧
    (H.numberOfOnChannelTokens = 0 → SalientReformatHandler.ProcessBlankLines H = some H) ∧
    (∀ (k : Nat) (n0 : Int), k ≤ H.tokens.length →
      (quarrelBlankScan H.tokens k n0).isSome ∧
      (salientBlankScan H.tokens H.entry_genre_state.destination_subgenre k n0).isSome) := by
  refine ⟨?_, ?_, ?_, ?_⟩
  · intro n hn
    have h0 := quarrelBlankScan_le _ _ _ _ hn
    refine ⟨h0, ?_⟩
    unfold QuarrelReformatHandler.ProcessBlankLines
    simp only [hn]
    split
    · rw [max_eq_right (by omega)]
    · have : (max 0 (n - 1)).toNat = 0 := by omega
      rw [this]
      simp
  · intro n hch hn
    have h0 := salientBlankScan_le _ _ _ _ _ hn
    refine ⟨h0, ?_⟩
    unfold SalientReformatHandler.ProcessBlankLines
    rw [if_neg hch]
    simp only [hn]
    by_cases h1 : n > 1
    · rw [if_pos h1, max_eq_right (by omega)]
      by_cases hm : H.entry_genre_state.destination_subgenre = TextualSubGenre.kMaster
      · rw [if_pos hm]
        refine ⟨_, H.inter_mode_formatting.residual_column_position, rfl, ?_, fun _ => rfl⟩
        simp [newlineCount]
      · rw [if_neg hm]
        obtain ⟨e, r, he, hc⟩ := salientBlankLineLoop_facts (n - 1).toNat H
        exact ⟨e, r, by rw [he], hc, fun h => absurd h hm⟩
    · rw [if_neg h1]
      have hz : (max 0 (n - 1)).toNat = 0 := by omega
      rw [hz]
      exact ⟨[], H.inter_mode_formatting.residual_column_position, by simp, rfl,
        fun _ => rfl⟩
  · intro hch
    unfold SalientReformatHandler.ProcessBlankLines
    rw [if_pos hch]
  · intro k n0 hk
    obtain ⟨n, hn, _⟩ := quarrelBlankScan_total H.tokens k n0 hk
    obtain ⟨m, hm⟩ := salientBlankScan_total H.tokens
      H.entry_genre_state.destination_subgenre k n0 hk
    rw [hn, hm]
    exact ⟨rfl, rfl⟩

/-- Witness of `ProcessBlankLines_blank_line_count`: three statement newlines before the
first buffered token give two blank lines. -/
theorem ProcessBlankLines_blank_line_count_witness :
    (0 : Int) ≤ 3 ∧
    QuarrelReformatHandler.ProcessBlankLines
        { output_pieces := [{ text := ['x'], token_index := 3 }],
          tokens := [{ type := PvnTokenType.Q_STMT_NEWLINE, text := ['\n'], tokenIndex := 0 },
                     { type := PvnTokenType.Q_STMT_NEWLINE, text := ['\n'], tokenIndex := 1 },
                     { type := PvnTokenType.Q_STMT_NEWLINE, text := ['\n'], tokenIndex := 2 },
                     { type := PvnTokenType.other 0, text := ['x'], tokenIndex := 3 }] } =
      some
        { output_pieces := [{ text := ['x'], token_index := 3 }],
          tokens := [{ type := PvnTokenType.Q_STMT_NEWLINE, text := ['\n'], tokenIndex := 0 },
                     { type := PvnTokenType.Q_STMT_NEWLINE, text := ['\n'], tokenIndex := 1 },
                     { type := PvnTokenType.Q_STMT_NEWLINE, text := ['\n'], tokenIndex := 2 },
                     { type := PvnTokenType.other 0, text := ['x'], tokenIndex := 3 }],
          out_stream := ['\n', '\n'] } :=
  (ProcessBlankLines_blank_line_count
    { output_pieces := [{ text := ['x'], token_index := 3 }],
      tokens := [{ type := PvnTokenType.Q_STMT_NEWLINE, text := ['\n'], tokenIndex := 0 },
                 { type := PvnTokenType.Q_STMT_NEWLINE, text := ['\n'], tokenIndex := 1 },
                 { type := PvnTokenType.Q_STMT_NEWLINE, text := ['\n'], tokenIndex := 2 },
                 { type := PvnTokenType.other 0, text := ['x'], tokenIndex := 3 }] }).1 3 rfl

/-- C17, as stated, fails.  A buffer whose only piece is an ordinary token inside one
expression level (both statement levels 0) is indented by 6, not 3; a line that opens
with `CLOSE_STMT` at statement level 1 is indented by 3, not 0; a line that opens with
`OPEN_STMT` at statement level 1 is indented by 0, not 3. -/
theorem ProcessIndent_differs_from_claimed_width :
    ((QuarrelReformatHandler.ProcessIndent
        { output_pieces := [{ text := ['x'], token_index := 0,
                              coarse_properties_before := { expression_nest_level := 1 },
                              token_type := PvnTokenType.other 0 }] }).2 = 6 ∧
      specIndentSpaces 0 1 (PvnTokenType.other 0) = 3) ∧
    ((QuarrelReformatHandler.ProcessIndent
        { output_pieces := [{ text := ['x'], token_index := 0,
                              coarse_properties_before :=
                                { statement_nest_level := 1, cumulative_statement_level := 1 },
                              token_type := PvnTokenType.CLOSE_STMT }] }).2 = 3 ∧
      specIndentSpaces 1 0 PvnTokenType.CLOSE_STMT = 0) ∧
    ((QuarrelReformatHandler.ProcessIndent
        { output_pieces := [{ text := ['x'], token_index := 0,
                              coarse_properties_before :=
                                { statement_nest_level := 1, cumulative_statement_level := 1 },
                              token_type := PvnTokenType.OPEN_STMT }] }).2 = 0 ∧
      specIndentSpaces 1 0 PvnTokenType.OPEN_STMT = 3) := by
  decide

/-- C17, amended. For a non-empty buffer with first piece `front`,
`QuarrelReformatHandler::ProcessIndent` writes exactly
`max(0, 3 * (cumulative statement level + expression nesting) + e - 3 * r)` spaces, the
levels being those of the chosen coarse properties, `e` being 3 when the expression
nesting is positive and 0 otherwise, and `r` being 1 when `front` is an `OPEN_STMT` or a
`CONTRACT_UNARY` token and 0 otherwise; it returns that number and adds it to
`residual_column_position`. -/
theorem ProcessIndent_width (H : OutputHandler) (front : OutputPiece)
    (rest : List OutputPiece) (hp : H.output_pieces = front :: rest) :
    (QuarrelReformatHandler.ProcessIndent H).2 =
        max 0
          (3 * ((chooseCoarseProperties (front :: rest)
                  front.coarse_properties_before).cumulative_statement_level +
                (chooseCoarseProperties (front :: rest)
                  front.coarse_properties_before).expression_nest_level) +
            (if (chooseCoarseProperties (front :: rest)
                  front.coarse_properties_before).expression_nest_level > 0 then 3 else 0) -
            3 * (if front.token_type = PvnTokenType.OPEN_STMT ∨
                    front.token_type = PvnTokenType.CONTRACT_UNARY then 1 else 0)) ∧
      (QuarrelReformatHandler.ProcessIndent H).1.out_stream =
        H.out_stream ++
          List.replicate (QuarrelReformatHandler.ProcessIndent H).2.toNat ' ' ∧
      (QuarrelReformatHandler.ProcessIndent H).1.inter_mode_formatting.residual_column_position =
        H.inter_mode_formatting.residual_column_position +
          (QuarrelReformatHandler.ProcessIndent H).2 ∧
      0 ≤ (QuarrelReformatHandler.ProcessIndent H).2 := by
  unfold QuarrelReformatHandler.ProcessIndent
  rw [hp]
  simp only
  refine ⟨?_, trivial, trivial, le_max_left _ _⟩
  unfold QuarrelReformatHandler.CalcUnadjustedIndent
  by_cases ho : front.token_type = PvnTokenType.OPEN_STMT <;>
    by_cases hc : front.token_type = PvnTokenType.CONTRACT_UNARY <;>
    by_cases he : (chooseCoarseProperties (front :: rest)
      front.coarse_properties_before).expression_nest_level > 0 <;>
    simp only [ho, hc, he, if_true, if_false, or_true, true_or, or_self] <;>
    congr 1 <;> omega

/-- Witness of `ProcessIndent_width`: an `OPEN_STMT` at cumulative statement level 2 inside
one expression level. -/
theorem ProcessIndent_width_witness :
    (QuarrelReformatHandler.ProcessIndent
        { output_pieces := [{ text := ['x'], token_index := 0,
                              coarse_properties_before :=
                                { cumulative_statement_level := 2, expression_nest_level := 1 },
                              token_type := PvnTokenType.OPEN_STMT }] }).2 = 9 :=
  (ProcessIndent_width
    { output_pieces := [{ text := ['x'], token_index := 0,
                          coarse_properties_before :=
                            { cumulative_statement_level := 2, expression_nest_level := 1 },
                          token_type := PvnTokenType.OPEN_STMT }] } _ _ rfl).1

theorem toSizeT_natCast_ge (n : Nat) (h : n < 2 ^ 64) : toSizeT (n : Int) = n := by
  unfold toSizeT
  have : ((n : Int) % 2 ^ 64) = (n : Int) := Int.emod_eq_of_lt (by omega) (by omega)
  rw [this]
  simp

/-- `DropFrontN` on an empty buffer whose character count is 0 changes nothing. -/
theorem DropFrontN_empty (H : OutputHandler) (hempty : H.output_pieces = [])
    (hcount : H.pending_char_count = 0) (n : Int) :
    CommonReformatter.DropFrontN n H = H := by
  unfold CommonReformatter.DropFrontN
  rw [hempty, if_pos (by simp)]
  cases H
  simp only at hempty hcount
  simp [hempty, hcount]

/-- C20. On a handler whose buffer is already empty (no piece pending, pending character
count 0), `QuarrelToHtmlHandler::OutputLines` and `SalientToHtmlHandler::OutputLines`
with `full_flush = true` write nothing and leave every field unchanged.  Every handler
state left by either drain has such an empty buffer, whatever it held before. -/
theorem HtmlOutputLines_empty_buffer (H : OutputHandler) (next_genre_state : WalkerTransition)
    (hempty : H.output_pieces = []) (hcount : H.pending_char_count = 0) :
    QuarrelToHtmlHandler.OutputLines true next_genre_state H = H ∧
    SalientToHtmlHandler.OutputLines true next_genre_state H = H ∧
    (∀ (K : OutputHandler) (next : WalkerTransition),
      K.output_pieces.length < 2 ^ 64 →
      (QuarrelToHtmlHandler.OutputLines true next K).output_pieces = [] ∧
      (QuarrelToHtmlHandler.OutputLines true next K).pending_char_count = 0 ∧
      (SalientToHtmlHandler.OutputLines true next K).output_pieces = [] ∧
      (SalientToHtmlHandler.OutputLines true next K).pending_char_count = 0) := by
  refine ⟨?_, ?_, ?_⟩
  · unfold QuarrelToHtmlHandler.OutputLines
    simp only [Bool.not_true, Bool.false_eq_true, if_false]
    have hH : ({ H with out_stream := H.out_stream ++ piecesText H.output_pieces } :
        OutputHandler) = H := by
      cases H
      simp only at hempty
      simp [hempty, piecesText]
    rw [hH]
    exact DropFrontN_empty _ hempty hcount _
  · unfold SalientToHtmlHandler.OutputLines
    simp only [Bool.not_true, Bool.false_eq_true, if_false]
    have hH : ({ H with out_stream := H.out_stream ++ piecesText H.output_pieces } :
        OutputHandler) = H := by
      cases H
      simp only at hempty
      simp [hempty, piecesText]
    rw [hH]
    exact DropFrontN_empty _ hempty hcount _
  · intro K next hK
    unfold QuarrelToHtmlHandler.OutputLines SalientToHtmlHandler.OutputLines
      CommonReformatter.DropFrontN
    simp only [Bool.not_true, Bool.false_eq_true, if_false]
    rw [if_pos (by rw [toSizeT_natCast_ge _ hK])]
    exact ⟨rfl, rfl, rfl, rfl⟩

/-- Witness of `HtmlOutputLines_empty_buffer`: a handler that has written `<p>` and holds no
piece. -/
theorem HtmlOutputLines_empty_buffer_witness :
    QuarrelToHtmlHandler.OutputLines true {}
        { out_stream := ['<', 'p', '>'], current_section_depth := 2 } =
      { out_stream := ['<', 'p', '>'], current_section_depth := 2 } ∧
    SalientToHtmlHandler.OutputLines true {}
        { out_stream := ['<', 'p', '>'], current_section_depth := 2 } =
      { out_stream := ['<', 'p', '>'], current_section_depth := 2 } :=
  have h := HtmlOutputLines_empty_buffer
    { out_stream := ['<', 'p', '>'], current_section_depth := 2 } {} rfl rfl
  ⟨h.1, h.2.1⟩

/-- C18: the code at a width limit below zero.  The buffer of `twoWordHandler 33` is what
two calls of `AppendPiece` build.  With the indent 93 the limit
`multi_line_max_length - processed_indent` is 3: the line holds the forced first word
only and the second word stays buffered.  With the indent 99 the limit is -3, which the
comparison reads as the `size_t` value `2^64 - 3`: every piece is accumulated and the
line, 9 wide, holds both words. -/
theorem ProcessPending_negative_limit_takes_all :
    ((CommonReformatter.AppendPiece ['a', 'a', 'a', 'a'] (PvnTokenType.other 0) 0
          (ParseTree.terminal
            { type := PvnTokenType.other 0, text := ['a', 'a', 'a', 'a'], tokenIndex := 0 })
          { prevailing_properties := { statement_nest_level := 33 },
            coarse_properties :=
              [(ParseTree.terminal
                  { type := PvnTokenType.other 0, text := ['a', 'a', 'a', 'a'],
                    tokenIndex := 0 }, { statement_nest_level := 33 }),
               (ParseTree.terminal
                  { type := PvnTokenType.other 0, text := ['b', 'b', 'b', 'b'],
                    tokenIndex := 1 }, { statement_nest_level := 33 })] }).bind
        (CommonReformatter.AppendPiece ['b', 'b', 'b', 'b'] (PvnTokenType.other 0) 1
          (ParseTree.terminal
            { type := PvnTokenType.other 0, text := ['b', 'b', 'b', 'b'],
              tokenIndex := 1 }))).map
        (fun H => (H.output_pieces, H.pending_char_count)) =
      some ((twoWordHandler 33).output_pieces, (twoWordHandler 33).pending_char_count) ∧
    (SalientReformatHandler.ProcessPending (twoWordHandler 31)).map
        (fun H => (H.out_stream.drop 93, H.output_pieces.map (fun piece => piece.text))) =
      some (['a', 'a', 'a', 'a', '\n'], [['b', 'b', 'b', 'b']]) ∧
    (SalientReformatHandler.ProcessPending (twoWordHandler 33)).map
        (fun H => (H.out_stream.drop 99, H.output_pieces.map (fun piece => piece.text))) =
      some (['a', 'a', 'a', 'a', ' ', 'b', 'b', 'b', 'b', '\n'], []) ∧
    (SalientReformatHandler.ProcessIndent (twoWordHandler 33)).2 = 99 ∧
    (twoWordHandler 33).inter_mode_formatting.multi_line_max_length -
      (SalientReformatHandler.ProcessIndent (twoWordHandler 33)).2 = -3 := by
  decide

theorem firstTokenIndex_mem : ∀ (pieces : List OutputPiece),
    firstTokenIndex pieces = -1 ∨
      ∃ p ∈ pieces, firstTokenIndex pieces = p.token_index := by
  intro pieces
  induction pieces with
  | nil => exact Or.inl rfl
  | cons p ps ih =>
    unfold firstTokenIndex
    split
    · exact Or.inr ⟨p, by simp, rfl⟩
    · rcases ih with h | ⟨q, hq, he⟩
      · exact Or.inl h
      · exact Or.inr ⟨q, by simp [hq], he⟩

theorem QuarrelScanTokenIndex_le (H : OutputHandler)
    (hidx : ∀ p ∈ H.output_pieces, p.token_index ≤ (H.tokens.length : Int))
    (hdest : toInt32 (H.inter_mode_formatting.destination_token_index + 1) ≤
      (H.tokens.length : Int)) :
    (QuarrelReformatHandler.scanTokenIndex H).toNat ≤ H.tokens.length := by
  unfold QuarrelReformatHandler.scanTokenIndex
  simp only
  split
  · omega
  · rcases firstTokenIndex_mem H.output_pieces with h | ⟨q, hq, he⟩
    · rename_i hne; exact absurd h hne
    · have := hidx q hq
      omega

theorem SalientScanTokenIndex_le (H : OutputHandler)
    (hidx : ∀ p ∈ H.output_pieces, p.token_index ≤ (H.tokens.length : Int))
    (hdest : toInt32 (H.inter_mode_formatting.destination_token_index + 1) ≤
      (H.tokens.length : Int)) :
    (SalientReformatHandler.scanTokenIndex H).toNat ≤ H.tokens.length := by
  unfold SalientReformatHandler.scanTokenIndex
  simp only
  split
  · rename_i h1
    split
    · omega
    · rw [h1]; simp
  · rcases firstTokenIndex_mem H.output_pieces with h | ⟨q, hq, he⟩
    · rename_i hne; exact absurd h hne
    · have := hidx q hq
      omega

/-- `QuarrelReformatHandler::ProcessBlankLines` returns when the scan starts inside the
token list, and only writes. -/
theorem QuarrelProcessBlankLines_some (H : OutputHandler)
    (h : (QuarrelReformatHandler.scanTokenIndex H).toNat ≤ H.tokens.length) :
    ∃ e : List Char, QuarrelReformatHandler.ProcessBlankLines H =
      some { H with out_stream := H.out_stream ++ e } := by
  obtain ⟨n, hn, _⟩ := quarrelBlankScan_total H.tokens _ 0 h
  unfold QuarrelReformatHandler.ProcessBlankLines
  simp only [hn]
  split
  · exact ⟨_, rfl⟩
  · exact ⟨[], by simp⟩

/-- `SalientReformatHandler::ProcessBlankLines` returns when the scan starts inside the
token list, and only writes and moves the column. -/
theorem SalientProcessBlankLines_some (H : OutputHandler)
    (h : (SalientReformatHandler.scanTokenIndex H).toNat ≤ H.tokens.length) :
    ∃ (e : List Char) (r : Int), SalientReformatHandler.ProcessBlankLines H =
      some { H with
        out_stream := H.out_stream ++ e,
        inter_mode_formatting := { H.inter_mode_formatting with
          residual_column_position := r } } := by
  obtain ⟨n, hn⟩ := salientBlankScan_total H.tokens
    H.entry_genre_state.destination_subgenre _ 0 h
  unfold SalientReformatHandler.ProcessBlankLines
  split
  · exact ⟨[], H.inter_mode_formatting.residual_column_position, by simp⟩
  · simp only [hn]
    split
    · split
      · exact ⟨_, H.inter_mode_formatting.residual_column_position, rfl⟩
      · obtain ⟨e, r, he, _⟩ := salientBlankLineLoop_facts (n - 1).toNat H
        exact ⟨e, r, by rw [he]⟩
    · exact ⟨[], H.inter_mode_formatting.residual_column_position, by simp⟩

/-- `DropFrontN` with a count `n` between 1 and the buffer size: the first `n` pieces go,
nothing but the buffer and its character count changes, and an emptied buffer has
character count 0. -/
theorem DropFrontN_facts (n : Nat) (H : OutputHandler)
    (hsize : H.output_pieces.length < 2 ^ 31) (hn : n ≤ H.output_pieces.length) :
    ∃ c : Int, CommonReformatter.DropFrontN (n : Int) H =
        { H with output_pieces := H.output_pieces.drop n, pending_char_count := c } ∧
      (H.output_pieces.drop n = [] → c = 0) := by
  unfold CommonReformatter.DropFrontN
  rw [toSizeT_natCast_ge n (by omega)]
  split
  · rename_i hge
    have : n = H.output_pieces.length := by omega
    refine ⟨0, ?_, fun _ => rfl⟩
    rw [this, List.drop_length]
  · rename_i hlt
    refine ⟨(H.output_pieces.take n).foldl
      (fun count piece => count - (piece.text.length : Int)) H.pending_char_count,
      by simp, ?_⟩
    intro hnil
    have := List.drop_eq_nil_iff.mp hnil
    omega
theorem sameSetting_refl (H : OutputHandler) : sameSetting H H :=
  ⟨rfl, rfl, rfl, rfl, rfl⟩

theorem sameSetting_trans {A B C : OutputHandler} (h1 : sameSetting A B)
    (h2 : sameSetting B C) : sameSetting A C := by
  obtain ⟨a1, a2, a3, a4, a5⟩ := h1
  obtain ⟨b1, b2, b3, b4, b5⟩ := h2
  exact ⟨b1.trans a1, b2.trans a2, b3.trans a3, b4.trans a4, b5.trans a5⟩

/-- `QuarrelReformatHandler::ProcessPending` returns when the token indices are inside the
token list, and leaves the buffer empty. -/
theorem QuarrelProcessPending_facts (H : OutputHandler)
    (hidx : ∀ p ∈ H.output_pieces, p.token_index ≤ (H.tokens.length : Int))
    (hdest : toInt32 (H.inter_mode_formatting.destination_token_index + 1) ≤
      (H.tokens.length : Int)) :
    ∃ H1, QuarrelReformatHandler.ProcessPending H = some H1 ∧ H1.output_pieces = [] ∧
      (H.output_pieces ≠ [] → H1.pending_char_count = 0) ∧
      (H.output_pieces = [] → H1.pending_char_count = H.pending_char_count) ∧
      sameSetting H H1 := by
  obtain ⟨e, he⟩ := QuarrelProcessBlankLines_some H (QuarrelScanTokenIndex_le H hidx hdest)
  unfold QuarrelReformatHandler.ProcessPending
  rw [he]
  simp only
  cases hp : H.output_pieces with
  | nil =>
    simp only [List.isEmpty_nil, if_true]
    exact ⟨_, rfl, rfl, fun h => absurd rfl h, fun _ => rfl, rfl, rfl, rfl, rfl, rfl⟩
  | cons front rest =>
    simp only [List.isEmpty_cons, Bool.false_eq_true, if_false]
    refine ⟨_, rfl, rfl, fun _ => rfl, fun h => absurd h (by simp), ?_⟩
    unfold QuarrelReformatHandler.ProcessIndent
    simp only [hp]
    exact ⟨rfl, rfl, rfl, rfl, rfl⟩

theorem salientAccumulate_bounds (limit : Int) : ∀ (pieces : List OutputPiece)
    (end_piece : Nat) (consumed_size : Int),
    end_piece ≤ (salientAccumulate limit pieces end_piece consumed_size).1 ∧
      (salientAccumulate limit pieces end_piece consumed_size).1 ≤
        end_piece + pieces.length := by
  intro pieces
  induction pieces with
  | nil => intro e c; simp [salientAccumulate]
  | cons p ps ih =>
    intro e c
    unfold salientAccumulate
    split
    · have := ih (e + 1) (c + (p.text.length : Int))
      simp only [List.length_cons]
      omega
    · simp

/-- The line cut by `SalientReformatHandler::ProcessPending` consumes at least the piece
at `first_piece` and no more than the buffer holds. -/
theorem salientLineEnds_bounds (pieces : List OutputPiece) (first_piece : Nat) (limit : Int)
    (h : first_piece < pieces.length) :
    first_piece + 1 ≤ (salientLineEnds pieces first_piece limit).2 ∧
      (salientLineEnds pieces first_piece limit).2 ≤ pieces.length := by
  unfold salientLineEnds
  simp only
  have hb := salientAccumulate_bounds limit (pieces.drop (first_piece + 1)) (first_piece + 1)
    (match pieces[first_piece]? with
      | some piece => (piece.text.length : Int)
      | none => 0)
  rw [List.length_drop] at hb
  split
  · rename_i hc
    omega
  · omega

/-- One line cut by `SalientReformatHandler::ProcessPending`: at least one piece leaves
the front of a non-empty buffer, and an emptied buffer has character count 0. -/
theorem writeLine_facts (H : OutputHandler) (first_piece : Nat) (processed_indent : Int)
    (hsize : H.output_pieces.length < 2 ^ 31) (hne : H.output_pieces ≠ [])
    (hfirst : first_piece ≤ 1) :
    ∃ k : Nat, 1 ≤ k ∧
      (SalientReformatHandler.writeLine H first_piece processed_indent).output_pieces =
        H.output_pieces.drop k ∧
      ((SalientReformatHandler.writeLine H first_piece processed_indent).output_pieces = [] →
        (SalientReformatHandler.writeLine H first_piece
          processed_indent).pending_char_count = 0) ∧
      sameSetting H (SalientReformatHandler.writeLine H first_piece processed_indent) := by
  have hlen : 1 ≤ H.output_pieces.length := by
    cases hp : H.output_pieces with
    | nil => exact absurd hp hne
    | cons a b => simp
  unfold SalientReformatHandler.writeLine
  split
  · rename_i hle
    have h1 : first_piece = 1 := by omega
    obtain ⟨c, hc, hz⟩ := DropFrontN_facts first_piece H hsize (by omega)
    rw [hc]
    exact ⟨first_piece, by omega, rfl, hz, rfl, rfl, rfl, rfl, rfl⟩
  · rename_i hgt
    have hb := salientLineEnds_bounds H.output_pieces first_piece
      (H.inter_mode_formatting.multi_line_max_length - processed_indent) (by omega)
    simp only
    split
    · obtain ⟨c, hc, hz⟩ := DropFrontN_facts
        (salientLineEnds H.output_pieces first_piece
          (H.inter_mode_formatting.multi_line_max_length - processed_indent)).2
        { H with
          out_stream := H.out_stream ++
            piecesText ((H.output_pieces.take (salientLineEnds H.output_pieces first_piece
              (H.inter_mode_formatting.multi_line_max_length - processed_indent)).1).drop
                first_piece) ++ ['\n'],
          inter_mode_formatting := { H.inter_mode_formatting with
            residual_column_position := 0 } } hsize hb.2
      rw [hc]
      exact ⟨_, by omega, rfl, hz, rfl, rfl, rfl, rfl, rfl⟩
    · obtain ⟨c, hc, hz⟩ := DropFrontN_facts
        (salientLineEnds H.output_pieces first_piece
          (H.inter_mode_formatting.multi_line_max_length - processed_indent)).2
        { H with
          out_stream := H.out_stream ++
            piecesText ((H.output_pieces.take (salientLineEnds H.output_pieces first_piece
              (H.inter_mode_formatting.multi_line_max_length - processed_indent)).1).drop
                first_piece) } hsize hb.2
      rw [hc]
      exact ⟨_, by omega, rfl, hz, rfl, rfl, rfl, rfl, rfl⟩

/-- `SalientReformatHandler::ProcessPending` returns when the token indices are inside the
token list; on a non-empty buffer it removes at least one piece from the front, and a
buffer it empties has character count 0. -/
theorem SalientProcessPending_facts (H : OutputHandler)
    (hsize : H.output_pieces.length < 2 ^ 31)
    (hidx : ∀ p ∈ H.output_pieces, p.token_index ≤ (H.tokens.length : Int))
    (hdest : toInt32 (H.inter_mode_formatting.destination_token_index + 1) ≤
      (H.tokens.length : Int)) :
    ∃ (H1 : OutputHandler) (k : Nat),
      SalientReformatHandler.ProcessPending H = some H1 ∧
      H1.output_pieces = H.output_pieces.drop k ∧
      (H.output_pieces ≠ [] → 1 ≤ k) ∧
      (H.output_pieces ≠ [] → H1.output_pieces = [] → H1.pending_char_count = 0) ∧
      (H.output_pieces = [] → H1.pending_char_count = H.pending_char_count) ∧
      sameSetting H H1 := by
  obtain ⟨e, r, he⟩ := SalientProcessBlankLines_some H (SalientScanTokenIndex_le H hidx hdest)
  unfold SalientReformatHandler.ProcessPending
  rw [he]
  simp only
  cases hp : H.output_pieces with
  | nil =>
    exact ⟨_, 0, rfl, rfl, fun h => absurd rfl h, fun h => absurd rfl h, fun _ => rfl,
      rfl, rfl, rfl, rfl, rfl⟩
  | cons front rest =>
    rw [hp] at hsize
    have key : ∀ (H4 : OutputHandler) (fp : Nat) (pi : Int),
        H4.output_pieces = front :: rest → sameSetting H H4 → fp ≤ 1 →
        ∃ (H1 : OutputHandler) (k : Nat),
          some (SalientReformatHandler.writeLine H4 fp pi) = some H1 ∧
          H1.output_pieces = (front :: rest).drop k ∧
          (front :: rest ≠ [] → 1 ≤ k) ∧
          (front :: rest ≠ [] → H1.output_pieces = [] → H1.pending_char_count = 0) ∧
          (front :: rest = [] → H1.pending_char_count = H.pending_char_count) ∧
          sameSetting H H1 := by
      intro H4 fp pi h4 hs hfp
      obtain ⟨k, hk, h1, h2, h3⟩ := writeLine_facts H4 fp pi (by rw [h4]; exact hsize)
        (by rw [h4]; simp) hfp
      exact ⟨_, k, rfl, by rw [h1, h4], fun _ => hk, fun _ => h2,
        fun h => absurd h (by simp), sameSetting_trans hs h3⟩
    apply key
    · simp only [SalientReformatHandler.ProcessIndent]
      split <;> split <;> rfl
    · simp only [SalientReformatHandler.ProcessIndent]
      split <;> split <;> exact ⟨rfl, rfl, rfl, rfl, rfl⟩
    · split <;> omega

/-- The drain loop ends with an empty buffer when each step removes a piece and keeps the
invariant `P`, given fuel for one step per buffered piece. -/
theorem drainLoop_terminates (step : OutputHandler → Option OutputHandler)
    (P : OutputHandler → Prop)
    (hstep : ∀ H, P H → H.output_pieces ≠ [] →
      ∃ H1, step H = some H1 ∧ P H1 ∧ H1.output_pieces.length < H.output_pieces.length) :
    ∀ (fuel : Nat) (H : OutputHandler), P H → H.output_pieces.length ≤ fuel →
      ∃ H1, drainLoop step fuel H = some H1 ∧ P H1 ∧ H1.output_pieces = [] := by
  intro fuel
  induction fuel with
  | zero =>
    intro H hP hlen
    have hnil : H.output_pieces = [] := List.length_eq_zero.mp (by omega)
    exact ⟨H, by simp [drainLoop, hnil], hP, hnil⟩
  | succ fuel ih =>
    intro H hP hlen
    unfold drainLoop
    by_cases hnil : H.output_pieces = []
    · exact ⟨H, by simp [hnil], hP, hnil⟩
    · have hne : H.output_pieces.isEmpty = false := by
        cases hp : H.output_pieces with
        | nil => exact absurd hp hnil
        | cons a b => rfl
      obtain ⟨H1, h1, hP1, hlt⟩ := hstep H hP hnil
      obtain ⟨H2, h2, hP2, he⟩ := ih H1 hP1 (by omega)
      exact ⟨H2, by simp [hne, h1, h2], hP2, he⟩

/-- A flush ends with an empty buffer when `ProcessPending` returns, removes a piece from
a non-empty buffer and keeps the invariant `P`, and `ProcessBlankLines` returns on an
empty buffer and keeps `P`. -/
theorem flushPending_drains (step blank : OutputHandler → Option OutputHandler)
    (P : OutputHandler → Prop)
    (hfirst : ∀ H, P H →
      ∃ H1, step H = some H1 ∧ P H1 ∧ H1.output_pieces.length ≤ H.output_pieces.length)
    (hstep : ∀ H, P H → H.output_pieces ≠ [] →
      ∃ H1, step H = some H1 ∧ P H1 ∧ H1.output_pieces.length < H.output_pieces.length)
    (hblank : ∀ H, P H → H.output_pieces = [] →
      ∃ H1, blank H = some H1 ∧ P H1 ∧ H1.output_pieces = [])
    (fuel : Nat) (next_genre_state : WalkerTransition) (H : OutputHandler) (hP : P H)
    (hfuel : H.output_pieces.length ≤ fuel) :
    ∃ H1, flushPending step blank fuel next_genre_state H = some H1 ∧ P H1 ∧
      H1.output_pieces = [] := by
  obtain ⟨H1, h1, hP1, hle⟩ := hfirst H hP
  obtain ⟨H2, h2, hP2, he⟩ := drainLoop_terminates step P hstep fuel H1 hP1 (by omega)
  unfold flushPending
  simp only [h1, h2]
  split
  · simp only [he, List.isEmpty_nil, if_true]
    exact hblank H2 hP2 he
  · exact ⟨H2, rfl, hP2, he⟩

theorem flushInvariant_Quarrel_step (tokens : List Token) (dest : Int)
    (hd : toInt32 (dest + 1) ≤ (tokens.length : Int)) (H : OutputHandler)
    (hP : flushInvariant tokens dest H) :
    ∃ H1, QuarrelReformatHandler.ProcessPending H = some H1 ∧ flushInvariant tokens dest H1 ∧
      H1.output_pieces = [] := by
  obtain ⟨ht, hdd, hf, hidx, hsz, hc⟩ := hP
  obtain ⟨H1, h1, he, hc1, hc2, hs1, _, _, hs4, hs5⟩ := QuarrelProcessPending_facts H
    (by rw [ht]; exact hidx) (by rw [ht, hdd]; exact hd)
  refine ⟨H1, h1, ⟨hs1.trans ht, hs5.trans hdd, hs4.trans hf, ?_, ?_, ?_⟩, he⟩
  · rw [he]; intro p hp; exact absurd hp (by simp)
  · rw [he]; simp
  · intro _
    by_cases hnil : H.output_pieces = []
    · rw [hc2 hnil]; exact hc hnil
    · exact hc1 hnil

theorem flushInvariant_Quarrel_blank (tokens : List Token) (dest : Int)
    (hd : toInt32 (dest + 1) ≤ (tokens.length : Int)) (H : OutputHandler)
    (hP : flushInvariant tokens dest H) :
    ∃ H1, QuarrelReformatHandler.ProcessBlankLines H = some H1 ∧
      flushInvariant tokens dest H1 ∧ H1.output_pieces = H.output_pieces := by
  obtain ⟨ht, hdd, hf, hidx, hsz, hc⟩ := hP
  obtain ⟨e, he⟩ := QuarrelProcessBlankLines_some H
    (QuarrelScanTokenIndex_le H (by rw [ht]; exact hidx) (by rw [ht, hdd]; exact hd))
  exact ⟨_, he, ⟨ht, hdd, hf, hidx, hsz, hc⟩, rfl⟩

theorem flushInvariant_Salient_step (tokens : List Token) (dest : Int)
    (hd : toInt32 (dest + 1) ≤ (tokens.length : Int)) (H : OutputHandler)
    (hP : flushInvariant tokens dest H) :
    ∃ H1, SalientReformatHandler.ProcessPending H = some H1 ∧ flushInvariant tokens dest H1 ∧
      H1.output_pieces.length ≤ H.output_pieces.length ∧
      (H.output_pieces ≠ [] → H1.output_pieces.length < H.output_pieces.length) := by
  obtain ⟨ht, hdd, hf, hidx, hsz, hc⟩ := hP
  obtain ⟨H1, k, h1, hdrop, hk, hc1, hc2, hs1, _, _, hs4, hs5⟩ :=
    SalientProcessPending_facts H hsz (by rw [ht]; exact hidx) (by rw [ht, hdd]; exact hd)
  have hlen : H1.output_pieces.length = H.output_pieces.length - k := by
    rw [hdrop, List.length_drop]
  refine ⟨H1, h1, ⟨hs1.trans ht, hs5.trans hdd, hs4.trans hf, ?_, by omega, ?_⟩, by omega, ?_⟩
  · intro p hp
    rw [hdrop] at hp
    exact hidx p (List.mem_of_mem_drop hp)
  · intro hnil1
    by_cases hnil : H.output_pieces = []
    · rw [hc2 hnil]; exact hc hnil
    · exact hc1 hnil hnil1
  · intro hne
    have := hk hne
    have hpos : 0 < H.output_pieces.length := List.length_pos.mpr hne
    omega

theorem flushInvariant_Salient_blank (tokens : List Token) (dest : Int)
    (hd : toInt32 (dest + 1) ≤ (tokens.length : Int)) (H : OutputHandler)
    (hP : flushInvariant tokens dest H) :
    ∃ H1, SalientReformatHandler.ProcessBlankLines H = some H1 ∧
      flushInvariant tokens dest H1 ∧ H1.output_pieces = H.output_pieces := by
  obtain ⟨ht, hdd, hf, hidx, hsz, hc⟩ := hP
  obtain ⟨e, r, he⟩ := SalientProcessBlankLines_some H
    (SalientScanTokenIndex_le H (by rw [ht]; exact hidx) (by rw [ht, hdd]; exact hd))
  exact ⟨_, he, ⟨ht, hdd, hf, hidx, hsz, hc⟩, rfl⟩

theorem QuarrelFlush_drains (fuel : Nat) (next_genre_state : WalkerTransition)
    (K : OutputHandler) (dest : Int)
    (hd : toInt32 (dest + 1) ≤ (K.tokens.length : Int))
    (hP : flushInvariant K.tokens dest K) (hfuel : K.output_pieces.length ≤ fuel) :
    ∃ H1, flushPending QuarrelReformatHandler.ProcessPending
        QuarrelReformatHandler.ProcessBlankLines fuel next_genre_state K = some H1 ∧
      H1.output_pieces = [] ∧ H1.pending_char_count = 0 ∧
      H1.flush_at_next_token = FlushReason.kNone := by
  obtain ⟨H1, h1, hP1, he⟩ := flushPending_drains QuarrelReformatHandler.ProcessPending
    QuarrelReformatHandler.ProcessBlankLines (flushInvariant K.tokens dest)
    (fun K0 hK => by
      obtain ⟨K1, k1, hK1, hn⟩ := flushInvariant_Quarrel_step _ _ hd K0 hK
      exact ⟨K1, k1, hK1, by rw [hn]; simp⟩)
    (fun K0 hK hne => by
      obtain ⟨K1, k1, hK1, hn⟩ := flushInvariant_Quarrel_step _ _ hd K0 hK
      exact ⟨K1, k1, hK1, by rw [hn]; exact List.length_pos.mpr hne⟩)
    (fun K0 hK hnil => by
      obtain ⟨K1, k1, hK1, hn⟩ := flushInvariant_Quarrel_blank _ _ hd K0 hK
      exact ⟨K1, k1, hK1, by rw [hn]; exact hnil⟩)
    fuel next_genre_state K hP hfuel
  exact ⟨H1, h1, he, hP1.2.2.2.2.2 he, hP1.2.2.1⟩

theorem SalientFlush_drains (fuel : Nat) (next_genre_state : WalkerTransition)
    (K : OutputHandler) (dest : Int)
    (hd : toInt32 (dest + 1) ≤ (K.tokens.length : Int))
    (hP : flushInvariant K.tokens dest K) (hfuel : K.output_pieces.length ≤ fuel) :
    ∃ H1, flushPending SalientReformatHandler.ProcessPending
        SalientReformatHandler.ProcessBlankLines fuel next_genre_state K = some H1 ∧
      H1.output_pieces = [] ∧ H1.pending_char_count = 0 ∧
      H1.flush_at_next_token = FlushReason.kNone := by
  obtain ⟨H1, h1, hP1, he⟩ := flushPending_drains SalientReformatHandler.ProcessPending
    SalientReformatHandler.ProcessBlankLines (flushInvariant K.tokens dest)
    (fun K0 hK => by
      obtain ⟨K1, k1, hK1, hle, _⟩ := flushInvariant_Salient_step _ _ hd K0 hK
      exact ⟨K1, k1, hK1, hle⟩)
    (fun K0 hK hne => by
      obtain ⟨K1, k1, hK1, _, hlt⟩ := flushInvariant_Salient_step _ _ hd K0 hK
      exact ⟨K1, k1, hK1, hlt hne⟩)
    (fun K0 hK hnil => by
      obtain ⟨K1, k1, hK1, hn⟩ := flushInvariant_Salient_blank _ _ hd K0 hK
      exact ⟨K1, k1, hK1, by rw [hn]; exact hnil⟩)
    fuel next_genre_state K hP hfuel
  exact ⟨H1, h1, he, hP1.2.2.2.2.2 he, hP1.2.2.1⟩

/-- C19. A full flush `OutputLines(true, next)` of `QuarrelReformatHandler` and of
`SalientReformatHandler` returns, given loop fuel for one `ProcessPending` per buffered
piece, when every buffered piece and the destination name tokens of the stream and an
empty buffer has character count 0 (as for a buffer built by `AppendPiece`); it leaves
`output_pieces` empty, `pending_char_count` 0 and `flush_at_next_token` `kNone`.  Each
`ProcessPending` on such a non-empty buffer returns and removes at least one piece. -/
theorem OutputLines_drains (fuel : Nat) (next_genre_state : WalkerTransition)
    (H : OutputHandler) (hfuel : H.output_pieces.length ≤ fuel)
    (hsize : H.output_pieces.length < 2 ^ 31)
    (hcount : H.output_pieces = [] → H.pending_char_count = 0)
    (hidx : ∀ p ∈ H.output_pieces, p.token_index ≤ (H.tokens.length : Int))
    (hdest : toInt32 (toSsize next_genre_state.token_index + 1) ≤ (H.tokens.length : Int)) :
    (∃ H1, QuarrelReformatHandler.OutputLines fuel true next_genre_state H = some H1 ∧
      H1.output_pieces = [] ∧ H1.pending_char_count = 0 ∧
      H1.flush_at_next_token = FlushReason.kNone) ∧
    (∃ H1, SalientReformatHandler.OutputLines fuel true next_genre_state H = some H1 ∧
      H1.output_pieces = [] ∧ H1.pending_char_count = 0 ∧
      H1.flush_at_next_token = FlushReason.kNone) ∧
    (∀ K : OutputHandler, K.output_pieces ≠ [] → K.output_pieces.length < 2 ^ 31 →
      (∀ p ∈ K.output_pieces, p.token_index ≤ (K.tokens.length : Int)) →
      toInt32 (K.inter_mode_formatting.destination_token_index + 1) ≤
        (K.tokens.length : Int) →
      (∃ K1, QuarrelReformatHandler.ProcessPending K = some K1 ∧
        K1.output_pieces.length < K.output_pieces.length) ∧
      (∃ K1, SalientReformatHandler.ProcessPending K = some K1 ∧
        K1.output_pieces.length < K.output_pieces.length)) := by
  refine ⟨?_, ?_, ?_⟩
  · unfold QuarrelReformatHandler.OutputLines
    simp only [Bool.not_true, Bool.false_eq_true, if_false]
    refine QuarrelFlush_drains fuel next_genre_state _ (toSsize next_genre_state.token_index)
      hdest ⟨rfl, ?_, rfl, hidx, hsize, hcount⟩ hfuel
    dsimp only
    split <;> rfl
  · unfold SalientReformatHandler.OutputLines
    simp only [Bool.not_true, Bool.false_eq_true, if_false]
    refine SalientFlush_drains fuel next_genre_state _ (toSsize next_genre_state.token_index)
      hdest ⟨rfl, ?_, rfl, hidx, hsize, hcount⟩ hfuel
    dsimp only
    split
    · rfl
    · split <;> rfl
  · intro K hne hsz hi hdK
    constructor
    · obtain ⟨K1, h1, he, _⟩ := QuarrelProcessPending_facts K hi hdK
      exact ⟨K1, h1, by rw [he]; exact List.length_pos.mpr hne⟩
    · obtain ⟨K1, k, h1, hdrop, hk, _⟩ := SalientProcessPending_facts K hsz hi hdK
      refine ⟨K1, h1, ?_⟩
      rw [hdrop, List.length_drop]
      have := hk hne
      have hpos : 0 < K.output_pieces.length := List.length_pos.mpr hne
      omega

/-- Witness of `OutputLines_drains`: the two-word buffer, flushed with the default
`WalkerTransition()`. -/
theorem OutputLines_drains_witness :
    (∃ H1, QuarrelReformatHandler.OutputLines 3 true {} (twoWordHandler 0) = some H1 ∧
      H1.output_pieces = [] ∧ H1.pending_char_count = 0 ∧
      H1.flush_at_next_token = FlushReason.kNone) ∧
    (∃ H1, SalientReformatHandler.OutputLines 3 true {} (twoWordHandler 0) = some H1 ∧
      H1.output_pieces = [] ∧ H1.pending_char_count = 0 ∧
      H1.flush_at_next_token = FlushReason.kNone) :=
  have h := OutputLines_drains 3 {} (twoWordHandler 0) (by decide) (by decide) (by decide)
    (by decide) (by decide)
  ⟨h.1, h.2.1⟩

theorem rootedAt_init (t : ParseTree) :
    (StepwiseParseTreeWalker.init (some t)).rootedAt t :=
  ⟨fun _ => Or.inr rfl, fun h => absurd rfl h⟩

theorem rootedAt_WalkStep (t : ParseTree) (w : StepwiseParseTreeWalker)
    (h : w.rootedAt t) : w.WalkStep.2.rootedAt t := by
  obtain ⟨l, cur, ns, istack, i, o⟩ := w
  obtain ⟨hJ, hK⟩ := h
  simp only at hJ hK
  cases cur with
  | none => exact ⟨by simp [StepwiseParseTreeWalker.WalkStep],
      by simpa [StepwiseParseTreeWalker.WalkStep] using hK⟩
  | some node =>
    cases o with
    | true =>
      cases hch : GetChildren node with
      | nil =>
        simp only [StepwiseParseTreeWalker.WalkStep, hch, if_true]
        exact ⟨hJ, hK⟩
      | cons c0 cs =>
        simp only [StepwiseParseTreeWalker.WalkStep, hch, if_true]
        refine ⟨fun h => absurd h (by simp), fun _ => ?_⟩
        cases ns with
        | nil =>
          rcases hJ rfl with h1 | h1
          · exact absurd h1 (by simp)
          · simp only [Option.some.injEq] at h1
            simp [h1]
        | cons p ps =>
          have := hK (by simp)
          simpa [List.getLast?_cons_cons] using this
    | false =>
      cases ns with
      | nil =>
        by_cases ht : isTerminalNode node = true <;>
          simp [StepwiseParseTreeWalker.WalkStep, ht, StepwiseParseTreeWalker.rootedAt]
      | cons parent rest =>
        have hk := hK (by simp)
        by_cases hlt : i + 1 < (GetChildren parent).length
        · by_cases ht : isTerminalNode node = true <;>
            simp [StepwiseParseTreeWalker.WalkStep, hlt, ht,
              StepwiseParseTreeWalker.rootedAt, hk]
        · cases rest with
          | nil =>
            simp only [List.getLast?_singleton, Option.some.injEq] at hk
            subst hk
            by_cases ht : isTerminalNode node = true <;>
              simp [StepwiseParseTreeWalker.WalkStep, hlt, ht,
                StepwiseParseTreeWalker.rootedAt]
          | cons q qs =>
            rw [List.getLast?_cons_cons] at hk
            by_cases ht : isTerminalNode node = true <;>
              simp [StepwiseParseTreeWalker.WalkStep, hlt, ht,
                StepwiseParseTreeWalker.rootedAt, hk]

theorem rootedAt_afterSteps (t : ParseTree) (n : Nat) : ∀ w : StepwiseParseTreeWalker,
    w.rootedAt t → (StepwiseParseTreeWalker.afterSteps n w).rootedAt t := by
  induction n with
  | zero => intro w h; exact h
  | succ n ih => intro w h; exact ih _ (rootedAt_WalkStep t w h)

theorem afterSteps_of_null (n : Nat) : ∀ w : StepwiseParseTreeWalker,
    w.current_node_ = none → StepwiseParseTreeWalker.afterSteps n w = w := by
  induction n with
  | zero => intro w _; rfl
  | succ n ih =>
    intro w h
    rw [StepwiseParseTreeWalker.afterSteps, WalkStep_of_null w h]
    exact ih w h

theorem WalkStep_false_iff (w : StepwiseParseTreeWalker) :
    w.WalkStep.1 = false ↔
      (w.current_node_ = none ∨ (w.in_outer_walk_ = false ∧ w.node_stack_ = [])) := by
  obtain ⟨l, cur, ns, istack, i, o⟩ := w
  cases cur with
  | none => simp [StepwiseParseTreeWalker.WalkStep]
  | some node =>
    cases o with
    | true =>
      cases hch : GetChildren node <;> simp [StepwiseParseTreeWalker.WalkStep, hch]
    | false =>
      cases ns with
      | nil =>
        by_cases ht : isTerminalNode node = true <;>
          simp [StepwiseParseTreeWalker.WalkStep, ht]
      | cons parent rest =>
        by_cases hlt : i + 1 < (GetChildren parent).length
        · by_cases ht : isTerminalNode node = true <;>
            simp [StepwiseParseTreeWalker.WalkStep, hlt, ht]
        · by_cases ht : isTerminalNode node = true <;>
            simp [StepwiseParseTreeWalker.WalkStep, hlt, ht]

/-- C21. `WalkStep` returns false exactly when the walk is already complete (null current
node) or the step is the post-order step with an empty frame stack, which for a walker
started on `t` is the post-order step of the root `t`.  Once it has returned false, every
later call returns false and leaves the walker, its listener included, unchanged. -/
theorem WalkStep_false_is_final (w : StepwiseParseTreeWalker) :
    (w.WalkStep.1 = false ↔
      (w.current_node_ = none ∨ (w.in_outer_walk_ = false ∧ w.node_stack_ = []))) ∧
    (w.WalkStep.1 = false →
      ∀ n : Nat, (StepwiseParseTreeWalker.afterSteps n w.WalkStep.2).WalkStep =
        (false, w.WalkStep.2)) ∧
    (∀ (t : ParseTree) (k : Nat),
      w = StepwiseParseTreeWalker.afterSteps k (StepwiseParseTreeWalker.init (some t)) →
      w.WalkStep.1 = false → w.current_node_ ≠ none → w.current_node_ = some t) := by
  refine ⟨WalkStep_false_iff w, ?_, ?_⟩
  · intro h n
    have hnull : w.WalkStep.2.current_node_ = none := by
      have hf := WalkStep_flag w
      rw [h] at hf
      cases hc : w.WalkStep.2.current_node_ with
      | none => rfl
      | some x => rw [hc] at hf; simp at hf
    rw [afterSteps_of_null n _ hnull, WalkStep_of_null _ hnull]
  · intro t k hw hfalse hne
    have hr : w.rootedAt t := by
      rw [hw]
      exact rootedAt_afterSteps t k _ (rootedAt_init t)
    rcases (WalkStep_false_iff w).mp hfalse with h1 | ⟨_, h2⟩
    · exact absurd h1 hne
    · rcases hr.1 h2 with h3 | h3
      · exact absurd h3 hne
      · exact h3

/-- Witness of `WalkStep_false_is_final`: the walk of a lone terminal, whose second step
is the post-order step of the root. -/
theorem WalkStep_false_is_final_witness :
    ∀ n : Nat,
      (StepwiseParseTreeWalker.afterSteps n
        (StepwiseParseTreeWalker.afterSteps 2 (StepwiseParseTreeWalker.init
          (some (ParseTree.terminal
            { type := PvnTokenType.EOF, text := [], tokenIndex := 0 }))))).WalkStep =
      (false, StepwiseParseTreeWalker.afterSteps 2 (StepwiseParseTreeWalker.init
          (some (ParseTree.terminal
            { type := PvnTokenType.EOF, text := [], tokenIndex := 0 })))) :=
  (WalkStep_false_is_final
    (StepwiseParseTreeWalker.afterSteps 1 (StepwiseParseTreeWalker.init
      (some (ParseTree.terminal
        { type := PvnTokenType.EOF, text := [], tokenIndex := 0 }))))).2.1 rfl

theorem find_last_of_eq_none (c : Char) : ∀ (s : List Char), c ∉ s →
    find_last_of c s = none := by
  intro s
  induction s with
  | nil => intro _; rfl
  | cons x xs ih =>
    intro h
    simp only [List.mem_cons, not_or] at h
    simp only [find_last_of, ih h.2]
    rw [if_neg (fun e => h.1 e.symm)]

theorem find_last_of_split (c : Char) (ext : List Char) (hext : c ∉ ext) :
    ∀ pre : List Char, find_last_of c (pre ++ c :: ext) = some pre.length := by
  intro pre
  induction pre with
  | nil => simp [find_last_of, find_last_of_eq_none c ext hext]
  | cons x xs ih => simp [find_last_of, ih]

/-- C22. `util::ChooseModeFromFileExtension`: for a name with a `.`, with `ext` the text
after the last one, the result is `kQuarrel` exactly when `ext` is `pvn`, `kSalient`
exactly when `ext` is `svt`, and `kNone` otherwise; a name without any `.` gives
`kNone`. -/
theorem ChooseModeFromFileExtension_spec (filename : List Char) :
    (∀ pre ext : List Char, filename = pre ++ '.' :: ext → '.' ∉ ext →
      (ChooseModeFromFileExtension filename = ParsingGenre.kQuarrel ↔ ext = ['p', 'v', 'n']) ∧
      (ChooseModeFromFileExtension filename = ParsingGenre.kSalient ↔ ext = ['s', 'v', 't']) ∧
      (ChooseModeFromFileExtension filename = ParsingGenre.kNone ↔
        (ext ≠ ['p', 'v', 'n'] ∧ ext ≠ ['s', 'v', 't']))) ∧
    ('.' ∉ filename → ChooseModeFromFileExtension filename = ParsingGenre.kNone) := by
  constructor
  · intro pre ext hf hext
    have hd : (pre ++ '.' :: ext).drop (pre.length + 1) = ext := by
      rw [show pre ++ '.' :: ext = (pre ++ ['.']) ++ ext by simp]
      exact List.drop_left' (by simp)
    unfold ChooseModeFromFileExtension
    rw [hf, find_last_of_split '.' ext hext pre]
    simp only [hd]
    by_cases h1 : ext = ['p', 'v', 'n']
    · simp [h1]
    · by_cases h2 : ext = ['s', 'v', 't']
      · simp [h2]
      · simp [h1, h2]
  · intro h
    unfold ChooseModeFromFileExtension
    rw [find_last_of_eq_none '.' filename h]

/-- Witness of `ChooseModeFromFileExtension_spec`: the name `a.b.svt`. -/
theorem ChooseModeFromFileExtension_spec_witness :
    ChooseModeFromFileExtension ['a', '.', 'b', '.', 's', 'v', 't'] = ParsingGenre.kSalient :=
  (((ChooseModeFromFileExtension_spec ['a', '.', 'b', '.', 's', 'v', 't']).1
    ['a', '.', 'b'] ['s', 'v', 't'] rfl (by decide)).2.1).mpr rfl

/-- C23. For all parse trees, all transition lists and every outer genre state, the
alternation loop of `PerformConversion` returns, with destination genre `kNone`, within
the stated number of passes.  Each pass of an inner `while` body either leaves less work
(unconsumed transitions plus walk steps to come) or ends with destination genre `kNone`,
which ends the loop. -/
theorem alternationLoop_always_terminates (outer : WalkerTransition) (qt st : ParseTree)
    (q2s s2q : List WalkerTransition) (extra : Nat) :
    (∃ s', alternationLoop (q2s.length + s2q.length + preSteps qt + preSteps st + 4 + extra)
        (ConversionState.init outer qt st q2s s2q) = some s' ∧
      s'.current_genre_state.destination_genre = ParsingGenre.kNone) ∧
    (∀ s : ConversionState,
      s.current_genre_state.destination_genre = ParsingGenre.kQuarrel →
      (quarrelWhileBody s).workLeft < s.workLeft ∨
        (quarrelWhileBody s).current_genre_state.destination_genre = ParsingGenre.kNone) ∧
    (∀ s : ConversionState,
      s.current_genre_state.destination_genre = ParsingGenre.kSalient →
      (salientWhileBody s).workLeft < s.workLeft ∨
        (salientWhileBody s).current_genre_state.destination_genre = ParsingGenre.kNone) := by
  refine ⟨?_, ?_, ?_⟩
  · obtain ⟨s', h1, _, h3⟩ := alternationLoop_terminates (fun _ => True)
      (fun _ _ _ => trivial) (fun _ _ _ => trivial)
      (q2s.length + s2q.length + preSteps qt + preSteps st + 4 + extra)
      (ConversionState.init outer qt st q2s s2q) trivial
      (by rw [workLeft_init]; omega)
    exact ⟨s', h1, h3⟩
  · intro s hg
    obtain ⟨_, _, _, _, f5, _⟩ := quarrelWhileBody_facts s hg
    by_cases hn : (quarrelWhileBody s).current_genre_state.destination_genre =
        ParsingGenre.kNone
    · exact Or.inr hn
    · exact Or.inl (f5 hn)
  · intro s hg
    obtain ⟨_, _, _, _, f5, _⟩ := salientWhileBody_facts s hg
    by_cases hn : (salientWhileBody s).current_genre_state.destination_genre =
        ParsingGenre.kNone
    · exact Or.inr hn
    · exact Or.inl (f5 hn)

/-- Witness of `alternationLoop_always_terminates`: two lone terminals, one transition with
destination `kNone` at an arbitrary token index, outer genre `kQuarrel`. -/
theorem alternationLoop_always_terminates_witness :
    ∃ s', alternationLoop 7
        (ConversionState.init
          { token_index := 0, destination_genre := ParsingGenre.kQuarrel,
            destination_subgenre := TextualSubGenre.kMaster }
          (ParseTree.terminal { type := PvnTokenType.EOF, text := [], tokenIndex := 9 })
          (ParseTree.terminal { type := PvnTokenType.EOF, text := [], tokenIndex := 9 })
          [{ token_index := 5, destination_genre := ParsingGenre.kNone,
             destination_subgenre := TextualSubGenre.kNone }] []) = some s' ∧
      s'.current_genre_state.destination_genre = ParsingGenre.kNone :=
  (alternationLoop_always_terminates
    { token_index := 0, destination_genre := ParsingGenre.kQuarrel,
      destination_subgenre := TextualSubGenre.kMaster }
    (ParseTree.terminal { type := PvnTokenType.EOF, text := [], tokenIndex := 9 })
    (ParseTree.terminal { type := PvnTokenType.EOF, text := [], tokenIndex := 9 })
    [{ token_index := 5, destination_genre := ParsingGenre.kNone,
       destination_subgenre := TextualSubGenre.kNone }] [] 0).1

/-- The dedent loop on a non-empty queue: `fuel` = the decrease asked for, and that many
`SVT_DEDENT` tokens, modelled on the front token, are put in front. -/
theorem dedentInsertion_shape (req : Int) (fuel : Nat) :
    ∀ (cur : Int) (front : Token) (others : List Token),
    fuel = (cur - req).toNat →
    dedentInsertion req fuel (cur, front :: others) =
      (min cur req,
        List.replicate fuel (synthesizedToken PvnTokenType.SVT_DEDENT front) ++
          front :: others) := by
  induction fuel with
  | zero =>
    intro cur front others h
    have : min cur req = cur := min_eq_left (by omega)
    simp [dedentInsertion, this]
  | succ n ih =>
    intro cur front others h
    have hgt : cur > req := by omega
    unfold dedentInsertion
    rw [if_pos hgt]
    simp only
    rw [ih (cur - 1) _ _ (by omega)]
    have hm : min (cur - 1) req = min cur req := by
      rw [min_eq_right (by omega), min_eq_right (by omega)]
    rw [hm]
    have hs : synthesizedToken PvnTokenType.SVT_DEDENT
        (synthesizedToken PvnTokenType.SVT_DEDENT front) =
        synthesizedToken PvnTokenType.SVT_DEDENT front := rfl
    rw [hs, List.replicate_succ']
    simp

/-- The indent loop on a queue that ends with `back`: `fuel` = the increase asked for, and
that many `SVT_INDENT` tokens, modelled on `back`, are put just before `back`. -/
theorem indentInsertion_shape (req : Int) (fuel : Nat) :
    ∀ (cur : Int) (front_part : List Token) (back : Token),
    fuel = (req - cur).toNat →
    indentInsertion req fuel (cur, front_part ++ [back]) =
      (max cur req,
        front_part ++
          List.replicate fuel (synthesizedToken PvnTokenType.SVT_INDENT back) ++ [back]) := by
  induction fuel with
  | zero =>
    intro cur fp back h
    have : max cur req = cur := max_eq_left (by omega)
    simp [indentInsertion, this]
  | succ n ih =>
    intro cur fp back h
    have hlt : cur < req := by omega
    unfold indentInsertion
    rw [if_pos hlt]
    have hl : (fp ++ [back]).getLast? = some back := by simp
    rw [hl]
    simp only [List.dropLast_concat]
    have e : fp ++ [synthesizedToken PvnTokenType.SVT_INDENT back, back] =
        (fp ++ [synthesizedToken PvnTokenType.SVT_INDENT back]) ++ [back] := by simp
    rw [e, ih (cur + 1) _ _ (by omega)]
    have hm : max (cur + 1) req = max cur req := by
      rw [max_eq_right (by omega), max_eq_right (by omega)]
    rw [hm, List.replicate_succ]
    simp

/-- The fetch loop reads the base lexer's tokens in arrival order, up to and including
the first one that is not logical whitespace. -/
theorem fetchTokens_shape : ∀ (raw : List RawItem) (ctx : SalientModeContext)
    (pending : List Token) (ctx1 : SalientModeContext) (fetched : List Token)
    (rest : List RawItem),
    ctx.fetchTokens raw pending = some (ctx1, fetched, rest) →
    ∃ (whitespace : List Token) (trigger : Token),
      fetched = pending ++ whitespace ++ [trigger] ∧
      (raw.take (whitespace.length + 1)).map (fun item => item.token) =
        whitespace ++ [trigger] ∧
      rest = raw.drop (whitespace.length + 1) ∧
      (∀ t ∈ whitespace, IsLogicalWhitespace t.type = true) ∧
      IsLogicalWhitespace trigger.type = false := by
  intro raw
  induction raw with
  | nil => intro ctx pending ctx1 fetched rest h; simp [SalientModeContext.fetchTokens] at h
  | cons item items ih =>
    intro ctx pending ctx1 fetched rest h
    unfold SalientModeContext.fetchTokens at h
    simp only [] at h
    split at h
    · simp at h
    · by_cases hw : IsLogicalWhitespace item.token.type = true
      · rw [if_pos hw] at h
        obtain ⟨ws, tr, h1, h2, h3, h4, h5⟩ := ih _ _ _ _ _ h
        refine ⟨item.token :: ws, tr, by rw [h1]; simp, by simp [h2], by simp [h3], ?_, h5⟩
        intro t ht
        rcases List.mem_cons.mp ht with e | e
        · rw [e]; exact hw
        · exact h4 t e
      · rw [if_neg hw] at h
        simp only [Option.some.injEq, Prod.mk.injEq] at h
        obtain ⟨_, e2, e3⟩ := h
        exact ⟨[], item.token, by rw [← e2]; simp, by simp, by rw [← e3]; simp,
          fun t ht => absurd ht (by simp), by simpa using hw⟩
/-- The fetch loop leaves `reindenting_required` set when the triggering token triggers
reindentation now. -/
theorem fetchTokens_reindenting : ∀ (raw : List RawItem) (ctx : SalientModeContext)
    (pending : List Token) (ctx1 : SalientModeContext) (fetched : List Token)
    (rest : List RawItem),
    ctx.fetchTokens raw pending = some (ctx1, fetched, rest) →
    ∀ back, fetched.getLast? = some back → TriggersReindentationNow back.type = true →
    ctx1.reindenting_required = true := by
  intro raw
  induction raw with
  | nil => intro ctx pending ctx1 fetched rest h; simp [SalientModeContext.fetchTokens] at h
  | cons item items ih =>
    intro ctx pending ctx1 fetched rest h back hb ht
    unfold SalientModeContext.fetchTokens at h
    simp only [] at h
    split at h
    · simp at h
    · by_cases hw : IsLogicalWhitespace item.token.type = true
      · rw [if_pos hw] at h
        exact ih _ _ _ _ _ h back hb ht
      · rw [if_neg hw] at h
        simp only [Option.some.injEq, Prod.mk.injEq] at h
        obtain ⟨e1, e2, _⟩ := h
        have hb2 : item.token = back := by
          rw [← e2] at hb
          have hl : (pending ++ [item.token]).getLast? = some item.token := by simp
          rw [hl] at hb
          exact Option.some.inj hb
        rw [← hb2] at ht
        rw [← e1]
        split <;> split <;> simp [ht]

/-- One resolution, in full: what was fetched, the queue it leaves, and the indentation
and list-type stack of the context after it. -/
theorem resolve_shape (ctx : SalientModeContext) (raw : List RawItem)
    (ctx' : SalientModeContext) (queue : List Token) (rest : List RawItem)
    (h : ctx.resolve raw = some (ctx', queue, rest)) :
    ∃ (ctx1 : SalientModeContext) (whitespace : List Token) (trigger : Token),
      ctx.fetchTokens raw [] = some (ctx1, whitespace ++ [trigger], rest) ∧
      (raw.take (whitespace.length + 1)).map (fun item => item.token) =
        whitespace ++ [trigger] ∧
      (∀ t ∈ whitespace, IsLogicalWhitespace t.type = true) ∧
      IsLogicalWhitespace trigger.type = false ∧
      queue =
        List.replicate (ctx.current_indentation - requestedIndentation ctx1 trigger).toNat
            (synthesizedToken PvnTokenType.SVT_DEDENT
              ((whitespace ++ [trigger]).headD trigger)) ++
          whitespace ++
          List.replicate (requestedIndentation ctx1 trigger - ctx.current_indentation).toNat
            (synthesizedToken PvnTokenType.SVT_INDENT trigger) ++
          [trigger] ∧
      ctx'.current_indentation =
        max ctx.current_indentation (requestedIndentation ctx1 trigger) -
          (ctx.current_indentation - requestedIndentation ctx1 trigger).toNat +
          (if IsImpliedIndenter trigger.type then 1 else 0) ∧
      ctx'.nested_list_types =
        (if ctx.nested_list_types.length > (ctx'.current_indentation % (2 : Int) ^ 64).toNat
         then ctx.nested_list_types.take (ctx'.current_indentation % (2 : Int) ^ 64).toNat
         else ctx.nested_list_types) := by
  unfold SalientModeContext.resolve at h
  cases hf : ctx.fetchTokens raw [] with
  | none => rw [hf] at h; simp at h
  | some r =>
    obtain ⟨ctx1, fetched, rest1⟩ := r
    rw [hf] at h
    simp only [] at h
    obtain ⟨ws, tr, e1, e2, e3, e4, e5⟩ := fetchTokens_shape raw ctx [] ctx1 fetched rest1 hf
    obtain ⟨hcur, _, hnl, _⟩ := fetchTokens_facts raw ctx [] ctx1 fetched rest1 hf
    simp only [List.nil_append] at e1
    subst e1
    have hl : (ws ++ [tr]).getLast? = some tr := by simp
    rw [hl] at h
    simp only [Option.some.injEq, Prod.mk.injEq] at h
    obtain ⟨hctx, hq, hrest⟩ := h
    subst hrest
    have hne : ∃ front others, ws ++ [tr] = front :: others ∧
        (ws ++ [tr]).headD tr = front := by
      cases ws with
      | nil => exact ⟨tr, [], rfl, rfl⟩
      | cons a b => exact ⟨a, b ++ [tr], rfl, rfl⟩
    obtain ⟨front, others, hfo, hhead⟩ := hne
    have hm : (requestedIndentation ctx1 tr -
        min ctx.current_indentation (requestedIndentation ctx1 tr)).toNat =
        (requestedIndentation ctx1 tr - ctx.current_indentation).toNat := by
      rcases le_total ctx.current_indentation (requestedIndentation ctx1 tr) with hle | hle
      · rw [min_eq_left hle]
      · rw [min_eq_right hle]
        omega
    have hboth : indentInsertion (requestedIndentation ctx1 tr)
        (requestedIndentation ctx1 tr -
          (dedentInsertion (requestedIndentation ctx1 tr)
            (ctx1.current_indentation - requestedIndentation ctx1 tr).toNat
            (ctx1.current_indentation, ws ++ [tr])).1).toNat
        (dedentInsertion (requestedIndentation ctx1 tr)
          (ctx1.current_indentation - requestedIndentation ctx1 tr).toNat
          (ctx1.current_indentation, ws ++ [tr])) =
        (max (min ctx.current_indentation (requestedIndentation ctx1 tr))
            (requestedIndentation ctx1 tr),
          List.replicate (ctx.current_indentation - requestedIndentation ctx1 tr).toNat
              (synthesizedToken PvnTokenType.SVT_DEDENT ((ws ++ [tr]).headD tr)) ++
            ws ++
            List.replicate (requestedIndentation ctx1 tr - ctx.current_indentation).toNat
              (synthesizedToken PvnTokenType.SVT_INDENT tr) ++
            [tr]) := by
      rw [hfo, hcur,
        dedentInsertion_shape _ _ ctx.current_indentation front others rfl, ← hfo, hhead]
      simp only
      rw [← List.append_assoc, indentInsertion_shape _ _ _ _ tr rfl, hm]
    rw [hboth] at hq hctx
    simp only at hq hctx
    have hmax : max (min ctx.current_indentation (requestedIndentation ctx1 tr))
        (requestedIndentation ctx1 tr) =
        max ctx.current_indentation (requestedIndentation ctx1 tr) -
          (ctx.current_indentation - requestedIndentation ctx1 tr).toNat := by
      rcases le_total ctx.current_indentation (requestedIndentation ctx1 tr) with hle | hle
      · rw [min_eq_left hle, max_eq_right hle]
        omega
      · rw [min_eq_right hle, max_eq_left hle, max_self]
        omega
    have hci : ctx'.current_indentation =
        max ctx.current_indentation (requestedIndentation ctx1 tr) -
          (ctx.current_indentation - requestedIndentation ctx1 tr).toNat +
          (if IsImpliedIndenter tr.type then 1 else 0) := by
      rw [← hmax, ← hctx]
      by_cases himp : IsImpliedIndenter tr.type = true
      · simp only [himp, if_true]
        split <;> rfl
      · simp only [himp, Bool.false_eq_true, if_false, add_zero]
        split <;> rfl
    refine ⟨ctx1, ws, tr, rfl, e2, e4, e5, hq.symm, hci, ?_⟩
    rw [hci, ← hmax, ← hnl, ← hctx]
    by_cases himp : IsImpliedIndenter tr.type = true
    · simp only [himp, if_true]
      split <;> rfl
    · simp only [himp, Bool.false_eq_true, if_false, add_zero]
      split <;> rfl

/-- C24. One resolution of `SpecializedNextToken` from an empty pending queue: with
`current` the indentation before the call and `requested` the requested indentation, the
queue before the front token is popped is `max(0, current - requested)` `SVT_DEDENT`
tokens, then the logical-whitespace tokens read, in arrival order, then
`max(0, requested - current)` `SVT_INDENT` tokens, then the triggering token, last.  The
two counts are never both positive. -/
theorem resolve_queue_shape (ctx : SalientModeContext) (raw : List RawItem)
    (ctx' : SalientModeContext) (queue : List Token) (rest : List RawItem)
    (h : ctx.resolve raw = some (ctx', queue, rest)) :
    ∃ (ctx1 : SalientModeContext) (whitespace : List Token) (trigger : Token),
      ctx.fetchTokens raw [] = some (ctx1, whitespace ++ [trigger], rest) ∧
      (raw.take (whitespace.length + 1)).map (fun item => item.token) =
        whitespace ++ [trigger] ∧
      (∀ t ∈ whitespace, IsLogicalWhitespace t.type = true) ∧
      IsLogicalWhitespace trigger.type = false ∧
      queue =
        List.replicate (ctx.current_indentation - requestedIndentation ctx1 trigger).toNat
            (synthesizedToken PvnTokenType.SVT_DEDENT
              ((whitespace ++ [trigger]).headD trigger)) ++
          whitespace ++
          List.replicate (requestedIndentation ctx1 trigger - ctx.current_indentation).toNat
            (synthesizedToken PvnTokenType.SVT_INDENT trigger) ++
          [trigger] ∧
      ((ctx.current_indentation - requestedIndentation ctx1 trigger).toNat = 0 ∨
        (requestedIndentation ctx1 trigger - ctx.current_indentation).toNat = 0) ∧
      ∃ (popped_token : Token) (others : List Token), queue = popped_token :: others ∧
        ctx.SpecializedNextToken { pending_tokens := [], raw := raw } =
          some (popped_token, ctx', { pending_tokens := others, raw := rest }) := by
  obtain ⟨ctx1, ws, tr, h1, h2, h3, h4, hq2, _, _⟩ := resolve_shape ctx raw ctx' queue rest h
  refine ⟨ctx1, ws, tr, h1, h2, h3, h4, hq2, by omega, ?_⟩
  have hqne : ∃ p o, queue = p :: o := by
    rw [hq2]
    cases hk : List.replicate
        (ctx.current_indentation - requestedIndentation ctx1 tr).toNat
        (synthesizedToken PvnTokenType.SVT_DEDENT ((ws ++ [tr]).headD tr)) ++ ws ++
        List.replicate (requestedIndentation ctx1 tr - ctx.current_indentation).toNat
          (synthesizedToken PvnTokenType.SVT_INDENT tr) with
    | nil => exact ⟨tr, [], rfl⟩
    | cons a b => exact ⟨a, b ++ [tr], rfl⟩
  obtain ⟨p, o, hpo⟩ := hqne
  refine ⟨p, o, hpo, ?_⟩
  unfold SalientModeContext.SpecializedNextToken
  simp only [List.getLast?_nil, Option.map_none', reduceCtorEq, if_false, h, hpo]

/-- Witness of `resolve_queue_shape`: at indentation 2, a newline then `EOF`; the queue is
two `SVT_DEDENT` tokens, the newline, `EOF`, and the first dedent is returned. -/
theorem resolve_queue_shape_witness :
    ∃ (popped_token : Token) (others : List Token),
      [({ type := PvnTokenType.SVT_DEDENT, text := [], tokenIndex := 7 } : Token),
       { type := PvnTokenType.SVT_DEDENT, text := [], tokenIndex := 7 },
       { type := PvnTokenType.SINGLE_NEWLINE, text := ['\n'], tokenIndex := 7 },
       { type := PvnTokenType.EOF, text := [], tokenIndex := 8 }] = popped_token :: others ∧
      SalientModeContext.SpecializedNextToken
          { current_indentation := 2, reindenting_required := false,
            last_emitted_implied_indenter := false,
            nested_list_types := [SvtListType.kBullet, SvtListType.kArabic] }
          { pending_tokens := [],
            raw := [{ token := { type := PvnTokenType.SINGLE_NEWLINE, text := ['\n'],
                                 tokenIndex := 7 },
                      prev_token_type := PvnTokenType.other 0 },
                    { token := { type := PvnTokenType.EOF, text := [], tokenIndex := 8 },
                      prev_token_type := PvnTokenType.SINGLE_NEWLINE }] } =
        some (popped_token,
          { current_indentation := 0, reindenting_required := false,
            last_emitted_implied_indenter := false, nested_list_types := [],
            nesting_depth_this_line := 0 },
          { pending_tokens := others, raw := [] }) := by
  obtain ⟨_, _, _, _, _, _, _, _, _, h⟩ := resolve_queue_shape
    { current_indentation := 2, reindenting_required := false,
      last_emitted_implied_indenter := false,
      nested_list_types := [SvtListType.kBullet, SvtListType.kArabic] }
    [{ token := { type := PvnTokenType.SINGLE_NEWLINE, text := ['\n'], tokenIndex := 7 },
       prev_token_type := PvnTokenType.other 0 },
     { token := { type := PvnTokenType.EOF, text := [], tokenIndex := 8 },
       prev_token_type := PvnTokenType.SINGLE_NEWLINE }]
    { current_indentation := 0, reindenting_required := false,
      last_emitted_implied_indenter := false, nested_list_types := [],
      nesting_depth_this_line := 0 }
    [{ type := PvnTokenType.SVT_DEDENT, text := [], tokenIndex := 7 },
     { type := PvnTokenType.SVT_DEDENT, text := [], tokenIndex := 7 },
     { type := PvnTokenType.SINGLE_NEWLINE, text := ['\n'], tokenIndex := 7 },
     { type := PvnTokenType.EOF, text := [], tokenIndex := 8 }]
    [] (by decide)
  exact h

theorem countType_replicate_synthesized (ty ty2 : PvnTokenType) (m : Token) (n : Nat) :
    countType ty (List.replicate n (synthesizedToken ty2 m)) = if ty2 = ty then n else 0 := by
  induction n with
  | zero => simp [countType]
  | succ k ih =>
    rw [List.replicate_succ, countType_synthesized_cons, ih]
    split <;> omega

theorem countType_of_whitespace (ty : PvnTokenType) (hty : IsLogicalWhitespace ty = false) :
    ∀ ws : List Token, (∀ t ∈ ws, IsLogicalWhitespace t.type = true) → countType ty ws = 0 := by
  intro ws
  induction ws with
  | nil => intro _; rfl
  | cons a b ih =>
    intro h
    rw [countType_cons, ih (fun t ht => h t (by simp [ht]))]
    have ha := h a (by simp)
    rw [if_neg (fun e => by rw [e, hty] at ha; exact absurd ha (by simp))]

/-- C25. When the triggering token of a resolution is `LEAVE_TEXTUAL`,
`PENDING_ENTER_CODE` or `EOF` (the types of `ForcesZeroIndent`), whatever the flags
before the call, the requested indentation is 0: starting from a non-negative
`current_indentation`, the resolution synthesizes exactly that many `SVT_DEDENT` tokens
and no `SVT_INDENT` token, and leaves `current_indentation = 0` and `nested_list_types`
empty. -/
theorem resolve_forced_zero (ctx : SalientModeContext) (raw : List RawItem)
    (ctx' : SalientModeContext) (queue : List Token) (rest : List RawItem)
    (h : ctx.resolve raw = some (ctx', queue, rest))
    (hcur : 0 ≤ ctx.current_indentation) :
    ∃ (ctx1 : SalientModeContext) (whitespace : List Token) (trigger : Token),
      ctx.fetchTokens raw [] = some (ctx1, whitespace ++ [trigger], rest) ∧
      ((trigger.type = PvnTokenType.LEAVE_TEXTUAL ∨
          trigger.type = PvnTokenType.PENDING_ENTER_CODE ∨
          trigger.type = PvnTokenType.EOF) →
        requestedIndentation ctx1 trigger = 0 ∧
        queue =
          List.replicate ctx.current_indentation.toNat
              (synthesizedToken PvnTokenType.SVT_DEDENT
                ((whitespace ++ [trigger]).headD trigger)) ++
            whitespace ++ [trigger] ∧
        ResolutionRecord.synthesized PvnTokenType.SVT_DEDENT
            { fetched := whitespace ++ [trigger], queue := queue } =
          ctx.current_indentation ∧
        ResolutionRecord.synthesized PvnTokenType.SVT_INDENT
            { fetched := whitespace ++ [trigger], queue := queue } = 0 ∧
        ctx'.current_indentation = 0 ∧
        ctx'.nested_list_types = []) := by
  obtain ⟨ctx1, ws, tr, h1, _, h3, _, hq, hci, hnl⟩ :=
    resolve_shape ctx raw ctx' queue rest h
  refine ⟨ctx1, ws, tr, h1, ?_⟩
  intro hty
  have hforce : ForcesZeroIndent tr.type = true := by
    rcases hty with e | e | e <;> rw [e] <;> rfl
  have htrig : TriggersReindentationNow tr.type = true := by
    rcases hty with e | e | e <;> rw [e] <;> rfl
  have himp : IsImpliedIndenter tr.type = false := by
    rcases hty with e | e | e <;> rw [e] <;> rfl
  have hre := fetchTokens_reindenting raw ctx [] ctx1 (ws ++ [tr]) rest h1 tr (by simp) htrig
  have hreq : requestedIndentation ctx1 tr = 0 := by
    unfold requestedIndentation
    rw [if_pos hre, if_pos hforce]
  rw [hreq] at hq hci
  simp only [sub_zero, zero_sub] at hq hci
  have hz : (-ctx.current_indentation).toNat = 0 := by omega
  rw [hz] at hq
  simp only [List.replicate_zero, List.append_nil] at hq
  have hc0 : ctx'.current_indentation = 0 := by
    rw [hci, himp, max_eq_left hcur]
    simp only [Bool.false_eq_true, if_false, add_zero]
    omega
  have hDws : countType PvnTokenType.SVT_DEDENT ws = 0 :=
    countType_of_whitespace PvnTokenType.SVT_DEDENT rfl ws h3
  have hIws : countType PvnTokenType.SVT_INDENT ws = 0 :=
    countType_of_whitespace PvnTokenType.SVT_INDENT rfl ws h3
  have hDtr : countType PvnTokenType.SVT_DEDENT [tr] = 0 := by
    rw [countType_cons]
    rcases hty with e | e | e <;> rw [e] <;> rfl
  have hItr : countType PvnTokenType.SVT_INDENT [tr] = 0 := by
    rw [countType_cons]
    rcases hty with e | e | e <;> rw [e] <;> rfl
  refine ⟨hreq, hq, ?_, ?_, hc0, ?_⟩
  · simp only [ResolutionRecord.synthesized]
    rw [hq, countType_append, countType_append, countType_append,
      countType_replicate_synthesized, hDws, hDtr]
    simp only [if_true, add_zero, Nat.cast_zero, sub_zero]
    omega
  · simp only [ResolutionRecord.synthesized]
    rw [hq, countType_append, countType_append, countType_append,
      countType_replicate_synthesized, hIws, hItr]
    simp
  · rw [hnl, hc0]
    simp only [Int.zero_emod, Int.toNat_zero, List.take_zero]
    split
    · rfl
    · rename_i hlen
      exact List.length_eq_zero.mp (by omega)

/-- Witness of `resolve_forced_zero`: at indentation 2 with `reindenting_required` unset, a
newline then `EOF`. -/
theorem resolve_forced_zero_witness :
    ∃ (ctx1 : SalientModeContext) (whitespace : List Token) (trigger : Token),
      SalientModeContext.fetchTokens
          [{ token := { type := PvnTokenType.SINGLE_NEWLINE, text := ['\n'], tokenIndex := 7 },
             prev_token_type := PvnTokenType.other 0 },
           { token := { type := PvnTokenType.EOF, text := [], tokenIndex := 8 },
             prev_token_type := PvnTokenType.SINGLE_NEWLINE }]
          { current_indentation := 2, reindenting_required := false,
            last_emitted_implied_indenter := false,
            nested_list_types := [SvtListType.kBullet, SvtListType.kArabic] } [] =
        some (ctx1, whitespace ++ [trigger], []) := by
  obtain ⟨ctx1, ws, tr, h1, _⟩ := resolve_forced_zero
    { current_indentation := 2, reindenting_required := false,
      last_emitted_implied_indenter := false,
      nested_list_types := [SvtListType.kBullet, SvtListType.kArabic] }
    [{ token := { type := PvnTokenType.SINGLE_NEWLINE, text := ['\n'], tokenIndex := 7 },
       prev_token_type := PvnTokenType.other 0 },
     { token := { type := PvnTokenType.EOF, text := [], tokenIndex := 8 },
       prev_token_type := PvnTokenType.SINGLE_NEWLINE }]
    { current_indentation := 0, reindenting_required := false,
      last_emitted_implied_indenter := false, nested_list_types := [],
      nesting_depth_this_line := 0 }
    [{ type := PvnTokenType.SVT_DEDENT, text := [], tokenIndex := 7 },
     { type := PvnTokenType.SVT_DEDENT, text := [], tokenIndex := 7 },
     { type := PvnTokenType.SINGLE_NEWLINE, text := ['\n'], tokenIndex := 7 },
     { type := PvnTokenType.EOF, text := [], tokenIndex := 8 }]
    [] (by decide) (by decide)
  exact ⟨ctx1, ws, tr, h1⟩

theorem specLeadingBars_cons_whitespace (x : Char) (xs : List Char)
    (hx : x = ' ' ∨ x = '\t') : specLeadingBars (x :: xs) = specLeadingBars xs := by
  have h3 : x ≠ '|' := by rcases hx with e | e <;> rw [e] <;> decide
  unfold specLeadingBars
  rw [List.takeWhile_cons]
  rcases hx with e | e <;> subst e <;> simp

theorem specLeadingBars_cons_bar (xs : List Char) :
    specLeadingBars ('|' :: xs) = specLeadingBars xs + 1 := by
  unfold specLeadingBars
  rw [List.takeWhile_cons]
  simp

theorem specLeadingBars_cons_other (x : Char) (xs : List Char)
    (h1 : x ≠ '|') (h2 : x ≠ ' ') (h3 : x ≠ '\t') : specLeadingBars (x :: xs) = 0 := by
  unfold specLeadingBars
  rw [List.takeWhile_cons]
  simp [h1, h2, h3]

theorem specLeadingBars_dropWhile : ∀ l : List Char,
    specLeadingBars l = specLeadingBars (l.dropWhile (fun c => c = ' ' || c = '\t')) := by
  intro l
  induction l with
  | nil => rfl
  | cons x xs ih =>
    rw [List.dropWhile_cons]
    by_cases hx : (x = ' ' ∨ x = '\t')
    · have h1 : (decide (x = ' ') || decide (x = '\t')) = true := by simpa using hx
      simp only [h1, if_true]
      rw [specLeadingBars_cons_whitespace x xs hx, ih]
    · have h1 : (decide (x = ' ') || decide (x = '\t')) = false := by simpa using hx
      simp only [h1, Bool.false_eq_true, if_false]

theorem specLeadingBars_bars : ∀ l : List Char,
    specLeadingBars l = (l.takeWhile (fun c => c = '|')).length +
      specLeadingBars (l.drop (l.takeWhile (fun c => c = '|')).length) := by
  intro l
  induction l with
  | nil => rfl
  | cons x xs ih =>
    rw [List.takeWhile_cons]
    by_cases hx : x = '|'
    · subst hx
      simp only [decide_True, if_true, List.length_cons, List.drop_succ_cons]
      rw [specLeadingBars_cons_bar, ih]
      omega
    · have h1 : decide (x = '|') = false := by simpa using hx
      simp only [h1, Bool.false_eq_true, if_false, List.length_nil, List.drop_zero, zero_add]

/-- The loop of `CalculateIndentation`, given more fuel than the text is long, ends by
itself and adds the leading `|` count of the text to `indentation`. -/
theorem CalculateIndentationLoop_eq (fuel : Nat) : ∀ (rest : List Char) (indentation : Nat),
    rest.length < fuel →
    CalculateIndentationLoop fuel rest indentation = indentation + specLeadingBars rest := by
  induction fuel with
  | zero => intro rest _ h; omega
  | succ n ih =>
    intro rest ind hlen
    unfold CalculateIndentationLoop
    by_cases h0 : rest = []
    · rw [if_pos h0, h0]; rfl
    · rw [if_neg h0]
      simp only
      rw [specLeadingBars_dropWhile rest]
      have hdl : (rest.dropWhile (fun c => c = ' ' || c = '\t')).length ≤ rest.length := by
        have := List.takeWhile_append_dropWhile (fun c => c = ' ' || c = '\t') rest
        have h2 := congrArg List.length this
        rw [List.length_append] at h2
        omega
      by_cases h1 : rest.dropWhile (fun c => c = ' ' || c = '\t') = []
      · rw [if_pos h1, h1]; rfl
      · rw [if_neg h1]
        rw [specLeadingBars_bars (rest.dropWhile (fun c => c = ' ' || c = '\t'))]
        by_cases h2 : ((rest.dropWhile (fun c => c = ' ' || c = '\t')).takeWhile
            (fun c => c = '|')).length = 0
        · rw [if_pos h2, h2]
          simp only [List.drop_zero, zero_add]
          have hnil : (rest.dropWhile (fun c => c = ' ' || c = '\t')).takeWhile
              (fun c => c = '|') = [] := List.length_eq_zero.mp h2
          cases hd : rest.dropWhile (fun c => c = ' ' || c = '\t') with
          | nil => exact absurd hd h1
          | cons x xs =>
            have hxw : ¬ (decide (x = ' ') || decide (x = '\t')) = true := by
              have := List.head_dropWhile_not (fun c => c = ' ' || c = '\t') rest
                (by rw [hd]; simp)
              simp only [hd, List.head_cons] at this
              simpa using this
            have hxb : ¬ decide (x = '|') = true := by
              rw [hd] at hnil
              intro hb
              rw [List.takeWhile_cons] at hnil
              simp only [hb, if_true] at hnil
              exact absurd hnil (by simp)
            have hxw2 : x ≠ ' ' ∧ x ≠ '\t' := by simpa using hxw
            have hxb2 : x ≠ '|' := by simpa using hxb
            rw [specLeadingBars_cons_other x xs hxb2 hxw2.1 hxw2.2]
            rfl
        · rw [if_neg h2]
          rw [ih _ _ (by
            rw [List.length_drop]
            have hpos : 0 < ((rest.dropWhile (fun c => c = ' ' || c = '\t')).takeWhile
              (fun c => c = '|')).length := Nat.pos_of_ne_zero h2
            have hle : ((rest.dropWhile (fun c => c = ' ' || c = '\t')).takeWhile
                (fun c => c = '|')).length ≤
                (rest.dropWhile (fun c => c = ' ' || c = '\t')).length := by
              have h3 := congrArg List.length (List.takeWhile_append_dropWhile
                (fun c => decide (c = '|')) (rest.dropWhile (fun c => c = ' ' || c = '\t')))
              rw [List.length_append] at h3
              omega
            omega)]
          omega

/-- C26. For a token type among `ITEM_START_FIRST`, `ITEM_START_SUCCEEDING`,
`LIST_BREAK_ACTUAL` and `INDENT_CONTINUATION`, `CalculateIndentation` returns the number of
`|` characters in the longest beginning of the text made only of `|`, space and tab
characters, and its loop ends by itself (any fuel above the length of the text gives that
value); for every other token type it returns 0. -/
theorem CalculateIndentation_spec (token_text : List Char) (token_type : PvnTokenType) :
    ((token_type = PvnTokenType.ITEM_START_FIRST ∨
        token_type = PvnTokenType.ITEM_START_SUCCEEDING ∨
        token_type = PvnTokenType.LIST_BREAK_ACTUAL ∨
        token_type = PvnTokenType.INDENT_CONTINUATION) →
      CalculateIndentation token_text token_type = (specLeadingBars token_text : Int) ∧
      ∀ fuel : Nat, token_text.length < fuel →
        CalculateIndentationLoop fuel token_text 0 = specLeadingBars token_text) ∧
    (¬ (token_type = PvnTokenType.ITEM_START_FIRST ∨
        token_type = PvnTokenType.ITEM_START_SUCCEEDING ∨
        token_type = PvnTokenType.LIST_BREAK_ACTUAL ∨
        token_type = PvnTokenType.INDENT_CONTINUATION) →
      CalculateIndentation token_text token_type = 0) := by
  constructor
  · intro hty
    have hl := CalculateIndentationLoop_eq (token_text.length + 1) token_text 0 (by omega)
    rw [Nat.zero_add] at hl
    refine ⟨?_, fun fuel hf => by
      rw [CalculateIndentationLoop_eq fuel token_text 0 hf, Nat.zero_add]⟩
    rcases hty with e | e | e | e <;> rw [e] <;> simp only [CalculateIndentation, hl]
  · intro hty
    simp only [not_or] at hty
    obtain ⟨h1, h2, h3, h4⟩ := hty
    unfold CalculateIndentation
    split <;> first | rfl | contradiction

/-- Witness of `CalculateIndentation_spec`: the marker text `| |\t|:a |`, three leading
`|`. -/
theorem CalculateIndentation_spec_witness :
    CalculateIndentation ['|', ' ', '|', '\t', '|', ':', 'a', ' ', '|']
      PvnTokenType.ITEM_START_FIRST = 3 :=
  ((CalculateIndentation_spec ['|', ' ', '|', '\t', '|', ':', 'a', ' ', '|']
    PvnTokenType.ITEM_START_FIRST).1 (Or.inl rfl)).1

theorem specLeadingBars_le_length (l : List Char) : specLeadingBars l ≤ l.length := by
  unfold specLeadingBars
  have h1 := List.count_le_length '|' (l.takeWhile (fun c => c = '|' || c = ' ' || c = '\t'))
  have h2 := congrArg List.length
    (List.takeWhile_append_dropWhile (fun c => c = '|' || c = ' ' || c = '\t') l)
  rw [List.length_append] at h2
  omega

theorem CalculateIndentation_item_start (token_text : List Char) :
    CalculateIndentation token_text PvnTokenType.ITEM_START_FIRST =
      (specLeadingBars token_text : Int) := by
  have hl := CalculateIndentationLoop_eq (token_text.length + 1) token_text 0 (by omega)
  rw [Nat.zero_add] at hl
  simp only [CalculateIndentation, hl]

theorem toSizeT_of_nonneg (x : Int) (h0 : 0 ≤ x) (h1 : x < 2 ^ 64) : toSizeT x = x.toNat := by
  unfold toSizeT
  rw [Int.emod_eq_of_lt h0 h1]

/-- The increment that `UpdateListNesting` computes is the one of the specification. -/
theorem indent_increment_eq (token_text : List Char) (new_list_type : SvtListType) :
    (if new_list_type ≠ SvtListType.kNone then
        CalculateIndentation token_text PvnTokenType.ITEM_START_FIRST + 1
      else CalculateIndentation token_text PvnTokenType.ITEM_START_FIRST) =
      specIndentIncrement token_text new_list_type := by
  unfold specIndentIncrement
  rw [CalculateIndentation_item_start]
  split <;> simp

theorem specIndentIncrement_bounds (token_text : List Char) (new_list_type : SvtListType) :
    0 ≤ specIndentIncrement token_text new_list_type ∧
      specIndentIncrement token_text new_list_type ≤ (token_text.length : Int) + 1 := by
  unfold specIndentIncrement
  have := specLeadingBars_le_length token_text
  split <;> omega

/-- C27, as stated, fails in its last sentence: with an increment above the stack size and
a new list type `kNone` (marker `||` on a stack of one entry) or `kListBreak` (marker `:%`
on an empty stack) the call does not return `ITEM_START_FIRST`: an assertion fails. -/
theorem UpdateListNesting_growth_rejects_none_and_break :
    (ExtractListType ['|', '|'] = some SvtListType.kNone ∧
      specIndentIncrement ['|', '|'] SvtListType.kNone = 2 ∧
      SalientModeContext.UpdateListNesting
        { nested_list_types := [SvtListType.kBullet], nesting_depth_this_line := 0 }
        ['|', '|'] (PvnTokenType.other 0) = none) ∧
    (ExtractListType [':', '%'] = some SvtListType.kListBreak ∧
      specIndentIncrement [':', '%'] SvtListType.kListBreak = 1 ∧
      SalientModeContext.UpdateListNesting
        { nested_list_types := [], nesting_depth_this_line := 0 }
        [':', '%'] (PvnTokenType.other 0) = none) := by
  decide

/-- C27, amended. `UpdateListNesting` when the previous token type does not chain and
`nesting_depth_this_line` is 0 before the call, for a marker text with list type
`new_list_type` and indent increment `d` (counted `|` markers, plus 1 when the type is not
`kNone`), `0 < d`.  When `d ≤ nested_list_types.size()` the stack is truncated to `d`
entries and the result is `INDENT_CONTINUATION` if the type is `kNone`,
`ITEM_START_SUCCEEDING` if entry `d-1` already equals the type, `LIST_BREAK_ACTUAL` if the
type is `kListBreak` and differs from entry `d-1`, and `ITEM_START_FIRST` otherwise; in
the last two cases entry `d-1` is set to the type.  When `d` exceeds the stack size and
the type is neither `kNone` nor `kListBreak`, the stack grows to `d` entries and the
result is `ITEM_START_FIRST`. -/
theorem UpdateListNesting_no_chain (ctx : SalientModeContext) (token_text : List Char)
    (prev_token_type : PvnTokenType) (new_list_type : SvtListType)
    (hprev : IsListTokenChainWithNext prev_token_type = false)
    (hdepth : ctx.nesting_depth_this_line = 0)
    (hnew : ExtractListType token_text = some new_list_type)
    (hlen : token_text.length + 1 < 2 ^ 31)
    (hd : 0 < specIndentIncrement token_text new_list_type) :
    (specIndentIncrement token_text new_list_type ≤ (ctx.nested_list_types.length : Int) →
      ctx.UpdateListNesting token_text prev_token_type =
        some
          (if new_list_type = SvtListType.kNone then PvnTokenType.INDENT_CONTINUATION
           else if (ctx.nested_list_types.take
               (specIndentIncrement token_text new_list_type).toNat)[
                 (specIndentIncrement token_text new_list_type).toNat - 1]? =
               some new_list_type then PvnTokenType.ITEM_START_SUCCEEDING
           else if new_list_type = SvtListType.kListBreak then PvnTokenType.LIST_BREAK_ACTUAL
           else PvnTokenType.ITEM_START_FIRST,
           { ctx with
             nesting_depth_this_line := specIndentIncrement token_text new_list_type,
             nested_list_types :=
               (if new_list_type = SvtListType.kNone ∨
                   (ctx.nested_list_types.take
                     (specIndentIncrement token_text new_list_type).toNat)[
                       (specIndentIncrement token_text new_list_type).toNat - 1]? =
                     some new_list_type then
                 ctx.nested_list_types.take
                   (specIndentIncrement token_text new_list_type).toNat
               else
                 (ctx.nested_list_types.take
                   (specIndentIncrement token_text new_list_type).toNat).set
                   ((specIndentIncrement token_text new_list_type).toNat - 1)
                   new_list_type) })) ∧
    ((ctx.nested_list_types.length : Int) < specIndentIncrement token_text new_list_type →
      new_list_type ≠ SvtListType.kNone → new_list_type ≠ SvtListType.kListBreak →
      ctx.UpdateListNesting token_text prev_token_type =
        some (PvnTokenType.ITEM_START_FIRST,
          { ctx with
            nesting_depth_this_line := specIndentIncrement token_text new_list_type,
            nested_list_types :=
              (ctx.nested_list_types ++
                List.replicate
                  ((specIndentIncrement token_text new_list_type).toNat -
                    ctx.nested_list_types.length) new_list_type) })) := by
  have hb := specIndentIncrement_bounds token_text new_list_type
  have hsz : toSizeT (specIndentIncrement token_text new_list_type) =
      (specIndentIncrement token_text new_list_type).toNat :=
    toSizeT_of_nonneg _ hb.1 (by omega)
  unfold SalientModeContext.UpdateListNesting
  simp only [hnew, hprev, Bool.false_eq_true, if_false, indent_increment_eq, hdepth,
    zero_add, hsz, gt_iff_lt, hd, not_true_eq_false, ne_eq]
  constructor
  · intro hle
    have h1 : (specIndentIncrement token_text new_list_type).toNat ≤
        ctx.nested_list_types.length := by omega
    rw [if_pos h1]
    by_cases hn : new_list_type = SvtListType.kNone
    · simp only [hn, if_true, true_or]
    · simp only [hn, if_false, false_or]
      by_cases he : (ctx.nested_list_types.take
          (specIndentIncrement token_text new_list_type).toNat)[
            (specIndentIncrement token_text new_list_type).toNat - 1]? = some new_list_type
      · simp only [he, if_true]
      · simp only [he, if_false]
        by_cases hk : new_list_type = SvtListType.kListBreak
        · simp only [hk, if_true]
        · simp only [hk, if_false]
  · intro hlt hn hk
    have h1 : ¬ (specIndentIncrement token_text new_list_type).toNat ≤
        ctx.nested_list_types.length := by omega
    rw [if_neg h1]
    simp only [hn, hk, if_false, resizeListTypes]
    rw [List.take_of_length_le (by omega)]

/-- Witness of `UpdateListNesting_no_chain`: the marker `|:1` on the stack bullet, arabic,
bullet: increment 2, entry 1 is arabic already. -/
theorem UpdateListNesting_no_chain_witness :
    SalientModeContext.UpdateListNesting
        { nested_list_types := [SvtListType.kBullet, SvtListType.kArabic, SvtListType.kBullet],
          nesting_depth_this_line := 0 }
        ['|', ':', '1'] (PvnTokenType.other 0) =
      some (PvnTokenType.ITEM_START_SUCCEEDING,
        { nested_list_types := [SvtListType.kBullet, SvtListType.kArabic],
          nesting_depth_this_line := 2 }) :=
  (UpdateListNesting_no_chain
    { nested_list_types := [SvtListType.kBullet, SvtListType.kArabic, SvtListType.kBullet],
      nesting_depth_this_line := 0 }
    ['|', ':', '1'] (PvnTokenType.other 0) SvtListType.kArabic rfl rfl (by decide)
    (by decide) (by decide)).1 (by decide)

/-- C28, as stated, fails. With one list type on the stack and depth 1 on the current
line (so `size >= depth >= 0`), a previous token type that does not chain and the marker
`@`, the call returns `ITEM_START_FIRST` and leaves the stack at size 1 with depth 2. -/
theorem UpdateListNesting_depth_above_stack :
    SalientModeContext.UpdateListNesting
        { nested_list_types := [SvtListType.kBullet], nesting_depth_this_line := 1 }
        ['@'] PvnTokenType.WS_CHAIN =
      some (PvnTokenType.ITEM_START_FIRST,
        { nested_list_types := [SvtListType.kBullet], nesting_depth_this_line := 2 }) ∧
    IsListTokenChainWithNext PvnTokenType.WS_CHAIN = false := by
  decide

/-- C28, amended. For every state with `nested_list_types.size() >= nesting_depth_this_line
>= 0` in which the previous token type chains or `nesting_depth_this_line` is 0, and every
marker text, if `UpdateListNesting` returns then
`nested_list_types.size() >= nesting_depth_this_line >= 0` holds afterwards. -/
theorem UpdateListNesting_stack_covers_depth (ctx : SalientModeContext)
    (token_text : List Char) (prev_token_type : PvnTokenType)
    (list_chaining_type : PvnTokenType) (ctx' : SalientModeContext)
    (h0 : 0 ≤ ctx.nesting_depth_this_line)
    (h1 : ctx.nesting_depth_this_line ≤ (ctx.nested_list_types.length : Int))
    (hcase : IsListTokenChainWithNext prev_token_type = true ∨ ctx.nesting_depth_this_line = 0)
    (hlen : token_text.length + 1 < 2 ^ 31)
    (h : ctx.UpdateListNesting token_text prev_token_type = some (list_chaining_type, ctx')) :
    ctx'.nesting_depth_this_line ≤ (ctx'.nested_list_types.length : Int) ∧
      0 ≤ ctx'.nesting_depth_this_line := by
  unfold SalientModeContext.UpdateListNesting at h
  cases hnew : ExtractListType token_text with
  | none => rw [hnew] at h; simp at h
  | some new_list_type =>
    rw [hnew] at h
    simp only [indent_increment_eq] at h
    have hb := specIndentIncrement_bounds token_text new_list_type
    by_cases hchain : IsListTokenChainWithNext prev_token_type = true
    · rw [if_pos hchain] at h
      split at h
      · simp at h
      · split at h <;>
        · simp only [Option.some.injEq, Prod.mk.injEq] at h
          rw [← h.2]
          simp only [List.length_append, List.length_singleton]
          push_cast
          omega
    · rw [if_neg hchain] at h
      have hz : ctx.nesting_depth_this_line = 0 := by
        rcases hcase with hc | hc
        · exact absurd hc hchain
        · exact hc
      simp only [hz, zero_add] at h
      split at h
      · simp at h
      · rename_i hpos
        have hpos2 : 0 < specIndentIncrement token_text new_list_type := by
          simpa using hpos
        have hsz : toSizeT (specIndentIncrement token_text new_list_type) =
            (specIndentIncrement token_text new_list_type).toNat :=
          toSizeT_of_nonneg _ hb.1 (by omega)
        rw [hsz] at h
        split at h
        · rename_i hle
          simp only [ne_eq, not_true_eq_false, if_false] at h
          split at h
          · simp only [Option.some.injEq, Prod.mk.injEq] at h
            rw [← h.2]
            simp only [List.length_take]
            omega
          · split at h
            · simp only [Option.some.injEq, Prod.mk.injEq] at h
              rw [← h.2]
              simp only [List.length_take]
              omega
            · split at h <;>
              · simp only [Option.some.injEq, Prod.mk.injEq] at h
                rw [← h.2]
                simp only [List.length_set, List.length_take]
                omega
        · rename_i hgt
          split at h
          · simp at h
          · split at h
            · simp at h
            · simp only [Option.some.injEq, Prod.mk.injEq] at h
              rw [← h.2]
              simp only [resizeListTypes, List.length_append, List.length_take,
                List.length_replicate]
              omega

/-- Witness of `UpdateListNesting_stack_covers_depth`: the marker `@` after a chaining
token, on the stack bullet with depth 1. -/
theorem UpdateListNesting_stack_covers_depth_witness :
    (2 : Int) ≤ (([SvtListType.kBullet, SvtListType.kBullet] : List SvtListType).length : Int) ∧
      (0 : Int) ≤ 2 :=
  UpdateListNesting_stack_covers_depth
    { nested_list_types := [SvtListType.kBullet], nesting_depth_this_line := 1 }
    ['@'] PvnTokenType.SVT_INDENT PvnTokenType.ITEM_START_FIRST
    { nested_list_types := [SvtListType.kBullet, SvtListType.kBullet],
      nesting_depth_this_line := 2 }
    (by decide) (by decide) (Or.inl rfl) (by decide) (by decide)

theorem isImputedWhitespaceAt_of_length_le (pieces : List OutputPiece) (i : Nat)
    (h : pieces.length ≤ i) : isImputedWhitespaceAt pieces i = false := by
  unfold isImputedWhitespaceAt
  rw [List.getElem?_eq_none h]

theorem isImputedWhitespaceAt_drop (pieces : List OutputPiece) (k i : Nat) :
    isImputedWhitespaceAt (pieces.drop k) i = isImputedWhitespaceAt pieces (k + i) := by
  unfold isImputedWhitespaceAt
  rw [List.getElem?_drop]

theorem isImputedWhitespaceAt_append_left (l1 l2 : List OutputPiece) (i : Nat)
    (h : i < l1.length) :
    isImputedWhitespaceAt (l1 ++ l2) i = isImputedWhitespaceAt l1 i := by
  unfold isImputedWhitespaceAt
  rw [List.getElem?_append_left h]

theorem isImputedWhitespaceAt_append_right (l1 l2 : List OutputPiece) (i : Nat)
    (h : l1.length ≤ i) :
    isImputedWhitespaceAt (l1 ++ l2) i = isImputedWhitespaceAt l2 (i - l1.length) := by
  unfold isImputedWhitespaceAt
  rw [List.getElem?_append_right h]

/-- What is left of a well-spaced buffer from a piece that is not imputed whitespace on is
well spaced. -/
theorem wellSpaced_drop (pieces : List OutputPiece) (k : Nat) (h : wellSpaced pieces)
    (hk : isImputedWhitespaceAt pieces k = false) : wellSpaced (pieces.drop k) := by
  obtain ⟨_, h2⟩ := h
  refine ⟨by rw [isImputedWhitespaceAt_drop]; exact hk, ?_⟩
  intro i hi hw
  rw [List.length_drop] at hi
  rw [isImputedWhitespaceAt_drop] at hw
  obtain ⟨a, b⟩ := h2 (k + i) (by omega) hw
  rw [List.length_drop, isImputedWhitespaceAt_drop]
  exact ⟨by omega, b⟩

theorem wellSpaced_nil : wellSpaced [] := by decide

/-- Appending a token piece, with or without a piece of imputed whitespace before it,
keeps a buffer well spaced; the whitespace only goes into a non-empty buffer. -/
theorem wellSpaced_append (pieces : List OutputPiece) (w n : OutputPiece)
    (h : wellSpaced pieces) (hn : n.token_type ≠ PvnTokenType.Q_IMPUTED_WHITESPACE) :
    wellSpaced (pieces ++ [n]) ∧ (pieces ≠ [] → wellSpaced (pieces ++ [w, n])) := by
  obtain ⟨h1, h2⟩ := h
  have hn1 : isImputedWhitespaceAt [n] 0 = false := by
    simp [isImputedWhitespaceAt, hn]
  have hwn1 : isImputedWhitespaceAt [w, n] 1 = false := by
    simp [isImputedWhitespaceAt, hn]
  constructor
  · constructor
    · cases pieces with
      | nil => exact hn1
      | cons a b => rw [isImputedWhitespaceAt_append_left _ _ _ (by simp)]; exact h1
    · intro i hi hws
      rw [List.length_append, List.length_singleton] at hi
      by_cases hlt : i < pieces.length
      · rw [isImputedWhitespaceAt_append_left _ _ _ hlt] at hws
        obtain ⟨a, b⟩ := h2 i hlt hws
        rw [List.length_append, List.length_singleton,
          isImputedWhitespaceAt_append_left _ _ _ a]
        exact ⟨by omega, b⟩
      · have hi2 : i = pieces.length := by omega
        rw [isImputedWhitespaceAt_append_right _ _ _ (by omega), hi2, Nat.sub_self, hn1] at hws
        exact absurd hws (by simp)
  · intro hne
    have hpos : 0 < pieces.length := List.length_pos.mpr hne
    constructor
    · rw [isImputedWhitespaceAt_append_left _ _ _ hpos]; exact h1
    · intro i hi hws
      rw [List.length_append] at hi
      simp only [List.length_cons, List.length_nil] at hi
      rw [List.length_append]
      simp only [List.length_cons, List.length_nil]
      by_cases hlt : i < pieces.length
      · rw [isImputedWhitespaceAt_append_left _ _ _ hlt] at hws
        obtain ⟨a, b⟩ := h2 i hlt hws
        rw [isImputedWhitespaceAt_append_left _ _ _ a]
        exact ⟨by omega, b⟩
      · by_cases hi2 : i = pieces.length
        · refine ⟨by omega, ?_⟩
          rw [isImputedWhitespaceAt_append_right _ _ _ (by omega), hi2]
          have : pieces.length + 1 - pieces.length = 1 := by omega
          rw [this]
          exact hwn1
        · have hi3 : i = pieces.length + 1 := by omega
          rw [isImputedWhitespaceAt_append_right _ _ _ (by omega), hi3] at hws
          have : pieces.length + 1 - pieces.length = 1 := by omega
          rw [this, hwn1] at hws
          exact absurd hws (by simp)

/-- What `SalientReformatHandler::ProcessBlankLines` returns differs from the handler in
the text written and the column only. -/
theorem SalientProcessBlankLines_result (H H1 : OutputHandler)
    (h : SalientReformatHandler.ProcessBlankLines H = some H1) :
    ∃ (e : List Char) (r : Int), H1 =
      { H with
        out_stream := H.out_stream ++ e,
        inter_mode_formatting := { H.inter_mode_formatting with
          residual_column_position := r } } := by
  unfold SalientReformatHandler.ProcessBlankLines at h
  split at h
  · simp only [Option.some.injEq] at h
    exact ⟨[], H.inter_mode_formatting.residual_column_position, by rw [← h]; simp⟩
  · simp only at h
    split at h
    · simp at h
    · split at h
      · split at h
        · simp only [Option.some.injEq] at h
          exact ⟨_, H.inter_mode_formatting.residual_column_position, h.symm⟩
        · rename_i n _ _ _
          simp only [Option.some.injEq] at h
          obtain ⟨e, r, he, _⟩ := salientBlankLineLoop_facts (n - 1).toNat H
          exact ⟨e, r, by rw [← h, he]⟩
      · simp only [Option.some.injEq] at h
        exact ⟨[], H.inter_mode_formatting.residual_column_position, by rw [← h]; simp⟩

/-- Where a line ends in a well-spaced buffer, given the number `e0` of pieces accumulated:
the end `e` of what is written and the end `c` of what is consumed. -/
theorem cut_wellSpaced (l : List OutputPiece) (e0 : Nat) (h1 : 1 ≤ e0) (h2 : e0 ≤ l.length)
    (hw : wellSpaced l) :
    ∃ e c : Nat, 1 ≤ e ∧ e ≤ c ∧ c ≤ l.length ∧ c ≤ e + 1 ∧
      isImputedWhitespaceAt l (e - 1) = false ∧ isImputedWhitespaceAt l c = false ∧
      (c = e + 1 → isImputedWhitespaceAt l e = true) ∧
      e = (if isImputedWhitespaceAt l (e0 - 1) then e0 - 1 else e0) ∧
      c = (if l.length > e0 ∧ isImputedWhitespaceAt l e0 then e0 + 1 else e0) := by
  obtain ⟨w0, wn⟩ := hw
  by_cases ha : isImputedWhitespaceAt l (e0 - 1) = true
  · have he2 : 2 ≤ e0 := by
      by_contra hcon
      have : e0 - 1 = 0 := by omega
      rw [this, w0] at ha
      exact absurd ha (by simp)
    obtain ⟨a1, a2⟩ := wn (e0 - 1) (by omega) ha
    have e1 : e0 - 1 + 1 = e0 := by omega
    rw [e1] at a1 a2
    have hprev : isImputedWhitespaceAt l (e0 - 1 - 1) = false := by
      by_contra hcon
      have hcon2 : isImputedWhitespaceAt l (e0 - 1 - 1) = true := by simpa using hcon
      obtain ⟨_, b2⟩ := wn (e0 - 1 - 1) (by omega) hcon2
      have e3 : e0 - 1 - 1 + 1 = e0 - 1 := by omega
      rw [e3, ha] at b2
      exact absurd b2 (by simp)
    refine ⟨e0 - 1, e0, by omega, by omega, h2, by omega, hprev, a2, fun _ => ha, ?_, ?_⟩
    · rw [if_pos ha]
    · rw [if_neg (by rw [a2]; simp)]
  · have ha2 : isImputedWhitespaceAt l (e0 - 1) = false := by simpa using ha
    by_cases hb : l.length > e0 ∧ isImputedWhitespaceAt l e0 = true
    · obtain ⟨b1, b2⟩ := wn e0 hb.1 hb.2
      refine ⟨e0, e0 + 1, h1, by omega, by omega, le_refl _, ha2, b2, fun _ => hb.2, ?_, ?_⟩
      · rw [if_neg ha]
      · rw [if_pos hb]
    · have hc0 : isImputedWhitespaceAt l e0 = false := by
        by_cases hlt : l.length > e0
        · have : ¬ isImputedWhitespaceAt l e0 = true := fun h => hb ⟨hlt, h⟩
          simpa using this
        · exact isImputedWhitespaceAt_of_length_le l e0 (by omega)
      refine ⟨e0, e0, h1, le_refl _, h2, by omega, ha2, hc0, fun h => by omega, ?_, ?_⟩
      · rw [if_neg ha]
      · rw [if_neg hb]

/-- One line cut from a well-spaced buffer: the line is not empty and does not end with
imputed whitespace, at most one piece, of imputed whitespace, is dropped after it, and
what is left is well spaced. -/
theorem writeLine_wellSpaced (H : OutputHandler) (processed_indent : Int)
    (hsize : H.output_pieces.length < 2 ^ 31) (hne : H.output_pieces ≠ [])
    (hw : wellSpaced H.output_pieces) :
    ∃ (line dropped : List OutputPiece),
      H.output_pieces = line ++ dropped ++
        (SalientReformatHandler.writeLine H 0 processed_indent).output_pieces ∧
      line ≠ [] ∧
      (∀ p, line.getLast? = some p → p.token_type ≠ PvnTokenType.Q_IMPUTED_WHITESPACE) ∧
      (dropped = [] ∨
        ∃ w, dropped = [w] ∧ w.token_type = PvnTokenType.Q_IMPUTED_WHITESPACE) ∧
      wellSpaced (SalientReformatHandler.writeLine H 0 processed_indent).output_pieces ∧
      (SalientReformatHandler.writeLine H 0 processed_indent).out_stream =
        H.out_stream ++ piecesText line ++
          (if H.inter_mode_formatting.append_newline then ['\n'] else []) := by
  have hlen : 1 ≤ H.output_pieces.length := List.length_pos.mpr hne
  have hacc := salientAccumulate_bounds
    (H.inter_mode_formatting.multi_line_max_length - processed_indent)
    (H.output_pieces.drop (0 + 1)) (0 + 1)
    (match H.output_pieces[0]? with
      | some piece => (piece.text.length : Int)
      | none => 0)
  rw [List.length_drop] at hacc
  simp only [Nat.zero_add] at hacc
  obtain ⟨e, c, h1, h2, h3, h4, h5, h6, h7, he, hc⟩ := cut_wellSpaced H.output_pieces
    (salientAccumulate (H.inter_mode_formatting.multi_line_max_length - processed_indent)
      (H.output_pieces.drop 1) 1
      (match H.output_pieces[0]? with
        | some piece => (piece.text.length : Int)
        | none => 0)).1
    hacc.1 (by omega) hw
  have hends : salientLineEnds H.output_pieces 0
      (H.inter_mode_formatting.multi_line_max_length - processed_indent) = (e, c) := by
    unfold salientLineEnds
    simp only
    rw [← he, ← hc]
  obtain ⟨l, hl⟩ : ∃ l, l = H.output_pieces := ⟨_, rfl⟩
  have hdec : H.output_pieces =
      H.output_pieces.take e ++ (H.output_pieces.drop e).take (c - e) ++
        H.output_pieces.drop c := by
    have hdd : (H.output_pieces.drop e).drop (c - e) = H.output_pieces.drop c := by
      rw [List.drop_drop]
      congr 1
      omega
    rw [List.append_assoc, ← hdd, List.take_append_drop, List.take_append_drop]
  have hlast : ∀ p, (H.output_pieces.take e).getLast? = some p →
      p.token_type ≠ PvnTokenType.Q_IMPUTED_WHITESPACE := by
    intro p hp
    rw [List.getLast?_eq_getElem?, List.length_take, min_eq_left (by omega),
      List.getElem?_take_of_lt (by omega)] at hp
    unfold isImputedWhitespaceAt at h5
    rw [hp] at h5
    simpa using h5
  have hdropped : (H.output_pieces.drop e).take (c - e) = [] ∨
      ∃ w, (H.output_pieces.drop e).take (c - e) = [w] ∧
        w.token_type = PvnTokenType.Q_IMPUTED_WHITESPACE := by
    by_cases hce : c = e
    · left
      rw [hce, Nat.sub_self, List.take_zero]
    · right
      have hce2 : c = e + 1 := by omega
      have hws := h7 hce2
      have hlt : e < H.output_pieces.length := by omega
      refine ⟨H.output_pieces[e], ?_, ?_⟩
      · rw [hce2, Nat.add_sub_cancel_left, List.drop_eq_getElem_cons hlt,
          List.take_succ_cons, List.take_zero]
      · unfold isImputedWhitespaceAt at hws
        rw [List.getElem?_eq_getElem hlt] at hws
        simpa using hws
  have hnil : H.output_pieces.take e ≠ [] := by
    intro h0
    have := congrArg List.length h0
    rw [List.length_take, min_eq_left (by omega)] at this
    simp at this
    omega
  unfold SalientReformatHandler.writeLine
  rw [if_neg (by omega), hends]
  simp only [List.drop_zero]
  split
  · obtain ⟨cnt, hd, _⟩ := DropFrontN_facts c
      { H with
        out_stream := H.out_stream ++ piecesText (H.output_pieces.take e) ++ ['\n'],
        inter_mode_formatting := { H.inter_mode_formatting with
          residual_column_position := 0 } } hsize h3
    rw [hd]
    exact ⟨_, _, hdec, hnil, hlast, hdropped, wellSpaced_drop _ _ hw h6, rfl⟩
  · obtain ⟨cnt, hd, _⟩ := DropFrontN_facts c
      { H with
        out_stream := H.out_stream ++ piecesText (H.output_pieces.take e) } hsize h3
    rw [hd]
    exact ⟨_, _, hdec, hnil, hlast, hdropped, wellSpaced_drop _ _ hw h6, by simp⟩
theorem piecesWidth_nil : piecesWidth [] = 0 := rfl

theorem piecesWidth_append (a b : List OutputPiece) :
    piecesWidth (a ++ b) = piecesWidth a + piecesWidth b := by
  unfold piecesWidth
  rw [List.map_append, List.sum_append]

theorem piecesWidth_singleton (p : OutputPiece) :
    piecesWidth [p] = (p.text.length : Int) := by
  unfold piecesWidth
  simp

/-- What a call of `AppendPiece` that returns does to the handler: at most one piece of
imputed whitespace, and only after a piece that is there, then the new piece; the
character count grows by their widths. -/
theorem AppendPiece_shape (text : List Char) (token_type : PvnTokenType)
    (token_index : Int) (ctx : ParseTree) (H H1 : OutputHandler)
    (h : CommonReformatter.AppendPiece text token_type token_index ctx H = some H1) :
    ∃ (blank : List OutputPiece) (n : OutputPiece),
      n.text = text ∧ n.token_type = token_type ∧
      (blank = [] ∨ (H.output_pieces ≠ [] ∧
        ∃ w, blank = [w] ∧ w.token_type = PvnTokenType.Q_IMPUTED_WHITESPACE)) ∧
      H1 = { H with
        output_pieces := H.output_pieces ++ blank ++ [n],
        pending_char_count :=
          H.pending_char_count + piecesWidth blank + (text.length : Int) } := by
  unfold CommonReformatter.AppendPiece at h
  cases hget : H.coarse_properties.get ctx with
  | none => simp [hget] at h
  | some props =>
    simp only [hget] at h
    cases hl : H.output_pieces.getLast? with
    | none =>
      simp only [hl, Option.some.injEq] at h
      refine ⟨[], { text := text, token_index := toInt32 token_index,
                    coarse_properties_before := H.prevailing_properties,
                    coarse_properties_at := props, token_type := token_type },
        rfl, rfl, Or.inl rfl, ?_⟩
      rw [← h]
      simp [piecesWidth_nil]
    | some back =>
      simp only [hl] at h
      have hne : H.output_pieces ≠ [] := by
        intro h0
        rw [h0] at hl
        simp at hl
      have key : ∀ v : Int, v > 0 → ∀ H2 : OutputHandler,
          H2 = { H with
            output_pieces := H.output_pieces ++
              [{ text := List.replicate v.toNat ' ', token_index := -1,
                 coarse_properties_before := H.prevailing_properties,
                 coarse_properties_at := H.prevailing_properties,
                 token_type := PvnTokenType.Q_IMPUTED_WHITESPACE }] ++
              [{ text := text, token_index := toInt32 token_index,
                 coarse_properties_before := H.prevailing_properties,
                 coarse_properties_at := props, token_type := token_type }],
            pending_char_count := H.pending_char_count + v + (text.length : Int) } →
          ∃ (blank : List OutputPiece) (n : OutputPiece),
            n.text = text ∧ n.token_type = token_type ∧
            (blank = [] ∨ (H.output_pieces ≠ [] ∧
              ∃ w, blank = [w] ∧ w.token_type = PvnTokenType.Q_IMPUTED_WHITESPACE)) ∧
            H2 = { H with
              output_pieces := H.output_pieces ++ blank ++ [n],
              pending_char_count :=
                H.pending_char_count + piecesWidth blank + (text.length : Int) } := by
        intro v hv H2 h2
        refine ⟨[{ text := List.replicate v.toNat ' ', token_index := -1,
                   coarse_properties_before := H.prevailing_properties,
                   coarse_properties_at := H.prevailing_properties,
                   token_type := PvnTokenType.Q_IMPUTED_WHITESPACE }],
          { text := text, token_index := toInt32 token_index,
            coarse_properties_before := H.prevailing_properties,
            coarse_properties_at := props, token_type := token_type },
          rfl, rfl, Or.inr ⟨hne, _, rfl, rfl⟩, ?_⟩
        rw [h2, piecesWidth_singleton]
        simp only [List.length_replicate]
        rw [Int.toNat_of_nonneg (le_of_lt hv)]
      split at h
      · rename_i hpos
        simp only [Option.some.injEq] at h
        exact key _ hpos H1 h.symm
      · simp only [Option.some.injEq] at h
        refine ⟨[], { text := text, token_index := toInt32 token_index,
                      coarse_properties_before := H.prevailing_properties,
                      coarse_properties_at := props, token_type := token_type },
          rfl, rfl, Or.inl rfl, ?_⟩
        rw [← h]
        simp [piecesWidth_nil]

/-- A buffer that successive calls of `AppendPiece` extend stays well spaced, when no call
passes the token type of imputed whitespace; the count follows the widths. -/
theorem appendPieces_wellSpaced : ∀ (calls : List AppendCall) (H H1 : OutputHandler),
    (∀ call ∈ calls, call.token_type ≠ PvnTokenType.Q_IMPUTED_WHITESPACE) →
    wellSpaced H.output_pieces →
    appendPieces calls H = some H1 →
    wellSpaced H1.output_pieces ∧
      (H.pending_char_count = piecesWidth H.output_pieces →
        H1.pending_char_count = piecesWidth H1.output_pieces) ∧
      H1.output_pieces.length ≤ H.output_pieces.length + 2 * calls.length
  | [], H, H1, _, hw, h => by
    simp only [appendPieces, Option.some.injEq] at h
    subst h
    exact ⟨hw, fun hc => hc, by simp⟩
  | call :: calls, H, H1, ht, hw, h => by
    simp only [appendPieces] at h
    cases ha : CommonReformatter.AppendPiece call.text call.token_type call.token_index
        call.ctx H with
    | none => simp [ha] at h
    | some H2 =>
      simp only [ha] at h
      obtain ⟨blank, n, hn1, hn2, hb, hH2⟩ := AppendPiece_shape _ _ _ _ _ _ ha
      have hnty : n.token_type ≠ PvnTokenType.Q_IMPUTED_WHITESPACE := by
        rw [hn2]
        exact ht call (List.mem_cons_self _ _)
      have hw2 : wellSpaced H2.output_pieces := by
        rw [hH2]
        rcases hb with hb | ⟨hne, w, hb, _⟩
        · rw [hb, List.append_nil]
          exact (wellSpaced_append _ n n hw hnty).1
        · rw [hb, List.append_assoc]
          exact (wellSpaced_append _ w n hw hnty).2 hne
      obtain ⟨r1, r2, r3⟩ := appendPieces_wellSpaced calls H2 H1
        (fun c hc => ht c (List.mem_cons_of_mem _ hc)) hw2 h
      refine ⟨r1, ?_, ?_⟩
      · intro hc
        apply r2
        rw [hH2]
        simp only
        rw [piecesWidth_append, piecesWidth_append, piecesWidth_singleton, hn1, hc]
      · have hlen : H2.output_pieces.length ≤ H.output_pieces.length + 2 := by
          rw [hH2]
          rcases hb with hb | ⟨_, w, hb, _⟩ <;> rw [hb] <;> simp
        rw [List.length_cons]
        omega
theorem foldl_sub_width : ∀ (l : List OutputPiece) (c : Int),
    l.foldl (fun count piece => count - (piece.text.length : Int)) c = c - piecesWidth l
  | [], c => by simp [piecesWidth_nil]
  | p :: ps, c => by
    rw [List.foldl_cons, foldl_sub_width ps]
    have : piecesWidth (p :: ps) = (p.text.length : Int) + piecesWidth ps := by
      unfold piecesWidth
      simp
    rw [this]
    omega

theorem piecesWidth_take_drop (l : List OutputPiece) (n : Nat) :
    piecesWidth l = piecesWidth (l.take n) + piecesWidth (l.drop n) := by
  rw [← piecesWidth_append, List.take_append_drop]

/-- `DropFrontN` keeps the character count equal to the width of the buffer, for every
argument. -/
theorem DropFrontN_count (n : Int) (H : OutputHandler)
    (hinv : H.pending_char_count = piecesWidth H.output_pieces) :
    (CommonReformatter.DropFrontN n H).pending_char_count =
      piecesWidth (CommonReformatter.DropFrontN n H).output_pieces := by
  unfold CommonReformatter.DropFrontN
  split
  · rfl
  · simp only
    rw [foldl_sub_width, hinv, piecesWidth_take_drop H.output_pieces n.toNat]
    omega

/-- The second half of `SalientReformatHandler::ProcessPending` keeps the character count
equal to the width of the buffer. -/
theorem writeLine_count (H : OutputHandler) (first_piece : Nat) (processed_indent : Int)
    (hinv : H.pending_char_count = piecesWidth H.output_pieces) :
    (SalientReformatHandler.writeLine H first_piece processed_indent).pending_char_count =
      piecesWidth
        (SalientReformatHandler.writeLine H first_piece processed_indent).output_pieces := by
  unfold SalientReformatHandler.writeLine
  split
  · exact DropFrontN_count _ H hinv
  · simp only
    split
    · exact DropFrontN_count _ _ hinv
    · exact DropFrontN_count _ _ hinv

/-- One call of `SalientReformatHandler::ProcessPending` on a well-spaced buffer: after
the blank lines and the indent, the pieces of one line are written, the line does not end
with imputed whitespace, at most one piece, of imputed whitespace, is dropped after it,
the rest stays buffered in order and is well spaced, and the character count follows. -/
theorem SalientProcessPending_wellSpaced (H H2 : OutputHandler)
    (hsize : H.output_pieces.length < 2 ^ 31) (hw : wellSpaced H.output_pieces)
    (h : SalientReformatHandler.ProcessPending H = some H2) :
    ∃ (H1 : OutputHandler) (line dropped : List OutputPiece),
      SalientReformatHandler.ProcessBlankLines H = some H1 ∧
      H.output_pieces = line ++ dropped ++ H2.output_pieces ∧
      (∀ p, line.getLast? = some p → p.token_type ≠ PvnTokenType.Q_IMPUTED_WHITESPACE) ∧
      (dropped = [] ∨
        ∃ w, dropped = [w] ∧ w.token_type = PvnTokenType.Q_IMPUTED_WHITESPACE) ∧
      wellSpaced H2.output_pieces ∧
      (H.pending_char_count = piecesWidth H.output_pieces →
        H2.pending_char_count = piecesWidth H2.output_pieces) ∧
      (H.output_pieces = [] → line = [] ∧ H2 = H1) ∧
      (H.output_pieces ≠ [] → line ≠ [] ∧
        H2.out_stream =
          (SalientReformatHandler.ProcessIndent H1).1.out_stream ++
            (if H.entry_genre_state.destination_subgenre ≠ TextualSubGenre.kMaster
              then [' '] else []) ++
            piecesText line ++
            (if H.inter_mode_formatting.append_newline then ['\n'] else [])) := by
  unfold SalientReformatHandler.ProcessPending at h
  cases hb : SalientReformatHandler.ProcessBlankLines H with
  | none => simp [hb] at h
  | some H1 =>
    simp only [hb] at h
    obtain ⟨e, r, hH1⟩ := SalientProcessBlankLines_result H H1 hb
    have hp1 : H1.output_pieces = H.output_pieces := by rw [hH1]
    have hc1 : H1.pending_char_count = H.pending_char_count := by rw [hH1]
    have hg1 : H1.entry_genre_state = H.entry_genre_state := by rw [hH1]
    have hn1 : H1.inter_mode_formatting.append_newline =
        H.inter_mode_formatting.append_newline := by rw [hH1]
    refine ⟨H1, ?_⟩
    cases hp : H1.output_pieces with
    | nil =>
      rw [hp] at h
      simp only [Option.some.injEq] at h
      subst h
      have hnil : H.output_pieces = [] := by rw [← hp1, hp]
      refine ⟨[], [], rfl, ?_, ?_, Or.inl rfl, ?_, ?_, fun _ => ⟨rfl, rfl⟩,
        fun hne => absurd hnil hne⟩
      · rw [hp, hnil]; rfl
      · intro p hp2; simp at hp2
      · rw [hp]; exact wellSpaced_nil
      · intro hc
        rw [hc1, hp, hc, hnil]
    | cons front rest =>
      rw [hp] at h
      simp only [Option.some.injEq] at h
      have hfront : front.token_type ≠ PvnTokenType.Q_IMPUTED_WHITESPACE := by
        have h0 := hw.1
        rw [← hp1, hp] at h0
        unfold isImputedWhitespaceAt at h0
        simpa using h0
      rw [if_neg hfront, if_neg hfront] at h
      have hne : H.output_pieces ≠ [] := by
        rw [← hp1, hp]
        simp
      have key : ∀ (H3 : OutputHandler) (pi : Int),
          H3.output_pieces = H.output_pieces →
          H3.pending_char_count = H.pending_char_count →
          H3.inter_mode_formatting.append_newline =
            H.inter_mode_formatting.append_newline →
          H2 = SalientReformatHandler.writeLine H3 0 pi →
          ∃ (line dropped : List OutputPiece),
            H.output_pieces = line ++ dropped ++ H2.output_pieces ∧
            (∀ p, line.getLast? = some p →
              p.token_type ≠ PvnTokenType.Q_IMPUTED_WHITESPACE) ∧
            (dropped = [] ∨
              ∃ w, dropped = [w] ∧ w.token_type = PvnTokenType.Q_IMPUTED_WHITESPACE) ∧
            wellSpaced H2.output_pieces ∧
            (H.pending_char_count = piecesWidth H.output_pieces →
              H2.pending_char_count = piecesWidth H2.output_pieces) ∧
            (H.output_pieces = [] → line = [] ∧ H2 = H1) ∧
            (H.output_pieces ≠ [] → line ≠ [] ∧
              H2.out_stream = H3.out_stream ++ piecesText line ++
                (if H.inter_mode_formatting.append_newline then ['\n'] else [])) := by
        intro H3 pi h3p h3c h3n h2
        obtain ⟨line, dropped, a1, a2, a3, a4, a5, a6⟩ := writeLine_wellSpaced H3 pi
          (by rw [h3p]; exact hsize) (by rw [h3p]; exact hne) (by rw [h3p]; exact hw)
        have hcnt := writeLine_count H3 0 pi
        rw [← h2] at a1 a5 a6 hcnt
        refine ⟨line, dropped, by rw [← h3p]; exact a1, a3, a4, a5, ?_,
          fun h0 => absurd h0 hne, fun _ => ⟨a2, by rw [a6, h3n]⟩⟩
        intro hc
        exact hcnt (by rw [h3c, h3p]; exact hc)
      rw [hg1] at h
      by_cases hm : H.entry_genre_state.destination_subgenre ≠ TextualSubGenre.kMaster
      · rw [if_pos hm, if_pos hm] at h
        obtain ⟨line, dropped, b1, b2, b3, b4, b5, b6, b7⟩ := key _ _
          (by simp only [SalientReformatHandler.ProcessIndent]; exact hp1)
          (by simp only [SalientReformatHandler.ProcessIndent]; exact hc1)
          (by simp only [SalientReformatHandler.ProcessIndent]; exact hn1) h.symm
        refine ⟨line, dropped, rfl, b1, b2, b3, b4, b5, b6, fun hne2 => ?_⟩
        obtain ⟨c1, c2⟩ := b7 hne2
        refine ⟨c1, ?_⟩
        rw [c2, if_pos hm]
      · rw [if_neg hm, if_neg hm] at h
        obtain ⟨line, dropped, b1, b2, b3, b4, b5, b6, b7⟩ := key _ _
          (by simp only [SalientReformatHandler.ProcessIndent]; exact hp1)
          (by simp only [SalientReformatHandler.ProcessIndent]; exact hc1)
          (by simp only [SalientReformatHandler.ProcessIndent]; exact hn1) h.symm
        refine ⟨line, dropped, rfl, b1, b2, b3, b4, b5, b6, fun hne2 => ?_⟩
        obtain ⟨c1, c2⟩ := b7 hne2
        refine ⟨c1, ?_⟩
        rw [c2, if_neg hm]
        simp
/-- C29, counterexample: a call of `AppendPiece` may pass the token type
`Q_IMPUTED_WHITESPACE` itself.  After the pieces `a` (a word) and `x` (of that type) the
buffer holds `a`, the synthesized blank and `x`; `ProcessPending` takes `x` for the blank
at the end of the line and writes `a` and the synthesized blank: the emitted line ends
with a synthesized whitespace piece, and `x` is dropped. -/
theorem ProcessPending_line_ends_with_blank :
    (appendPieces
        [terminalCall { type := PvnTokenType.other 0, text := ['a'], tokenIndex := 0 },
         terminalCall { type := PvnTokenType.Q_IMPUTED_WHITESPACE, text := ['x'],
                        tokenIndex := 1 }]
        (freshHandler
          [{ type := PvnTokenType.other 0, text := ['a'], tokenIndex := 0 },
           { type := PvnTokenType.Q_IMPUTED_WHITESPACE, text := ['x'],
             tokenIndex := 1 }])).map
        (fun H => H.output_pieces.map (fun piece => (piece.text, piece.token_index))) =
      some [(['a'], 0), ([' '], -1), (['x'], 1)] ∧
    ((appendPieces
        [terminalCall { type := PvnTokenType.other 0, text := ['a'], tokenIndex := 0 },
         terminalCall { type := PvnTokenType.Q_IMPUTED_WHITESPACE, text := ['x'],
                        tokenIndex := 1 }]
        (freshHandler
          [{ type := PvnTokenType.other 0, text := ['a'], tokenIndex := 0 },
           { type := PvnTokenType.Q_IMPUTED_WHITESPACE, text := ['x'],
             tokenIndex := 1 }])).bind SalientReformatHandler.ProcessPending).map
        (fun H => (H.out_stream, H.output_pieces.map (fun piece => piece.text))) =
      some (['a', ' ', '\n'], []) := by
  decide

/-- C29, with the token types of the calls restricted.  A buffer that calls of
`AppendPiece` build from an empty one, none with the token type `Q_IMPUTED_WHITESPACE`, is
split by `SalientReformatHandler::ProcessPending` into the pieces of the emitted line, at
most one dropped piece, which is synthesized whitespace, and the buffer left, in this
order: the line does not end with a synthesized whitespace piece, the buffer left does not
begin with one (and is again of the shape that `AppendPiece` builds), and what is written
after the blank lines and the indent is the text of the line and the line end. -/
theorem ProcessPending_line_ends (calls : List AppendCall) (H0 H H2 : OutputHandler)
    (hempty : H0.output_pieces = [])
    (htypes : ∀ call ∈ calls, call.token_type ≠ PvnTokenType.Q_IMPUTED_WHITESPACE)
    (hbuilt : appendPieces calls H0 = some H)
    (hsize : H.output_pieces.length < 2 ^ 31)
    (hpending : SalientReformatHandler.ProcessPending H = some H2) :
    ∃ (H1 : OutputHandler) (line dropped : List OutputPiece),
      SalientReformatHandler.ProcessBlankLines H = some H1 ∧
      H.output_pieces = line ++ dropped ++ H2.output_pieces ∧
      (∀ p, line.getLast? = some p → p.token_type ≠ PvnTokenType.Q_IMPUTED_WHITESPACE) ∧
      (dropped = [] ∨
        ∃ w, dropped = [w] ∧ w.token_type = PvnTokenType.Q_IMPUTED_WHITESPACE) ∧
      (∀ p, H2.output_pieces.head? = some p →
        p.token_type ≠ PvnTokenType.Q_IMPUTED_WHITESPACE) ∧
      wellSpaced H2.output_pieces ∧
      (H.output_pieces = [] → line = [] ∧ H2 = H1) ∧
      (H.output_pieces ≠ [] → line ≠ [] ∧
        H2.out_stream =
          (SalientReformatHandler.ProcessIndent H1).1.out_stream ++
            (if H.entry_genre_state.destination_subgenre ≠ TextualSubGenre.kMaster
              then [' '] else []) ++
            piecesText line ++
            (if H.inter_mode_formatting.append_newline then ['\n'] else [])) := by
  have hw0 : wellSpaced H0.output_pieces := by
    rw [hempty]
    exact wellSpaced_nil
  obtain ⟨hw, _, _⟩ := appendPieces_wellSpaced calls H0 H htypes hw0 hbuilt
  obtain ⟨H1, line, dropped, a1, a2, a3, a4, a5, _, a7, a8⟩ :=
    SalientProcessPending_wellSpaced H H2 hsize hw hpending
  refine ⟨H1, line, dropped, a1, a2, a3, a4, ?_, a5, a7, a8⟩
  intro p hp
  have h0 := a5.1
  unfold isImputedWhitespaceAt at h0
  cases hl : H2.output_pieces with
  | nil => rw [hl] at hp; simp at hp
  | cons q qs =>
    rw [hl] at hp h0
    simp only [List.head?_cons, Option.some.injEq] at hp
    subst hp
    simpa using h0

/-- Witness of `ProcessPending_line_ends`: two words of 50 characters with the imputed
blank between them do not fit in a line of 96. -/
theorem ProcessPending_line_ends_witness :
    longWords.output_pieces.map (fun piece => piece.text.length) = [50, 1, 50] ∧
    longWordsAfterLine.output_pieces.map (fun piece => piece.text.length) = [50] ∧
    ∃ (H1 : OutputHandler) (line dropped : List OutputPiece),
      SalientReformatHandler.ProcessBlankLines longWords = some H1 ∧
      longWords.output_pieces = line ++ dropped ++ longWordsAfterLine.output_pieces ∧
      (∀ p, line.getLast? = some p → p.token_type ≠ PvnTokenType.Q_IMPUTED_WHITESPACE) ∧
      (dropped = [] ∨
        ∃ w, dropped = [w] ∧ w.token_type = PvnTokenType.Q_IMPUTED_WHITESPACE) ∧
      (∀ p, longWordsAfterLine.output_pieces.head? = some p →
        p.token_type ≠ PvnTokenType.Q_IMPUTED_WHITESPACE) ∧
      wellSpaced longWordsAfterLine.output_pieces ∧
      (longWords.output_pieces = [] → line = [] ∧ longWordsAfterLine = H1) ∧
      (longWords.output_pieces ≠ [] → line ≠ [] ∧
        longWordsAfterLine.out_stream =
          (SalientReformatHandler.ProcessIndent H1).1.out_stream ++
            (if longWords.entry_genre_state.destination_subgenre ≠ TextualSubGenre.kMaster
              then [' '] else []) ++
            piecesText line ++
            (if longWords.inter_mode_formatting.append_newline then ['\n'] else [])) :=
  ⟨by decide, by decide,
    ProcessPending_line_ends
      [terminalCall (wordToken 'a' 0), terminalCall (wordToken 'b' 1)]
      (freshHandler [wordToken 'a' 0, wordToken 'b' 1]) longWords longWordsAfterLine
      rfl (by decide) rfl (by decide) rfl⟩

/-- A lone `SalientReformatHandler::ProcessPending` on a buffer that begins with an imputed
blank, a call that no code makes: `DropFrontN` is called by `ProcessPending` and by the
HTML `OutputLines` only, and `ProcessPending`, a private method, by `OutputLines` only.
Three words of 50 characters are appended to an empty buffer (the count is 152, the width
of the five pieces), `DropFrontN(1)` drops the first word (the count is 102, the width of
the four pieces left, the first of which is the imputed blank), and `ProcessPending`
writes the second word and drops three pieces: the count is 49 and the buffer holds the
third word, 50 wide.  The method subtracts the width of the leading blank itself and
`DropFrontN` subtracts it again. -/
theorem pending_char_count_leading_blank_twice :
    (runCalls
        [HandlerCall.AppendPiece (terminalCall (wordToken 'a' 0)),
         HandlerCall.AppendPiece (terminalCall (wordToken 'b' 1)),
         HandlerCall.AppendPiece (terminalCall (wordToken 'c' 2))]
        (freshHandler [wordToken 'a' 0, wordToken 'b' 1, wordToken 'c' 2])).map
        (fun H => (H.pending_char_count, piecesWidth H.output_pieces,
          H.output_pieces.map (fun piece => piece.text.length))) =
      some (152, 152, [50, 1, 50, 1, 50]) ∧
    (runCalls
        [HandlerCall.AppendPiece (terminalCall (wordToken 'a' 0)),
         HandlerCall.AppendPiece (terminalCall (wordToken 'b' 1)),
         HandlerCall.AppendPiece (terminalCall (wordToken 'c' 2)),
         HandlerCall.DropFrontN 1]
        (freshHandler [wordToken 'a' 0, wordToken 'b' 1, wordToken 'c' 2])).map
        (fun H => (H.pending_char_count, piecesWidth H.output_pieces,
          H.output_pieces.map (fun piece => piece.text.length))) =
      some (102, 102, [1, 50, 1, 50]) ∧
    (runCalls
        [HandlerCall.AppendPiece (terminalCall (wordToken 'a' 0)),
         HandlerCall.AppendPiece (terminalCall (wordToken 'b' 1)),
         HandlerCall.AppendPiece (terminalCall (wordToken 'c' 2)),
         HandlerCall.DropFrontN 1,
         HandlerCall.SalientProcessPending]
        (freshHandler [wordToken 'a' 0, wordToken 'b' 1, wordToken 'c' 2])).map
        (fun H => (H.pending_char_count, piecesWidth H.output_pieces,
          H.output_pieces.map (fun piece => piece.text.length))) =
      some (49, 50, [50]) := by
  decide

/-- C32. On the triple (statement nesting, expression or parenthesis nesting, stack of
saved pairs) the code-pass skim listener and the code-mode lexer context make the same
moves: from equal triples, `CoarseSkimQuarrelListener::enterOpenStmt` and
`QuarrelModeContext::NestStatements` lead to equal triples, and so do
`ManagedExitCloseStmt` and `DeNestStatements`; besides the triple the two listener methods
change `cumulative_statement_level_` only, by +1 and by -1. -/
theorem enterOpenStmt_refines_NestStatements (L : CoarseSkimQuarrelListener)
    (c : QuarrelModeContext) (h : L.triple = c.triple) :
    L.enterOpenStmt.triple = c.NestStatements.triple ∧
    L.ManagedExitCloseStmt.triple = c.DeNestStatements.triple ∧
    L.enterOpenStmt =
      { L with
        statement_nest_level_ := c.NestStatements.q_statement_nesting_,
        expression_nest_level_ := c.NestStatements.q_parens_nesting_,
        nesting_stack_ := c.NestStatements.nesting_stack_,
        cumulative_statement_level_ := L.cumulative_statement_level_ + 1 } ∧
    L.ManagedExitCloseStmt =
      { L with
        statement_nest_level_ := c.DeNestStatements.q_statement_nesting_,
        expression_nest_level_ := c.DeNestStatements.q_parens_nesting_,
        nesting_stack_ := c.DeNestStatements.nesting_stack_,
        cumulative_statement_level_ := L.cumulative_statement_level_ - 1 } := by
  obtain ⟨cp, sr, s, cum, e, st, w⟩ := L
  obtain ⟨ch, lm, col, line, qs, qp, qst⟩ := c
  simp only [CoarseSkimQuarrelListener.triple, QuarrelModeContext.triple,
    Prod.mk.injEq] at h
  obtain ⟨h1, h2, h3⟩ := h
  subst h1 h2 h3
  unfold CoarseSkimQuarrelListener.enterOpenStmt CoarseSkimQuarrelListener.ManagedExitCloseStmt
    QuarrelModeContext.NestStatements QuarrelModeContext.DeNestStatements
    CoarseSkimQuarrelListener.triple QuarrelModeContext.triple
  refine ⟨?_, ?_, ?_, ?_⟩
  · by_cases he : e = 0 <;> simp [he]
  · by_cases hs : s = 0
    · cases st <;> simp [hs]
    · simp [hs]
  · by_cases he : e = 0 <;> simp [he]
  · by_cases hs : s = 0
    · cases st <;> simp [hs]
    · simp [hs]

/-- Witness of `enterOpenStmt_refines_NestStatements`: inside an expression, with one
pair saved. -/
theorem enterOpenStmt_refines_NestStatements_witness :
    (CoarseSkimQuarrelListener.enterOpenStmt
        { statement_nest_level_ := 2, expression_nest_level_ := 1,
          nesting_stack_ := [(1, 3)] }).triple =
      (QuarrelModeContext.NestStatements
        { q_statement_nesting_ := 2, q_parens_nesting_ := 1,
          nesting_stack_ := [(1, 3)] }).triple ∧
    (CoarseSkimQuarrelListener.enterOpenStmt
        { statement_nest_level_ := 2, expression_nest_level_ := 1,
          nesting_stack_ := [(1, 3)] }).triple = (0, 0, [(2, 1), (1, 3)]) :=
  ⟨(enterOpenStmt_refines_NestStatements
      { statement_nest_level_ := 2, expression_nest_level_ := 1,
        nesting_stack_ := [(1, 3)] }
      { q_statement_nesting_ := 2, q_parens_nesting_ := 1, nesting_stack_ := [(1, 3)] }
      rfl).1, by decide⟩

/-- C33, counterexample: from the value -1 both methods leave 0, which is larger. -/
theorem parens_nesting_rises_from_negative :
    (QuarrelModeContext.Incr_q_parens_nesting { q_parens_nesting_ := -1 }).q_parens_nesting_
      = 0 ∧
    (QuarrelModeContext.ClampedDecr_q_parens_nesting
      { q_parens_nesting_ := -1 }).q_parens_nesting_ = 0 ∧
    (-1 : Int) <
      (QuarrelModeContext.Incr_q_parens_nesting
        { q_parens_nesting_ := -1 }).q_parens_nesting_ ∧
    (-1 : Int) <
      (QuarrelModeContext.ClampedDecr_q_parens_nesting
        { q_parens_nesting_ := -1 }).q_parens_nesting_ := by
  decide

/-- C33, with the last part restricted.  For every value `p` of `q_parens_nesting_`,
`Incr_q_parens_nesting` and `ClampedDecr_q_parens_nesting` do the same and leave
`max(0, p - 1)`; for `p ≥ 0` neither increases the value, and for `p > 0` both decrease it
by 1; a negative value is raised to 0.  Nothing else of the context changes. -/
theorem Incr_q_parens_nesting_decrements (c : QuarrelModeContext) :
    c.Incr_q_parens_nesting = c.ClampedDecr_q_parens_nesting ∧
    c.Incr_q_parens_nesting = { c with q_parens_nesting_ := max 0 (c.q_parens_nesting_ - 1) } ∧
    (0 ≤ c.q_parens_nesting_ →
      c.Incr_q_parens_nesting.q_parens_nesting_ ≤ c.q_parens_nesting_) ∧
    (0 < c.q_parens_nesting_ →
      c.Incr_q_parens_nesting.q_parens_nesting_ = c.q_parens_nesting_ - 1) ∧
    (c.q_parens_nesting_ < 0 → c.Incr_q_parens_nesting.q_parens_nesting_ = 0) := by
  refine ⟨rfl, rfl, ?_, ?_, ?_⟩
  · intro h
    simp only [QuarrelModeContext.Incr_q_parens_nesting]
    omega
  · intro h
    simp only [QuarrelModeContext.Incr_q_parens_nesting]
    omega
  · intro h
    simp only [QuarrelModeContext.Incr_q_parens_nesting]
    omega

theorem QuarrelModeCall_run_keeps (call : QuarrelModeCall) (c : QuarrelModeContext)
    (h : c.q_parens_nesting_ = 0 ∧ c.nesting_stack_ = []) :
    (call.run c).q_parens_nesting_ = 0 ∧ (call.run c).nesting_stack_ = [] := by
  obtain ⟨hp, hs⟩ := h
  cases call with
  | NestStatements =>
    simp [QuarrelModeCall.run, QuarrelModeContext.NestStatements, hp, hs]
  | DeNestStatements =>
    simp only [QuarrelModeCall.run, QuarrelModeContext.DeNestStatements, hs]
    split
    · exact ⟨hp, rfl⟩
    · exact ⟨hp, hs⟩
  | Incr_q_parens_nesting =>
    simp [QuarrelModeCall.run, QuarrelModeContext.Incr_q_parens_nesting, hp, hs]
  | ClampedDecr_q_parens_nesting =>
    simp [QuarrelModeCall.run, QuarrelModeContext.ClampedDecr_q_parens_nesting, hp, hs]
  | HandleEntry sub_genre lexer custom_token_factory =>
    simp [QuarrelModeCall.run, QuarrelModeContext.HandleEntry,
      QuarrelModeContext.MoveGNewStatementMarker, hp, hs]

theorem afterCalls_keeps : ∀ (calls : List QuarrelModeCall) (c : QuarrelModeContext),
    c.q_parens_nesting_ = 0 ∧ c.nesting_stack_ = [] →
    (c.afterCalls calls).q_parens_nesting_ = 0 ∧ (c.afterCalls calls).nesting_stack_ = []
  | [], _, h => h
  | call :: calls, c, h => by
    have := afterCalls_keeps calls (call.run c) (QuarrelModeCall_run_keeps call c h)
    simpa [QuarrelModeContext.afterCalls] using this

/-- C37. In every state that a newly created `QuarrelModeContext` reaches through calls
of `NestStatements`, `DeNestStatements`, `Incr_q_parens_nesting`,
`ClampedDecr_q_parens_nesting` and `HandleEntry`, `q_parens_nesting_` is 0 and
`nesting_stack_` is empty; so a `NestStatements` there increments `q_statement_nesting_`
and changes nothing else. -/
theorem QuarrelModeContext_parens_stay_zero (channel : Nat) (lexer_mode : Int)
    (calls : List QuarrelModeCall) :
    (QuarrelModeContext.afterCalls
        { channel_ := channel, lexer_mode_ := lexer_mode } calls).q_parens_nesting_ = 0 ∧
    (QuarrelModeContext.afterCalls
        { channel_ := channel, lexer_mode_ := lexer_mode } calls).nesting_stack_ = [] ∧
    (QuarrelModeContext.afterCalls
        { channel_ := channel, lexer_mode_ := lexer_mode } calls).NestStatements =
      { QuarrelModeContext.afterCalls
          { channel_ := channel, lexer_mode_ := lexer_mode } calls with
        q_statement_nesting_ :=
          (QuarrelModeContext.afterCalls
            { channel_ := channel, lexer_mode_ := lexer_mode }
            calls).q_statement_nesting_ + 1 } := by
  obtain ⟨h1, h2⟩ := afterCalls_keeps calls
    { channel_ := channel, lexer_mode_ := lexer_mode } ⟨rfl, rfl⟩
  refine ⟨h1, h2, ?_⟩
  simp [QuarrelModeContext.NestStatements, h1]

/-- C38. For every `CoarseSkimQuarrelListener` state with `statement_nest_level_ ≥ 0`,
`enterOpenStmt` followed by `ManagedExitCloseStmt` gives the state back:
`statement_nest_level_`, `expression_nest_level_`, `nesting_stack_` and
`cumulative_statement_level_` have their values from before the two calls, and no other
member changes. -/
theorem enterOpenStmt_then_ManagedExitCloseStmt (L : CoarseSkimQuarrelListener)
    (h : 0 ≤ L.statement_nest_level_) :
    L.enterOpenStmt.ManagedExitCloseStmt = L := by
  unfold CoarseSkimQuarrelListener.enterOpenStmt CoarseSkimQuarrelListener.ManagedExitCloseStmt
  by_cases he : L.expression_nest_level_ = 0
  · have hs : L.statement_nest_level_ + 1 ≠ 0 := by omega
    simp [he, hs]
    cases L
    simp_all
  · simp [he]

/-- Witness of `enterOpenStmt_then_ManagedExitCloseStmt`: a statement opened inside an
expression. -/
theorem enterOpenStmt_then_ManagedExitCloseStmt_witness :
    (CoarseSkimQuarrelListener.ManagedExitCloseStmt
      (CoarseSkimQuarrelListener.enterOpenStmt
        { statement_nest_level_ := 2, expression_nest_level_ := 1,
          cumulative_statement_level_ := 5, nesting_stack_ := [(1, 3)] })).triple =
      (2, 1, [(1, 3)]) := by
  rw [enterOpenStmt_then_ManagedExitCloseStmt
    { statement_nest_level_ := 2, expression_nest_level_ := 1,
      cumulative_statement_level_ := 5, nesting_stack_ := [(1, 3)] } (by decide)]
  rfl

theorem CoarseSkimSalientListener.visitTerminal_facts (L : CoarseSkimSalientListener)
    (ctx : ParseTree) (symbol : Token) :
    (L.visitTerminal ctx symbol).summarizer_results_.quarrel_to_salient_transitions =
      L.summarizer_results_.quarrel_to_salient_transitions ++ specQuarrelToSalient symbol ∧
    (L.visitTerminal ctx symbol).summarizer_results_.salient_to_quarrel_transitions =
      L.summarizer_results_.salient_to_quarrel_transitions ++ specSalientToQuarrel symbol ∧
    ∃ value, (L.visitTerminal ctx symbol).coarse_properties_ =
      L.coarse_properties_.put ctx value := by
  unfold CoarseSkimSalientListener.visitTerminal specQuarrelToSalient specSalientToQuarrel
  by_cases h1 : symbol.type = PvnTokenType.LEAVE_CODE ∨ symbol.type = PvnTokenType.ENTER_TEXTUAL
  · by_cases h2 : symbol.type = PvnTokenType.NEWLINE_ENTER_CODE ∨
        symbol.type = PvnTokenType.LEAVE_TEXTUAL
    · simp only [h1, h2, if_true]
      exact ⟨trivial, trivial, _, rfl⟩
    · simp only [h1, h2, if_true, if_false, List.append_nil]
      exact ⟨trivial, trivial, _, rfl⟩
  · by_cases h2 : symbol.type = PvnTokenType.NEWLINE_ENTER_CODE ∨
        symbol.type = PvnTokenType.LEAVE_TEXTUAL
    · simp only [h1, h2, if_true, if_false, List.append_nil]
      exact ⟨trivial, trivial, _, rfl⟩
    · simp only [h1, h2, if_false, List.append_nil]
      exact ⟨trivial, trivial, _, rfl⟩

theorem CoarseSkimSalientListener.enterEveryRule_facts (R : Nat)
    (L : CoarseSkimSalientListener) (ctx : ParseTree) (r : Nat) :
    (L.enterEveryRule R ctx r).summarizer_results_ = L.summarizer_results_ ∧
    ∃ value, (L.enterEveryRule R ctx r).coarse_properties_ =
      L.coarse_properties_.put ctx value := by
  unfold CoarseSkimSalientListener.enterEveryRule
  by_cases hr : r = R
  · simp only [hr, if_true]
    exact ⟨trivial, _, rfl⟩
  · simp only [hr, if_false]
    exact ⟨trivial, _, rfl⟩

theorem CoarseSkimSalientListener.exitEveryRule_facts (R : Nat)
    (L : CoarseSkimSalientListener) (ctx : ParseTree) (r : Nat)
    (h : (L.coarse_properties_.get ctx).isSome = true) :
    ∃ L1, L.exitEveryRule R ctx r = some L1 ∧
      L1.summarizer_results_ = L.summarizer_results_ ∧
      ∃ value, L1.coarse_properties_ = L.coarse_properties_.put ctx value := by
  unfold CoarseSkimSalientListener.exitEveryRule
  by_cases hr : r = R
  · simp only [hr, if_true]
    cases hg : L.coarse_properties_.get ctx with
    | none => rw [hg] at h; simp at h
    | some got => exact ⟨_, rfl, rfl, _, rfl⟩
  · simp only [hr, if_false]
    cases hg : L.coarse_properties_.get ctx with
    | none => rw [hg] at h; simp at h
    | some got => exact ⟨_, rfl, rfl, _, rfl⟩

theorem hasNoErrorNode_rule (r s : Nat) (cs : List ParseTree)
    (h : (treeNodes (ParseTree.rule r s cs)).all (fun n => !isErrorNode n) = true) :
    (treeNodesList cs).all (fun n => !isErrorNode n) = true := by
  simp only [treeNodes, List.all_cons, Bool.and_eq_true] at h
  exact h.2

theorem hasNoErrorNode_cons (c : ParseTree) (cs : List ParseTree)
    (h : (treeNodesList (c :: cs)).all (fun n => !isErrorNode n) = true) :
    (treeNodes c).all (fun n => !isErrorNode n) = true ∧
      (treeNodesList cs).all (fun n => !isErrorNode n) = true := by
  simp only [treeNodesList, List.all_append, Bool.and_eq_true] at h
  exact h

mutual
/-- The skim of a subtree by the `CoarseSkimSalientListener`: it returns, keeps the map
entries, records the transitions of the visited terminals in order, and leaves a map
entry for every node of a subtree without error nodes. -/
theorem salientSkim_tree (R : Nat) : (t : ParseTree) → ∀ L : CoarseSkimSalientListener,
    ∃ L1, CoarseSkimSalientListener.deliverAll R L (recursiveWalk t) = some L1 ∧
      (∀ n, (L.coarse_properties_.get n).isSome = true →
        (L1.coarse_properties_.get n).isSome = true) ∧
      L1.summarizer_results_.quarrel_to_salient_transitions =
        L.summarizer_results_.quarrel_to_salient_transitions ++
          ((visitedTokens t).map specQuarrelToSalient).flatten ∧
      L1.summarizer_results_.salient_to_quarrel_transitions =
        L.summarizer_results_.salient_to_quarrel_transitions ++
          ((visitedTokens t).map specSalientToQuarrel).flatten ∧
      ((treeNodes t).all (fun n => !isErrorNode n) = true →
        ∀ n ∈ treeNodes t, (L1.coarse_properties_.get n).isSome = true)
  | .rule r s cs => by
    intro L
    obtain ⟨e1, v1, e2⟩ := CoarseSkimSalientListener.enterEveryRule_facts R L (.rule r s cs) r
    have hself : ((L.enterEveryRule R (.rule r s cs) r).coarse_properties_.get
        (.rule r s cs)).isSome = true := by
      rw [e2, AltParseTreeProperty.get_put_self]
      rfl
    obtain ⟨L2, h2, k2, q2, s2, c2⟩ := salientSkim_list R cs (L.enterEveryRule R (.rule r s cs) r)
    obtain ⟨L3, h3, e3, v3, p3⟩ := CoarseSkimSalientListener.exitEveryRule_facts R L2
      (.rule r s cs) r (k2 _ hself)
    have k3 : ∀ n, (L2.coarse_properties_.get n).isSome = true →
        (L3.coarse_properties_.get n).isSome = true := by
      intro n hn
      rw [p3]
      exact AltParseTreeProperty.get_put_isSome _ _ _ _ hn
    refine ⟨L3, ?_, ?_, ?_, ?_, ?_⟩
    · simp only [recursiveWalk, CoarseSkimSalientListener.deliverAll,
        CoarseSkimSalientListener.deliver]
      rw [deliverAll_append, h2]
      simp [CoarseSkimSalientListener.deliverAll, CoarseSkimSalientListener.deliver, h3]
    · intro n hn
      apply k3
      apply k2
      rw [e2]
      exact AltParseTreeProperty.get_put_isSome _ _ _ _ hn
    · rw [e3, q2, e1]
      rfl
    · rw [e3, s2, e1]
      rfl
    · intro hno n hn
      simp only [treeNodes, List.mem_cons] at hn
      rcases hn with hn | hn
      · rw [hn]
        exact k3 _ (k2 _ hself)
      · exact k3 _ (c2 (hasNoErrorNode_rule r s cs hno) n hn)
  | .terminal tok => by
    intro L
    obtain ⟨q, s, v, p⟩ := CoarseSkimSalientListener.visitTerminal_facts L (.terminal tok) tok
    refine ⟨L.visitTerminal (.terminal tok) tok, ?_, ?_, ?_, ?_, ?_⟩
    · simp [recursiveWalk, CoarseSkimSalientListener.deliverAll,
        CoarseSkimSalientListener.deliver]
    · intro n hn
      rw [p]
      exact AltParseTreeProperty.get_put_isSome _ _ _ _ hn
    · rw [q]
      simp [visitedTokens]
    · rw [s]
      simp [visitedTokens]
    · intro _ n hn
      simp only [treeNodes, List.mem_singleton] at hn
      rw [hn, p, AltParseTreeProperty.get_put_self]
      rfl
  | .errorNode tok => by
    intro L
    refine ⟨L, ?_, fun _ h => h, ?_, ?_, ?_⟩
    · simp [recursiveWalk, CoarseSkimSalientListener.deliverAll,
        CoarseSkimSalientListener.deliver]
    · simp [visitedTokens]
    · simp [visitedTokens]
    · intro hno
      simp [treeNodes, isErrorNode] at hno
theorem salientSkim_list (R : Nat) : (cs : List ParseTree) →
    ∀ L : CoarseSkimSalientListener,
    ∃ L1, CoarseSkimSalientListener.deliverAll R L (recursiveWalkList cs) = some L1 ∧
      (∀ n, (L.coarse_properties_.get n).isSome = true →
        (L1.coarse_properties_.get n).isSome = true) ∧
      L1.summarizer_results_.quarrel_to_salient_transitions =
        L.summarizer_results_.quarrel_to_salient_transitions ++
          ((visitedTokensList cs).map specQuarrelToSalient).flatten ∧
      L1.summarizer_results_.salient_to_quarrel_transitions =
        L.summarizer_results_.salient_to_quarrel_transitions ++
          ((visitedTokensList cs).map specSalientToQuarrel).flatten ∧
      ((treeNodesList cs).all (fun n => !isErrorNode n) = true →
        ∀ n ∈ treeNodesList cs, (L1.coarse_properties_.get n).isSome = true)
  | [] => by
    intro L
    refine ⟨L, ?_, fun _ h => h, ?_, ?_, ?_⟩
    · simp [recursiveWalkList, CoarseSkimSalientListener.deliverAll]
    · simp [visitedTokensList]
    · simp [visitedTokensList]
    · intro _ n hn
      simp [treeNodesList] at hn
  | c :: cs => by
    intro L
    obtain ⟨L1, h1, k1, q1, s1, c1⟩ := salientSkim_tree R c L
    obtain ⟨L2, h2, k2, q2, s2, c2⟩ := salientSkim_list R cs L1
    refine ⟨L2, ?_, fun n hn => k2 n (k1 n hn), ?_, ?_, ?_⟩
    · simp only [recursiveWalkList]
      rw [deliverAll_append, h1]
      simpa using h2
    · rw [q2, q1]
      simp [visitedTokensList]
    · rw [s2, s1]
      simp [visitedTokensList]
    · intro hno n hn
      obtain ⟨n1, n2⟩ := hasNoErrorNode_cons c cs hno
      simp only [treeNodesList, List.mem_append] at hn
      rcases hn with hn | hn
      · exact k2 n (c1 n1 n hn)
      · exact c2 n2 n hn
end

/-- C31. `CoarseSkimSalientListener::visitTerminal` appends to
`quarrel_to_salient_transitions` one transition for a `LEAVE_CODE` or `ENTER_TEXTUAL`
terminal (genre `kSalient`; sub-genre `kTextualLeft` for the text `;;;`, `kTextualIndent`
for `;;`, `kTextualRight` for `;`, `kMaster` otherwise) and nothing for another terminal,
and to `salient_to_quarrel_transitions` one transition for a `NEWLINE_ENTER_CODE` or
`LEAVE_TEXTUAL` terminal (genre `kQuarrel`, sub-genre `kMaster`) and nothing for another
terminal; each carries the token index of the terminal.  Over a whole skim walk the two
lists grow by exactly these transitions of the visited terminals, in walk order. -/
theorem visitTerminal_records_transitions (RuleListItem : Nat)
    (L : CoarseSkimSalientListener) (ctx : ParseTree) (symbol : Token) (t : ParseTree) :
    (L.visitTerminal ctx symbol).summarizer_results_.quarrel_to_salient_transitions =
      L.summarizer_results_.quarrel_to_salient_transitions ++ specQuarrelToSalient symbol ∧
    (L.visitTerminal ctx symbol).summarizer_results_.salient_to_quarrel_transitions =
      L.summarizer_results_.salient_to_quarrel_transitions ++ specSalientToQuarrel symbol ∧
    ∃ L1, CoarseSkimSalientListener.deliverAll RuleListItem L (recursiveWalk t) = some L1 ∧
      L1.summarizer_results_.quarrel_to_salient_transitions =
        L.summarizer_results_.quarrel_to_salient_transitions ++
          ((visitedTokens t).map specQuarrelToSalient).flatten ∧
      L1.summarizer_results_.salient_to_quarrel_transitions =
        L.summarizer_results_.salient_to_quarrel_transitions ++
          ((visitedTokens t).map specSalientToQuarrel).flatten := by
  obtain ⟨q, s, _⟩ := CoarseSkimSalientListener.visitTerminal_facts L ctx symbol
  obtain ⟨L1, h1, _, q1, s1, _⟩ := salientSkim_tree RuleListItem t L
  exact ⟨q, s, L1, h1, q1, s1⟩

/-- C34. `QuarrelReformatListener::MaybeOutputLines` calls `OutputLines` with a default
`WalkerTransition` and with the full flush requested exactly when: the token type is not
`CLOSE_STMT`, if `flush_at_next_token` is `kCloseStatement`; always, if it is
`kOpenPattern`; the token type is `CLOSE_STMT`, if it is `kNone`.  A `CLOSE_STMT` token
that follows a close statement leaves the handler, and so the buffered line, as it is. -/
theorem MaybeOutputLines_flush (fuel : Nat) (handler_ : OutputHandler) (symbol : Token) :
    (handler_.flush_at_next_token = FlushReason.kCloseStatement →
      QuarrelReformatListener.MaybeOutputLines fuel handler_ symbol =
        QuarrelReformatHandler.OutputLines fuel
          (decide (symbol.type ≠ PvnTokenType.CLOSE_STMT)) {} handler_) ∧
    (handler_.flush_at_next_token = FlushReason.kOpenPattern →
      QuarrelReformatListener.MaybeOutputLines fuel handler_ symbol =
        QuarrelReformatHandler.OutputLines fuel true {} handler_) ∧
    (handler_.flush_at_next_token = FlushReason.kNone →
      QuarrelReformatListener.MaybeOutputLines fuel handler_ symbol =
        QuarrelReformatHandler.OutputLines fuel
          (decide (symbol.type = PvnTokenType.CLOSE_STMT)) {} handler_) ∧
    (handler_.flush_at_next_token = FlushReason.kCloseStatement →
      symbol.type = PvnTokenType.CLOSE_STMT →
      QuarrelReformatListener.MaybeOutputLines fuel handler_ symbol = some handler_) := by
  unfold QuarrelReformatListener.MaybeOutputLines
  refine ⟨?_, ?_, ?_, ?_⟩
  · intro h
    rw [h]
    by_cases ht : symbol.type = PvnTokenType.CLOSE_STMT <;> simp [ht]
  · intro h
    rw [h]
  · intro h
    rw [h]
    by_cases ht : symbol.type = PvnTokenType.CLOSE_STMT <;> simp [ht]
  · intro h ht
    rw [h]
    simp [ht, QuarrelReformatHandler.OutputLines]
theorem CoarseSkimQuarrelListener.deliverAll_split (rules : QvlRules)
    (es es2 : List Callback) : ∀ L : CoarseSkimQuarrelListener,
    CoarseSkimQuarrelListener.deliverAll rules L (es ++ es2) =
      (CoarseSkimQuarrelListener.deliverAll rules L es).bind
        (fun L1 => CoarseSkimQuarrelListener.deliverAll rules L1 es2) := by
  induction es with
  | nil => intro L; simp [CoarseSkimQuarrelListener.deliverAll]
  | cons e es ih =>
    intro L
    simp only [List.cons_append, CoarseSkimQuarrelListener.deliverAll]
    cases h : L.deliver rules e with
    | none => simp
    | some L1 => simp [ih L1]

theorem CoarseSkimQuarrelListener.ManagedExitCloseStmt_coarse
    (L : CoarseSkimQuarrelListener) :
    L.ManagedExitCloseStmt.coarse_properties_ = L.coarse_properties_ := by
  unfold CoarseSkimQuarrelListener.ManagedExitCloseStmt
  simp only
  split
  · rfl
  · split <;> rfl

theorem CoarseSkimQuarrelListener.enterOpenStmt_coarse (L : CoarseSkimQuarrelListener) :
    L.enterOpenStmt.coarse_properties_ = L.coarse_properties_ := by
  unfold CoarseSkimQuarrelListener.enterOpenStmt
  simp only
  split <;> rfl

/-- Entering a rule node, the code-pass listener puts an entry for it. -/
theorem CoarseSkimQuarrelListener.deliver_enterRule (rules : QvlRules)
    (L : CoarseSkimQuarrelListener) (r s : Nat) (cs : List ParseTree) :
    ∃ L1, L.deliver rules (Callback.enterRule (ParseTree.rule r s cs)) = some L1 ∧
      ∃ value, L1.coarse_properties_ =
        L.coarse_properties_.put (ParseTree.rule r s cs) value := by
  simp only [CoarseSkimQuarrelListener.deliver]
  split
  · exact ⟨_, rfl, _, by rw [CoarseSkimQuarrelListener.enterOpenStmt_coarse]; rfl⟩
  · split
    · exact ⟨_, rfl, _, rfl⟩
    · exact ⟨_, rfl, _, rfl⟩

/-- Leaving a rule node that has an entry, the code-pass listener returns and puts an
entry for it. -/
theorem CoarseSkimQuarrelListener.deliver_exitRule (rules : QvlRules)
    (L : CoarseSkimQuarrelListener) (r s : Nat) (cs : List ParseTree)
    (h : (L.coarse_properties_.get (ParseTree.rule r s cs)).isSome = true) :
    ∃ L1, L.deliver rules (Callback.exitRule (ParseTree.rule r s cs)) = some L1 ∧
      ∃ value, L1.coarse_properties_ =
        L.coarse_properties_.put (ParseTree.rule r s cs) value := by
  simp only [CoarseSkimQuarrelListener.deliver, CoarseSkimQuarrelListener.exitEveryRule]
  generalize hc :
    (if r = rules.RuleCloseStmt ∨ r = rules.RuleSpliceStmt then
        (L.ManagedExitCloseStmt, true)
      else if r = rules.RuleExpression then (L.ManagedExitExpression, true)
      else (L, false)) = closed
  have hcp : closed.1.coarse_properties_ = L.coarse_properties_ := by
    rw [← hc]
    split
    · exact CoarseSkimQuarrelListener.ManagedExitCloseStmt_coarse L
    · split <;> rfl
  rw [hcp]
  cases hg : L.coarse_properties_.get (ParseTree.rule r s cs) with
  | none => rw [hg] at h; simp at h
  | some got => exact ⟨_, rfl, _, rfl⟩

mutual
/-- The skim of a subtree by the `CoarseSkimQuarrelListener`: it returns, keeps the map
entries, and leaves a map entry for every node of a subtree without error nodes. -/
theorem quarrelSkim_tree (rules : QvlRules) : (t : ParseTree) →
    ∀ L : CoarseSkimQuarrelListener,
    ∃ L1, CoarseSkimQuarrelListener.deliverAll rules L (recursiveWalk t) = some L1 ∧
      (∀ n, (L.coarse_properties_.get n).isSome = true →
        (L1.coarse_properties_.get n).isSome = true) ∧
      ((treeNodes t).all (fun n => !isErrorNode n) = true →
        ∀ n ∈ treeNodes t, (L1.coarse_properties_.get n).isSome = true)
  | .rule r s cs => by
    intro L
    obtain ⟨L1, h1, v1, p1⟩ := CoarseSkimQuarrelListener.deliver_enterRule rules L r s cs
    have hself : (L1.coarse_properties_.get (.rule r s cs)).isSome = true := by
      rw [p1, AltParseTreeProperty.get_put_self]
      rfl
    obtain ⟨L2, h2, k2, c2⟩ := quarrelSkim_list rules cs L1
    obtain ⟨L3, h3, v3, p3⟩ := CoarseSkimQuarrelListener.deliver_exitRule rules L2 r s cs
      (k2 _ hself)
    have k3 : ∀ n, (L2.coarse_properties_.get n).isSome = true →
        (L3.coarse_properties_.get n).isSome = true := by
      intro n hn
      rw [p3]
      exact AltParseTreeProperty.get_put_isSome _ _ _ _ hn
    refine ⟨L3, ?_, ?_, ?_⟩
    · simp only [recursiveWalk, CoarseSkimQuarrelListener.deliverAll, h1]
      rw [CoarseSkimQuarrelListener.deliverAll_split, h2]
      simp [CoarseSkimQuarrelListener.deliverAll, h3]
    · intro n hn
      apply k3
      apply k2
      rw [p1]
      exact AltParseTreeProperty.get_put_isSome _ _ _ _ hn
    · intro hno n hn
      simp only [treeNodes, List.mem_cons] at hn
      rcases hn with hn | hn
      · rw [hn]
        exact k3 _ (k2 _ hself)
      · exact k3 _ (c2 (hasNoErrorNode_rule r s cs hno) n hn)
  | .terminal tok => by
    intro L
    refine ⟨L.visitTerminal (.terminal tok), ?_, ?_, ?_⟩
    · simp [recursiveWalk, CoarseSkimQuarrelListener.deliverAll,
        CoarseSkimQuarrelListener.deliver]
    · intro n hn
      exact AltParseTreeProperty.get_put_isSome _ _ _ _ hn
    · intro _ n hn
      simp only [treeNodes, List.mem_singleton] at hn
      rw [hn]
      simp only [CoarseSkimQuarrelListener.visitTerminal]
      rw [AltParseTreeProperty.get_put_self]
      rfl
  | .errorNode tok => by
    intro L
    refine ⟨L, ?_, fun _ h => h, ?_⟩
    · simp [recursiveWalk, CoarseSkimQuarrelListener.deliverAll,
        CoarseSkimQuarrelListener.deliver]
    · intro hno
      simp [treeNodes, isErrorNode] at hno
theorem quarrelSkim_list (rules : QvlRules) : (cs : List ParseTree) →
    ∀ L : CoarseSkimQuarrelListener,
    ∃ L1, CoarseSkimQuarrelListener.deliverAll rules L (recursiveWalkList cs) = some L1 ∧
      (∀ n, (L.coarse_properties_.get n).isSome = true →
        (L1.coarse_properties_.get n).isSome = true) ∧
      ((treeNodesList cs).all (fun n => !isErrorNode n) = true →
        ∀ n ∈ treeNodesList cs, (L1.coarse_properties_.get n).isSome = true)
  | [] => by
    intro L
    refine ⟨L, ?_, fun _ h => h, ?_⟩
    · simp [recursiveWalkList, CoarseSkimQuarrelListener.deliverAll]
    · intro _ n hn
      simp [treeNodesList] at hn
  | c :: cs => by
    intro L
    obtain ⟨L1, h1, k1, c1⟩ := quarrelSkim_tree rules c L
    obtain ⟨L2, h2, k2, c2⟩ := quarrelSkim_list rules cs L1
    refine ⟨L2, ?_, fun n hn => k2 n (k1 n hn), ?_⟩
    · simp only [recursiveWalkList]
      rw [CoarseSkimQuarrelListener.deliverAll_split, h1]
      simpa using h2
    · intro hno n hn
      obtain ⟨n1, n2⟩ := hasNoErrorNode_cons c cs hno
      simp only [treeNodesList, List.mem_append] at hn
      rcases hn with hn | hn
      · exact k2 n (c1 n1 n hn)
      · exact c2 n2 n hn
end

/-- C35. Over a parse tree without error nodes, the skim walk of the
`CoarseSkimSalientListener` and the skim walk of the `CoarseSkimQuarrelListener` both
return, so no `get` inside `exitEveryRule` fails its presence check, and the
coarse-properties map then has an entry for every node of the tree, rule nodes and
terminals: `get` returns for each. -/
theorem skim_covers_every_node (RuleListItem : Nat) (rules : QvlRules) (t : ParseTree)
    (h : hasNoErrorNode t = true) :
    (∃ L, salientSkim RuleListItem t = some L ∧
      ∀ n ∈ treeNodes t, (L.coarse_properties_.get n).isSome = true) ∧
    (∃ L, quarrelSkim rules t = some L ∧
      ∀ n ∈ treeNodes t, (L.coarse_properties_.get n).isSome = true) := by
  obtain ⟨L1, h1, _, _, _, c1⟩ := salientSkim_tree RuleListItem t {}
  obtain ⟨L2, h2, _, c2⟩ := quarrelSkim_tree rules t {}
  exact ⟨⟨L1, h1, c1 h⟩, ⟨L2, h2, c2 h⟩⟩

/-- Witness of `skim_covers_every_node`: a statement rule with an expression child and two
terminals. -/
theorem skim_covers_every_node_witness :
    (∃ L, salientSkim 7
        (ParseTree.rule 1 0
          [ParseTree.rule 4 0
            [ParseTree.terminal { type := PvnTokenType.other 0, text := ['x'], tokenIndex := 0 }],
           ParseTree.terminal
             { type := PvnTokenType.CLOSE_STMT, text := [';'], tokenIndex := 1 }]) = some L ∧
      ∀ n ∈ treeNodes
        (ParseTree.rule 1 0
          [ParseTree.rule 4 0
            [ParseTree.terminal { type := PvnTokenType.other 0, text := ['x'], tokenIndex := 0 }],
           ParseTree.terminal
             { type := PvnTokenType.CLOSE_STMT, text := [';'], tokenIndex := 1 }]),
        (L.coarse_properties_.get n).isSome = true) ∧
    (∃ L, quarrelSkim
        { RuleOpenStmt := 1, RuleCloseStmt := 2, RuleSpliceStmt := 3, RuleExpression := 4 }
        (ParseTree.rule 1 0
          [ParseTree.rule 4 0
            [ParseTree.terminal { type := PvnTokenType.other 0, text := ['x'], tokenIndex := 0 }],
           ParseTree.terminal
             { type := PvnTokenType.CLOSE_STMT, text := [';'], tokenIndex := 1 }]) = some L ∧
      ∀ n ∈ treeNodes
        (ParseTree.rule 1 0
          [ParseTree.rule 4 0
            [ParseTree.terminal { type := PvnTokenType.other 0, text := ['x'], tokenIndex := 0 }],
           ParseTree.terminal
             { type := PvnTokenType.CLOSE_STMT, text := [';'], tokenIndex := 1 }]),
        (L.coarse_properties_.get n).isSome = true) :=
  skim_covers_every_node 7
    { RuleOpenStmt := 1, RuleCloseStmt := 2, RuleSpliceStmt := 3, RuleExpression := 4 }
    (ParseTree.rule 1 0
      [ParseTree.rule 4 0
        [ParseTree.terminal { type := PvnTokenType.other 0, text := ['x'], tokenIndex := 0 }],
       ParseTree.terminal
         { type := PvnTokenType.CLOSE_STMT, text := [';'], tokenIndex := 1 }])
    (by decide)

theorem specWalkSteps_eq (t : ParseTree) : specWalkSteps t = preWalkSteps t ++ [(t, false)] := by
  cases t <;> simp [specWalkSteps, preWalkSteps]

/-- Each call of `WalkStep` that finds a current node takes the first of the pending
steps. -/
theorem WalkStep_pendingSteps (w : StepwiseParseTreeWalker) (node : ParseTree)
    (h : w.current_node_ = some node) :
    pendingSteps w = (node, w.in_outer_walk_) :: pendingSteps w.WalkStep.2 := by
  obtain ⟨l, cur, ns, istack, i, o⟩ := w
  simp only at h
  subst h
  cases o with
  | true =>
    cases node with
    | rule r s cs =>
      cases cs with
      | nil =>
        simp [StepwiseParseTreeWalker.WalkStep, GetChildren, pendingSteps, preWalkSteps,
          specWalkStepsList]
      | cons c0 cs =>
        simp [StepwiseParseTreeWalker.WalkStep, GetChildren, pendingSteps, preWalkSteps,
          specWalkStepsList, pendingInnerSteps, specWalkSteps_eq c0]
    | terminal t =>
      simp [StepwiseParseTreeWalker.WalkStep, GetChildren, pendingSteps, preWalkSteps]
    | errorNode t =>
      simp [StepwiseParseTreeWalker.WalkStep, GetChildren, pendingSteps, preWalkSteps]
  | false =>
    cases ns with
    | nil =>
      by_cases ht : isTerminalNode node = true <;>
        simp [StepwiseParseTreeWalker.WalkStep, pendingSteps, pendingInnerSteps, ht]
    | cons parent rest =>
      by_cases hlt : i + 1 < (GetChildren parent).length
      · have hd := drop_succ_of_lt (GetChildren parent) (i + 1) hlt
        have hg : (GetChildren parent)[i + 1]? = some ((GetChildren parent)[i + 1]) :=
          List.getElem?_eq_getElem hlt
        by_cases ht : isTerminalNode node = true <;>
        · simp only [StepwiseParseTreeWalker.WalkStep, pendingSteps, pendingInnerSteps,
            ht, if_pos hlt, hg, gt_iff_lt]
          rw [hd]
          simp [specWalkStepsList, specWalkSteps_eq, hlt, pendingInnerSteps]
      · have hd : (GetChildren parent).drop (i + 1) = [] :=
          List.drop_eq_nil_of_le (by omega)
        by_cases ht : isTerminalNode node = true <;>
          simp [StepwiseParseTreeWalker.WalkStep, pendingSteps, pendingInnerSteps,
            ht, hlt, hd, specWalkStepsList]

theorem stepTrace_eq_take : ∀ (n : Nat) (w : StepwiseParseTreeWalker),
    StepwiseParseTreeWalker.stepTrace n w = (pendingSteps w).take n
  | 0, w => by simp [StepwiseParseTreeWalker.stepTrace]
  | n + 1, w => by
    cases hc : w.current_node_ with
    | none => simp [StepwiseParseTreeWalker.stepTrace, hc, pendingSteps]
    | some node =>
      rw [WalkStep_pendingSteps w node hc]
      simp only [StepwiseParseTreeWalker.stepTrace, hc, List.take_succ_cons]
      rw [stepTrace_eq_take n w.WalkStep.2]

mutual
theorem specWalkSteps_length : (t : ParseTree) →
    (specWalkSteps t).length = 2 * (treeNodes t).length
  | .rule r s cs => by
    simp only [specWalkSteps, treeNodes, List.length_cons, List.length_append,
      List.length_singleton, List.length_nil]
    rw [specWalkStepsList_length cs]
    omega
  | .terminal t => by simp [specWalkSteps, treeNodes]
  | .errorNode t => by simp [specWalkSteps, treeNodes]
theorem specWalkStepsList_length : (cs : List ParseTree) →
    (specWalkStepsList cs).length = 2 * (treeNodesList cs).length
  | [] => by simp [specWalkStepsList, treeNodesList]
  | c :: cs => by
    simp only [specWalkStepsList, treeNodesList, List.length_append]
    rw [specWalkSteps_length c, specWalkStepsList_length cs]
    omega
end

mutual
theorem preSteps_eq_nodes : (t : ParseTree) → preSteps t + 1 = 2 * (treeNodes t).length
  | .rule r s cs => by
    simp only [preSteps, treeNodes, List.length_cons]
    have := preStepsList_eq_nodes cs
    omega
  | .terminal t => by simp [preSteps, treeNodes]
  | .errorNode t => by simp [preSteps, treeNodes]
theorem preStepsList_eq_nodes : (cs : List ParseTree) →
    preStepsList cs = 2 * (treeNodesList cs).length
  | [] => by simp [preStepsList, treeNodesList]
  | c :: cs => by
    simp only [preStepsList, treeNodesList, List.length_append]
    have h1 := preSteps_eq_nodes c
    have h2 := preStepsList_eq_nodes cs
    omega
end

mutual
/-- The outer steps of a walk are the nodes of the tree in pre-order, each once; the inner
steps are the same nodes in another order. -/
theorem specWalkSteps_nodes : (t : ParseTree) →
    ((specWalkSteps t).filter (fun step => step.2)).map (fun step => step.1) = treeNodes t ∧
    (((specWalkSteps t).filter (fun step => !step.2)).map (fun step => step.1)).Perm
      (treeNodes t)
  | .rule r s cs => by
    obtain ⟨h1, h2⟩ := specWalkStepsList_nodes cs
    constructor
    · simp [specWalkSteps, treeNodes, List.filter_cons, List.filter_append, h1]
    · simp only [specWalkSteps, treeNodes, List.filter_cons, List.filter_append,
        Bool.not_true, Bool.not_false, List.map_append, List.filter_nil]
      simp only [Bool.false_eq_true, if_false, if_true, List.map_cons, List.map_nil]
      rw [List.map_append]
      exact (List.perm_append_singleton _ _).trans (List.Perm.cons _ h2)
  | .terminal t => by simp [specWalkSteps, treeNodes, List.filter_cons]
  | .errorNode t => by simp [specWalkSteps, treeNodes, List.filter_cons]
theorem specWalkStepsList_nodes : (cs : List ParseTree) →
    ((specWalkStepsList cs).filter (fun step => step.2)).map (fun step => step.1) =
      treeNodesList cs ∧
    (((specWalkStepsList cs).filter (fun step => !step.2)).map (fun step => step.1)).Perm
      (treeNodesList cs)
  | [] => by simp [specWalkStepsList, treeNodesList]
  | c :: cs => by
    obtain ⟨h1, h2⟩ := specWalkSteps_nodes c
    obtain ⟨h3, h4⟩ := specWalkStepsList_nodes cs
    constructor
    · simp [specWalkStepsList, treeNodesList, List.filter_append, h1, h3]
    · simp only [specWalkStepsList, treeNodesList, List.filter_append, List.map_append]
      exact List.Perm.append h2 h4
end

theorem afterSteps_succ : ∀ (n : Nat) (w : StepwiseParseTreeWalker),
    StepwiseParseTreeWalker.afterSteps (n + 1) w =
      (StepwiseParseTreeWalker.afterSteps n w).WalkStep.2
  | 0, _ => rfl
  | n + 1, w => by
    rw [StepwiseParseTreeWalker.afterSteps, afterSteps_succ n w.WalkStep.2]
    rfl

theorem remainingSteps_of_null (w : StepwiseParseTreeWalker) (h : w.current_node_ = none) :
    remainingSteps w = 0 := by
  simp [remainingSteps, h]

theorem remainingSteps_afterSteps : ∀ (k : Nat) (w : StepwiseParseTreeWalker),
    k ≤ remainingSteps w →
    remainingSteps (StepwiseParseTreeWalker.afterSteps k w) = remainingSteps w - k
  | 0, _, _ => rfl
  | k + 1, w, h => by
    have hsome : w.current_node_.isSome = true := by
      cases hc : w.current_node_ with
      | none =>
        have := remainingSteps_of_null w hc
        omega
      | some node => rfl
    have hr := WalkStep_remaining w hsome
    rw [StepwiseParseTreeWalker.afterSteps, remainingSteps_afterSteps k w.WalkStep.2 (by omega)]
    omega

/-- The flag that call number `k + 1` of `WalkStep` returns: true while steps remain
after it. -/
theorem WalkStep_flag_afterSteps (k : Nat) (w : StepwiseParseTreeWalker)
    (h : k + 1 ≤ remainingSteps w) :
    (StepwiseParseTreeWalker.afterSteps k w).WalkStep.1 = decide (k + 1 < remainingSteps w) := by
  have h1 := remainingSteps_afterSteps (k + 1) w h
  rw [afterSteps_succ] at h1
  rw [WalkStep_flag]
  cases hc : (StepwiseParseTreeWalker.afterSteps k w).WalkStep.2.current_node_ with
  | none =>
    have := remainingSteps_of_null _ hc
    simp only [Option.isSome_none]
    symm
    rw [decide_eq_false_iff_not]
    omega
  | some node =>
    have := remainingSteps_pos (StepwiseParseTreeWalker.afterSteps k w).WalkStep.2
      (by rw [hc]; rfl)
    simp only [Option.isSome_some]
    symm
    rw [decide_eq_true_iff]
    omega

/-- C36. For every parse tree with `N` nodes, `WalkStep` called repeatedly from the
initial state returns true on each of the first `2N - 1` calls and false on call `2N`;
the `2N` calls work, in order, on the steps of the walk, in which every node has exactly
one outer (pre-order) step and one inner (post-order) step; and `Walk()` returns after
these `2N` calls. -/
theorem WalkStep_count (t : ParseTree) :
    (∀ k, k + 1 < 2 * nodeCount t →
      (StepwiseParseTreeWalker.afterSteps k
        (StepwiseParseTreeWalker.init (some t))).WalkStep.1 = true) ∧
    (StepwiseParseTreeWalker.afterSteps (2 * nodeCount t - 1)
      (StepwiseParseTreeWalker.init (some t))).WalkStep.1 = false ∧
    StepwiseParseTreeWalker.stepTrace (2 * nodeCount t)
      (StepwiseParseTreeWalker.init (some t)) = specWalkSteps t ∧
    ((specWalkSteps t).filter (fun step => step.2)).map (fun step => step.1) = treeNodes t ∧
    (((specWalkSteps t).filter (fun step => !step.2)).map (fun step => step.1)).Perm
      (treeNodes t) ∧
    ∃ w, StepwiseParseTreeWalker.Walk (2 * nodeCount t)
        (StepwiseParseTreeWalker.init (some t)) = some w ∧ w.current_node_ = none := by
  have hrem : remainingSteps (StepwiseParseTreeWalker.init (some t)) = 2 * nodeCount t := by
    rw [remainingSteps_init, preSteps_eq_nodes]
    rfl
  have hpos : 0 < nodeCount t := by
    unfold nodeCount
    cases t <;> simp [treeNodes]
  refine ⟨?_, ?_, ?_, (specWalkSteps_nodes t).1, (specWalkSteps_nodes t).2, ?_⟩
  · intro k hk
    rw [WalkStep_flag_afterSteps k _ (by omega), hrem]
    simpa using hk
  · rw [WalkStep_flag_afterSteps _ _ (by omega), hrem]
    rw [decide_eq_false_iff_not]
    omega
  · rw [stepTrace_eq_take]
    have hp : pendingSteps (StepwiseParseTreeWalker.init (some t)) = specWalkSteps t := by
      simp [pendingSteps, StepwiseParseTreeWalker.init, pendingInnerSteps, specWalkSteps_eq]
    rw [hp]
    apply List.take_of_length_le
    rw [specWalkSteps_length]
    exact le_refl _
  · obtain ⟨w, h1, h2, _⟩ := Walk_complete (2 * nodeCount t)
      (StepwiseParseTreeWalker.init (some t)) (by omega) (by omega)
    exact ⟨w, h1, h2⟩

theorem closeTags_succ (count : Nat) : closeTags (count + 1) = kSectionClose ++ closeTags count := by
  simp [closeTags, List.replicate_succ]

theorem closeTags_zero : closeTags 0 = [] := rfl

/-- The closing loop with exactly the rounds needed: it writes that many closings and
lowers the depth by as much. -/
theorem closeLoop_eq (new_level : Int) : ∀ (rounds : Nat) (H : OutputHandler),
    (rounds : Int) = max 0 (H.current_section_depth - new_level) →
    SalientToHtmlHandler.closeLoop new_level rounds H =
      { H with
        out_stream := H.out_stream ++ closeTags rounds,
        current_section_depth := H.current_section_depth - (rounds : Int) }
  | 0, H, _ => by
    cases H
    simp [SalientToHtmlHandler.closeLoop, closeTags_zero]
  | rounds + 1, H, h => by
    have hgt : H.current_section_depth > new_level := by
      push_cast at h
      omega
    rw [SalientToHtmlHandler.closeLoop, if_pos hgt,
      closeLoop_eq new_level rounds _ (by simp only; push_cast at h; omega), closeTags_succ]
    simp only [List.append_assoc]
    congr 1
    push_cast
    omega

/-- `CloseSectionsTo` raises the depth by 1 and then writes as many closings as the depth
exceeds the new level by. -/
theorem CloseSectionsTo_eq (new_level : Int) (H : OutputHandler) :
    SalientToHtmlHandler.CloseSectionsTo new_level H =
      { H with
        out_stream := H.out_stream ++
          closeTags (H.current_section_depth + 1 - new_level).toNat,
        current_section_depth :=
          H.current_section_depth + 1 -
            ((H.current_section_depth + 1 - new_level).toNat : Int) } := by
  unfold SalientToHtmlHandler.CloseSectionsTo
  simp only
  rw [closeLoop_eq new_level _ _ (by simp only; omega)]

/-- The listener after `enterHeading` for a heading of positive level. -/
theorem enterHeading_section (fuel : Nat) (L : SalientToHtmlListener)
    (heading_id : String × Int) (heading : Heading)
    (hmap : L.content_pair_map = CreateHtmlPairMap)
    (hlook : lookupHeading L.summarizer_results_ heading_id = some heading)
    (hlevel : 1 ≤ heading.level) :
    L.enterHeading fuel heading_id =
      Outcome.ok { L with
        handler_ := { L.handler_ with
          out_stream := L.handler_.out_stream ++
            closeTags (L.handler_.current_section_depth + 1 - heading.level).toNat ++
            sectionOpenText CreateHtmlPairMap heading,
          current_section_depth :=
            L.handler_.current_section_depth + 1 -
              ((L.handler_.current_section_depth + 1 - heading.level).toNat : Int) } } := by
  unfold lookupHeading at hlook
  unfold SalientToHtmlListener.enterHeading
  cases hi : L.summarizer_results_.heading_indices.lookup heading_id with
  | none => simp [hi] at hlook
  | some index =>
    simp only [hi] at hlook ⊢
    by_cases h0 : 0 ≤ index
    · rw [if_pos h0] at hlook
      rw [if_neg (by omega), hlook]
      simp only
      rw [if_neg (by unfold kTocHeadingLevel; omega), if_pos (by omega), hmap,
        CloseSectionsTo_eq]
      simp [sectionOpenText, CreateHtmlPairMap, FormatContentMap.Get, MakeContentMapKey,
        CustomCategoryId.toInt]
    · rw [if_neg h0] at hlook
      simp at hlook

/-- A sequence of headings of positive level: each writes its closings and its opening,
and the depth counts the openings less the closings. -/
theorem enterHeadings_sections (fuel : Nat) : ∀ (ids : List (String × Int))
    (headings : List Heading) (L : SalientToHtmlListener),
    L.content_pair_map = CreateHtmlPairMap →
    0 ≤ L.handler_.current_section_depth →
    ids.map (lookupHeading L.summarizer_results_) = headings.map some →
    (∀ h ∈ headings, 1 ≤ h.level) →
    ∃ (L1 : SalientToHtmlListener) (closings : List Nat),
      L.enterHeadings fuel ids = Outcome.ok L1 ∧
      closings.length = headings.length ∧
      L1.handler_.out_stream =
        L.handler_.out_stream ++ sectionsText CreateHtmlPairMap closings headings ∧
      ((closings.sum : Nat) : Int) + L1.handler_.current_section_depth =
        (headings.length : Int) + L.handler_.current_section_depth ∧
      0 ≤ L1.handler_.current_section_depth ∧
      L1.summarizer_results_ = L.summarizer_results_ ∧
      L1.content_pair_map = CreateHtmlPairMap
  | [], headings, L, hmap, hd, hlook, _ => by
    cases headings with
    | nil =>
      exact ⟨L, [], rfl, rfl, by simp [sectionsText], by simp, hd, rfl, hmap⟩
    | cons h hs => simp at hlook
  | heading_id :: ids, headings, L, hmap, hd, hlook, hlevel => by
    cases headings with
    | nil => simp at hlook
    | cons h hs =>
      simp only [List.map_cons, List.cons.injEq] at hlook
      obtain ⟨hl1, hl2⟩ := hlook
      have hlev : 1 ≤ h.level := hlevel h (List.mem_cons_self _ _)
      have hstep := enterHeading_section fuel L heading_id h hmap hl1 hlev
      obtain ⟨L1, closings, r1, r2, r3, r4, r5, r6, r7⟩ :=
        enterHeadings_sections fuel ids hs
          { L with
            handler_ := { L.handler_ with
              out_stream := L.handler_.out_stream ++
                closeTags (L.handler_.current_section_depth + 1 - h.level).toNat ++
                sectionOpenText CreateHtmlPairMap h,
              current_section_depth :=
                L.handler_.current_section_depth + 1 -
                  ((L.handler_.current_section_depth + 1 - h.level).toNat : Int) } }
          hmap (by simp only; omega) hl2
          (fun x hx => hlevel x (List.mem_cons_of_mem _ hx))
      refine ⟨L1, (L.handler_.current_section_depth + 1 - h.level).toNat :: closings,
        ?_, ?_, ?_, ?_, r5, r6, r7⟩
      · simp only [SalientToHtmlListener.enterHeadings, hstep]
        exact r1
      · simp [r2]
      · rw [r3]
        simp [sectionsText, List.append_assoc]
      · simp only at r4
        rw [List.sum_cons, List.length_cons, Nat.cast_add, Nat.cast_add, Nat.cast_one]
        omega

/-- C39, the failing input: one heading of level 1 in a document in prose.
`enterHeading` opens one section, and `exitSalientTop` writes two section closings. -/
theorem one_section_closed_twice :
    ((oneHeadingListener.enterHeadings 0 [("Not set", 3)]).bind
        SalientToHtmlListener.exitSalientTop).map
        (fun L => (L.handler_.out_stream, L.handler_.current_section_depth)) =
      Outcome.ok
        (("<section id=\x27T\x27 class=\x27level1\x27>\n<H1>T</H1>\n" ++
          "</section>\n</section>\n</body>\n</html>\n").toList, 0) ∧
    (SalientToHtmlListener.exitSalientTop
        { summarizer_results_ :=
            { outer_genre_state := { destination_genre := ParsingGenre.kSalient } } }).map
        (fun L => (L.handler_.out_stream, L.handler_.current_section_depth)) =
      Outcome.ok ("</section>\n</body>\n</html>\n".toList, 0) := by
  decide

/-- C39, as the code has it.  For every sequence of headings of level ≥ 1 handled by
`SalientToHtmlListener::enterHeading` from depth 0 and followed by `exitSalientTop`, both
return; the output is, for each heading in turn, some section closings and then the
opening of its section with its heading line, and after the last heading the closings of
`exitSalientTop` and the end of the document; the number of closings written is the
number of openings plus 1; and `current_section_depth` ends at 0. -/
theorem sections_closed_once_more (fuel : Nat) (L : SalientToHtmlListener)
    (ids : List (String × Int)) (headings : List Heading)
    (hmap : L.content_pair_map = CreateHtmlPairMap)
    (hdepth : L.handler_.current_section_depth = 0)
    (hlook : ids.map (lookupHeading L.summarizer_results_) = headings.map some)
    (hlevel : ∀ h ∈ headings, 1 ≤ h.level)
    (hgenre : L.summarizer_results_.outer_genre_state.destination_genre =
      ParsingGenre.kSalient) :
    ∃ (L1 L2 : SalientToHtmlListener) (closings : List Nat) (last : Nat),
      L.enterHeadings fuel ids = Outcome.ok L1 ∧
      L1.exitSalientTop = Outcome.ok L2 ∧
      closings.length = headings.length ∧
      L2.handler_.out_stream =
        L.handler_.out_stream ++ sectionsText CreateHtmlPairMap closings headings ++
          closeTags last ++ kHtmlHeadFinish ∧
      closings.sum + last = headings.length + 1 ∧
      L2.handler_.current_section_depth = 0 := by
  obtain ⟨L1, closings, r1, r2, r3, r4, r5, r6, r7⟩ :=
    enterHeadings_sections fuel ids headings L hmap (by omega) hlook hlevel
  have hexit : L1.exitSalientTop =
      Outcome.ok { L1 with
        handler_ := { L1.handler_ with
          out_stream := L1.handler_.out_stream ++
            closeTags (L1.handler_.current_section_depth + 1 - 0).toNat ++ kHtmlHeadFinish,
          current_section_depth :=
            L1.handler_.current_section_depth + 1 -
              ((L1.handler_.current_section_depth + 1 - 0).toNat : Int) } } := by
    unfold SalientToHtmlListener.exitSalientTop
    rw [r6, if_neg (by rw [hgenre]; simp), r7, CloseSectionsTo_eq]
    simp [CreateHtmlPairMap, FormatContentMap.Get, MakeContentMapKey,
      CustomCategoryId.toInt]
  refine ⟨L1, _, closings, (L1.handler_.current_section_depth + 1 - 0).toNat, r1, hexit, r2,
    ?_, ?_, ?_⟩
  · simp only [r3]
  · rw [hdepth] at r4
    omega
  · simp only
    omega

/-- Witness of `sections_closed_once_more`: the document with one heading of level 1. -/
theorem sections_closed_once_more_witness :
    ∃ (L1 L2 : SalientToHtmlListener) (closings : List Nat) (last : Nat),
      oneHeadingListener.enterHeadings 0 [("Not set", 3)] = Outcome.ok L1 ∧
      L1.exitSalientTop = Outcome.ok L2 ∧
      closings.length =
        [({ level := 1, heading_text := "T", anchor_id := "T", line_number := 3 } :
          Heading)].length ∧
      L2.handler_.out_stream =
        oneHeadingListener.handler_.out_stream ++
          sectionsText CreateHtmlPairMap closings
            [{ level := 1, heading_text := "T", anchor_id := "T", line_number := 3 }] ++
          closeTags last ++ kHtmlHeadFinish ∧
      closings.sum + last =
        [({ level := 1, heading_text := "T", anchor_id := "T", line_number := 3 } :
          Heading)].length + 1 ∧
      L2.handler_.current_section_depth = 0 :=
  sections_closed_once_more 0 oneHeadingListener [("Not set", 3)]
    [{ level := 1, heading_text := "T", anchor_id := "T", line_number := 3 }]
    rfl rfl (by decide) (by decide) rfl
theorem vectorAssign_length (v v1 : List Bool) (index : Int) (value : Bool)
    (h : vectorAssign v index value = some v1) : v1.length = v.length := by
  unfold vectorAssign at h
  split at h
  · simp only [Option.some.injEq] at h
    rw [← h, List.length_set]
  · simp at h

theorem vectorAssign_some (v : List Bool) (index : Int) (value : Bool)
    (h0 : 0 ≤ index) (h1 : index < (v.length : Int)) :
    ∃ v1, vectorAssign v index value = some v1 := by
  unfold vectorAssign
  rw [if_pos ⟨h0, by omega⟩]
  exact ⟨_, rfl⟩

theorem vectorAssign_none (v : List Bool) (index : Int) (value : Bool)
    (h1 : (v.length : Int) ≤ index) : vectorAssign v index value = none := by
  unfold vectorAssign
  rw [if_neg (by omega)]

theorem vectorAt_some (v : List Bool) (index : Int)
    (h0 : 0 ≤ index) (h1 : index < (v.length : Int)) : ∃ b, vectorAt v index = some b := by
  unfold vectorAt
  rw [if_pos h0]
  have hlt : index.toNat < v.length := by omega
  exact ⟨v[index.toNat], List.getElem?_eq_getElem hlt⟩

/-- One round of the `do` loop, when it returns: the vector keeps its size and
`current_nesting` moves one step towards the level. -/
theorem tocRound_facts (toc_list toc_item : List Char × List Char) (level : Int)
    (st st1 : TocState) (h : tocRound toc_list toc_item level st = some st1) :
    st1.pending_item_at_level.length = st.pending_item_at_level.length ∧
    (st.current_nesting < level → st1.current_nesting = st.current_nesting + 1) ∧
    (st.current_nesting > level → st1.current_nesting = st.current_nesting - 1) ∧
    (st.current_nesting = level → st1.current_nesting = st.current_nesting) := by
  have key : ∀ st0 : TocState,
      st0.current_nesting = st.current_nesting →
      st0.pending_item_at_level.length = st.pending_item_at_level.length →
      ∀ st2 : TocState,
      (let st2 :=
          if st0.current_nesting < level then
            { st0 with
              out_stream := st0.out_stream ++
                Substitute toc_list.1 [spaces (3 * st0.current_nesting)],
              current_nesting := st0.current_nesting + 1 }
          else st0
        let st3 :=
          if st2.current_nesting > level then
            { st2 with
              current_nesting := st2.current_nesting - 1,
              out_stream := st2.out_stream ++
                Substitute toc_list.2 [spaces (3 * (st2.current_nesting - 1))] }
          else st2
        st3) = st2 →
      st2.pending_item_at_level.length = st.pending_item_at_level.length ∧
      (st.current_nesting < level → st2.current_nesting = st.current_nesting + 1) ∧
      (st.current_nesting > level → st2.current_nesting = st.current_nesting - 1) ∧
      (st.current_nesting = level → st2.current_nesting = st.current_nesting) := by
    intro st0 hc hl st2 h2
    simp only at h2
    rw [← hc, ← hl, ← h2]
    by_cases hlt : st0.current_nesting < level
    · rw [if_pos hlt]
      simp only
      rw [if_neg (by omega)]
      exact ⟨rfl, fun _ => rfl, fun hgt => by omega, fun he => by omega⟩
    · rw [if_neg hlt]
      by_cases hgt : st0.current_nesting > level
      · rw [if_pos hgt]
        exact ⟨rfl, fun hx => absurd hx hlt, fun _ => rfl, fun he => by omega⟩
      · rw [if_neg hgt]
        exact ⟨rfl, fun hx => absurd hx hlt, fun hx => absurd hx hgt, fun _ => rfl⟩
  unfold tocRound at h
  simp only at h
  split at h
  · simp at h
  · rename_i st0 hcl
    simp only [Option.some.injEq] at h
    have h0 : st0.current_nesting = st.current_nesting ∧
        st0.pending_item_at_level.length = st.pending_item_at_level.length := by
      split at hcl
      · split at hcl
        · simp at hcl
        · split at hcl
          · simp at hcl
          · rename_i pending hp
            simp only [Option.some.injEq] at hcl
            rw [← hcl]
            exact ⟨rfl, vectorAssign_length _ _ _ _ hp⟩
        · simp only [Option.some.injEq] at hcl
          rw [← hcl]
          exact ⟨rfl, rfl⟩
      · simp only [Option.some.injEq] at hcl
        rw [← hcl]
        exact ⟨rfl, rfl⟩
    exact key st0 h0.1 h0.2 st1 h

/-- One round of the `do` loop returns when the index it may read lies in the vector. -/
theorem tocRound_some (toc_list toc_item : List Char × List Char) (level : Int)
    (st : TocState) (hlevel : 0 ≤ level)
    (hread : st.current_nesting ≥ level →
      st.current_nesting < (st.pending_item_at_level.length : Int)) :
    ∃ st1, tocRound toc_list toc_item level st = some st1 := by
  unfold tocRound
  simp only
  by_cases hge : st.current_nesting ≥ level
  · rw [if_pos hge]
    obtain ⟨b, hb⟩ := vectorAt_some st.pending_item_at_level st.current_nesting
      (by omega) (hread hge)
    rw [hb]
    cases b with
    | true =>
      obtain ⟨v1, hv⟩ := vectorAssign_some st.pending_item_at_level level false hlevel
        (by have := hread hge; omega)
      simp only [hv]
      exact ⟨_, rfl⟩
    | false => exact ⟨_, rfl⟩
  · rw [if_neg hge]
    exact ⟨_, rfl⟩

/-- The `do` loop ends: with a bound above the distance between `current_nesting` and the
level it never runs out of rounds, and when it returns, `current_nesting` is the level. -/
theorem tocLoop_terminates (toc_list toc_item : List Char × List Char) (level : Int) :
    ∀ (fuel : Nat) (st : TocState),
    (st.current_nesting - level).natAbs < fuel →
    tocLoop toc_list toc_item level fuel st = Outcome.outOfRange ∨
    ∃ st1, tocLoop toc_list toc_item level fuel st = Outcome.ok st1 ∧
      st1.current_nesting = level ∧
      st1.pending_item_at_level.length = st.pending_item_at_level.length
  | 0, _, h => by omega
  | fuel + 1, st, h => by
    unfold tocLoop
    cases hr : tocRound toc_list toc_item level st with
    | none => exact Or.inl rfl
    | some st1 =>
      obtain ⟨f1, f2, f3, f4⟩ := tocRound_facts toc_list toc_item level st st1 hr
      simp only
      by_cases hne : st1.current_nesting ≠ level
      · rw [if_pos hne]
        have hdist : (st1.current_nesting - level).natAbs < fuel := by
          rcases lt_trichotomy st.current_nesting level with hlt | heq | hgt
          · have := f2 hlt
            omega
          · have := f4 heq
            omega
          · have := f3 hgt
            omega
        rcases tocLoop_terminates toc_list toc_item level fuel st1 hdist with hx | ⟨st2, h2, h3, h4⟩
        · exact Or.inl hx
        · exact Or.inr ⟨st2, h2, h3, by rw [h4, f1]⟩
      · rw [if_neg hne]
        exact Or.inr ⟨st1, rfl, by simpa using hne, f1⟩

/-- The `do` loop returns when `current_nesting` and the level lie in the vector. -/
theorem tocLoop_in_range (toc_list toc_item : List Char × List Char) (level : Int) :
    ∀ (fuel : Nat) (st : TocState),
    (st.current_nesting - level).natAbs < fuel →
    0 ≤ level → level < (st.pending_item_at_level.length : Int) →
    0 ≤ st.current_nesting →
    st.current_nesting < (st.pending_item_at_level.length : Int) →
    ∃ st1, tocLoop toc_list toc_item level fuel st = Outcome.ok st1 ∧
      st1.current_nesting = level ∧
      st1.pending_item_at_level.length = st.pending_item_at_level.length
  | 0, _, h, _, _, _, _ => by omega
  | fuel + 1, st, h, hl0, hl1, hc0, hc1 => by
    unfold tocLoop
    obtain ⟨st1, hr⟩ := tocRound_some toc_list toc_item level st hl0 (fun _ => hc1)
    obtain ⟨f1, f2, f3, f4⟩ := tocRound_facts toc_list toc_item level st st1 hr
    simp only [hr]
    by_cases hne : st1.current_nesting ≠ level
    · rw [if_pos hne]
      have hfacts : (st1.current_nesting - level).natAbs < fuel ∧ 0 ≤ st1.current_nesting ∧
          st1.current_nesting < (st1.pending_item_at_level.length : Int) := by
        rw [f1]
        rcases lt_trichotomy st.current_nesting level with hlt | heq | hgt
        · have := f2 hlt
          omega
        · have := f4 heq
          omega
        · have := f3 hgt
          omega
      obtain ⟨st2, h2, h3, h4⟩ := tocLoop_in_range toc_list toc_item level fuel st1
        hfacts.1 hl0 (by rw [f1]; exact hl1) hfacts.2.1 hfacts.2.2
      exact ⟨st2, h2, h3, by rw [h4, f1]⟩
    · rw [if_neg hne]
      exact ⟨st1, rfl, by simpa using hne, f1⟩

/-- The body of the heading loop for one heading: a heading outside the levels 0 to
`toc_depth` is skipped, a heading of a level below `toc_depth` is written with every
index inside the vector, and a heading of level `toc_depth` uses an index outside it. -/
theorem tocHeading_cases (fuel : Nat) (toc_list toc_item : List Char × List Char)
    (toc_depth : Int) (h : Heading) (st : TocState)
    (hdepth : 0 ≤ toc_depth) (hfuel : toc_depth < (fuel : Int))
    (hinv : tocInvariant toc_depth st) :
    (h.level ≠ toc_depth →
      ∃ st1, tocHeading fuel toc_list toc_item toc_depth h st = Outcome.ok st1 ∧
        tocInvariant toc_depth st1) ∧
    (h.level = toc_depth →
      tocHeading fuel toc_list toc_item toc_depth h st = Outcome.outOfRange) := by
  obtain ⟨i1, i2, i3⟩ := hinv
  unfold tocHeading
  constructor
  · intro hne
    by_cases hskip : h.level < 0 ∨ h.level > toc_depth
    · rw [if_pos hskip]
      exact ⟨st, rfl, i1, i2, i3⟩
    · rw [if_neg hskip]
      have hlt : h.level < toc_depth := by omega
      obtain ⟨st1, h1, h2, h3⟩ := tocLoop_in_range toc_list toc_item h.level fuel st
        (by omega) (by omega) (by omega) i1 (by omega)
      simp only [h1]
      by_cases hpos : h.level > 0
      · rw [if_pos hpos]
        obtain ⟨v1, hv⟩ := vectorAssign_some st1.pending_item_at_level h.level true
          (by omega) (by omega)
        simp only [hv]
        refine ⟨_, rfl, ?_, ?_, ?_⟩
        · simp only
          omega
        · simp only
          omega
        · simp only
          rw [vectorAssign_length _ _ _ _ hv]
          omega
      · rw [if_neg hpos]
        exact ⟨st1, rfl, by omega, by omega, by omega⟩
  · intro heq
    rw [if_neg (by omega)]
    by_cases hpos : h.level > 0
    · rcases tocLoop_terminates toc_list toc_item h.level fuel st (by omega) with
        hx | ⟨st1, h1, h2, h3⟩
      · simp only [hx]
      · simp only [h1]
        rw [if_pos hpos, vectorAssign_none _ _ _ (by omega)]
    · have hz : h.level = 0 := by omega
      have hc : st.current_nesting = 0 := by omega
      have hfuel1 : ∃ k, fuel = k + 1 := ⟨fuel - 1, by omega⟩
      obtain ⟨k, hk⟩ := hfuel1
      have hround : tocRound toc_list toc_item h.level st = none := by
        unfold tocRound
        simp only
        rw [if_pos (by omega)]
        have hv : vectorAt st.pending_item_at_level st.current_nesting = none := by
          unfold vectorAt
          rw [if_pos (by omega)]
          apply List.getElem?_eq_none
          omega
        rw [hv]
      rw [hk]
      simp only [tocLoop, hround]

/-- The heading loop of `util::OutputToc`: it never runs out of rounds, it returns when no
heading has the level `toc_depth`, and it uses an index outside the vector when one
has. -/
theorem tocHeadings_cases (fuel : Nat) (toc_list toc_item : List Char × List Char)
    (toc_depth : Int) (hdepth : 0 ≤ toc_depth) (hfuel : toc_depth < (fuel : Int)) :
    ∀ (headings : List Heading) (st : TocState), tocInvariant toc_depth st →
    ((∀ h ∈ headings, h.level ≠ toc_depth) →
      ∃ st1, tocHeadings fuel toc_list toc_item toc_depth headings st = Outcome.ok st1) ∧
    ((∃ h ∈ headings, h.level = toc_depth) →
      tocHeadings fuel toc_list toc_item toc_depth headings st = Outcome.outOfRange)
  | [], st, _ => by
    constructor
    · intro _
      exact ⟨st, rfl⟩
    · intro hex
      obtain ⟨h, hm, _⟩ := hex
      simp at hm
  | h :: hs, st, hinv => by
    obtain ⟨c1, c2⟩ := tocHeading_cases fuel toc_list toc_item toc_depth h st hdepth hfuel hinv
    by_cases heq : h.level = toc_depth
    · constructor
      · intro hall
        exact absurd heq (hall h (List.mem_cons_self _ _))
      · intro _
        simp only [tocHeadings, c2 heq]
    · obtain ⟨st1, h1, hinv1⟩ := c1 heq
      obtain ⟨r1, r2⟩ := tocHeadings_cases fuel toc_list toc_item toc_depth hdepth hfuel hs
        st1 hinv1
      constructor
      · intro hall
        simp only [tocHeadings, h1]
        exact r1 (fun x hx => hall x (List.mem_cons_of_mem _ hx))
      · intro hex
        simp only [tocHeadings, h1]
        apply r2
        obtain ⟨x, hx, hxl⟩ := hex
        rw [List.mem_cons] at hx
        rcases hx with hx | hx
        · rw [hx] at hxl
          exact absurd hxl heq
        · exact ⟨x, hx, hxl⟩
/-- The three entries of `util::CreateHtmlPairMap` that `util::OutputToc` reads. -/
theorem CreateHtmlPairMap_toc :
    CreateHtmlPairMap.Get
        (MakeContentMapKey RuleCategory.kCustom CustomCategoryId.kTocEnclosure) =
      some (("<nav class=\x27toc\x27><div class=\x27text-narrowing\x27><span " ++
          "class=\x27sidepiece\x27>").toList, "\n</span></div></nav>\n".toList) ∧
    CreateHtmlPairMap.Get (MakeContentMapKey RuleCategory.kCustom CustomCategoryId.kTocList) =
      some ("\n$0<ul>".toList, "\n$0</ul>".toList) ∧
    CreateHtmlPairMap.Get (MakeContentMapKey RuleCategory.kCustom CustomCategoryId.kTocItem) =
      some ("\n$0<li><a target=\x27_self\x27 href=\x27#$1\x27>$2</a>".toList,
        "</li>".toList) :=
  ⟨rfl, rfl, rfl⟩

set_option maxRecDepth 100000 in
/-- C40, the failing input: with the default `toc_depth` 3 and a heading of level 3, the
assignment `pending_item_at_level[h.level] = true` uses the index 3 on a vector of 3
entries; with `toc_depth` 0 the heading of level 0 makes the loop read
`pending_item_at_level[0]` in an empty vector.  With headings of the levels 1 and 2 only,
the table of contents is written. -/
theorem OutputToc_index_equals_toc_depth :
    (OutputToc 100 CreateHtmlPairMap
        { heading_vector :=
            [{ level := 1, heading_text := "A", anchor_id := "A" },
             { level := 2, heading_text := "B", anchor_id := "B" },
             { level := 3, heading_text := "C", anchor_id := "C" },
             { level := 0, heading_text := "Convenience trailing level-0 heading." }] }
        { level := -1, heading_text := "Table of Contents" } {}).map
        (fun H => H.out_stream) = Outcome.outOfRange ∧
    tocDepth
        { level := -1, heading_text := "Table of Contents",
          qualifiers := [{ left_side := "toc_depth", separator := "=", right_side := "0" }],
          left_side_to_qualifier_index := [("toc_depth", 0)] } = some 0 ∧
    (OutputToc 100 CreateHtmlPairMap
        { heading_vector :=
            [{ level := 0, heading_text := "Convenience trailing level-0 heading." }] }
        { level := -1, heading_text := "Table of Contents",
          qualifiers := [{ left_side := "toc_depth", separator := "=", right_side := "0" }],
          left_side_to_qualifier_index := [("toc_depth", 0)] } {}).map
        (fun H => H.out_stream) = Outcome.outOfRange ∧
    (OutputToc 100 CreateHtmlPairMap
        { heading_vector :=
            [{ level := 1, heading_text := "A", anchor_id := "A" },
             { level := 2, heading_text := "B", anchor_id := "B" },
             { level := 1, heading_text := "C", anchor_id := "C" },
             { level := 0, heading_text := "Convenience trailing level-0 heading." }] }
        { level := -1, heading_text := "Table of Contents" } {}).map
        (fun H => H.out_stream) =
      Outcome.ok
        ("<nav class=\x27toc\x27><div class=\x27text-narrowing\x27><span class=\x27sidepiece\x27>" ++
         "\n<ul>\n   <li><a target=\x27_self\x27 href=\x27#A\x27>A</a>" ++
         "\n   <ul>\n      <li><a target=\x27_self\x27 href=\x27#B\x27>B</a></li>\n   </ul>" ++
         "\n   <li><a target=\x27_self\x27 href=\x27#C\x27>C</a></li>\n</ul>" ++
         "\n</span></div></nav>\n").toList := by
  decide

/-- C40, as the code has it.  In `util::OutputToc` with a `toc_depth ≥ 0`, the inner
`do` loop ends for every heading of every heading vector (no loop bound above
`toc_depth` is ever reached); every index used on `pending_item_at_level` lies inside
its `toc_depth` entries, and the call returns, when no heading has the level
`toc_depth`; and an index outside the vector is used when a heading has that level. -/
theorem OutputToc_index_range (fuel : Nat) (summarizer_results : SummarizerResults)
    (toc_heading : Heading) (handler : OutputHandler) (toc_depth : Int)
    (hdepth : tocDepth toc_heading = some toc_depth) (hnonneg : 0 ≤ toc_depth)
    (hfuel : toc_depth < (fuel : Int)) :
    OutputToc fuel CreateHtmlPairMap summarizer_results toc_heading handler ≠
      Outcome.outOfFuel ∧
    ((∀ h ∈ summarizer_results.heading_vector, h.level ≠ toc_depth) →
      ∃ H, OutputToc fuel CreateHtmlPairMap summarizer_results toc_heading handler =
        Outcome.ok H) ∧
    ((∃ h ∈ summarizer_results.heading_vector, h.level = toc_depth) →
      OutputToc fuel CreateHtmlPairMap summarizer_results toc_heading handler =
        Outcome.outOfRange) := by
  have hinv : tocInvariant toc_depth
      { out_stream := handler.out_stream ++
          ("<nav class=\x27toc\x27><div class=\x27text-narrowing\x27><span " ++
            "class=\x27sidepiece\x27>").toList,
        current_nesting := 0,
        pending_item_at_level := List.replicate toc_depth.toNat false } := by
    refine ⟨le_refl _, Or.inr rfl, ?_⟩
    simp only [List.length_replicate]
    omega
  obtain ⟨c1, c2⟩ := tocHeadings_cases fuel ("\n$0<ul>".toList, "\n$0</ul>".toList)
    ("\n$0<li><a target=\x27_self\x27 href=\x27#$1\x27>$2</a>".toList, "</li>".toList)
    toc_depth hnonneg hfuel summarizer_results.heading_vector _ hinv
  have hunfold : OutputToc fuel CreateHtmlPairMap summarizer_results toc_heading handler =
      (match tocHeadings fuel ("\n$0<ul>".toList, "\n$0</ul>".toList)
          ("\n$0<li><a target=\x27_self\x27 href=\x27#$1\x27>$2</a>".toList, "</li>".toList)
          toc_depth summarizer_results.heading_vector
          { out_stream := handler.out_stream ++
              ("<nav class=\x27toc\x27><div class=\x27text-narrowing\x27><span " ++
                "class=\x27sidepiece\x27>").toList,
            current_nesting := 0,
            pending_item_at_level := List.replicate toc_depth.toNat false } with
        | Outcome.ok st =>
          Outcome.ok { handler with
            out_stream := st.out_stream ++ "\n</span></div></nav>\n".toList }
        | Outcome.outOfRange => Outcome.outOfRange
        | Outcome.checkFailed => Outcome.checkFailed
        | Outcome.outOfFuel => Outcome.outOfFuel) := by
    unfold OutputToc
    rw [CreateHtmlPairMap_toc.1, CreateHtmlPairMap_toc.2.1, CreateHtmlPairMap_toc.2.2]
    simp only [hdepth]
    rw [if_neg (by omega)]
  rw [hunfold]
  by_cases hex : ∃ h ∈ summarizer_results.heading_vector, h.level = toc_depth
  · rw [c2 hex]
    refine ⟨by simp, ?_, fun _ => rfl⟩
    intro hall
    obtain ⟨h, hm, hl⟩ := hex
    exact absurd hl (hall h hm)
  · have hall : ∀ h ∈ summarizer_results.heading_vector, h.level ≠ toc_depth :=
      fun h hm hl => hex ⟨h, hm, hl⟩
    obtain ⟨st1, h1⟩ := c1 hall
    rw [h1]
    exact ⟨by simp, fun _ => ⟨_, rfl⟩, fun hx => absurd hx hex⟩

/-- Witness of `OutputToc_index_range`: the default depth 3 with headings of the levels 1
and 2. -/
theorem OutputToc_index_range_witness :
    OutputToc 4 CreateHtmlPairMap
        { heading_vector :=
            [{ level := 1, heading_text := "A", anchor_id := "A" },
             { level := 2, heading_text := "B", anchor_id := "B" },
             { level := 0, heading_text := "Convenience trailing level-0 heading." }] }
        { level := -1, heading_text := "Table of Contents" } {} ≠ Outcome.outOfFuel ∧
    ∃ H, OutputToc 4 CreateHtmlPairMap
        { heading_vector :=
            [{ level := 1, heading_text := "A", anchor_id := "A" },
             { level := 2, heading_text := "B", anchor_id := "B" },
             { level := 0, heading_text := "Convenience trailing level-0 heading." }] }
        { level := -1, heading_text := "Table of Contents" } {} = Outcome.ok H :=
  have h := OutputToc_index_range 4
    { heading_vector :=
        [{ level := 1, heading_text := "A", anchor_id := "A" },
         { level := 2, heading_text := "B", anchor_id := "B" },
         { level := 0, heading_text := "Convenience trailing level-0 heading." }] }
    { level := -1, heading_text := "Table of Contents" } {} 3 rfl (by decide) (by decide)
  ⟨h.1, h.2.1 (by decide)⟩

end Patinon
